import Mathlib

/-!
# Binomial heaps (`heap.h`): a shallow embedding

The C code manipulates `struct heap_node` objects through pointers.  The
embedding keeps that level of detail: a pointer is an `Option Nat` (`none` is
`NULL`), node memory is a function from addresses to node records, and the
caller-owned handle slots that `ref` fields point to live in a second store.
Every loop of the source is a recursive function with a fuel argument; a
result of `none` means that the fuel ran out or that the code dereferenced
`NULL`.
-/

namespace BH

/-! ## Data model (`heap.h` lines 34-52) -/

/-- The value of `UINT_MAX` for a 32 bit `unsigned int`. -/
def UINT_MAX : Nat := 4294967295

/-- The sentinel `#define NOT_IN_HEAP UINT_MAX`. -/
def NOT_IN_HEAP : Nat := UINT_MAX

/-- The record `struct heap_node`.  `value` is the payload pointer, `ref` the
address of the caller's handle slot (or `NULL`). -/
structure heap_node where
  parent : Option Nat
  next : Option Nat
  child : Option Nat
  degree : Nat
  value : Nat
  ref : Option Nat
deriving DecidableEq

/-- The record `struct heap`. -/
structure heap where
  head : Option Nat
  min : Option Nat
deriving DecidableEq

/-- Node memory: the node record stored at each address. -/
abbrev Mem := Nat → heap_node

/-- Handle slots: the `struct heap_node*` stored at each slot address. -/
abbrev Slots := Nat → Option Nat

/-- The comparator `heap_prio_t`, applied to the payloads of the two nodes (as
`token_cmp` and `task_cmp` do through `heap_node_value`): `true` when the
first has higher priority than the second. -/
abbrev Prio := Nat → Nat → Bool

/-- The assignment `a->parent = p`. -/
def set_parent (m : Mem) (a : Nat) (p : Option Nat) : Mem :=
  fun b => let n := m b; if b = a then { n with parent := p } else n

/-- The assignment `a->next = p`. -/
def set_next (m : Mem) (a : Nat) (p : Option Nat) : Mem :=
  fun b => let n := m b; if b = a then { n with next := p } else n

/-- The assignment `a->child = p`. -/
def set_child (m : Mem) (a : Nat) (p : Option Nat) : Mem :=
  fun b => let n := m b; if b = a then { n with child := p } else n

/-- The assignment `a->degree = d`. -/
def set_degree (m : Mem) (a : Nat) (d : Nat) : Mem :=
  fun b => let n := m b; if b = a then { n with degree := d } else n

/-- The assignment `a->value = v`. -/
def set_value (m : Mem) (a : Nat) (v : Nat) : Mem :=
  fun b => let n := m b; if b = a then { n with value := v } else n

/-- The assignment `a->ref = r`. -/
def set_ref (m : Mem) (a : Nat) (r : Option Nat) : Mem :=
  fun b => let n := m b; if b = a then { n with ref := r } else n

/-- The assignment `*r = p` to a handle slot. -/
def set_slot (sl : Slots) (r : Nat) (p : Option Nat) : Slots :=
  fun b => if b = r then p else sl b

/-! ## Initialisation and accessors (lines 59-99) -/

/-- The function `heap_init`: both fields `NULL`. -/
def heap_init : heap := { head := none, min := none }

/-- The function `heap_node_init`: writes all six fields of `h`. -/
def heap_node_init (m : Mem) (h : Nat) (value : Nat) : Mem :=
  fun b =>
    if b = h then
      { parent := none, next := none, child := none, degree := NOT_IN_HEAP,
        value := value, ref := none }
    else m b

/-- The function `heap_node_init_ref`: `h = *_h`, then as `heap_node_init` with
`ref = _h`.  Fails when the slot holds `NULL`. -/
def heap_node_init_ref (m : Mem) (sl : Slots) (_h : Nat) (value : Nat) : Option Mem :=
  match sl _h with
  | none => none
  | some h =>
    some (fun b =>
      if b = h then
        { parent := none, next := none, child := none, degree := NOT_IN_HEAP,
          value := value, ref := some _h }
      else m b)

/-- The function `heap_node_value`. -/
def heap_node_value (m : Mem) (h : Nat) : Nat := (m h).value

/-- The function `heap_node_in_heap`: `h->degree != NOT_IN_HEAP`. -/
def heap_node_in_heap (m : Mem) (h : Nat) : Bool := (m h).degree != NOT_IN_HEAP

/-- The function `heap_empty`: `heap->head == NULL && heap->min == NULL`. -/
def heap_empty (h : heap) : Bool := h.head.isNone && h.min.isNone

/-! ## Link, merge, reverse (lines 101-154) -/

/-- The function `__heap_link`: make `child` a subtree of `root`.  The four
assignments are performed in source order; `degree++` wraps at `UINT_MAX`. -/
def __heap_link (m : Mem) (root child : Nat) : Mem :=
  let m1 := set_parent m child (some root)
  let m2 := set_next m1 child (m1 root).child
  let m3 := set_child m2 root (some child)
  set_degree m3 root (((m3 root).degree + 1) % (UINT_MAX + 1))

/-- The assignment `*pos = x` of `__heap_merge`, where `pos` is either the
address of the local `head` (`none`) or of the `next` field of node `p`
(`some p`).  Returns the memory and the local `head`. -/
def store_pos (m : Mem) (head : Option Nat) (pos : Option Nat) (x : Option Nat) :
    Mem × Option Nat :=
  match pos with
  | none => (m, x)
  | some p => (set_next m p x, head)

/-- The loop and the tail of `__heap_merge`: state `head`, `pos`, `a`, `b`.
After `*pos = a` the statement `pos = &(*pos)->next` makes `pos` the `next`
field of `a`. -/
def __heap_merge_loop : Nat → Mem → Option Nat → Option Nat → Option Nat → Option Nat →
    Option (Mem × Option Nat)
  | 0, _, _, _, _, _ => none
  | fuel + 1, m, head, pos, some a, some b =>
    if (m a).degree < (m b).degree then
      let r := store_pos m head pos (some a)
      __heap_merge_loop fuel r.1 r.2 (some a) (r.1 a).next (some b)
    else
      let r := store_pos m head pos (some b)
      __heap_merge_loop fuel r.1 r.2 (some b) (some a) (r.1 b).next
  | _ + 1, m, head, pos, some a, none => some (store_pos m head pos (some a))
  | _ + 1, m, head, pos, none, b => some (store_pos m head pos b)

/-- The function `__heap_merge`: merge two root lists by degree. -/
def __heap_merge (fuel : Nat) (m : Mem) (a b : Option Nat) : Option (Mem × Option Nat) :=
  __heap_merge_loop fuel m none none a b

/-- The loop and the tail of `__heap_reverse`: state `tail`, `h`. -/
def __heap_reverse_loop : Nat → Mem → Option Nat → Nat → Option (Mem × Nat)
  | 0, _, _, _ => none
  | fuel + 1, m, tail, h =>
    match (m h).next with
    | some next =>
      let m1 := set_next m h tail
      let m2 := set_parent m1 next none
      __heap_reverse_loop fuel m2 (some h) next
    | none => some (set_next m h tail, h)

/-- The function `__heap_reverse`: reverse a list and clear the parent
pointers. -/
def __heap_reverse (fuel : Nat) (m : Mem) (h : Option Nat) : Option (Mem × Option Nat) :=
  match h with
  | none => some (m, none)
  | some h =>
    match __heap_reverse_loop fuel (set_parent m h none) none h with
    | none => none
    | some (m1, r) => some (m1, some r)

/-! ## Minimum scan, union, extract-min (lines 156-233) -/

/-- The loop of `__heap_min`: state `*prev`, `*node`, `_prev`, `cur`. -/
def __heap_min_loop (higher_prio : Prio) (m : Mem) :
    Nat → Option Nat → Nat → Nat → Option Nat → Option (Option Nat × Nat)
  | 0, _, _, _, _ => none
  | _ + 1, prev, node, _, none => some (prev, node)
  | fuel + 1, prev, node, _prev, some cur =>
    if higher_prio (m cur).value (m node).value then
      __heap_min_loop higher_prio m fuel (some _prev) cur cur (m cur).next
    else
      __heap_min_loop higher_prio m fuel prev node cur (m cur).next

/-- The function `__heap_min`: returns `(*prev, *node)`. -/
def __heap_min (fuel : Nat) (higher_prio : Prio) (m : Mem) (h : heap) :
    Option (Option Nat × Option Nat) :=
  match h.head with
  | none => some (none, none)
  | some hd =>
    match __heap_min_loop higher_prio m fuel none hd hd (m hd).next with
    | none => none
    | some (prev, node) => some (prev, some node)

/-- The second disjunct of the loop test of `__heap_union`:
`next->next && next->next->degree == x->degree`. -/
def next_next_same_degree (m : Mem) (x next : Nat) : Bool :=
  match (m next).next with
  | some nn => (m nn).degree == (m x).degree
  | none => false

/-- The statement `if (prev) prev->next = next; else h1 = next;` of
`__heap_union`: returns the memory and `h1`. -/
def set_prev_next (m : Mem) (h1 : Nat) (prev : Option Nat) (next : Nat) : Mem × Nat :=
  match prev with
  | some p => (set_next m p (some next), h1)
  | none => (m, next)

/-- The loop of `__heap_union`: state `h1`, `prev`, `x`, `next`. -/
def __heap_union_loop (higher_prio : Prio) :
    Nat → Mem → Nat → Option Nat → Nat → Option Nat → Option (Mem × Nat)
  | 0, _, _, _, _, _ => none
  | _ + 1, m, h1, _, _, none => some (m, h1)
  | fuel + 1, m, h1, prev, x, some next =>
    if (m x).degree != (m next).degree || next_next_same_degree m x next then
      __heap_union_loop higher_prio fuel m h1 (some x) next (m next).next
    else if higher_prio (m x).value (m next).value then
      let m1 := set_next m x (m next).next
      let m2 := __heap_link m1 x next
      __heap_union_loop higher_prio fuel m2 h1 prev x (m2 x).next
    else
      let r := set_prev_next m h1 prev next
      let m2 := __heap_link r.1 next x
      __heap_union_loop higher_prio fuel m2 r.2 prev next (m2 next).next

/-- The function `__heap_union`: merge the root list `h2` into `heap` and
resolve equal degrees. -/
def __heap_union (fuel : Nat) (higher_prio : Prio) (m : Mem) (h : heap) (h2 : Option Nat) :
    Option (Mem × heap) :=
  match h2 with
  | none => some (m, h)
  | some b =>
    match h.head with
    | none => some (m, { h with head := some b })
    | some a =>
      match __heap_merge fuel m (some a) (some b) with
      | none => none
      | some (_, none) => none
      | some (m1, some x) =>
        match __heap_union_loop higher_prio fuel m1 x none x (m1 x).next with
        | none => none
        | some (m2, h1) => some (m2, { h with head := some h1 })

/-- The statement `if (prev) prev->next = node->next; else heap->head =
node->next;` of `__heap_extract_min` and `heap_delete`. -/
def unlink_root (m : Mem) (h : heap) (prev : Option Nat) (node : Nat) : Mem × heap :=
  match prev with
  | some p => (set_next m p (m node).next, h)
  | none => (m, { h with head := (m node).next })

/-- The function `__heap_extract_min`: returns the memory, the heap and the
removed node. -/
def __heap_extract_min (fuel : Nat) (higher_prio : Prio) (m : Mem) (h : heap) :
    Option (Mem × heap × Option Nat) :=
  match __heap_min fuel higher_prio m h with
  | none => none
  | some (_, none) => some (m, h, none)
  | some (prev, some node) =>
    let r := unlink_root m h prev node
    match __heap_reverse fuel r.1 (r.1 node).child with
    | none => none
    | some (m2, c) =>
      match __heap_union fuel higher_prio m2 r.2 c with
      | none => none
      | some (m3, h3) => some (m3, h3, some node)

/-! ## Public operations (lines 235-379) -/

/-- The four assignments that reinitialise a node in `heap_insert`. -/
def node_reinit (m : Mem) (a : Nat) : Mem :=
  set_degree (set_next (set_parent (set_child m a none) a none) a none) a 0

/-- The function `heap_insert`. -/
def heap_insert (fuel : Nat) (higher_prio : Prio) (m : Mem) (h : heap) (node : Nat) :
    Option (Mem × heap) :=
  let m1 := node_reinit m node
  match h.min with
  | some min =>
    if higher_prio (m1 node).value (m1 min).value then
      match __heap_union fuel higher_prio (node_reinit m1 min) h (some min) with
      | none => none
      | some (m3, h3) => some (m3, { h3 with min := some node })
    else
      __heap_union fuel higher_prio m1 h (some node)
  | none => __heap_union fuel higher_prio m1 h (some node)

/-- The function `__uncache_min`. -/
def __uncache_min (fuel : Nat) (higher_prio : Prio) (m : Mem) (h : heap) :
    Option (Mem × heap) :=
  match h.min with
  | some min => heap_insert fuel higher_prio m { h with min := none } min
  | none => some (m, h)

/-- The function `heap_union`: returns the memory, the target and the
addition.  The two heaps are distinct objects. -/
def heap_union (fuel : Nat) (higher_prio : Prio) (m : Mem) (target addition : heap) :
    Option (Mem × heap × heap) :=
  match __uncache_min fuel higher_prio m target with
  | none => none
  | some (m1, t1) =>
    match __uncache_min fuel higher_prio m1 addition with
    | none => none
    | some (m2, a2) =>
      match __heap_union fuel higher_prio m2 t1 a2.head with
      | none => none
      | some (m3, t3) => some (m3, t3, { a2 with head := none })

/-- The statement `if (!heap->min) heap->min = __heap_extract_min(...)` that
opens `heap_peek` and `heap_take`. -/
def cache_min (fuel : Nat) (higher_prio : Prio) (m : Mem) (h : heap) : Option (Mem × heap) :=
  match h.min with
  | none =>
    match __heap_extract_min fuel higher_prio m h with
    | none => none
    | some (m1, h1, r) => some (m1, { h1 with min := r })
  | some _ => some (m, h)

/-- The function `heap_peek`: returns the memory, the heap and the result
`heap->min`. -/
def heap_peek (fuel : Nat) (higher_prio : Prio) (m : Mem) (h : heap) :
    Option (Mem × heap × Option Nat) :=
  match cache_min fuel higher_prio m h with
  | none => none
  | some (m1, h1) => some (m1, h1, h1.min)

/-- The function `heap_take`: returns the memory, the heap and the result. -/
def heap_take (fuel : Nat) (higher_prio : Prio) (m : Mem) (h : heap) :
    Option (Mem × heap × Option Nat) :=
  match cache_min fuel higher_prio m h with
  | none => none
  | some (m1, h1) =>
    match h1.min with
    | some node => some (set_degree m1 node NOT_IN_HEAP, { h1 with min := none }, some node)
    | none => some (m1, { h1 with min := none }, none)

/-- The statement `if (parent->ref) *(parent->ref) = node;`. -/
def retarget (sl : Slots) (ref : Option Nat) (node : Nat) : Slots :=
  match ref with
  | some r => set_slot sl r (some node)
  | none => sl

/-- The body of the bubble-up loops of `heap_decrease` and `heap_delete`: swap
the values and the references of `node` and `parent`, retargeting the handle
slots.  Fails when `node->ref` is `NULL`. -/
def swap_with_parent (m : Mem) (sl : Slots) (node parent : Nat) : Option (Mem × Slots) :=
  let tmp := (m parent).value
  let m1 := set_value m parent (m node).value
  let m2 := set_value m1 node tmp
  let sl1 := retarget sl (m2 parent).ref node
  match (m2 node).ref with
  | none => none
  | some r =>
    let sl2 : Slots := set_slot sl1 r (some parent)
    let tmp_ref := (m2 parent).ref
    let m3 := set_ref m2 parent (m2 node).ref
    let m4 := set_ref m3 node tmp_ref
    some (m4, sl2)

/-- The bubble-up loop of `heap_decrease`: state `node`, `parent`. -/
def decrease_loop (higher_prio : Prio) :
    Nat → Mem → Slots → Nat → Option Nat → Option (Mem × Slots)
  | 0, _, _, _, _ => none
  | _ + 1, m, sl, _, none => some (m, sl)
  | fuel + 1, m, sl, node, some parent =>
    if higher_prio (m node).value (m parent).value then
      match swap_with_parent m sl node parent with
      | none => none
      | some (m1, sl1) => decrease_loop higher_prio fuel m1 sl1 parent (m1 parent).parent
    else some (m, sl)

/-- The statement `if (heap->min && higher_prio(node, heap->min))
__uncache_min(higher_prio, heap);` of `heap_decrease`. -/
def decrease_uncache (fuel : Nat) (higher_prio : Prio) (m : Mem) (h : heap) (node : Nat) :
    Option (Mem × heap) :=
  match h.min with
  | some min =>
    if higher_prio (m node).value (m min).value then __uncache_min fuel higher_prio m h
    else some (m, h)
  | none => some (m, h)

/-- The function `heap_decrease`. -/
def heap_decrease (fuel : Nat) (higher_prio : Prio) (m : Mem) (sl : Slots) (h : heap)
    (node : Nat) : Option (Mem × Slots × heap) :=
  match (m node).ref with
  | none => some (m, sl, h)
  | some _ =>
    if h.min ≠ some node then
      match decrease_uncache fuel higher_prio m h node with
      | none => none
      | some (m1, h1) =>
        match decrease_loop higher_prio fuel m1 sl node (m1 node).parent with
        | none => none
        | some (m2, sl2) => some (m2, sl2, h1)
    else some (m, sl, h)

/-- The bubble-up loop of `heap_delete`: state `node`, `parent`; returns the
final `node`. -/
def delete_loop : Nat → Mem → Slots → Nat → Option Nat → Option (Mem × Slots × Nat)
  | 0, _, _, _, _ => none
  | _ + 1, m, sl, node, none => some (m, sl, node)
  | fuel + 1, m, sl, node, some parent =>
    match swap_with_parent m sl node parent with
    | none => none
    | some (m1, sl1) => delete_loop fuel m1 sl1 parent (m1 parent).parent

/-- The predecessor search of `heap_delete`: state `prev`, `pos`.  Fails when
`pos` runs past the end of the list. -/
def find_prev_loop (m : Mem) (node : Nat) : Nat → Option Nat → Option Nat → Option (Option Nat)
  | 0, _, _ => none
  | fuel + 1, prev, pos =>
    if pos ≠ some node then
      match pos with
      | none => none
      | some p => find_prev_loop m node fuel (some p) (m p).next
    else some prev

/-- The function `heap_delete`. -/
def heap_delete (fuel : Nat) (higher_prio : Prio) (m : Mem) (sl : Slots) (h : heap)
    (node : Nat) : Option (Mem × Slots × heap) :=
  match (m node).ref with
  | none => some (m, sl, h)
  | some _ =>
    if h.min ≠ some node then
      match delete_loop fuel m sl node (m node).parent with
      | none => none
      | some (m1, sl1, node1) =>
        match find_prev_loop m1 node1 fuel none h.head with
        | none => none
        | some prev =>
          let r := unlink_root m1 h prev node1
          match __heap_reverse fuel r.1 (r.1 node1).child with
          | none => none
          | some (m2, c) =>
            match __heap_union fuel higher_prio m2 r.2 c with
            | none => none
            | some (m3, h3) => some (set_degree m3 node1 NOT_IN_HEAP, sl1, h3)
    else some (set_degree m node NOT_IN_HEAP, sl, { h with min := none })

/-- The drain loop of the drivers, `while (!heap_empty(&h1)) { hn =
heap_take(...); tok = heap_node_value(hn); ... }`: returns the nodes taken, in
order.  Fails when `heap_take` returns `NULL`, which the drivers would
dereference. -/
def drain (higher_prio : Prio) (fuel : Nat) : Nat → Mem → heap → Option (Mem × heap × List Nat)
  | 0, _, _ => none
  | n + 1, m, h =>
    if heap_empty h then some (m, h, [])
    else
      match heap_take fuel higher_prio m h with
      | none => none
      | some (_, _, none) => none
      | some (m1, h1, some hn) =>
        match drain higher_prio fuel n m1 h1 with
        | none => none
        | some (m2, h2, out) => some (m2, h2, hn :: out)

/-- Calling `heap_insert` on each node of a list in turn, as the loop of
`add_tokens` / `add_tasks` does. -/
def insert_all (fuel : Nat) (higher_prio : Prio) : List Nat → Mem → heap → Option (Mem × heap)
  | [], m, h => some (m, h)
  | node :: rest, m, h =>
    match heap_insert fuel higher_prio m h node with
    | none => none
    | some (m1, h1) => insert_all fuel higher_prio rest m1 h1

/-- The driver step `add_token` / `add_task`: `heap_node_init` then
`heap_insert`. -/
def add_token (fuel : Nat) (higher_prio : Prio) (m : Mem) (h : heap) (hn : Nat) (tok : Nat) :
    Option (Mem × heap) :=
  heap_insert fuel higher_prio (heap_node_init m hn tok) h hn

end BH

namespace BH

/-! ## The shape of a linked structure

A value of `HT` describes what a `next`-linked list of nodes looks like: for
each node its address, its `degree` field, the list hanging off its `child`
pointer and the rest of the list.  It records only the four structural fields;
payloads and references are read from memory. -/

/-- Shape of a `next`-linked list of nodes with their `child` lists. -/
inductive HT where
  | nil : HT
  | node (a : Nat) (d : Nat) (child : HT) (next : HT) : HT
deriving DecidableEq

namespace HT

/-- The pointer to the first node of the list. -/
def hd : HT → Option Nat
  | nil => none
  | node a _ _ _ => some a

/-- The degree field of the first node of the list. -/
def degHd : HT → Option Nat
  | nil => none
  | node _ d _ _ => some d

/-- All node addresses: each node, then its child list, then the rest. -/
def addrs : HT → List Nat
  | nil => []
  | node a _ c n => a :: (addrs c ++ addrs n)

/-- The addresses on the list itself (the roots, for a root list). -/
def roots : HT → List Nat
  | nil => []
  | node a _ _ n => a :: roots n

/-- Number of nodes. -/
def size : HT → Nat
  | nil => 0
  | node _ _ c n => size c + size n + 1

/-- Abstract `__heap_merge`: merge two lists by degree, taking from the second
list on ties. -/
def merge : HT → HT → HT
  | nil, b => b
  | node a d c n, nil => node a d c n
  | node a1 d1 c1 n1, node a2 d2 c2 n2 =>
    if d1 < d2 then node a1 d1 c1 (merge n1 (node a2 d2 c2 n2))
    else node a2 d2 c2 (merge (node a1 d1 c1 n1) n2)
termination_by x y => size x + size y
decreasing_by
  all_goals simp_wf
  all_goals simp only [size]
  all_goals omega

/-- Abstract `__heap_reverse`: reverse the list onto `acc`. -/
def rev : HT → HT → HT
  | acc, nil => acc
  | acc, node a d c n => rev (node a d c acc) n

/-- Abstract loop of `__heap_union`, positioned at the node `x = (a, d, c)`
followed by `rest`. -/
def carry (hpa : Nat → Nat → Bool) : Nat → Nat → HT → HT → HT
  | a, d, c, nil => node a d c nil
  | a, d, c, node a2 d2 c2 n2 =>
    if d != d2 || n2.degHd == some d then
      node a d c (carry hpa a2 d2 c2 n2)
    else if hpa a a2 then
      carry hpa a ((d + 1) % (UINT_MAX + 1)) (node a2 d2 c2 c) n2
    else
      carry hpa a2 ((d2 + 1) % (UINT_MAX + 1)) (node a d c c2) n2

/-- Abstract `__heap_union` of the root list `t` with the list `t2`. -/
def union (hpa : Nat → Nat → Bool) (t t2 : HT) : HT :=
  match t2 with
  | nil => t
  | node _ _ _ _ =>
    match t with
    | nil => t2
    | node _ _ _ _ =>
      match merge t t2 with
      | nil => nil
      | node a d c n => carry hpa a d c n

/-- Abstract loop of `__heap_min`: the `(prev, node)` pair after scanning. -/
def minScan (hpa : Nat → Nat → Bool) : Option Nat → Nat → Nat → HT → Option Nat × Nat
  | prev, cand, _, nil => (prev, cand)
  | prev, cand, _prev, node a _ _ n =>
    if hpa a cand then minScan hpa (some _prev) a a n
    else minScan hpa prev cand a n

/-- The predecessor of root `x` on the list (`prev` if `x` is first or
absent). -/
def predOf (x : Nat) : Option Nat → HT → Option Nat
  | prev, nil => prev
  | prev, node a _ _ n => if a = x then prev else predOf x (some a) n

/-- The list without its root `x`. -/
def remove (x : Nat) : HT → HT
  | nil => nil
  | node a d c n => if a = x then n else node a d c (remove x n)

/-- The child list of root `x`. -/
def childOf (x : Nat) : HT → HT
  | nil => nil
  | node a _ c n => if a = x then c else childOf x n

/-- The degree field of root `x`. -/
def degOf (x : Nat) : HT → Nat
  | nil => 0
  | node a d _ n => if a = x then d else degOf x n

end HT

/-! ## Representation -/

/-- Memory `m` holds the structure `t` as a list whose nodes all have parent
pointer `par`; the pointer to the list is `t.hd`. -/
def Rep (m : Mem) : Option Nat → HT → Prop
  | _, .nil => True
  | par, .node a d c n =>
    (m a).parent = par ∧ (m a).degree = d ∧ (m a).child = c.hd ∧ (m a).next = n.hd ∧
      Rep m (some a) c ∧ Rep m par n

/-- Heap order, read off the parent pointers: no node of `t` has higher
priority than its parent. -/
def Ord (hp : Prio) (m : Mem) (t : HT) : Prop :=
  ∀ a ∈ t.addrs, ∀ p, (m a).parent = some p → hp (m a).value (m p).value = false

/-- The payload and reference fields agree in two memories. -/
def DataEq (m m' : Mem) : Prop :=
  ∀ x, (m' x).value = (m x).value ∧ (m' x).ref = (m x).ref

/-- The four structural fields agree in two memories. -/
def StructEq (m m' : Mem) : Prop :=
  ∀ x, (m' x).parent = (m x).parent ∧ (m' x).next = (m x).next ∧
    (m' x).child = (m x).child ∧ (m' x).degree = (m x).degree

/-- Every parent pointer of `m'` is either inherited from `m`, or points to a
node that the child does not beat, or points to a node that beats the
child. -/
def ParOK (hp : Prio) (m m' : Mem) : Prop :=
  ∀ a p, (m' a).parent = some p →
    (m a).parent = some p ∨ hp (m a).value (m p).value = false ∨
      hp (m p).value (m a).value = true

/-- Every parent pointer of `m'` is either inherited from `m` or links two
nodes of the list `R`. -/
def NewParRoots (R : List Nat) (m m' : Mem) : Prop :=
  ∀ a p, (m' a).parent = some p → (m a).parent = some p ∨ (a ∈ R ∧ p ∈ R)

/-- Heap order except at node `x`, whose priority may have been raised: every
node other than `x` does not beat its parent, and the children of `x` do not
beat the parent of `x`. -/
def OrdEx (hp : Prio) (m : Mem) (t : HT) (x : Nat) : Prop :=
  (∀ a ∈ t.addrs, a ≠ x → ∀ p, (m a).parent = some p → hp (m a).value (m p).value = false) ∧
  (∀ c ∈ t.addrs, (m c).parent = some x → ∀ g, (m x).parent = some g →
    hp (m c).value (m g).value = false)

/-- A strict weak order: irreflexive, transitive, with transitive
incomparability (stated as negative transitivity). -/
structure StrictWeak (hp : Prio) : Prop where
  irrefl : ∀ a, hp a a = false
  trans : ∀ a b c, hp a b = true → hp b c = true → hp a c = true
  negtrans : ∀ a b c, hp a b = false → hp b c = false → hp a c = false

end BH

namespace BH

/-- Only `next` fields differ between the two memories. -/
def OnlyNext (m m' : Mem) : Prop :=
  ∀ x, (m' x).parent = (m x).parent ∧ (m' x).child = (m x).child ∧
    (m' x).degree = (m x).degree ∧ (m' x).value = (m x).value ∧ (m' x).ref = (m x).ref

/-- What the local `head` holds after `*pos = x`. -/
def pos_head (pos x head : Option Nat) : Option Nat :=
  match pos with
  | none => x
  | some _ => head

end BH

namespace BH

/-- Effect of a reversal: parent pointers are kept or cleared, `child`,
`degree`, `value` and `ref` are kept. -/
def RevEff (m m' : Mem) : Prop :=
  ∀ x, ((m' x).parent = (m x).parent ∨ (m' x).parent = none) ∧ (m' x).child = (m x).child ∧
    (m' x).degree = (m x).degree ∧ (m' x).value = (m x).value ∧ (m' x).ref = (m x).ref

end BH

namespace BH

/-- The comparator on addresses induced by the payloads in memory. -/
def hpa_of (hp : Prio) (m : Mem) : Nat → Nat → Bool :=
  fun x y => hp (m x).value (m y).value

end BH

namespace BH

/-- The root chosen by `__heap_min` (`none` for an empty list). -/
def HT.minRoot (hpa : Nat → Nat → Bool) : HT → Option Nat
  | HT.nil => none
  | HT.node a _ _ n => some (HT.minScan hpa none a a n).2

/-- The predecessor reported by `__heap_min`. -/
def HT.minPrev (hpa : Nat → Nat → Bool) : HT → Option Nat
  | HT.nil => none
  | HT.node a _ _ n => (HT.minScan hpa none a a n).1

end BH

namespace BH

/-- The root list after unlinking root `x` and handing its children back:
the tail shared by `__heap_extract_min` and `heap_delete`. -/
def HT.removeRoot (hpa : Nat → Nat → Bool) (x : Nat) (T : HT) : HT :=
  HT.union hpa (HT.remove x T) (HT.rev HT.nil (HT.childOf x T))

/-- Abstract `__heap_extract_min`: the new root list. -/
def HT.extractMin (hpa : Nat → Nat → Bool) (T : HT) : HT :=
  match HT.minRoot hpa T with
  | none => T
  | some x => HT.removeRoot hpa x T

end BH

namespace BH

/-- The heap `h` in memory `m` has shape `T`: the root list is represented by
`T`, no node occurs twice, and the cached minimum is outside the root
structure. -/
structure Shaped (m : Mem) (h : heap) (T : HT) : Prop where
  rep : Rep m none T
  head : h.head = T.hd
  nodup : T.addrs.Nodup
  min_fresh : ∀ x, h.min = some x → x ∉ T.addrs

/-- The heap `h` in memory `m` is well formed with root-list shape `T`: it has
shape `T`, heap order holds, and nothing in the root structure beats the
cached minimum. -/
structure WF (hp : Prio) (m : Mem) (h : heap) (T : HT) : Prop where
  shaped : Shaped m h T
  ord : Ord hp m T
  min_ok : ∀ x, h.min = some x → ∀ a ∈ T.addrs, hp (m a).value (m x).value = false

/-- The member nodes of a heap: the cached minimum, then the root
structure. -/
def members (h : heap) (T : HT) : List Nat := h.min.toList ++ T.addrs

/-- The elements of a heap: the payloads of its member nodes. -/
def elems (m : Mem) (h : heap) (T : HT) : List Nat := (members h T).map (fun a => (m a).value)

/-- The shape of a freshly initialised node. -/
def HT.single (a : Nat) : HT := HT.node a 0 HT.nil HT.nil

/-- The shape after `heap_insert`. -/
def HT.insert (hp : Prio) (m : Mem) (h : heap) (T : HT) (node : Nat) : HT :=
  match h.min with
  | some mn =>
    if hp (m node).value (m mn).value then HT.union (hpa_of hp m) T (HT.single mn)
    else HT.union (hpa_of hp m) T (HT.single node)
  | none => HT.union (hpa_of hp m) T (HT.single node)

/-- The cached minimum after `heap_insert`. -/
def min_after_insert (hp : Prio) (m : Mem) (h : heap) (node : Nat) : Option Nat :=
  match h.min with
  | some mn => if hp (m node).value (m mn).value then some node else some mn
  | none => none

end BH

namespace BH

/-- The shape after `__uncache_min`. -/
def HT.uncache (hp : Prio) (m : Mem) (h : heap) (T : HT) : HT :=
  match h.min with
  | some mn => HT.union (hpa_of hp m) T (HT.single mn)
  | none => T

/-- The shape after `cache_min`. -/
def HT.cache (hp : Prio) (m : Mem) (h : heap) (T : HT) : HT :=
  match h.min with
  | some _ => T
  | none => HT.extractMin (hpa_of hp m) T

/-- The cached minimum after `cache_min`. -/
def min_after_cache (hp : Prio) (m : Mem) (h : heap) (T : HT) : Option Nat :=
  match h.min with
  | some x => some x
  | none => HT.minRoot (hpa_of hp m) T

/-- The heap after `cache_min`. -/
def heap_cached (hp : Prio) (m : Mem) (h : heap) (T : HT) : heap :=
  { head := (HT.cache hp m h T).hd, min := min_after_cache hp m h T }

/-- The memory after `heap_take`, given the memory after `cache_min`. -/
def mem_after_take (m1 : Mem) (r : Option Nat) : Mem :=
  match r with
  | some node => set_degree m1 node NOT_IN_HEAP
  | none => m1

end BH

namespace BH

/-- The shape of the target after `heap_union`. -/
def HT.unionPub (hp : Prio) (m : Mem) (t a : heap) (Tt Ta : HT) : HT :=
  HT.union (hpa_of hp m) (HT.uncache hp m t Tt) (HT.uncache hp m a Ta)

end BH

namespace BH

/-- Depth of node `x` below the list `t`: 0 for the list nodes (and for
absent nodes). -/
def HT.depth (x : Nat) : HT → Nat
  | HT.nil => 0
  | HT.node a _ c n => if a = x then 0 else if x ∈ c.addrs then HT.depth x c + 1 else HT.depth x n

/-- The common form of the bubble-up loops of `heap_decrease` and
`heap_delete`, with the loop test beyond `parent != NULL` as a parameter;
returns the final `node` as well. -/
def bubble_loop (cond : Mem → Nat → Nat → Bool) :
    Nat → Mem → Slots → Nat → Option Nat → Option (Mem × Slots × Nat)
  | 0, _, _, _, _ => none
  | _ + 1, m, sl, node, none => some (m, sl, node)
  | fuel + 1, m, sl, node, some parent =>
    if cond m node parent then
      match swap_with_parent m sl node parent with
      | none => none
      | some (m1, sl1) => bubble_loop cond fuel m1 sl1 parent (m1 parent).parent
    else some (m, sl, node)

/-- Handle validity on the nodes `S`: the slot a node refers to holds that
node. -/
def HV (m : Mem) (sl : Slots) (S : List Nat) : Prop :=
  ∀ a ∈ S, ∀ r, (m a).ref = some r → sl r = some a

/-- Distinct nodes of `S` have distinct handle slots. -/
def RefInj (m : Mem) (S : List Nat) : Prop :=
  ∀ a ∈ S, ∀ b ∈ S, ∀ r, (m a).ref = some r → (m b).ref = some r → a = b

/-- The memory after a swap of the bubble-up loops. -/
def swap_mem (m : Mem) (node parent : Nat) : Mem :=
  set_ref (set_ref (set_value (set_value m parent (m node).value) node (m parent).value)
    parent (m node).ref) node (m parent).ref

end BH

namespace BH

/-- The invariant of the bubble-up loop of `heap_delete` at node `x`: pairs
not involving `x` are ordered, and the children of `x` do not beat the parent
of `x`. -/
def OrdDown (hp : Prio) (m : Mem) (t : HT) (x : Nat) : Prop :=
  (∀ a ∈ t.addrs, a ≠ x → ∀ p, (m a).parent = some p → p ≠ x →
    hp (m a).value (m p).value = false) ∧
  (∀ c ∈ t.addrs, (m c).parent = some x → ∀ g, (m x).parent = some g →
    hp (m c).value (m g).value = false)

end BH

namespace BH

/-- Well-formedness of a heap one of whose members, `x`, has just had its
priority raised: heap order may fail between `x` and its ancestors only, and
the cached minimum may be beaten by `x` only. -/
def WFEx (hp : Prio) (m : Mem) (h : heap) (T : HT) (x : Nat) : Prop :=
  Shaped m h T ∧ OrdEx hp m T x ∧
  (∀ y, h.min = some y → ∀ a ∈ T.addrs, a ≠ x → hp (m a).value (m y).value = false)

end BH

namespace BH

/-- The comparator `token_cmp` of `htest.c`, `a->prio < b->prio` on the `int`
field `prio`, for payloads whose priority is given by `prio`: the smaller
number has the higher priority. -/
def token_cmp (prio : Nat → Int) : Prio := fun a b => decide (prio a < prio b)

/-- A memory in which every node has null pointers, degree 0 and payload 0. -/
def mem_zero : Mem :=
  fun _ => { parent := none, next := none, child := none, degree := 0, value := 0, ref := none }

/-- A heap whose root list is the single node at address 1. -/
def heap_one : heap := { head := some 1, min := none }

/-- The shape of `heap_one`. -/
def shape_one : HT := HT.single 1

end BH

namespace BH

/-- A memory in which node `a` has payload `7 - a`, null pointers and
degree 0. -/
def mem_desc : Mem :=
  fun a =>
    { parent := none, next := none, child := none, degree := 0, value := 7 - a, ref := none }

/-- A heap that holds only a cached minimum, the node at address 2. -/
def heap_min_two : heap := { head := none, min := some 2 }

end BH

namespace BH

/-- A memory holding a two-node tree: node 1 (payload 10, handle slot 10) is
the root, node 2 (payload 20, handle slot 20) is its only child. -/
def mem_pair : Mem :=
  fun a =>
    if a = 1 then
      { parent := none, next := none, child := some 2, degree := 1, value := 10, ref := some 10 }
    else if a = 2 then
      { parent := some 1, next := none, child := none, degree := 0, value := 20, ref := some 20 }
    else
      { parent := none, next := none, child := none, degree := 0, value := 0, ref := none }

/-- The handle slots of `mem_pair`: slot 10 holds node 1, slot 20 holds
node 2. -/
def slots_pair : Slots := fun r => if r = 10 then some 1 else if r = 20 then some 2 else none

/-- The shape of the tree in `mem_pair`. -/
def shape_pair : HT := HT.node 1 1 (HT.node 2 0 HT.nil HT.nil) HT.nil

/-- The comparator after the payload 20 has been given priority 5. -/
def cmp_rekeyed : Prio := token_cmp (fun v => if v = 20 then 5 else v)

end BH

namespace BH

/-- The state of a program that uses the heap API: the node memory, the
handle slots, the heaps (by index), and the comparator, which reflects the
current priorities of the payloads. -/
structure World where
  m : Mem
  sl : Slots
  hs : Nat → heap
  hp : Prio

/-- The calls of the public API.  `insert` stands for `heap_node_init` or
(with a handle slot) `heap_node_init_ref` followed by `heap_insert`, as in
`add_token` and `add_token_ref`; `decrease` stands for a change of the
priority of the payload of `node`, giving the comparator `hp2`, followed by
`heap_decrease`. -/
inductive Op where
  | insert (i node value : Nat) (ref : Option Nat)
  | union (i j : Nat)
  | peek (i : Nat)
  | take (i : Nat)
  | delete (i node : Nat)
  | decrease (i node : Nat) (hp2 : Prio)

/-- Replace heap `i`. -/
def set_heap (hs : Nat → heap) (i : Nat) (h : heap) : Nat → heap :=
  fun j => if j = i then h else hs j

/-- One call, with its result (the node returned by `heap_peek` and
`heap_take`). -/
def World.step (fuel : Nat) (w : World) : Op → Option (World × Option Nat)
  | Op.insert i node value none =>
    match heap_insert fuel w.hp (heap_node_init w.m node value) (w.hs i) node with
    | none => none
    | some (m1, h1) => some ({ m := m1, sl := w.sl, hs := set_heap w.hs i h1, hp := w.hp }, none)
  | Op.insert i node value (some r) =>
    match heap_node_init_ref w.m (set_slot w.sl r (some node)) r value with
    | none => none
    | some m0 =>
      match heap_insert fuel w.hp m0 (w.hs i) node with
      | none => none
      | some (m1, h1) =>
        some ({ m := m1, sl := set_slot w.sl r (some node), hs := set_heap w.hs i h1,
                hp := w.hp }, none)
  | Op.union i j =>
    match heap_union fuel w.hp w.m (w.hs i) (w.hs j) with
    | none => none
    | some (m1, t1, a1) =>
      some ({ m := m1, sl := w.sl, hs := set_heap (set_heap w.hs i t1) j a1, hp := w.hp }, none)
  | Op.peek i =>
    match heap_peek fuel w.hp w.m (w.hs i) with
    | none => none
    | some (m1, h1, r) => some ({ m := m1, sl := w.sl, hs := set_heap w.hs i h1, hp := w.hp }, r)
  | Op.take i =>
    match heap_take fuel w.hp w.m (w.hs i) with
    | none => none
    | some (m1, h1, r) => some ({ m := m1, sl := w.sl, hs := set_heap w.hs i h1, hp := w.hp }, r)
  | Op.delete i node =>
    match heap_delete fuel w.hp w.m w.sl (w.hs i) node with
    | none => none
    | some (m1, sl1, h1) =>
      some ({ m := m1, sl := sl1, hs := set_heap w.hs i h1, hp := w.hp }, none)
  | Op.decrease i node hp2 =>
    match heap_decrease fuel hp2 w.m w.sl (w.hs i) node with
    | none => none
    | some (m1, sl1, h1) =>
      some ({ m := m1, sl := sl1, hs := set_heap w.hs i h1, hp := hp2 }, none)

/-- Node `x` can be reached from the list pointer through `next` and `child`
pointers. -/
inductive Reachable (m : Mem) : Option Nat → Nat → Prop where
  | here (a : Nat) : Reachable m (some a) a
  | next (a x : Nat) : Reachable m (m a).next x → Reachable m (some a) x
  | child (a x : Nat) : Reachable m (m a).child x → Reachable m (some a) x

/-- Node `x` is in heap `h`: it is the cached minimum or it is in one of the
trees. -/
def Member (m : Mem) (h : heap) (x : Nat) : Prop :=
  h.min = some x ∨ Reachable m h.head x

/-- The comparator `hp2` arises from `hp` by raising the priority of the
payload `v`: pairs without `v` compare as before, and what beats `v` beat it
before. -/
def Rekey (hp hp2 : Prio) (v : Nat) : Prop :=
  (∀ a b, a ≠ v → b ≠ v → hp2 a b = hp a b) ∧
  (∀ a, hp2 a v = true → hp a v = true)

/-- The calls a correct client may make: it inserts only nodes that are in
no heap, with a handle slot no node in a heap uses; it unites two different
heaps; it deletes and decreases only nodes that are in the heap and have a
back-reference; and it changes the priority of a payload only by raising it,
for a payload that no other node in a heap holds, calling `heap_decrease`
right away. -/
def Legal (w : World) : Op → Prop
  | Op.insert _ node _ ref =>
    (∀ j, ¬ Member w.m (w.hs j) node) ∧
    (∀ r, ref = some r → ∀ j a, Member w.m (w.hs j) a → (w.m a).ref ≠ some r)
  | Op.union i j => i ≠ j
  | Op.peek _ => True
  | Op.take _ => True
  | Op.delete i node => Member w.m (w.hs i) node ∧ (w.m node).ref ≠ none
  | Op.decrease i node hp2 =>
    Member w.m (w.hs i) node ∧ (w.m node).ref ≠ none ∧ StrictWeak hp2 ∧
    Rekey w.hp hp2 (w.m node).value ∧
    (∀ j a, Member w.m (w.hs j) a → a ≠ node → (w.m a).value ≠ (w.m node).value)

/-- The states reached from initialised heaps (`heap_init`) by calls of a
correct client that return. -/
inductive Reach : World → Prop where
  | init (m : Mem) (sl : Slots) (hp : Prio) : StrictWeak hp →
      Reach { m := m, sl := sl, hs := fun _ => heap_init, hp := hp }
  | step (fuel : Nat) (w w2 : World) (op : Op) (out : Option Nat) : Reach w → Legal w op →
      w.step fuel op = some (w2, out) → Reach w2

/-- The reference model: a multiset of payloads for each heap, and the
comparator. -/
structure Model where
  bag : Nat → Multiset Nat
  hp : Prio

/-- Replace bag `i`. -/
def set_bag (bag : Nat → Multiset Nat) (i : Nat) (s : Multiset Nat) : Nat → Multiset Nat :=
  fun j => if j = i then s else bag j

/-- The operations of the reference model. -/
inductive AOp where
  | add (i v : Nat)
  | sum (i j : Nat)
  | peekMin (i : Nat)
  | removeMin (i : Nat)
  | remove (i v : Nat)
  | rekey (v : Nat) (hp2 : Prio)

/-- The model operation that a call stands for. -/
def World.absOp (w : World) : Op → AOp
  | Op.insert i _ value _ => AOp.add i value
  | Op.union i j => AOp.sum i j
  | Op.peek i => AOp.peekMin i
  | Op.take i => AOp.removeMin i
  | Op.delete i node => AOp.remove i (w.m node).value
  | Op.decrease _ node hp2 => AOp.rekey (w.m node).value hp2

/-- Payload `v` is in bag `i` and no payload of bag `i` has strictly higher
priority. -/
def Model.IsMin (M : Model) (i v : Nat) : Prop :=
  v ∈ M.bag i ∧ ∀ u ∈ M.bag i, M.hp u v = false

/-- The transitions of the reference model, with the payload returned. -/
def Model.step (M : Model) : AOp → Option Nat → Model → Prop
  | AOp.add i v, out, M2 =>
    out = none ∧ M2 = { bag := set_bag M.bag i (v ::ₘ M.bag i), hp := M.hp }
  | AOp.sum i j, out, M2 =>
    out = none ∧ M2 = { bag := set_bag (set_bag M.bag i (M.bag i + M.bag j)) j 0, hp := M.hp }
  | AOp.peekMin i, out, M2 =>
    M2 = M ∧ ((out = none ∧ M.bag i = 0) ∨ ∃ v, out = some v ∧ M.IsMin i v)
  | AOp.removeMin i, out, M2 =>
    (out = none ∧ M.bag i = 0 ∧ M2 = M) ∨
    ∃ v, out = some v ∧ M.IsMin i v ∧
      M2 = { bag := set_bag M.bag i ((M.bag i).erase v), hp := M.hp }
  | AOp.remove i v, out, M2 =>
    out = none ∧ v ∈ M.bag i ∧ M2 = { bag := set_bag M.bag i ((M.bag i).erase v), hp := M.hp }
  | AOp.rekey _ hp2, out, M2 => out = none ∧ M2 = { bag := M.bag, hp := hp2 }

/-- The invariant of the program states, for heap shapes `Ts`: the
comparator is a strict weak order, every heap is well formed, no node is in
two heaps, and the handles of all nodes in heaps are valid. -/
def Inv (w : World) (Ts : Nat → HT) : Prop :=
  StrictWeak w.hp ∧ (∀ i, WF w.hp w.m (w.hs i) (Ts i)) ∧
  (∀ i j, i ≠ j → ∀ x, x ∈ members (w.hs i) (Ts i) → x ∉ members (w.hs j) (Ts j)) ∧
  (∀ i, HV w.m w.sl (members (w.hs i) (Ts i)))

/-- The abstraction relation: the model has the comparator of the state, and
for suitable shapes the invariant holds and each bag is the multiset of
payloads of the nodes of the heap. -/
def Abs (w : World) (M : Model) : Prop :=
  M.hp = w.hp ∧ ∃ Ts : Nat → HT, Inv w Ts ∧
    ∀ i, M.bag i = (elems w.m (w.hs i) (Ts i) : Multiset Nat)

/-- Replace shape `i`. -/
def set_shape (Ts : Nat → HT) (i : Nat) (T : HT) : Nat → HT :=
  fun j => if j = i then T else Ts j

end BH

namespace BH

/-- The model of a state with heap shapes `Ts`. -/
def modelOf (w : World) (Ts : Nat → HT) : Model :=
  { bag := fun i => (elems w.m (w.hs i) (Ts i) : Multiset Nat), hp := w.hp }

end BH

namespace BH

/-- A state with empty heaps, the memory `mem_zero`, empty handle slots and
the comparator `token_cmp` of `htest.c` with the payload as priority. -/
def world_init : World :=
  { m := mem_zero, sl := fun _ => none, hs := fun _ => heap_init,
    hp := token_cmp (fun v => v) }

/-- The state after `add_token` of the payload 5 with node 1 into heap 0 of
`world_init`. -/
def world_one : World :=
  match world_init.step 3 (Op.insert 0 1 5 none) with
  | some (w, _) => w
  | none => world_init

end BH

namespace BH

/-- The comparator after the payload 20 has been given priority 15. -/
def cmp_rekeyed_low : Prio := token_cmp (fun v => if v = 20 then 15 else v)

/-- The state after `heap_peek` on heap 0 of `world_one`. -/
def world_peeked : World :=
  match world_one.step 3 (Op.peek 0) with
  | some (w, _) => w
  | none => world_one

end BH

namespace BH

/-- The heap whose root list is the tree of `mem_pair` and whose cached
minimum is node 3 (payload 0). -/
def heap_pair_min : heap := { head := some 1, min := some 3 }

end BH

namespace BH

/-- The memory `mem_pair` after `heap_node_init` of node 4 with payload 7. -/
def mem_quad : Mem := heap_node_init mem_pair 4 7

/-- The comparator `token_cmp` where the payload 7 has priority -1 and every
other payload is its own priority. -/
def cmp_minus : Prio := token_cmp (fun v => if v = 7 then -1 else v)

end BH

namespace BH

/-- A memory in which node `a` has payload `a`, null pointers and degree 0. -/
def mem_ident : Mem :=
  fun a => { parent := none, next := none, child := none, degree := 0, value := a, ref := none }

/-- The function `__dl_time_before` of `htest-next.c`,
`(long long)(a - b) < 0` on `unsigned long long`: the difference wraps at
`2 ^ 64` and is negative as a signed number when it is `2 ^ 63` or more. -/
def __dl_time_before (a b : Nat) : Bool :=
  decide (2 ^ 63 ≤ (a % 2 ^ 64 + 2 ^ 64 - b % 2 ^ 64) % 2 ^ 64)

/-- The comparator `task_cmp` of `htest-next.c` for payloads whose deadline
field is given by `dline`. -/
def task_cmp (dline : Nat → Nat) : Prio := fun a b => __dl_time_before (dline a) (dline b)

/-- The deadlines of `tasks2` in `htest-next.c`, 12, 4, 4, 5, as the
deadlines of the payloads 1, 2, 3, 4. -/
def dline_tasks2 : Nat → Nat :=
  fun v => if v = 1 then 12 else if v = 2 then 4 else if v = 3 then 4 else 5

end BH

namespace BH

/-- The degree fields of the nodes of a list, in list order. -/
def HT.degs : HT → List Nat
  | HT.nil => []
  | HT.node _ d _ n => d :: HT.degs n

/-- The list `t` is the child list of a node of degree `k` in a binomial
tree: its first node has degree `k - 1` and such a child list itself, and
the rest is the child list of a node of degree `k - 1`. -/
def HT.ChildList : HT → Nat → Prop
  | HT.nil, k => k = 0
  | HT.node _ d c n, k => k = d + 1 ∧ HT.ChildList c d ∧ HT.ChildList n d

/-- Every node of the list is the root of a binomial tree of its degree. -/
def HT.Trees : HT → Prop
  | HT.nil => True
  | HT.node _ d c n => HT.ChildList c d ∧ HT.Trees n

/-- A binomial root list: binomial trees of strictly increasing degree. -/
def HT.Binomial (T : HT) : Prop :=
  T.Trees ∧ T.degs.Pairwise (fun x y => x < y)

/-- The property `P address degree children` holds for every node of the
forest: the list nodes and all their descendants. -/
def HT.Forall (P : Nat → Nat → HT → Prop) : HT → Prop
  | HT.nil => True
  | HT.node a d c n => P a d c ∧ HT.Forall P c ∧ HT.Forall P n

end BH

namespace BH

/-- The set of nodes inserted so far, after one more call. -/
def Op.nodes (S : Finset Nat) : Op → Finset Nat
  | Op.insert _ node _ _ => Insert.insert node S
  | _ => S

/-- The states reached from initialised heaps and the memory `m0` by calls of
a correct client, with the set of the nodes that were inserted on the way. -/
inductive ReachIn (m0 : Mem) : Finset Nat → World → Prop where
  | init (sl : Slots) (hp : Prio) : StrictWeak hp →
      ReachIn m0 ∅ (World.mk m0 sl (fun _ => heap_init) hp)
  | step (fuel : Nat) (S : Finset Nat) (w w2 : World) (op : Op) (out : Option Nat) :
      ReachIn m0 S w → Legal w op → w.step fuel op = some (w2, out) →
      ReachIn m0 (op.nodes S) w2

/-- The invariant behind the degree fields: besides `Inv`, every root list is
binomial, all nodes in heaps are in `S`, a cached minimum has a degree below
the sentinel, and a node in no heap is marked `NOT_IN_HEAP` or it is not in
`S` and has the degree field it had in the memory `m0`. -/
def ExtInv (S : Finset Nat) (m0 : Mem) (w : World) (Ts : Nat → HT) : Prop :=
  Inv w Ts ∧ (∀ i, (Ts i).Binomial) ∧
  (∀ i, ∀ x ∈ members (w.hs i) (Ts i), x ∈ S) ∧
  (∀ i x, (w.hs i).min = some x → (w.m x).degree < UINT_MAX) ∧
  (∀ n, (∀ i, n ∉ members (w.hs i) (Ts i)) →
    (w.m n).degree = NOT_IN_HEAP ∨ (n ∉ S ∧ (w.m n).degree = (m0 n).degree))

end BH

namespace BH

/-- A memory with three roots: node 1 of degree 3 followed by node 2, and
node 3, where nodes 2 and 3 carry the degree `UINT_MAX`. -/
def mem_wrap : Mem :=
  fun a =>
    if a = 1 then
      { parent := none, next := some 2, child := none, degree := 3, value := 1, ref := none }
    else
      { parent := none, next := none, child := none, degree := UINT_MAX, value := a, ref := none }

end BH

namespace BH

/-- The comparator after the payload 20 has been given priority 10, the
priority of the payload 10. -/
def cmp_tie : Prio := token_cmp (fun v => if v = 20 then 10 else v)

end BH

namespace BH

/-- The state after `add_token` of the payload 3 with node 2 into heap 0 of
`world_one`: node 2 is the root of a tree of degree 1 with child node 1. -/
def world_two : World :=
  match world_one.step 4 (Op.insert 0 2 3 none) with
  | some (w, _) => w
  | none => world_one

/-- The state after `add_token` of the payload 7 with node 3 into heap 0 of
`world_two`: the root list is node 3 (degree 0), then node 2 (degree 1). -/
def world_three : World :=
  match world_two.step 5 (Op.insert 0 3 7 none) with
  | some (w, _) => w
  | none => world_two

/-- The state after `heap_peek` on heap 0 of `world_three`: node 2 is the
cached minimum, and the forest is the tree with root node 1 and child
node 3. -/
def world_three_peeked : World :=
  match world_three.step 5 (Op.peek 0) with
  | some (w, _) => w
  | none => world_three

/-- The state after `add_token` of the payload 1 with node 4 into heap 0 of
`world_three`: one tree of degree 2 with root node 4. -/
def world_four : World :=
  match world_three.step 6 (Op.insert 0 4 1 none) with
  | some (w, _) => w
  | none => world_three

/-- The state after `heap_take` on heap 0 of `world_four`: node 4 is removed
and its children are back on the root list, node 3 (degree 0), then node 2
(degree 1). -/
def world_four_taken : World :=
  match world_four.step 6 (Op.take 0) with
  | some (w, _) => w
  | none => world_four

end BH

namespace BH

/-! ## Reading a field after an assignment -/

@[simp] theorem set_parent_parent (m : Mem) (a : Nat) (p : Option Nat) (x : Nat) :
    (set_parent m a p x).parent = if x = a then p else (m x).parent := by
  unfold set_parent; by_cases h : x = a <;> simp [h]

@[simp] theorem set_parent_next (m : Mem) (a : Nat) (p : Option Nat) (x : Nat) :
    (set_parent m a p x).next = (m x).next := by
  unfold set_parent; by_cases h : x = a <;> simp [h]

@[simp] theorem set_parent_child (m : Mem) (a : Nat) (p : Option Nat) (x : Nat) :
    (set_parent m a p x).child = (m x).child := by
  unfold set_parent; by_cases h : x = a <;> simp [h]

@[simp] theorem set_parent_degree (m : Mem) (a : Nat) (p : Option Nat) (x : Nat) :
    (set_parent m a p x).degree = (m x).degree := by
  unfold set_parent; by_cases h : x = a <;> simp [h]

@[simp] theorem set_parent_value (m : Mem) (a : Nat) (p : Option Nat) (x : Nat) :
    (set_parent m a p x).value = (m x).value := by
  unfold set_parent; by_cases h : x = a <;> simp [h]

@[simp] theorem set_parent_ref (m : Mem) (a : Nat) (p : Option Nat) (x : Nat) :
    (set_parent m a p x).ref = (m x).ref := by
  unfold set_parent; by_cases h : x = a <;> simp [h]

theorem set_parent_other (m : Mem) (a : Nat) (p : Option Nat) (x : Nat) (h : x ≠ a) :
    set_parent m a p x = m x := by
  unfold set_parent; simp [h]

@[simp] theorem set_next_parent (m : Mem) (a : Nat) (p : Option Nat) (x : Nat) :
    (set_next m a p x).parent = (m x).parent := by
  unfold set_next; by_cases h : x = a <;> simp [h]

@[simp] theorem set_next_next (m : Mem) (a : Nat) (p : Option Nat) (x : Nat) :
    (set_next m a p x).next = if x = a then p else (m x).next := by
  unfold set_next; by_cases h : x = a <;> simp [h]

@[simp] theorem set_next_child (m : Mem) (a : Nat) (p : Option Nat) (x : Nat) :
    (set_next m a p x).child = (m x).child := by
  unfold set_next; by_cases h : x = a <;> simp [h]

@[simp] theorem set_next_degree (m : Mem) (a : Nat) (p : Option Nat) (x : Nat) :
    (set_next m a p x).degree = (m x).degree := by
  unfold set_next; by_cases h : x = a <;> simp [h]

@[simp] theorem set_next_value (m : Mem) (a : Nat) (p : Option Nat) (x : Nat) :
    (set_next m a p x).value = (m x).value := by
  unfold set_next; by_cases h : x = a <;> simp [h]

@[simp] theorem set_next_ref (m : Mem) (a : Nat) (p : Option Nat) (x : Nat) :
    (set_next m a p x).ref = (m x).ref := by
  unfold set_next; by_cases h : x = a <;> simp [h]

theorem set_next_other (m : Mem) (a : Nat) (p : Option Nat) (x : Nat) (h : x ≠ a) :
    set_next m a p x = m x := by
  unfold set_next; simp [h]

@[simp] theorem set_child_parent (m : Mem) (a : Nat) (p : Option Nat) (x : Nat) :
    (set_child m a p x).parent = (m x).parent := by
  unfold set_child; by_cases h : x = a <;> simp [h]

@[simp] theorem set_child_next (m : Mem) (a : Nat) (p : Option Nat) (x : Nat) :
    (set_child m a p x).next = (m x).next := by
  unfold set_child; by_cases h : x = a <;> simp [h]

@[simp] theorem set_child_child (m : Mem) (a : Nat) (p : Option Nat) (x : Nat) :
    (set_child m a p x).child = if x = a then p else (m x).child := by
  unfold set_child; by_cases h : x = a <;> simp [h]

@[simp] theorem set_child_degree (m : Mem) (a : Nat) (p : Option Nat) (x : Nat) :
    (set_child m a p x).degree = (m x).degree := by
  unfold set_child; by_cases h : x = a <;> simp [h]

@[simp] theorem set_child_value (m : Mem) (a : Nat) (p : Option Nat) (x : Nat) :
    (set_child m a p x).value = (m x).value := by
  unfold set_child; by_cases h : x = a <;> simp [h]

@[simp] theorem set_child_ref (m : Mem) (a : Nat) (p : Option Nat) (x : Nat) :
    (set_child m a p x).ref = (m x).ref := by
  unfold set_child; by_cases h : x = a <;> simp [h]

theorem set_child_other (m : Mem) (a : Nat) (p : Option Nat) (x : Nat) (h : x ≠ a) :
    set_child m a p x = m x := by
  unfold set_child; simp [h]

@[simp] theorem set_degree_parent (m : Mem) (a : Nat) (p : Nat) (x : Nat) :
    (set_degree m a p x).parent = (m x).parent := by
  unfold set_degree; by_cases h : x = a <;> simp [h]

@[simp] theorem set_degree_next (m : Mem) (a : Nat) (p : Nat) (x : Nat) :
    (set_degree m a p x).next = (m x).next := by
  unfold set_degree; by_cases h : x = a <;> simp [h]

@[simp] theorem set_degree_child (m : Mem) (a : Nat) (p : Nat) (x : Nat) :
    (set_degree m a p x).child = (m x).child := by
  unfold set_degree; by_cases h : x = a <;> simp [h]

@[simp] theorem set_degree_degree (m : Mem) (a : Nat) (p : Nat) (x : Nat) :
    (set_degree m a p x).degree = if x = a then p else (m x).degree := by
  unfold set_degree; by_cases h : x = a <;> simp [h]

@[simp] theorem set_degree_value (m : Mem) (a : Nat) (p : Nat) (x : Nat) :
    (set_degree m a p x).value = (m x).value := by
  unfold set_degree; by_cases h : x = a <;> simp [h]

@[simp] theorem set_degree_ref (m : Mem) (a : Nat) (p : Nat) (x : Nat) :
    (set_degree m a p x).ref = (m x).ref := by
  unfold set_degree; by_cases h : x = a <;> simp [h]

theorem set_degree_other (m : Mem) (a : Nat) (p : Nat) (x : Nat) (h : x ≠ a) :
    set_degree m a p x = m x := by
  unfold set_degree; simp [h]

@[simp] theorem set_value_parent (m : Mem) (a : Nat) (p : Nat) (x : Nat) :
    (set_value m a p x).parent = (m x).parent := by
  unfold set_value; by_cases h : x = a <;> simp [h]

@[simp] theorem set_value_next (m : Mem) (a : Nat) (p : Nat) (x : Nat) :
    (set_value m a p x).next = (m x).next := by
  unfold set_value; by_cases h : x = a <;> simp [h]

@[simp] theorem set_value_child (m : Mem) (a : Nat) (p : Nat) (x : Nat) :
    (set_value m a p x).child = (m x).child := by
  unfold set_value; by_cases h : x = a <;> simp [h]

@[simp] theorem set_value_degree (m : Mem) (a : Nat) (p : Nat) (x : Nat) :
    (set_value m a p x).degree = (m x).degree := by
  unfold set_value; by_cases h : x = a <;> simp [h]

@[simp] theorem set_value_value (m : Mem) (a : Nat) (p : Nat) (x : Nat) :
    (set_value m a p x).value = if x = a then p else (m x).value := by
  unfold set_value; by_cases h : x = a <;> simp [h]

@[simp] theorem set_value_ref (m : Mem) (a : Nat) (p : Nat) (x : Nat) :
    (set_value m a p x).ref = (m x).ref := by
  unfold set_value; by_cases h : x = a <;> simp [h]

theorem set_value_other (m : Mem) (a : Nat) (p : Nat) (x : Nat) (h : x ≠ a) :
    set_value m a p x = m x := by
  unfold set_value; simp [h]

@[simp] theorem set_ref_parent (m : Mem) (a : Nat) (p : Option Nat) (x : Nat) :
    (set_ref m a p x).parent = (m x).parent := by
  unfold set_ref; by_cases h : x = a <;> simp [h]

@[simp] theorem set_ref_next (m : Mem) (a : Nat) (p : Option Nat) (x : Nat) :
    (set_ref m a p x).next = (m x).next := by
  unfold set_ref; by_cases h : x = a <;> simp [h]

@[simp] theorem set_ref_child (m : Mem) (a : Nat) (p : Option Nat) (x : Nat) :
    (set_ref m a p x).child = (m x).child := by
  unfold set_ref; by_cases h : x = a <;> simp [h]

@[simp] theorem set_ref_degree (m : Mem) (a : Nat) (p : Option Nat) (x : Nat) :
    (set_ref m a p x).degree = (m x).degree := by
  unfold set_ref; by_cases h : x = a <;> simp [h]

@[simp] theorem set_ref_value (m : Mem) (a : Nat) (p : Option Nat) (x : Nat) :
    (set_ref m a p x).value = (m x).value := by
  unfold set_ref; by_cases h : x = a <;> simp [h]

@[simp] theorem set_ref_ref (m : Mem) (a : Nat) (p : Option Nat) (x : Nat) :
    (set_ref m a p x).ref = if x = a then p else (m x).ref := by
  unfold set_ref; by_cases h : x = a <;> simp [h]

theorem set_ref_other (m : Mem) (a : Nat) (p : Option Nat) (x : Nat) (h : x ≠ a) :
    set_ref m a p x = m x := by
  unfold set_ref; simp [h]

@[simp] theorem set_slot_same (sl : Slots) (r : Nat) (p : Option Nat) :
    set_slot sl r p r = p := by
  simp [set_slot]

theorem set_slot_other (sl : Slots) (r : Nat) (p : Option Nat) (x : Nat) (h : x ≠ r) :
    set_slot sl r p x = sl x := by
  simp [set_slot, h]

/-- Two node records with the same six fields are equal. -/
theorem heap_node_ext {x y : heap_node} (h1 : x.parent = y.parent) (h2 : x.next = y.next)
    (h3 : x.child = y.child) (h4 : x.degree = y.degree) (h5 : x.value = y.value)
    (h6 : x.ref = y.ref) : x = y := by
  cases x; cases y; simp_all

end BH

namespace BH

theorem StrictWeak.asymm {hp : Prio} (h : StrictWeak hp) {a b : Nat} (hab : hp a b = true) :
    hp b a = false := by
  by_contra hba
  have hba' : hp b a = true := by simpa using hba
  have := h.trans a b a hab hba'
  rw [h.irrefl a] at this
  exact Bool.noConfusion this

/-! ### Basic facts about shapes -/

@[simp] theorem HT.hd_nil : HT.nil.hd = none := rfl

@[simp] theorem HT.hd_node (a d : Nat) (c n : HT) : (HT.node a d c n).hd = some a := rfl

@[simp] theorem HT.degHd_nil : HT.nil.degHd = none := rfl

@[simp] theorem HT.degHd_node (a d : Nat) (c n : HT) : (HT.node a d c n).degHd = some d := rfl

theorem HT.roots_subset_addrs (t : HT) : ∀ x ∈ t.roots, x ∈ t.addrs := by
  induction t with
  | nil => simp [HT.roots]
  | node a d c n _ ihn =>
    intro x hx
    simp only [HT.roots, List.mem_cons] at hx
    simp only [HT.addrs, List.mem_cons, List.mem_append]
    rcases hx with h | h
    · exact Or.inl h
    · exact Or.inr (Or.inr (ihn x h))

theorem HT.length_addrs (t : HT) : t.addrs.length = t.size := by
  induction t with
  | nil => rfl
  | node a d c n ihc ihn => simp [HT.addrs, HT.size, ihc, ihn]

theorem HT.hd_eq_none {t : HT} : t.hd = none ↔ t = HT.nil := by
  cases t <;> simp [HT.hd]

theorem HT.hd_mem_roots {t : HT} {x : Nat} (h : t.hd = some x) : x ∈ t.roots := by
  cases t with
  | nil => simp [HT.hd] at h
  | node a d c n => simp [HT.hd] at h; simp [HT.roots, h]

/-- The representation only depends on the nodes of the structure. -/
theorem Rep.frame {m m' : Mem} {t : HT} : ∀ {par : Option Nat}, Rep m par t →
    (∀ x ∈ t.addrs, m' x = m x) → Rep m' par t := by
  induction t with
  | nil => intro _ _ _; trivial
  | node a d c n ihc ihn =>
    intro par h hf
    obtain ⟨h1, h2, h3, h4, h5, h6⟩ := h
    have ha : m' a = m a := hf a (by simp [HT.addrs])
    refine ⟨by rw [ha]; exact h1, by rw [ha]; exact h2, by rw [ha]; exact h3,
      by rw [ha]; exact h4, ihc h5 ?_, ihn h6 ?_⟩
    · intro x hx; exact hf x (by simp [HT.addrs, hx])
    · intro x hx; exact hf x (by simp [HT.addrs, hx])

/-- The representation only depends on the structural fields. -/
theorem Rep.structEq {m m' : Mem} {t : HT} (hs : StructEq m m') :
    ∀ {par : Option Nat}, Rep m par t → Rep m' par t := by
  induction t with
  | nil => intro _ _; trivial
  | node a d c n ihc ihn =>
    intro par h
    obtain ⟨h1, h2, h3, h4, h5, h6⟩ := h
    obtain ⟨e1, e2, e3, e4⟩ := hs a
    exact ⟨by rw [e1]; exact h1, by rw [e4]; exact h2, by rw [e3]; exact h3,
      by rw [e2]; exact h4, ihc h5, ihn h6⟩

/-- Every node on a represented list has the list's parent pointer. -/
theorem Rep.parent_of_root {m : Mem} {t : HT} : ∀ {par : Option Nat}, Rep m par t →
    ∀ x ∈ t.roots, (m x).parent = par := by
  induction t with
  | nil => intro _ _ x hx; simp [HT.roots] at hx
  | node a d c n _ ihn =>
    intro par h x hx
    simp only [HT.roots, List.mem_cons] at hx
    rcases hx with rfl | hx
    · exact h.1
    · exact ihn h.2.2.2.2.2 x hx

/-- Changing the parent pointer of the list nodes only. -/
theorem Rep.reparent {m m' : Mem} {t : HT} {par par' : Option Nat} (h : Rep m par t)
    (hr : ∀ x ∈ t.roots, m' x = { m x with parent := par' })
    (hf : ∀ x ∈ t.addrs, x ∉ t.roots → m' x = m x) (hn : t.addrs.Nodup) :
    Rep m' par' t := by
  induction t with
  | nil => trivial
  | node a d c n _ ihn =>
    obtain ⟨h1, h2, h3, h4, h5, h6⟩ := h
    simp only [HT.addrs, List.nodup_cons, List.mem_append, not_or, List.nodup_append] at hn
    obtain ⟨⟨hac, han⟩, hcn, hnn, hdisj⟩ := hn
    have ha : m' a = { m a with parent := par' } := hr a (by simp [HT.roots])
    refine ⟨by rw [ha], by rw [ha]; exact h2, by rw [ha]; exact h3, by rw [ha]; exact h4, ?_, ?_⟩
    · apply Rep.frame h5
      intro x hx
      apply hf x (by simp [HT.addrs, hx])
      simp only [HT.roots, List.mem_cons, not_or]
      refine ⟨fun e => hac (e ▸ hx), fun hxr => hdisj hx (HT.roots_subset_addrs n x hxr)⟩
    · apply ihn h6
      · intro x hx; exact hr x (by simp [HT.roots, hx])
      · intro x hx hxr
        apply hf x (by simp [HT.addrs, hx])
        simp only [HT.roots, List.mem_cons, not_or]
        exact ⟨fun e => han (e ▸ hx), hxr⟩
      · exact hnn

end BH

namespace BH

/-! ## Refinement: `__heap_merge` -/

theorem OnlyNext.on_refl (m : Mem) : OnlyNext m m := fun _ => ⟨rfl, rfl, rfl, rfl, rfl⟩

theorem OnlyNext.on_trans {m1 m2 m3 : Mem} (h1 : OnlyNext m1 m2) (h2 : OnlyNext m2 m3) :
    OnlyNext m1 m3 := by
  intro x
  obtain ⟨a1, a2, a3, a4, a5⟩ := h1 x
  obtain ⟨b1, b2, b3, b4, b5⟩ := h2 x
  exact ⟨b1.trans a1, b2.trans a2, b3.trans a3, b4.trans a4, b5.trans a5⟩

theorem OnlyNext.on_set_next (m : Mem) (a : Nat) (p : Option Nat) : OnlyNext m (set_next m a p) := by
  intro x; simp

theorem set_next_same (m : Mem) (a : Nat) (p : Option Nat) :
    set_next m a p a = { m a with next := p } := by
  simp [set_next]

theorem store_pos_fst (m : Mem) (head pos x : Option Nat) :
    (store_pos m head pos x).1 = match pos with
      | none => m
      | some p => set_next m p x := by
  cases pos <;> rfl

theorem store_pos_snd (m : Mem) (head pos x : Option Nat) :
    (store_pos m head pos x).2 = pos_head pos x head := by
  cases pos <;> rfl

theorem store_pos_other (m : Mem) (head pos x : Option Nat) (y : Nat) (h : pos ≠ some y) :
    (store_pos m head pos x).1 y = m y := by
  cases pos with
  | none => rfl
  | some p =>
    have : y ≠ p := fun e => h (by rw [e])
    simp [store_pos, set_next_other _ _ _ _ this]

theorem store_pos_onlyNext (m : Mem) (head pos x : Option Nat) :
    OnlyNext m (store_pos m head pos x).1 := by
  cases pos with
  | none => exact OnlyNext.on_refl m
  | some p => exact OnlyNext.on_set_next m p x

theorem HT.merge_nil_left (b : HT) : HT.merge HT.nil b = b := by
  cases b <;> simp [HT.merge]

theorem HT.merge_nil_right (a : HT) : HT.merge a HT.nil = a := by
  cases a <;> simp [HT.merge]

theorem HT.merge_node (a1 d1 : Nat) (c1 n1 : HT) (a2 d2 : Nat) (c2 n2 : HT) :
    HT.merge (HT.node a1 d1 c1 n1) (HT.node a2 d2 c2 n2) =
      if d1 < d2 then HT.node a1 d1 c1 (HT.merge n1 (HT.node a2 d2 c2 n2))
      else HT.node a2 d2 c2 (HT.merge (HT.node a1 d1 c1 n1) n2) := by
  rw [HT.merge]

/-- Result of the final `*pos = x` of the merge loop. -/
theorem merge_tail_spec (m : Mem) (head pos : Option Nat) (t : HT)
    (hr : Rep m none t) (hpos : ∀ p, pos = some p → p ∉ t.addrs) :
    (store_pos m head pos t.hd).2 = pos_head pos t.hd head ∧
    Rep (store_pos m head pos t.hd).1 none t ∧
    (∀ p, pos = some p → (store_pos m head pos t.hd).1 p = { m p with next := t.hd }) ∧
    (∀ x, pos ≠ some x → (store_pos m head pos t.hd).1 x = m x) ∧
    OnlyNext m (store_pos m head pos t.hd).1 := by
  refine ⟨store_pos_snd _ _ _ _, ?_, ?_, ?_, store_pos_onlyNext _ _ _ _⟩
  · apply Rep.frame hr
    intro x hx
    apply store_pos_other
    intro e
    exact hpos x e hx
  · intro p e
    subst e
    simp [store_pos, set_next_same]
  · intro x hx
    exact store_pos_other _ _ _ _ _ hx

theorem merge_loop_spec : ∀ (fuel : Nat) (A B : HT) (m : Mem) (head pos : Option Nat),
    Rep m none A → Rep m none B → (A.addrs ++ B.addrs).Nodup →
    (∀ p, pos = some p → p ∉ A.addrs ++ B.addrs) →
    A.roots.length + B.roots.length < fuel →
    ∃ m', __heap_merge_loop fuel m head pos A.hd B.hd
        = some (m', pos_head pos (A.merge B).hd head) ∧
      Rep m' none (A.merge B) ∧
      (∀ p, pos = some p → m' p = { m p with next := (A.merge B).hd }) ∧
      (∀ x, x ∉ A.roots ++ B.roots → pos ≠ some x → m' x = m x) ∧
      OnlyNext m m' := by
  intro fuel
  induction fuel with
  | zero => intro A B m head pos _ _ _ _ hf; omega
  | succ fuel ih =>
    intro A B m head pos hA hB hnd hpos hf
    cases A with
    | nil =>
      obtain ⟨t1, t2, t3, t4, t5⟩ := merge_tail_spec m head pos B hB
        (fun p e => by simpa [HT.addrs] using hpos p e)
      refine ⟨(store_pos m head pos B.hd).1, ?_, ?_, ?_, ?_, ?_⟩
      · simp only [HT.hd_nil, __heap_merge_loop, HT.merge_nil_left]
        rw [← t1]
      · rw [HT.merge_nil_left]; exact t2
      · rw [HT.merge_nil_left]; exact t3
      · intro x _ hx; exact t4 x hx
      · exact t5
    | node a1 d1 c1 n1 =>
      cases B with
      | nil =>
        obtain ⟨t1, t2, t3, t4, t5⟩ := merge_tail_spec m head pos (HT.node a1 d1 c1 n1) hA
          (fun p e => by simpa [HT.addrs] using hpos p e)
        refine ⟨(store_pos m head pos (HT.node a1 d1 c1 n1).hd).1, ?_, ?_, ?_, ?_, ?_⟩
        · simp only [HT.hd_nil, HT.hd_node, __heap_merge_loop, HT.merge_nil_right]
          simp only [HT.hd_node] at t1
          rw [← t1]
        · rw [HT.merge_nil_right]; exact t2
        · rw [HT.merge_nil_right]; exact t3
        · intro x _ hx; exact t4 x hx
        · exact t5
      | node a2 d2 c2 n2 =>
        obtain ⟨hA1, hA2, hA3, hA4, hA5, hA6⟩ := hA
        obtain ⟨hB1, hB2, hB3, hB4, hB5, hB6⟩ := hB
        have hnd' := hnd
        simp only [HT.addrs, List.cons_append, List.nodup_cons, List.mem_append, List.mem_cons,
          not_or, List.nodup_append, List.append_assoc] at hnd'
        by_cases hlt : d1 < d2
        · -- take the first node of `A`
          have hpa1 : pos ≠ some a1 := fun e => hpos a1 e (by simp [HT.addrs])
          have hA' : Rep m none (HT.node a1 d1 c1 n1) := ⟨hA1, hA2, hA3, hA4, hA5, hA6⟩
          have hB' : Rep m none (HT.node a2 d2 c2 n2) := ⟨hB1, hB2, hB3, hB4, hB5, hB6⟩
          set r := store_pos m head pos (some a1) with hr
          have hr1 : ∀ x, pos ≠ some x → r.1 x = m x := fun x hx => store_pos_other _ _ _ _ _ hx
          have hrA : ∀ x ∈ (HT.node a1 d1 c1 n1).addrs, r.1 x = m x := fun x hx =>
            hr1 x (fun e => hpos x e (by simp [hx]))
          have hrB : ∀ x ∈ (HT.node a2 d2 c2 n2).addrs, r.1 x = m x := fun x hx =>
            hr1 x (fun e => hpos x e (by simp [hx]))
          have hn1 : Rep r.1 none n1 := Rep.frame hA6 (fun x hx => hrA x (by simp [HT.addrs, hx]))
          have hB2' : Rep r.1 none (HT.node a2 d2 c2 n2) := Rep.frame hB' hrB
          have hnd1 : (n1.addrs ++ (HT.node a2 d2 c2 n2).addrs).Nodup := by
            have := hnd
            simp only [HT.addrs, List.cons_append, List.nodup_cons] at this
            have h2 := this.2
            rw [List.append_assoc] at h2
            exact (List.nodup_append.1 h2).2.1
          have ha1 : a1 ∉ n1.addrs ++ (HT.node a2 d2 c2 n2).addrs := by
            have := hnd
            simp only [HT.addrs, List.cons_append, List.nodup_cons] at this
            intro hmem
            apply this.1
            simp only [List.mem_append, List.mem_cons, HT.addrs] at hmem ⊢
            tauto
          obtain ⟨m', e1, e2, e3, e4, e5⟩ := ih n1 (HT.node a2 d2 c2 n2) r.1 r.2 (some a1)
            hn1 hB2' hnd1 (fun p e => by cases e; exact ha1)
            (by simp only [HT.roots, List.length_cons] at hf ⊢; omega)
          refine ⟨m', ?_, ?_, ?_, ?_, ?_⟩
          · simp only [HT.hd_node, __heap_merge_loop]
            rw [hA2, hB2, if_pos hlt]
            have : (r.1 a1).next = n1.hd := by rw [hrA a1 (by simp [HT.addrs])]; exact hA4
            rw [← hr, this]
            simp only [HT.hd_node] at e1
            rw [e1, HT.merge_node, if_pos hlt]
            cases pos <;> simp [hr, store_pos, pos_head]
          · rw [HT.merge_node, if_pos hlt]
            have hm1 := e3 a1 rfl
            have hra1 := hrA a1 (by simp [HT.addrs])
            refine ⟨by rw [hm1, hra1]; exact hA1, by rw [hm1, hra1]; exact hA2,
              by rw [hm1, hra1]; exact hA3, by rw [hm1], ?_, e2⟩
            apply Rep.frame hA5
            intro x hx
            have hx1 : x ∈ (HT.node a1 d1 c1 n1).addrs := by simp [HT.addrs, hx]
            rw [← hrA x hx1]
            apply e4
            · have := hnd
              simp only [HT.addrs, List.cons_append, List.nodup_cons] at this
              have h2 := this.2
              rw [List.append_assoc] at h2
              have hd := (List.nodup_append.1 h2).2.2
              intro hmem
              rcases List.mem_append.1 hmem with h | h
              · exact hd hx (List.mem_append.2 (Or.inl (HT.roots_subset_addrs _ _ h)))
              · exact hd hx (List.mem_append.2 (Or.inr (HT.roots_subset_addrs _ _ h)))
            · intro e
              cases e
              have := hnd
              simp only [HT.addrs, List.cons_append, List.nodup_cons] at this
              exact this.1 (by simp [hx])
          · intro p e
            subst e
            rw [HT.merge_node, if_pos hlt]
            have hp1 : p ≠ a1 := fun e => hpa1 (by rw [e])
            rw [e4 p ?_ (by simpa using Ne.symm hp1)]
            · simp [hr, store_pos, set_next_same]
            · intro hmem
              apply hpos p rfl
              rcases List.mem_append.1 hmem with h | h
              · simp [HT.addrs, HT.roots_subset_addrs _ _ h]
              · exact List.mem_append.2 (Or.inr (HT.roots_subset_addrs _ _ h))
          · intro x hx hpx
            have hxa : x ≠ a1 := fun e => hx (by simp [e, HT.roots])
            rw [e4 x ?_ (by simpa using Ne.symm hxa)]
            · exact hr1 x hpx
            · intro hmem
              apply hx
              simp only [HT.roots, List.mem_append, List.mem_cons] at hmem ⊢
              tauto
          · exact OnlyNext.on_trans (store_pos_onlyNext _ _ _ _) e5
        · -- take the first node of `B`
          have hpa2 : pos ≠ some a2 := fun e => hpos a2 e (by simp [HT.addrs])
          have hA' : Rep m none (HT.node a1 d1 c1 n1) := ⟨hA1, hA2, hA3, hA4, hA5, hA6⟩
          have hB' : Rep m none (HT.node a2 d2 c2 n2) := ⟨hB1, hB2, hB3, hB4, hB5, hB6⟩
          set r := store_pos m head pos (some a2) with hr
          have hr1 : ∀ x, pos ≠ some x → r.1 x = m x := fun x hx => store_pos_other _ _ _ _ _ hx
          have hrA : ∀ x ∈ (HT.node a1 d1 c1 n1).addrs, r.1 x = m x := fun x hx =>
            hr1 x (fun e => hpos x e (by simp [hx]))
          have hrB : ∀ x ∈ (HT.node a2 d2 c2 n2).addrs, r.1 x = m x := fun x hx =>
            hr1 x (fun e => hpos x e (by simp [hx]))
          have hn2 : Rep r.1 none n2 := Rep.frame hB6 (fun x hx => hrB x (by simp [HT.addrs, hx]))
          have hA2' : Rep r.1 none (HT.node a1 d1 c1 n1) := Rep.frame hA' hrA
          have hsplit := hnd
          rw [List.nodup_append] at hsplit
          obtain ⟨hndA, hndB, hdisj⟩ := hsplit
          have hndB' := hndB
          simp only [HT.addrs, List.nodup_cons, List.mem_append, not_or, List.nodup_append] at hndB'
          have hnd1 : ((HT.node a1 d1 c1 n1).addrs ++ n2.addrs).Nodup := by
            rw [List.nodup_append]
            refine ⟨hndA, hndB'.2.2.1, ?_⟩
            intro x hx1 hx2
            exact hdisj hx1 (by simp [HT.addrs, hx2])
          have ha2 : a2 ∉ (HT.node a1 d1 c1 n1).addrs ++ n2.addrs := by
            intro hmem
            rcases List.mem_append.1 hmem with h | h
            · exact hdisj h (by simp [HT.addrs])
            · exact hndB'.1.2 h
          obtain ⟨m', e1, e2, e3, e4, e5⟩ := ih (HT.node a1 d1 c1 n1) n2 r.1 r.2 (some a2)
            hA2' hn2 hnd1 (fun p e => by cases e; exact ha2)
            (by simp only [HT.roots, List.length_cons] at hf ⊢; omega)
          refine ⟨m', ?_, ?_, ?_, ?_, ?_⟩
          · simp only [HT.hd_node, __heap_merge_loop]
            rw [hA2, hB2, if_neg hlt]
            have : (r.1 a2).next = n2.hd := by rw [hrB a2 (by simp [HT.addrs])]; exact hB4
            rw [← hr, this]
            simp only [HT.hd_node] at e1
            rw [e1, HT.merge_node, if_neg hlt]
            cases pos <;> simp [hr, store_pos, pos_head]
          · rw [HT.merge_node, if_neg hlt]
            have hm1 := e3 a2 rfl
            have hra2 := hrB a2 (by simp [HT.addrs])
            refine ⟨by rw [hm1, hra2]; exact hB1, by rw [hm1, hra2]; exact hB2,
              by rw [hm1, hra2]; exact hB3, by rw [hm1], ?_, e2⟩
            apply Rep.frame hB5
            intro x hx
            have hx1 : x ∈ (HT.node a2 d2 c2 n2).addrs := by simp [HT.addrs, hx]
            rw [← hrB x hx1]
            apply e4
            · intro hmem
              rcases List.mem_append.1 hmem with h | h
              · exact hdisj (HT.roots_subset_addrs _ _ h) hx1
              · exact hndB'.2.2.2 hx (HT.roots_subset_addrs _ _ h)
            · intro e
              cases e
              exact hndB'.1.1 hx
          · intro p e
            subst e
            rw [HT.merge_node, if_neg hlt]
            have hp1 : p ≠ a2 := fun e => hpa2 (by rw [e])
            rw [e4 p ?_ (by simpa using Ne.symm hp1)]
            · simp [hr, store_pos, set_next_same]
            · intro hmem
              apply hpos p rfl
              rcases List.mem_append.1 hmem with h | h
              · exact List.mem_append.2 (Or.inl (HT.roots_subset_addrs _ _ h))
              · exact List.mem_append.2 (Or.inr (by simp [HT.addrs, HT.roots_subset_addrs _ _ h]))
          · intro x hx hpx
            have hxa : x ≠ a2 := fun e => hx (by simp [e, HT.roots])
            rw [e4 x ?_ (by simpa using Ne.symm hxa)]
            · exact hr1 x hpx
            · intro hmem
              apply hx
              simp only [HT.roots, List.mem_append, List.mem_cons] at hmem ⊢
              tauto
          · exact OnlyNext.on_trans (store_pos_onlyNext _ _ _ _) e5

end BH

namespace BH

/-! ## Refinement: `__heap_reverse` -/

theorem RevEff.rv_refl (m : Mem) : RevEff m m := fun _ => ⟨Or.inl rfl, rfl, rfl, rfl, rfl⟩

theorem RevEff.rv_trans {m1 m2 m3 : Mem} (h1 : RevEff m1 m2) (h2 : RevEff m2 m3) :
    RevEff m1 m3 := by
  intro x
  obtain ⟨a1, a2, a3, a4, a5⟩ := h1 x
  obtain ⟨b1, b2, b3, b4, b5⟩ := h2 x
  refine ⟨?_, b2.trans a2, b3.trans a3, b4.trans a4, b5.trans a5⟩
  rcases b1 with b1 | b1
  · rcases a1 with a1 | a1
    · exact Or.inl (b1.trans a1)
    · exact Or.inr (b1.trans a1)
  · exact Or.inr b1

theorem RevEff.rv_set_next (m : Mem) (a : Nat) (p : Option Nat) : RevEff m (set_next m a p) := by
  intro x; simp

theorem RevEff.set_parent_none (m : Mem) (a : Nat) : RevEff m (set_parent m a none) := by
  intro x
  by_cases h : x = a <;> simp [h]

theorem HT.rev_roots (t : HT) : ∀ acc : HT, (HT.rev acc t).roots = t.roots.reverse ++ acc.roots := by
  induction t with
  | nil => intro acc; simp [HT.rev, HT.roots]
  | node a d c n _ ihn => intro acc; simp [HT.rev, HT.roots, ihn]

theorem HT.rev_addrs_perm (t : HT) : ∀ acc : HT, (HT.rev acc t).addrs.Perm (t.addrs ++ acc.addrs) := by
  induction t with
  | nil => intro acc; simp [HT.rev, HT.addrs]
  | node a d c n _ ihn =>
    intro acc
    simp only [HT.rev]
    refine (ihn _).trans ?_
    simp only [HT.addrs, List.cons_append, List.append_assoc]
    refine List.perm_middle.trans (List.Perm.cons a ?_)
    have h1 : (n.addrs ++ (c.addrs ++ acc.addrs)).Perm ((c.addrs ++ acc.addrs) ++ n.addrs) :=
      List.perm_append_comm
    refine h1.trans ?_
    rw [List.append_assoc]
    exact List.Perm.append_left _ List.perm_append_comm

theorem reverse_loop_spec : ∀ (fuel : Nat) (t acc : HT) (m : Mem) (a d : Nat) (c : HT)
    (par : Option Nat),
    Rep m none acc → Rep m par t → (m a).parent = none → (m a).degree = d →
    (m a).child = c.hd → (m a).next = t.hd → Rep m (some a) c →
    (acc.addrs ++ (a :: (c.addrs ++ t.addrs))).Nodup →
    t.roots.length < fuel →
    ∃ m' r, __heap_reverse_loop fuel m acc.hd a = some (m', r) ∧
      some r = (HT.rev (HT.node a d c acc) t).hd ∧
      Rep m' none (HT.rev (HT.node a d c acc) t) ∧
      (∀ x, x ∉ a :: t.roots → m' x = m x) ∧ RevEff m m' := by
  intro fuel
  induction fuel with
  | zero => intro t acc m a d c par _ _ _ _ _ _ _ _ hf; omega
  | succ fuel ih =>
    intro t acc m a d c par hacc ht hp hd hc hn hcr hnd hf
    have hnd' := hnd
    simp only [List.nodup_append, List.nodup_cons, List.mem_append, List.mem_cons, not_or,
      List.disjoint_cons_right, List.disjoint_append_right] at hnd'
    obtain ⟨hnacc, ⟨⟨hac, hat⟩, hnc, hnt, hct⟩, haacc, hdc, hdt⟩ := hnd'
    cases t with
    | nil =>
      refine ⟨set_next m a acc.hd, a, ?_, ?_, ?_, ?_, RevEff.rv_set_next _ _ _⟩
      · simp only [HT.hd_nil] at hn
        simp [__heap_reverse_loop, hn]
      · simp [HT.rev]
      · simp only [HT.rev]
        refine ⟨by simpa using hp, by simpa using hd, by simpa using hc, by simp, ?_, ?_⟩
        · exact Rep.frame hcr (fun x hx => set_next_other _ _ _ _ (fun e => hac (e ▸ hx)))
        · exact Rep.frame hacc (fun x hx => set_next_other _ _ _ _ (fun e => haacc (e ▸ hx)))
      · intro x hx
        exact set_next_other _ _ _ _ (fun e => hx (by simp [e]))
    | node a2 d2 c2 n2 =>
      obtain ⟨t1, t2, t3, t4, t5, t6⟩ := ht
      simp only [HT.addrs, List.mem_cons, List.mem_append, not_or, List.nodup_cons,
        List.nodup_append, List.disjoint_cons_right, List.disjoint_append_right]
        at hat hnt hct hdt
      obtain ⟨haa2, hac2, han2⟩ := hat
      obtain ⟨⟨ha2c2, ha2n2⟩, hnc2, hnn2, hc2n2⟩ := hnt
      obtain ⟨ha2c, hcc2, hcn2⟩ := hct
      obtain ⟨ha2acc, haccc2, haccn2⟩ := hdt
      set m1 := set_next m a acc.hd with hm1
      set m2 := set_parent m1 a2 none with hm2
      have hm2x : ∀ x, x ≠ a → x ≠ a2 → m2 x = m x := by
        intro x h1 h2
        rw [hm2, set_parent_other _ _ _ _ h2, hm1, set_next_other _ _ _ _ h1]
      have ha2a : a2 ≠ a := fun e => haa2 e.symm
      have e_acc : Rep m2 none acc := Rep.frame hacc (fun x hx => hm2x x
        (fun e => haacc (e ▸ hx)) (fun e => ha2acc (e ▸ hx)))
      have e_c : Rep m2 (some a) c := Rep.frame hcr (fun x hx => hm2x x
        (fun e => hac (e ▸ hx)) (fun e => ha2c (e ▸ hx)))
      have e_c2 : Rep m2 (some a2) c2 := Rep.frame t5 (fun x hx => hm2x x
        (fun e => hac2 (e ▸ hx)) (fun e => ha2c2 (e ▸ hx)))
      have e_n2 : Rep m2 par n2 := Rep.frame t6 (fun x hx => hm2x x
        (fun e => han2 (e ▸ hx)) (fun e => ha2n2 (e ▸ hx)))
      have e_new : Rep m2 none (HT.node a d c acc) := by
        refine ⟨?_, ?_, ?_, ?_, e_c, e_acc⟩
        · simp [hm2, hm1, Ne.symm ha2a, hp]
        · simp [hm2, hm1, hd]
        · simp [hm2, hm1, hc]
        · simp [hm2, hm1]
      have hnd2 : ((HT.node a d c acc).addrs ++ (a2 :: (c2.addrs ++ n2.addrs))).Nodup := by
        simp only [HT.addrs, List.nodup_append, List.nodup_cons, List.mem_append, List.mem_cons,
          not_or, List.disjoint_cons_right, List.disjoint_append_right,
          List.disjoint_cons_left, List.disjoint_append_left]
        exact ⟨⟨⟨hac, haacc⟩, hnc, hnacc, hdc.symm⟩, ⟨⟨ha2c2, ha2n2⟩, hnc2, hnn2, hc2n2⟩,
          ⟨Ne.symm haa2, ha2c, ha2acc⟩, ⟨hac2, hcc2, haccc2⟩, han2, hcn2, haccn2⟩
      obtain ⟨m', r, e1, e2, e3, e4, e5⟩ := ih n2 (HT.node a d c acc) m2 a2 d2 c2 par e_new e_n2
        (by simp [hm2]) (by simp [hm2, hm1, t2]) (by simp [hm2, hm1, t3])
        (by simp [hm2, hm1, ha2a, t4]) e_c2 hnd2
        (by simp only [HT.roots, List.length_cons] at hf ⊢; omega)
      refine ⟨m', r, ?_, ?_, ?_, ?_, ?_⟩
      · simp only [HT.hd_node] at hn e1
        simp only [__heap_reverse_loop, hn]
        rw [← hm1, ← hm2]
        exact e1
      · simpa [HT.rev] using e2
      · simpa [HT.rev] using e3
      · intro x hx
        simp only [HT.roots, List.mem_cons, not_or] at hx
        rw [e4 x (by simp only [List.mem_cons, not_or]; exact ⟨hx.2.1, hx.2.2⟩)]
        exact hm2x x hx.1 hx.2.1
      · exact ((RevEff.rv_set_next _ _ _).rv_trans (RevEff.set_parent_none _ _)).rv_trans e5

theorem heap_reverse_spec (fuel : Nat) (m : Mem) (t : HT) (par : Option Nat)
    (ht : Rep m par t) (hnd : t.addrs.Nodup) (hf : t.roots.length ≤ fuel) :
    ∃ m', __heap_reverse fuel m t.hd = some (m', (HT.rev HT.nil t).hd) ∧
      Rep m' none (HT.rev HT.nil t) ∧
      (∀ x, x ∉ t.roots → m' x = m x) ∧ RevEff m m' := by
  cases t with
  | nil =>
    exact ⟨m, by simp [__heap_reverse, HT.rev], trivial, fun _ _ => rfl, RevEff.rv_refl m⟩
  | node a d c n =>
    obtain ⟨t1, t2, t3, t4, t5, t6⟩ := ht
    have hnd' := hnd
    simp only [HT.addrs, List.nodup_cons, List.mem_append, not_or, List.nodup_append] at hnd'
    obtain ⟨⟨hac, han⟩, hnc, hnn, hcn⟩ := hnd'
    set m1 := set_parent m a none with hm1
    have hm1x : ∀ x, x ≠ a → m1 x = m x := fun x h => set_parent_other _ _ _ _ h
    obtain ⟨m', r, e1, e2, e3, e4, e5⟩ := reverse_loop_spec fuel n HT.nil m1 a d c par trivial
      (Rep.frame t6 (fun x hx => hm1x x (fun e => han (e ▸ hx))))
      (by simp [hm1]) (by simp [hm1, t2]) (by simp [hm1, t3]) (by simp [hm1, t4])
      (Rep.frame t5 (fun x hx => hm1x x (fun e => hac (e ▸ hx))))
      (by simpa [HT.addrs] using hnd)
      (by simp only [HT.roots, List.length_cons] at hf; omega)
    refine ⟨m', ?_, ?_, ?_, ?_⟩
    · simp only [HT.hd_node, __heap_reverse, HT.rev]
      rw [← hm1]
      simp only [HT.hd_nil] at e1
      rw [e1, ← e2]
    · simpa [HT.rev] using e3
    · intro x hx
      simp only [HT.roots, List.mem_cons, not_or] at hx
      rw [e4 x (by simp only [List.mem_cons, not_or]; exact hx)]
      exact hm1x x hx.1
    · exact (RevEff.set_parent_none _ _).rv_trans e5

end BH

namespace BH

/-! ## Refinement: `__heap_link` and the loop of `__heap_union` -/

theorem DataEq.de_refl (m : Mem) : DataEq m m := fun _ => ⟨rfl, rfl⟩

theorem DataEq.de_trans {m1 m2 m3 : Mem} (h1 : DataEq m1 m2) (h2 : DataEq m2 m3) :
    DataEq m1 m3 := fun x => ⟨(h2 x).1.trans (h1 x).1, (h2 x).2.trans (h1 x).2⟩

theorem DataEq.hpa {hp : Prio} {m m' : Mem} (h : DataEq m m') : hpa_of hp m' = hpa_of hp m := by
  funext x y
  simp [hpa_of, (h x).1, (h y).1]

theorem OnlyNext.on_dataEq {m m' : Mem} (h : OnlyNext m m') : DataEq m m' :=
  fun x => ⟨(h x).2.2.2.1, (h x).2.2.2.2⟩

theorem RevEff.rv_dataEq {m m' : Mem} (h : RevEff m m') : DataEq m m' :=
  fun x => ⟨(h x).2.2.2.1, (h x).2.2.2.2⟩

theorem ParOK.po_refl (hp : Prio) (m : Mem) : ParOK hp m m := fun _ _ h => Or.inl h

theorem ParOK.po_trans {hp : Prio} {m1 m2 m3 : Mem} (h1 : ParOK hp m1 m2) (hd : DataEq m1 m2)
    (h2 : ParOK hp m2 m3) : ParOK hp m1 m3 := by
  intro a p h
  rcases h2 a p h with h' | h' | h'
  · exact h1 a p h'
  · right; left
    rw [← (hd a).1, ← (hd p).1]
    exact h'
  · right; right
    rw [← (hd a).1, ← (hd p).1]
    exact h'

theorem OnlyNext.on_parOK {hp : Prio} {m m' : Mem} (h : OnlyNext m m') : ParOK hp m m' := by
  intro a p hp'
  left
  rw [← (h a).1]
  exact hp'

theorem RevEff.rv_parOK {hp : Prio} {m m' : Mem} (h : RevEff m m') : ParOK hp m m' := by
  intro a p hp'
  left
  rcases (h a).1 with e | e
  · rw [← e]; exact hp'
  · rw [e] at hp'; exact Option.noConfusion hp'

theorem heap_link_root (m : Mem) (root child : Nat) (h : root ≠ child) :
    __heap_link m root child root =
      { m root with child := some child, degree := ((m root).degree + 1) % (UINT_MAX + 1) } := by
  apply heap_node_ext <;> simp [__heap_link, h]

theorem heap_link_child (m : Mem) (root child : Nat) (h : root ≠ child) :
    __heap_link m root child child =
      { m child with parent := some root, next := (m root).child } := by
  apply heap_node_ext <;> simp [__heap_link, h, Ne.symm h]

theorem heap_link_other (m : Mem) (root child x : Nat) (h1 : x ≠ root) (h2 : x ≠ child) :
    __heap_link m root child x = m x := by
  apply heap_node_ext <;> simp [__heap_link, h1, h2]

theorem heap_link_dataEq (m : Mem) (root child : Nat) : DataEq m (__heap_link m root child) := by
  intro x
  simp [__heap_link]

theorem heap_link_parent (m : Mem) (root child x : Nat) :
    (__heap_link m root child x).parent = if x = child then some root else (m x).parent := by
  simp [__heap_link]

/-- Effect of the loop of `__heap_union` on payloads and parent pointers; no
well-formedness is needed. -/
theorem union_loop_eff (hp : Prio) : ∀ (fuel : Nat) (m : Mem) (h1 : Nat)
    (prev : Option Nat) (x : Nat) (next : Option Nat) (m' : Mem) (h1' : Nat),
    __heap_union_loop hp fuel m h1 prev x next = some (m', h1') →
    DataEq m m' ∧ ParOK hp m m' := by
  intro fuel
  induction fuel with
  | zero => intro m h1 prev x next m' h1' h; simp [__heap_union_loop] at h
  | succ fuel ih =>
    intro m h1 prev x next m' h1' h
    cases next with
    | none =>
      simp only [__heap_union_loop, Option.some.injEq, Prod.mk.injEq] at h
      rw [← h.1]
      exact ⟨DataEq.de_refl m, ParOK.po_refl hp m⟩
    | some nx =>
      simp only [__heap_union_loop] at h
      split at h
      · exact ih _ _ _ _ _ _ _ h
      · split at h
        · rename_i hc
          obtain ⟨e1, e2⟩ := ih _ _ _ _ _ _ _ h
          have hd : DataEq m (__heap_link (set_next m x (m nx).next) x nx) := by
            intro y; simp [__heap_link]
          refine ⟨hd.de_trans e1, ParOK.po_trans ?_ hd e2⟩
          intro a p hpar
          rw [heap_link_parent] at hpar
          by_cases ha : a = nx
          · rw [if_pos ha] at hpar
            right; right
            cases hpar
            rw [ha]
            exact hc
          · rw [if_neg ha] at hpar
            left
            simpa using hpar
        · rename_i hc
          have hc' : hp (m x).value (m nx).value = false := by simpa using hc
          obtain ⟨e1, e2⟩ := ih _ _ _ _ _ _ _ h
          have hd : DataEq m (__heap_link (set_prev_next m h1 prev nx).1 nx x) := by
            intro y
            cases prev <;> simp [__heap_link, set_prev_next]
          refine ⟨hd.de_trans e1, ParOK.po_trans ?_ hd e2⟩
          intro a p hpar
          rw [heap_link_parent] at hpar
          by_cases ha : a = x
          · rw [if_pos ha] at hpar
            right; left
            cases hpar
            rw [ha]
            exact hc'
          · rw [if_neg ha] at hpar
            left
            cases prev <;> simpa [set_prev_next] using hpar

end BH

namespace BH

theorem HT.carry_nil (hpa : Nat → Nat → Bool) (a d : Nat) (c : HT) :
    HT.carry hpa a d c HT.nil = HT.node a d c HT.nil := by
  simp [HT.carry]

theorem HT.carry_node (hpa : Nat → Nat → Bool) (a d : Nat) (c : HT) (a2 d2 : Nat) (c2 n2 : HT) :
    HT.carry hpa a d c (HT.node a2 d2 c2 n2) =
      if (d != d2 || n2.degHd == some d) = true then
        HT.node a d c (HT.carry hpa a2 d2 c2 n2)
      else if hpa a a2 = true then
        HT.carry hpa a ((d + 1) % (UINT_MAX + 1)) (HT.node a2 d2 c2 c) n2
      else
        HT.carry hpa a2 ((d2 + 1) % (UINT_MAX + 1)) (HT.node a d c c2) n2 := by
  simp [HT.carry]

/-- The loop test of `__heap_union` agrees with the test on shapes. -/
theorem union_cond_eq (m : Mem) (a d a2 d2 : Nat) (n2 : HT) (par : Option Nat)
    (h1 : (m a).degree = d) (h2 : (m a2).degree = d2) (h3 : (m a2).next = n2.hd)
    (h4 : Rep m par n2) :
    ((m a).degree != (m a2).degree || next_next_same_degree m a a2) =
      (d != d2 || n2.degHd == some d) := by
  unfold next_next_same_degree
  rw [h1, h2, h3]
  cases n2 with
  | nil => simp
  | node a3 d3 c3 n3 =>
    simp only [HT.hd_node, HT.degHd_node]
    rw [h4.2.1]
    by_cases h : d3 = d <;> simp [h]

theorem union_loop_spec (hp : Prio) : ∀ (fuel : Nat) (rest : HT) (m : Mem) (h1 : Nat)
    (prev : Option Nat) (a d : Nat) (c : HT),
    Rep m none (HT.node a d c rest) → (HT.node a d c rest).addrs.Nodup →
    (∀ p, prev = some p → p ∉ (HT.node a d c rest).addrs ∧ (m p).next = some a) →
    (prev = none → h1 = a) →
    rest.roots.length < fuel →
    ∃ m' h1', __heap_union_loop hp fuel m h1 prev a rest.hd = some (m', h1') ∧
      Rep m' none (HT.carry (hpa_of hp m) a d c rest) ∧
      (prev = none → some h1' = (HT.carry (hpa_of hp m) a d c rest).hd) ∧
      (∀ p, prev = some p → h1' = h1 ∧
        m' p = { m p with next := (HT.carry (hpa_of hp m) a d c rest).hd }) ∧
      (∀ x, x ∉ (HT.node a d c rest).roots → prev ≠ some x → m' x = m x) ∧
      NewParRoots (HT.node a d c rest).roots m m' := by
  intro fuel
  induction fuel with
  | zero => intro rest m h1 prev a d c _ _ _ _ hf; omega
  | succ fuel ih =>
    intro rest m h1 prev a d c hrep hnd hprev hh1 hf
    cases rest with
    | nil =>
      refine ⟨m, h1, by simp [__heap_union_loop], ?_, ?_, ?_, fun _ _ _ => rfl,
        fun _ _ h => Or.inl h⟩
      · rw [HT.carry_nil]; exact hrep
      · intro e; rw [HT.carry_nil, hh1 e]; rfl
      · intro p e
        refine ⟨rfl, ?_⟩
        rw [HT.carry_nil, HT.hd_node, ← (hprev p e).2]
    | node a2 d2 c2 n2 =>
      obtain ⟨r1, r2, r3, r4, r5, r6⟩ := hrep
      obtain ⟨s1, s2, s3, s4, s5, s6⟩ := r6
      have hnd' := hnd
      simp only [HT.addrs, List.nodup_cons, List.mem_append, List.mem_cons, not_or,
        List.nodup_append, List.disjoint_cons_right, List.disjoint_append_right] at hnd'
      obtain ⟨⟨hac, haa2, hac2, han2⟩, hnc, ⟨⟨ha2c2, ha2n2⟩, hnc2, hnn2, hc2n2⟩,
        ha2c, hcc2, hcn2⟩ := hnd'
      have hcond := union_cond_eq m a d a2 d2 n2 none r2 s2 s4 s6
      simp only [HT.hd_node, __heap_union_loop]
      rw [hcond, HT.carry_node]
      by_cases hc1 : (d != d2 || n2.degHd == some d) = true
      · -- advance
        rw [if_pos hc1, if_pos hc1]
        obtain ⟨m', h1', e1, e2, e3, e4, e5, e6⟩ := ih n2 m h1 (some a) a2 d2 c2
          ⟨s1, s2, s3, s4, s5, s6⟩
          (by simp only [HT.addrs, List.nodup_cons, List.mem_append, not_or, List.nodup_append]
              exact ⟨⟨ha2c2, ha2n2⟩, hnc2, hnn2, hc2n2⟩)
          (by
            intro p e
            cases e
            refine ⟨?_, r4⟩
            simp only [HT.addrs, List.mem_cons, List.mem_append, not_or]
            exact ⟨haa2, hac2, han2⟩)
          (by intro e; cases e)
          (by simp only [HT.roots, List.length_cons] at hf ⊢; omega)
        obtain ⟨e4a, e4b⟩ := e4 a rfl
        refine ⟨m', h1', ?_, ?_, ?_, ?_, ?_, ?_⟩
        · rw [s4]; exact e1
        · refine ⟨by rw [e4b]; exact r1, by rw [e4b]; exact r2, by rw [e4b]; exact r3,
            by rw [e4b], ?_, e2⟩
          apply Rep.frame r5
          intro x hx
          apply e5
          · simp only [HT.roots, List.mem_cons, not_or]
            exact ⟨fun e => ha2c (e ▸ hx), fun h => hcn2 hx (HT.roots_subset_addrs _ _ h)⟩
          · intro e
            cases e
            exact hac hx
        · intro e
          rw [e4a, hh1 e]
          rfl
        · intro p e
          refine ⟨e4a, ?_⟩
          obtain ⟨hp1, hp2⟩ := hprev p e
          simp only [HT.addrs, List.mem_cons, List.mem_append, not_or] at hp1
          rw [e5 p]
          · rw [HT.hd_node, ← hp2]
          · simp only [HT.roots, List.mem_cons, not_or]
            exact ⟨hp1.2.2.1, fun h => hp1.2.2.2.2 (HT.roots_subset_addrs _ _ h)⟩
          · intro e'
            cases e'
            exact hp1.1 rfl
        · intro x hx hpx
          simp only [HT.roots, List.mem_cons, not_or] at hx
          apply e5
          · simp only [HT.roots, List.mem_cons, not_or]
            exact ⟨hx.2.1, hx.2.2⟩
          · intro e
            cases e
            exact hx.1 rfl
        · intro x p hxp
          rcases e6 x p hxp with h' | h'
          · exact Or.inl h'
          · right
            simp only [HT.roots, List.mem_cons] at h' ⊢
            exact ⟨Or.inr h'.1, Or.inr h'.2⟩
      · rw [if_neg hc1, if_neg hc1]
        have hpv : ∀ p, prev = some p → p ≠ a ∧ p ≠ a2 ∧ p ∉ c.addrs ∧ p ∉ c2.addrs ∧
            p ∉ n2.addrs := by
          intro p e
          have := (hprev p e).1
          simp only [HT.addrs, List.mem_cons, List.mem_append, not_or] at this
          exact ⟨this.1, this.2.2.1, this.2.1, this.2.2.2.1, this.2.2.2.2⟩
        by_cases hc2 : hp (m a).value (m a2).value = true
        · -- `x` becomes the root of `next`
          have hc2' : hpa_of hp m a a2 = true := hc2
          rw [if_pos hc2, if_pos hc2']
          set m1 := set_next m a (m a2).next with hm1
          set m2 := __heap_link m1 a a2 with hm2
          have hm2a : m2 a =
              { m a with
                next := n2.hd
                child := some a2
                degree := (d + 1) % (UINT_MAX + 1) } := by
            rw [hm2, heap_link_root _ _ _ haa2, hm1]
            apply heap_node_ext <;> simp [s4, r2]
          have hm2a2 : m2 a2 = { m a2 with parent := some a, next := c.hd } := by
            rw [hm2, heap_link_child _ _ _ haa2, hm1]
            apply heap_node_ext <;> simp [Ne.symm haa2, r3]
          have hm2x : ∀ x, x ≠ a → x ≠ a2 → m2 x = m x := by
            intro x hx1 hx2
            rw [hm2, heap_link_other _ _ _ _ hx1 hx2, hm1, set_next_other _ _ _ _ hx1]
          have hd2 : DataEq m m2 := by
            intro x; simp [hm2, hm1, __heap_link]
          have hrep2 : Rep m2 none (HT.node a ((d + 1) % (UINT_MAX + 1)) (HT.node a2 d2 c2 c) n2) := by
            refine ⟨by rw [hm2a]; exact r1, by rw [hm2a], by rw [hm2a]; rfl, by rw [hm2a],
              ⟨by rw [hm2a2], by rw [hm2a2]; exact s2, by rw [hm2a2]; exact s3, by rw [hm2a2],
                ?_, ?_⟩, ?_⟩
            · exact Rep.frame s5 (fun x hx => hm2x x (fun e => hac2 (e ▸ hx))
                (fun e => ha2c2 (e ▸ hx)))
            · exact Rep.frame r5 (fun x hx => hm2x x (fun e => hac (e ▸ hx))
                (fun e => ha2c (e ▸ hx)))
            · exact Rep.frame s6 (fun x hx => hm2x x (fun e => han2 (e ▸ hx))
                (fun e => ha2n2 (e ▸ hx)))
          obtain ⟨m', h1', e1, e2, e3, e4, e5, e6⟩ := ih n2 m2 h1 prev a
            ((d + 1) % (UINT_MAX + 1)) (HT.node a2 d2 c2 c) hrep2
            (by
              simp only [HT.addrs, List.nodup_cons, List.mem_append, List.mem_cons, not_or,
                List.nodup_append, List.disjoint_cons_right, List.disjoint_append_right,
                List.disjoint_cons_left, List.disjoint_append_left]
              exact ⟨⟨⟨haa2, hac2, hac⟩, han2⟩, ⟨⟨ha2c2, ha2c⟩, hnc2, hnc, hcc2.symm⟩, hnn2,
                ha2n2, hc2n2, hcn2⟩)
            (by
              intro p e
              obtain ⟨q1, q2, q3, q4, q5⟩ := hpv p e
              refine ⟨?_, ?_⟩
              · simp only [HT.addrs, List.mem_cons, List.mem_append, not_or]
                exact ⟨q1, ⟨q2, q4, q3⟩, q5⟩
              · rw [hm2x p q1 q2]; exact (hprev p e).2)
            hh1
            (by simp only [HT.roots, List.length_cons] at hf ⊢; omega)
          rw [hd2.hpa] at e2 e3 e4
          refine ⟨m', h1', ?_, e2, e3, ?_, ?_, ?_⟩
          · have : (m2 a).next = n2.hd := by rw [hm2a]
            rw [this]; exact e1
          · intro p e
            obtain ⟨q1, q2, q3, q4, q5⟩ := hpv p e
            refine ⟨(e4 p e).1, ?_⟩
            rw [(e4 p e).2, hm2x p q1 q2]
          · intro x hx hpx
            simp only [HT.roots, List.mem_cons, not_or] at hx
            rw [e5 x (by simp only [HT.roots, List.mem_cons, not_or]; exact ⟨hx.1, hx.2.2⟩) hpx]
            exact hm2x x hx.1 hx.2.1
          · intro x p hxp
            rcases e6 x p hxp with h' | h'
            · by_cases hxa2 : x = a2
              · right
                subst hxa2
                rw [hm2a2] at h'
                cases h'
                simp [HT.roots]
              · left
                by_cases hxa : x = a
                · subst hxa
                  rw [hm2a] at h'
                  exact h'
                · rw [hm2x x hxa hxa2] at h'
                  exact h'
            · right
              simp only [HT.roots, List.mem_cons] at h' ⊢
              refine ⟨?_, ?_⟩
              · rcases h'.1 with h'' | h''
                · exact Or.inl h''
                · exact Or.inr (Or.inr h'')
              · rcases h'.2 with h'' | h''
                · exact Or.inl h''
                · exact Or.inr (Or.inr h'')
        · -- `next` becomes the root of `x`
          have hc2' : ¬ hpa_of hp m a a2 = true := hc2
          rw [if_neg hc2, if_neg hc2']
          set r := set_prev_next m h1 prev a2 with hr
          set m2 := __heap_link r.1 a2 a with hm2
          have hr1 : ∀ x, prev ≠ some x → r.1 x = m x := by
            intro x hx
            cases hprev' : prev with
            | none => simp [hr, hprev', set_prev_next]
            | some p =>
              have : x ≠ p := fun e => hx (by rw [hprev', e])
              simp [hr, hprev', set_prev_next, set_next_other _ _ _ _ this]
          have hpa : prev ≠ some a := fun e => (hpv a e).1 rfl
          have hpa2 : prev ≠ some a2 := fun e => (hpv a2 e).2.1 rfl
          have hm2a2 : m2 a2 =
              { m a2 with
                child := some a
                degree := (d2 + 1) % (UINT_MAX + 1) } := by
            rw [hm2, heap_link_root _ _ _ (Ne.symm haa2), hr1 a2 hpa2, s2]
          have hm2a : m2 a = { m a with parent := some a2, next := c2.hd } := by
            rw [hm2, heap_link_child _ _ _ (Ne.symm haa2), hr1 a hpa, hr1 a2 hpa2, s3]
          have hm2x : ∀ x, x ≠ a → x ≠ a2 → prev ≠ some x → m2 x = m x := by
            intro x hx1 hx2 hx3
            rw [hm2, heap_link_other _ _ _ _ hx2 hx1, hr1 x hx3]
          have hd2 : DataEq m m2 := by
            intro x
            cases hprev' : prev <;> simp [hm2, hr, hprev', __heap_link, set_prev_next]
          have hrep2 : Rep m2 none (HT.node a2 ((d2 + 1) % (UINT_MAX + 1)) (HT.node a d c c2) n2) := by
            refine ⟨by rw [hm2a2]; exact s1, by rw [hm2a2], by rw [hm2a2]; rfl,
              by rw [hm2a2]; exact s4,
              ⟨by rw [hm2a], by rw [hm2a]; exact r2, by rw [hm2a]; exact r3, by rw [hm2a],
                ?_, ?_⟩, ?_⟩
            · exact Rep.frame r5 (fun x hx => hm2x x (fun e => hac (e ▸ hx))
                (fun e => ha2c (e ▸ hx)) (fun e => (hpv x e).2.2.1 hx))
            · exact Rep.frame s5 (fun x hx => hm2x x (fun e => hac2 (e ▸ hx))
                (fun e => ha2c2 (e ▸ hx)) (fun e => (hpv x e).2.2.2.1 hx))
            · exact Rep.frame s6 (fun x hx => hm2x x (fun e => han2 (e ▸ hx))
                (fun e => ha2n2 (e ▸ hx)) (fun e => (hpv x e).2.2.2.2 hx))
          obtain ⟨m', h1', e1, e2, e3, e4, e5, e6⟩ := ih n2 m2 r.2 prev a2
            ((d2 + 1) % (UINT_MAX + 1)) (HT.node a d c c2) hrep2
            (by
              simp only [HT.addrs, List.nodup_cons, List.mem_append, List.mem_cons, not_or,
                List.nodup_append, List.disjoint_cons_right, List.disjoint_append_right,
                List.disjoint_cons_left, List.disjoint_append_left]
              exact ⟨⟨⟨Ne.symm haa2, ha2c, ha2c2⟩, ha2n2⟩, ⟨⟨hac, hac2⟩, hnc, hnc2, hcc2⟩, hnn2,
                han2, hcn2, hc2n2⟩)
            (by
              intro p e
              obtain ⟨q1, q2, q3, q4, q5⟩ := hpv p e
              refine ⟨?_, ?_⟩
              · simp only [HT.addrs, List.mem_cons, List.mem_append, not_or]
                exact ⟨q2, ⟨q1, q3, q4⟩, q5⟩
              · rw [hm2, heap_link_other _ _ _ _ q2 q1]
                simp [hr, e, set_prev_next])
            (by intro e; simp [hr, e, set_prev_next])
            (by simp only [HT.roots, List.length_cons] at hf ⊢; omega)
          rw [hd2.hpa] at e2 e3 e4
          refine ⟨m', h1', ?_, e2, e3, ?_, ?_, ?_⟩
          · have : (m2 a2).next = n2.hd := by rw [hm2a2]; exact s4
            rw [this]; exact e1
          · intro p e
            obtain ⟨q1, q2, q3, q4, q5⟩ := hpv p e
            refine ⟨by rw [(e4 p e).1]; simp [hr, e, set_prev_next], ?_⟩
            rw [(e4 p e).2, hm2, heap_link_other _ _ _ _ q2 q1]
            simp [hr, e, set_prev_next, set_next_same]
          · intro x hx hpx
            simp only [HT.roots, List.mem_cons, not_or] at hx
            rw [e5 x (by simp only [HT.roots, List.mem_cons, not_or]; exact ⟨hx.2.1, hx.2.2⟩) hpx]
            exact hm2x x hx.1 hx.2.1 hpx
          · intro x p hxp
            rcases e6 x p hxp with h' | h'
            · by_cases hxa : x = a
              · right
                subst hxa
                rw [hm2a] at h'
                cases h'
                simp [HT.roots]
              · left
                by_cases hxa2 : x = a2
                · subst hxa2
                  rw [hm2a2] at h'
                  exact h'
                · have hpar : (m2 x).parent = (m x).parent := by
                    rw [hm2, heap_link_other _ _ _ _ hxa2 hxa]
                    cases hprev' : prev with
                    | none => simp [hr, hprev', set_prev_next]
                    | some q => simp [hr, hprev', set_prev_next]
                  rw [hpar] at h'
                  exact h'
            · right
              simp only [HT.roots, List.mem_cons] at h' ⊢
              refine ⟨?_, ?_⟩
              · rcases h'.1 with h'' | h''
                · exact Or.inr (Or.inl h'')
                · exact Or.inr (Or.inr h'')
              · rcases h'.2 with h'' | h''
                · exact Or.inr (Or.inl h'')
                · exact Or.inr (Or.inr h'')

end BH

namespace BH

/-! ## Shape facts for merge, carry and union -/

theorem HT.merge_addrs_perm (A B : HT) : (HT.merge A B).addrs.Perm (A.addrs ++ B.addrs) := by
  induction A, B using HT.merge.induct with
  | case1 b => rw [HT.merge_nil_left]; simp [HT.addrs]
  | case2 a d c n => rw [HT.merge_nil_right]; simp [HT.addrs]
  | case3 a1 d1 c1 n1 a2 d2 c2 n2 hlt ih =>
    rw [HT.merge_node, if_pos hlt]
    simp only [HT.addrs, List.cons_append, List.append_assoc]
    refine List.Perm.cons a1 ?_
    refine (List.Perm.append_left c1.addrs ih).trans ?_
    simp [HT.addrs]
  | case4 a1 d1 c1 n1 a2 d2 c2 n2 hlt ih =>
    rw [HT.merge_node, if_neg hlt]
    simp only [HT.addrs, List.cons_append, List.append_assoc]
    have h1 : (a2 :: (c2.addrs ++ (HT.merge (HT.node a1 d1 c1 n1) n2).addrs)).Perm
        (a2 :: (c2.addrs ++ ((HT.node a1 d1 c1 n1).addrs ++ n2.addrs))) :=
      List.Perm.cons a2 (List.Perm.append_left c2.addrs ih)
    refine h1.trans ?_
    simp only [HT.addrs, List.cons_append, List.append_assoc]
    have h2 : (a2 :: (c2.addrs ++ a1 :: (c1.addrs ++ (n1.addrs ++ n2.addrs)))).Perm
        ((a2 :: c2.addrs) ++ ((a1 :: (c1.addrs ++ n1.addrs)) ++ n2.addrs)) := by
      simp
    refine h2.trans ?_
    have h3 : ((a2 :: c2.addrs) ++ ((a1 :: (c1.addrs ++ n1.addrs)) ++ n2.addrs)).Perm
        ((a1 :: (c1.addrs ++ n1.addrs)) ++ ((a2 :: c2.addrs) ++ n2.addrs)) := by
      rw [← List.append_assoc, ← List.append_assoc]
      exact List.Perm.append_right _ List.perm_append_comm
    refine h3.trans ?_
    simp

theorem HT.merge_roots_perm (A B : HT) : (HT.merge A B).roots.Perm (A.roots ++ B.roots) := by
  induction A, B using HT.merge.induct with
  | case1 b => rw [HT.merge_nil_left]; simp [HT.roots]
  | case2 a d c n => rw [HT.merge_nil_right]; simp [HT.roots]
  | case3 a1 d1 c1 n1 a2 d2 c2 n2 hlt ih =>
    rw [HT.merge_node, if_pos hlt]
    simp only [HT.roots, List.cons_append]
    exact List.Perm.cons a1 ih
  | case4 a1 d1 c1 n1 a2 d2 c2 n2 hlt ih =>
    rw [HT.merge_node, if_neg hlt]
    simp only [HT.roots]
    refine (List.Perm.cons a2 ih).trans ?_
    simp only [HT.roots, List.cons_append]
    have h2 : (a1 :: n1.roots ++ a2 :: n2.roots).Perm (a2 :: (a1 :: n1.roots ++ n2.roots)) :=
      List.perm_middle
    exact h2.symm

theorem HT.merge_ne_nil_left (A B : HT) (h : A ≠ HT.nil) : HT.merge A B ≠ HT.nil := by
  cases A with
  | nil => exact absurd rfl h
  | node a1 d1 c1 n1 =>
    cases B with
    | nil => rw [HT.merge_nil_right]; exact h
    | node a2 d2 c2 n2 =>
      rw [HT.merge_node]
      split <;> simp

theorem HT.carry_addrs_perm (hpa : Nat → Nat → Bool) (rest : HT) : ∀ (a d : Nat) (c : HT),
    (HT.carry hpa a d c rest).addrs.Perm (HT.node a d c rest).addrs := by
  induction rest with
  | nil => intro a d c; rw [HT.carry_nil]
  | node a2 d2 c2 n2 _ ihn =>
    intro a d c
    rw [HT.carry_node]
    split
    · simp only [HT.addrs]
      refine List.Perm.cons a (List.Perm.append_left _ ?_)
      exact ihn a2 d2 c2
    · split
      · refine (ihn _ _ _).trans ?_
        simp only [HT.addrs, List.cons_append, List.append_assoc]
        refine List.Perm.cons a ?_
        have : (a2 :: (c2.addrs ++ (c.addrs ++ n2.addrs))).Perm
            ((a2 :: c2.addrs) ++ c.addrs ++ n2.addrs) := by simp
        refine this.trans ?_
        have h2 : ((a2 :: c2.addrs) ++ c.addrs ++ n2.addrs).Perm
            (c.addrs ++ (a2 :: c2.addrs) ++ n2.addrs) :=
          List.Perm.append_right _ List.perm_append_comm
        refine h2.trans ?_
        simp
      · refine (ihn _ _ _).trans ?_
        simp only [HT.addrs, List.cons_append, List.append_assoc]
        have : (a2 :: a :: (c.addrs ++ (c2.addrs ++ n2.addrs))).Perm
            (a :: a2 :: (c.addrs ++ (c2.addrs ++ n2.addrs))) := List.Perm.swap _ _ _
        refine this.trans (List.Perm.cons a ?_)
        have h2 : (a2 :: (c.addrs ++ (c2.addrs ++ n2.addrs))).Perm
            (c.addrs ++ a2 :: (c2.addrs ++ n2.addrs)) := List.perm_middle.symm
        exact h2

theorem HT.carry_roots_subset (hpa : Nat → Nat → Bool) (rest : HT) : ∀ (a d : Nat) (c : HT),
    ∀ x ∈ (HT.carry hpa a d c rest).roots, x ∈ (HT.node a d c rest).roots := by
  induction rest with
  | nil => intro a d c x hx; rw [HT.carry_nil] at hx; exact hx
  | node a2 d2 c2 n2 _ ihn =>
    intro a d c x hx
    rw [HT.carry_node] at hx
    simp only [HT.roots, List.mem_cons]
    split at hx
    · simp only [HT.roots, List.mem_cons] at hx
      rcases hx with h | h
      · exact Or.inl h
      · have := ihn _ _ _ x h
        simp only [HT.roots, List.mem_cons] at this
        exact Or.inr this
    · split at hx
      · have := ihn _ _ _ x hx
        simp only [HT.roots, List.mem_cons] at this
        tauto
      · have := ihn _ _ _ x hx
        simp only [HT.roots, List.mem_cons] at this
        tauto

theorem HT.union_addrs_perm (hpa : Nat → Nat → Bool) (A B : HT) :
    (HT.union hpa A B).addrs.Perm (A.addrs ++ B.addrs) := by
  cases B with
  | nil => simp [HT.union, HT.addrs]
  | node a2 d2 c2 n2 =>
    cases A with
    | nil => simp [HT.union, HT.addrs]
    | node a1 d1 c1 n1 =>
      simp only [HT.union]
      have hp := HT.merge_addrs_perm (HT.node a1 d1 c1 n1) (HT.node a2 d2 c2 n2)
      cases hm : HT.merge (HT.node a1 d1 c1 n1) (HT.node a2 d2 c2 n2) with
      | nil => exact absurd hm (HT.merge_ne_nil_left _ _ (by simp))
      | node a d c n =>
        rw [hm] at hp
        exact (HT.carry_addrs_perm hpa n a d c).trans hp

theorem HT.union_roots_subset (hpa : Nat → Nat → Bool) (A B : HT) :
    ∀ x ∈ (HT.union hpa A B).roots, x ∈ A.roots ++ B.roots := by
  cases B with
  | nil => intro x hx; simpa [HT.union, HT.roots] using hx
  | node a2 d2 c2 n2 =>
    cases A with
    | nil => intro x hx; simpa [HT.union, HT.roots] using hx
    | node a1 d1 c1 n1 =>
      intro x hx
      simp only [HT.union] at hx
      have hp := HT.merge_roots_perm (HT.node a1 d1 c1 n1) (HT.node a2 d2 c2 n2)
      cases hm : HT.merge (HT.node a1 d1 c1 n1) (HT.node a2 d2 c2 n2) with
      | nil => exact absurd hm (HT.merge_ne_nil_left _ _ (by simp))
      | node a d c n =>
        rw [hm] at hp hx
        exact hp.subset (HT.carry_roots_subset hpa n a d c x hx)

/-! ## Refinement: `__heap_union` -/

theorem heap_union_spec (fuel : Nat) (hp : Prio) (m : Mem) (h : heap)
    (T T2 : HT) (hT : Rep m none T) (hh : h.head = T.hd) (hT2 : Rep m none T2)
    (hnd : (T.addrs ++ T2.addrs).Nodup) (hf : T.roots.length + T2.roots.length < fuel) :
    ∃ m', __heap_union fuel hp m h T2.hd
        = some (m', { h with head := (HT.union (hpa_of hp m) T T2).hd }) ∧
      Rep m' none (HT.union (hpa_of hp m) T T2) ∧
      (∀ x, x ∉ T.roots ++ T2.roots → m' x = m x) ∧ DataEq m m' ∧ ParOK hp m m' ∧
      NewParRoots (T.roots ++ T2.roots) m m' := by
  cases T2 with
  | nil =>
    refine ⟨m, ?_, ?_, fun _ _ => rfl, DataEq.de_refl m, ParOK.po_refl hp m,
      fun _ _ h => Or.inl h⟩
    · simp only [__heap_union, HT.union, HT.hd_nil, ← hh]
    · simpa [HT.union] using hT
  | node a2 d2 c2 n2 =>
    cases T with
    | nil =>
      refine ⟨m, ?_, ?_, fun _ _ => rfl, DataEq.de_refl m, ParOK.po_refl hp m,
        fun _ _ h => Or.inl h⟩
      · simp only [HT.hd_nil] at hh
        simp [__heap_union, HT.union, hh]
      · simpa [HT.union] using hT2
    | node a1 d1 c1 n1 =>
      obtain ⟨m1, e1, e2, _, e4, e5⟩ := merge_loop_spec fuel (HT.node a1 d1 c1 n1)
        (HT.node a2 d2 c2 n2) m none none hT hT2 hnd (fun p e => by cases e) hf
      have hperm := HT.merge_addrs_perm (HT.node a1 d1 c1 n1) (HT.node a2 d2 c2 n2)
      have hrperm := HT.merge_roots_perm (HT.node a1 d1 c1 n1) (HT.node a2 d2 c2 n2)
      cases hm : HT.merge (HT.node a1 d1 c1 n1) (HT.node a2 d2 c2 n2) with
      | nil => exact absurd hm (HT.merge_ne_nil_left _ _ (by simp))
      | node a d c n =>
        rw [hm] at e1 e2 hperm hrperm
        have hlen : n.roots.length < fuel := by
          have := hrperm.length_eq
          simp only [HT.roots, List.length_cons, List.length_append] at this hf ⊢
          omega
        obtain ⟨m2, h1', f1, f2, f3, _, f5, f6⟩ := union_loop_spec hp fuel n m1 a none a d c e2
          (hperm.nodup_iff.2 hnd) (fun p e => by cases e) (fun _ => rfl) hlen
        obtain ⟨g1, g2⟩ := union_loop_eff hp _ _ _ _ _ _ _ _ f1
        have hd1 : DataEq m m1 := e5.on_dataEq
        rw [hd1.hpa] at f2 f3
        refine ⟨m2, ?_, ?_, ?_, hd1.de_trans g1, ParOK.po_trans e5.on_parOK hd1 g2, ?_⟩
        · simp only [HT.hd_node] at hh ⊢
          simp only [__heap_union, hh, __heap_merge]
          simp only [HT.hd_node, pos_head] at e1
          rw [e1]
          simp only [HT.union, hm]
          have : (m1 a).next = n.hd := e2.2.2.2.1
          rw [this, f1, ← f3 rfl]
        · simpa [HT.union, hm] using f2
        · intro x hx
          rw [f5 x ?_ (by simp), e4 x hx (by simp)]
          intro hmem
          exact hx (hrperm.subset hmem)
        · intro x p hxp
          rcases f6 x p hxp with h' | h'
          · left
            rw [← (e5 x).1]
            exact h'
          · exact Or.inr ⟨hrperm.subset h'.1, hrperm.subset h'.2⟩

end BH

namespace BH

/-! ## Refinement: `__heap_min` -/

theorem heap_min_loop_spec (hp : Prio) (m : Mem) (par : Option Nat) : ∀ (n : HT) (fuel : Nat)
    (prev : Option Nat) (cand _prev : Nat), Rep m par n → n.roots.length < fuel →
    __heap_min_loop hp m fuel prev cand _prev n.hd
      = some (HT.minScan (hpa_of hp m) prev cand _prev n) := by
  intro n
  induction n with
  | nil =>
    intro fuel prev cand _prev _ hf
    cases fuel with
    | zero => omega
    | succ fuel => simp [__heap_min_loop, HT.minScan]
  | node a d c n _ ihn =>
    intro fuel prev cand _prev hr hf
    cases fuel with
    | zero => omega
    | succ fuel =>
      have hlen : n.roots.length < fuel := by
        simp only [HT.roots, List.length_cons] at hf; omega
      simp only [HT.hd_node, __heap_min_loop, HT.minScan, hpa_of]
      rw [hr.2.2.2.1]
      split
      · exact ihn fuel _ _ _ hr.2.2.2.2.2 hlen
      · exact ihn fuel _ _ _ hr.2.2.2.2.2 hlen

theorem heap_min_spec (fuel : Nat) (hp : Prio) (m : Mem) (h : heap) (T : HT)
    (hT : Rep m none T) (hh : h.head = T.hd) (hf : T.roots.length ≤ fuel) :
    __heap_min fuel hp m h
      = some (HT.minPrev (hpa_of hp m) T, HT.minRoot (hpa_of hp m) T) := by
  cases T with
  | nil =>
    simp only [HT.hd_nil] at hh
    simp [__heap_min, hh, HT.minPrev, HT.minRoot]
  | node a d c n =>
    simp only [HT.hd_node] at hh
    simp only [__heap_min, hh, HT.minPrev, HT.minRoot]
    rw [hT.2.2.2.1, heap_min_loop_spec hp m none n fuel none a a hT.2.2.2.2.2
      (by simp only [HT.roots, List.length_cons] at hf; omega)]

theorem HT.minScan_cases (hpa : Nat → Nat → Bool) : ∀ (n : HT) (prev : Option Nat)
    (cand _prev : Nat), n.roots.Nodup →
    ((HT.minScan hpa prev cand _prev n).2 = cand ∧ (HT.minScan hpa prev cand _prev n).1 = prev) ∨
    ((HT.minScan hpa prev cand _prev n).2 ∈ n.roots ∧
      (HT.minScan hpa prev cand _prev n).1 =
        HT.predOf (HT.minScan hpa prev cand _prev n).2 (some _prev) n) := by
  intro n
  induction n with
  | nil => intro prev cand _prev _; left; simp [HT.minScan]
  | node a d c n _ ihn =>
    intro prev cand _prev hnd
    simp only [HT.roots, List.nodup_cons] at hnd
    simp only [HT.minScan]
    split
    · right
      rcases ihn (some _prev) a a hnd.2 with ⟨h1, h2⟩ | ⟨h1, h2⟩
      · rw [h1, h2]
        simp [HT.roots, HT.predOf]
      · refine ⟨by simp [HT.roots, h1], ?_⟩
        rw [h2]
        have : a ≠ (HT.minScan hpa (some _prev) a a n).2 := fun e => hnd.1 (e ▸ h1)
        simp [HT.predOf, this]
    · rcases ihn prev cand a hnd.2 with ⟨h1, h2⟩ | ⟨h1, h2⟩
      · left; exact ⟨h1, h2⟩
      · right
        refine ⟨by simp [HT.roots, h1], ?_⟩
        rw [h2]
        have : a ≠ (HT.minScan hpa prev cand a n).2 := fun e => hnd.1 (e ▸ h1)
        simp [HT.predOf, this]

/-- The scan keeps a candidate that no scanned root beats. -/
theorem HT.minScan_best (hpa : Nat → Nat → Bool) (hirr : ∀ a, hpa a a = false)
    (htr : ∀ a b c, hpa a b = true → hpa b c = true → hpa a c = true) :
    ∀ (n : HT) (prev : Option Nat) (cand _prev : Nat) (seen : List Nat),
    (∀ r ∈ seen, hpa r cand = false) →
    ∀ r ∈ seen ++ n.roots, hpa r (HT.minScan hpa prev cand _prev n).2 = false := by
  intro n
  induction n with
  | nil => intro prev cand _prev seen hs r hr; simp [HT.roots] at hr; simpa [HT.minScan] using hs r hr
  | node a d c n _ ihn =>
    intro prev cand _prev seen hs r hr
    simp only [HT.minScan]
    have hr' : r ∈ (seen ++ [a]) ++ n.roots := by
      simp only [HT.roots, List.mem_append, List.mem_cons, List.mem_singleton,
        List.not_mem_nil, or_false] at hr ⊢
      tauto
    split
    · rename_i hc
      apply ihn (some _prev) a a (seen ++ [a]) _ r hr'
      intro s hs'
      simp only [List.mem_append, List.mem_singleton] at hs'
      rcases hs' with hs' | rfl
      · by_contra hne
        have hsa : hpa s a = true := by simpa using hne
        have := htr s a cand hsa hc
        rw [hs s hs'] at this
        exact Bool.noConfusion this
      · exact hirr _
    · rename_i hc
      apply ihn prev cand a (seen ++ [a]) _ r hr'
      intro s hs'
      simp only [List.mem_append, List.mem_singleton] at hs'
      rcases hs' with hs' | rfl
      · exact hs s hs'
      · simpa using hc

theorem HT.minRoot_mem (hpa : Nat → Nat → Bool) (T : HT) (x : Nat) (hnd : T.roots.Nodup)
    (h : HT.minRoot hpa T = some x) : x ∈ T.roots ∧ HT.minPrev hpa T = HT.predOf x none T := by
  cases T with
  | nil => simp [HT.minRoot] at h
  | node a d c n =>
    simp only [HT.minRoot, Option.some.injEq] at h
    simp only [HT.roots, List.nodup_cons] at hnd
    simp only [HT.minPrev]
    rcases HT.minScan_cases hpa n none a a hnd.2 with ⟨h1, h2⟩ | ⟨h1, h2⟩
    · rw [h] at h1
      subst h1
      exact ⟨by simp [HT.roots], by rw [h2]; simp [HT.predOf]⟩
    · rw [h] at h1 h2
      have : a ≠ x := fun e => hnd.1 (e ▸ h1)
      exact ⟨by simp [HT.roots, h1], by rw [h2]; simp [HT.predOf, this]⟩

theorem HT.minRoot_best (hpa : Nat → Nat → Bool) (hirr : ∀ a, hpa a a = false)
    (htr : ∀ a b c, hpa a b = true → hpa b c = true → hpa a c = true) (T : HT) (x : Nat)
    (h : HT.minRoot hpa T = some x) : ∀ r ∈ T.roots, hpa r x = false := by
  cases T with
  | nil => simp [HT.minRoot] at h
  | node a d c n =>
    simp only [HT.minRoot, Option.some.injEq] at h
    intro r hr
    have := HT.minScan_best hpa hirr htr n none a a [a] (by simp [hirr]) r
      (by simpa [HT.roots] using hr)
    rw [h] at this
    exact this

theorem HT.minRoot_isSome (hpa : Nat → Nat → Bool) (T : HT) (h : T ≠ HT.nil) :
    ∃ x, HT.minRoot hpa T = some x := by
  cases T with
  | nil => exact absurd rfl h
  | node a d c n => exact ⟨_, rfl⟩

end BH

namespace BH

/-! ## Refinement: unlinking a root and `__heap_extract_min` -/

theorem HT.remove_roots (x : Nat) (T : HT) : ∀ y ∈ (HT.remove x T).roots, y ∈ T.roots := by
  induction T with
  | nil => intro y hy; simp [HT.remove, HT.roots] at hy
  | node a d c n _ ihn =>
    intro y hy
    simp only [HT.remove] at hy
    simp only [HT.roots, List.mem_cons]
    split at hy
    · exact Or.inr hy
    · simp only [HT.roots, List.mem_cons] at hy
      rcases hy with h | h
      · exact Or.inl h
      · exact Or.inr (ihn y h)

theorem HT.remove_roots_length (x : Nat) (T : HT) (hx : x ∈ T.roots) :
    (HT.remove x T).roots.length + 1 = T.roots.length := by
  induction T with
  | nil => simp [HT.roots] at hx
  | node a d c n _ ihn =>
    simp only [HT.remove]
    split
    · simp [HT.roots]
    · rename_i hne
      simp only [HT.roots, List.mem_cons] at hx
      rcases hx with h | h
      · exact absurd h.symm hne
      · simp only [HT.roots, List.length_cons]
        rw [ihn h]

/-- Removing a root splits the nodes into the root, its children and the
rest. -/
theorem HT.remove_addrs_perm (x : Nat) (T : HT) (hx : x ∈ T.roots) :
    T.addrs.Perm (x :: ((HT.childOf x T).addrs ++ (HT.remove x T).addrs)) := by
  induction T with
  | nil => simp [HT.roots] at hx
  | node a d c n _ ihn =>
    simp only [HT.remove, HT.childOf]
    by_cases hax : a = x
    · simp [hax, HT.addrs]
    · simp only [HT.roots, List.mem_cons] at hx
      rcases hx with h | h
      · exact absurd h.symm hax
      · simp only [if_neg hax, HT.addrs]
        have h1 := ihn h
        have h2 : (a :: (c.addrs ++ n.addrs)).Perm
            (a :: (c.addrs ++ x :: ((HT.childOf x n).addrs ++ (HT.remove x n).addrs))) :=
          List.Perm.cons a (List.Perm.append_left _ h1)
        refine h2.trans ?_
        have h3 : (a :: (c.addrs ++ x :: ((HT.childOf x n).addrs ++ (HT.remove x n).addrs))).Perm
            (x :: a :: (c.addrs ++ ((HT.childOf x n).addrs ++ (HT.remove x n).addrs))) :=
          (List.Perm.cons a List.perm_middle).trans (List.Perm.swap _ _ _)
        refine h3.trans (List.Perm.cons x ?_)
        have h4 : (a :: (c.addrs ++ ((HT.childOf x n).addrs ++ (HT.remove x n).addrs))).Perm
            (((a :: c.addrs) ++ (HT.childOf x n).addrs) ++ (HT.remove x n).addrs) := by simp
        refine h4.trans ?_
        have h5 : (((a :: c.addrs) ++ (HT.childOf x n).addrs) ++ (HT.remove x n).addrs).Perm
            (((HT.childOf x n).addrs ++ (a :: c.addrs)) ++ (HT.remove x n).addrs) :=
          List.Perm.append_right _ List.perm_append_comm
        refine h5.trans ?_
        simp

/-- The child list of a root is represented with that root as parent. -/
theorem Rep.childOf {m : Mem} {par : Option Nat} {T : HT} {x : Nat} (h : Rep m par T)
    (hx : x ∈ T.roots) :
    Rep m (some x) (HT.childOf x T) ∧ (m x).child = (HT.childOf x T).hd ∧
      (m x).degree = HT.degOf x T := by
  induction T with
  | nil => simp [HT.roots] at hx
  | node a d c n _ ihn =>
    simp only [HT.childOf, HT.degOf]
    by_cases hax : a = x
    · subst hax
      simp only [if_true]
      exact ⟨h.2.2.2.2.1, h.2.2.1, h.2.1⟩
    · simp only [HT.roots, List.mem_cons] at hx
      rcases hx with e | e
      · exact absurd e.symm hax
      · simp only [if_neg hax]
        exact ihn h.2.2.2.2.2 e

theorem HT.childOf_addrs (x : Nat) (T : HT) (hnd : T.addrs.Nodup) :
    ∀ y ∈ (HT.childOf x T).addrs, y ∈ T.addrs ∧ y ∉ T.roots := by
  induction T with
  | nil => intro y hy; simp [HT.childOf, HT.addrs] at hy
  | node a d c n _ ihn =>
    intro y hy
    simp only [HT.addrs, List.nodup_cons, List.mem_append, not_or, List.nodup_append] at hnd
    obtain ⟨⟨hac, han⟩, hnc, hnn, hcn⟩ := hnd
    simp only [HT.childOf] at hy
    simp only [HT.addrs, HT.roots, List.mem_cons, List.mem_append, not_or]
    split at hy
    · refine ⟨Or.inr (Or.inl hy), fun e => hac (e ▸ hy), fun h => hcn hy (HT.roots_subset_addrs _ _ h)⟩
    · obtain ⟨h1, h2⟩ := ihn hnn y hy
      exact ⟨Or.inr (Or.inr h1), fun e => han (e ▸ h1), h2⟩

/-- Unlinking root `x` from the tail `n` of a list whose previous node is
`a0`. -/
theorem splice_spec (m : Mem) (x : Nat) (par : Option Nat) : ∀ (n : HT) (a0 : Nat),
    Rep m par n → x ∈ n.roots → a0 ∉ n.addrs → n.addrs.Nodup → (m a0).next = n.hd →
    ∃ p, HT.predOf x (some a0) n = some p ∧ p ≠ x ∧ (p = a0 ∨ p ∈ n.roots) ∧
      Rep (set_next m p (m x).next) par (HT.remove x n) ∧
      (set_next m p (m x).next a0).next = (HT.remove x n).hd := by
  intro n
  induction n with
  | nil => intro a0 _ hx; simp [HT.roots] at hx
  | node a d c n _ ihn =>
    intro a0 hr hx ha0 hnd hnext
    obtain ⟨r1, r2, r3, r4, r5, r6⟩ := hr
    simp only [HT.addrs, List.nodup_cons, List.mem_append, not_or, List.nodup_append] at hnd
    obtain ⟨⟨hac, han⟩, hnc, hnn, hcn⟩ := hnd
    simp only [HT.addrs, List.mem_cons, List.mem_append, not_or] at ha0
    obtain ⟨ha0a, ha0c, ha0n⟩ := ha0
    by_cases hax : a = x
    · subst hax
      refine ⟨a0, by simp [HT.predOf], ha0a, Or.inl rfl, ?_, ?_⟩
      · simp only [HT.remove, if_true]
        exact Rep.frame r6 (fun y hy => set_next_other _ _ _ _ (fun e => ha0n (e ▸ hy)))
      · simp [HT.remove, r4]
    · simp only [HT.roots, List.mem_cons] at hx
      rcases hx with e | e
      · exact absurd e.symm hax
      · obtain ⟨p, p1, p2, p3, p4, p5⟩ := ihn a r6 e han hnn r4
        have hpc : p ∉ c.addrs := by
          rcases p3 with rfl | h
          · exact hac
          · exact fun hc => hcn hc (HT.roots_subset_addrs _ _ h)
        have hpa0 : a0 ≠ p := by
          rcases p3 with rfl | h
          · exact ha0a
          · exact fun e' => ha0n (e' ▸ HT.roots_subset_addrs _ _ h)
        refine ⟨p, by simp [HT.predOf, hax, p1], p2, ?_, ?_, ?_⟩
        · rcases p3 with h | h
          · right; simp [HT.roots, h]
          · right; simp [HT.roots, h]
        · simp only [HT.remove, if_neg hax]
          refine ⟨by simpa using r1, by simpa using r2, by simpa using r3, p5, ?_, p4⟩
          exact Rep.frame r5 (fun y hy => set_next_other _ _ _ _ (fun e' => hpc (e' ▸ hy)))
        · simp only [HT.remove, if_neg hax, HT.hd_node]
          rw [set_next_other _ _ _ _ hpa0]
          simpa using hnext

/-- Effect of `unlink_root` on a represented root list. -/
theorem unlink_root_spec (m : Mem) (h : heap) (T : HT) (x : Nat) (hT : Rep m none T)
    (hh : h.head = T.hd) (hnd : T.addrs.Nodup) (hx : x ∈ T.roots) :
    (unlink_root m h (HT.predOf x none T) x).2 = { h with head := (HT.remove x T).hd } ∧
    Rep (unlink_root m h (HT.predOf x none T) x).1 none (HT.remove x T) ∧
    (∀ y, y ∉ T.roots → (unlink_root m h (HT.predOf x none T) x).1 y = m y) ∧
    (unlink_root m h (HT.predOf x none T) x).1 x = m x ∧
    OnlyNext m (unlink_root m h (HT.predOf x none T) x).1 := by
  cases T with
  | nil => simp [HT.roots] at hx
  | node a d c n =>
    obtain ⟨r1, r2, r3, r4, r5, r6⟩ := hT
    have hnd' := hnd
    simp only [HT.addrs, List.nodup_cons, List.mem_append, not_or, List.nodup_append] at hnd'
    obtain ⟨⟨hac, han⟩, hnc, hnn, hcn⟩ := hnd'
    by_cases hax : a = x
    · subst hax
      have e1 : HT.predOf a none (HT.node a d c n) = none := by simp [HT.predOf]
      have e2 : HT.remove a (HT.node a d c n) = n := by simp [HT.remove]
      rw [e1, e2]
      exact ⟨by simp [unlink_root, r4], r6, fun _ _ => rfl, rfl, OnlyNext.on_refl m⟩
    · simp only [HT.roots, List.mem_cons] at hx
      rcases hx with e | e
      · exact absurd e.symm hax
      · obtain ⟨p, p1, p2, p3, p4, p5⟩ := splice_spec m x none n a r6 e han hnn r4
        have hpc : p ∉ c.addrs := by
          rcases p3 with rfl | h
          · exact hac
          · exact fun hc => hcn hc (HT.roots_subset_addrs _ _ h)
        have e1 : HT.predOf x none (HT.node a d c n) = some p := by
          simp [HT.predOf, hax, p1]
        have e2 : HT.remove x (HT.node a d c n) = HT.node a d c (HT.remove x n) := by
          simp [HT.remove, hax]
        have e3 : unlink_root m h (some p) x = (set_next m p (m x).next, h) := rfl
        rw [e1, e2, e3]
        simp only [HT.hd_node] at hh ⊢
        refine ⟨by rw [← hh], ⟨by simpa using r1, by simpa using r2, by simpa using r3, p5, ?_, p4⟩,
          ?_, set_next_other _ _ _ _ (Ne.symm p2), OnlyNext.on_set_next _ _ _⟩
        · exact Rep.frame r5 (fun y hy => set_next_other _ _ _ _ (fun e' => hpc (e' ▸ hy)))
        · intro y hy
          apply set_next_other
          intro e'
          apply hy
          simp only [HT.roots, List.mem_cons]
          rcases p3 with h | h
          · left; rw [e', h]
          · right; rw [e']; exact h

theorem HT.removeRoot_addrs_perm (hpa : Nat → Nat → Bool) (T : HT) (x : Nat)
    (hx : x ∈ T.roots) : T.addrs.Perm (x :: (HT.removeRoot hpa x T).addrs) := by
  refine (HT.remove_addrs_perm x T hx).trans (List.Perm.cons x ?_)
  simp only [HT.removeRoot]
  refine List.Perm.trans ?_ (HT.union_addrs_perm hpa _ _).symm
  refine List.perm_append_comm.trans (List.Perm.append_left _ ?_)
  have := HT.rev_addrs_perm (HT.childOf x T) HT.nil
  simp only [HT.addrs, List.append_nil] at this
  exact this.symm

theorem HT.extractMin_addrs_perm (hpa : Nat → Nat → Bool) (T : HT) (x : Nat)
    (hnd : T.roots.Nodup) (h : HT.minRoot hpa T = some x) :
    T.addrs.Perm (x :: (HT.extractMin hpa T).addrs) := by
  have hx := (HT.minRoot_mem hpa T x hnd h).1
  simp only [HT.extractMin, h]
  exact HT.removeRoot_addrs_perm hpa T x hx

theorem HT.roots_nodup {T : HT} (h : T.addrs.Nodup) : T.roots.Nodup := by
  induction T with
  | nil => simp [HT.roots]
  | node a d c n _ ihn =>
    simp only [HT.addrs, List.nodup_cons, List.mem_append, not_or, List.nodup_append] at h
    simp only [HT.roots, List.nodup_cons]
    exact ⟨fun hr => h.1.2 (HT.roots_subset_addrs _ _ hr), ihn h.2.2.1⟩

theorem HT.roots_length_le_size (T : HT) : T.roots.length ≤ T.size := by
  induction T with
  | nil => simp [HT.roots]
  | node a d c n _ ihn => simp only [HT.roots, HT.size, List.length_cons]; omega

/-- The parent of a represented node is the list parent or a node of the
structure. -/
theorem Rep.parent_mem {m : Mem} {T : HT} : ∀ {par : Option Nat}, Rep m par T →
    ∀ a ∈ T.addrs, ∀ p, (m a).parent = some p → par = some p ∨ p ∈ T.addrs := by
  induction T with
  | nil => intro _ _ a ha; simp [HT.addrs] at ha
  | node b d c n ihc ihn =>
    intro par h a ha p hp
    obtain ⟨r1, _, _, _, r5, r6⟩ := h
    simp only [HT.addrs, List.mem_cons, List.mem_append] at ha ⊢
    rcases ha with rfl | ha | ha
    · left; rw [← r1, hp]
    · rcases ihc r5 a ha p hp with e | e
      · right; left; exact (Option.some.inj e).symm
      · right; right; left; exact e
    · rcases ihn r6 a ha p hp with e | e
      · left; exact e
      · right; right; right; exact e

/-- Heap order after a structural operation. -/
theorem Ord.of_parOK {hp : Prio} (hsw : StrictWeak hp) {m m' : Mem} {T' : HT}
    (hd : DataEq m m') (hpo : ParOK hp m m')
    (h : ∀ a ∈ T'.addrs, ∀ p, (m a).parent = some p → hp (m a).value (m p).value = false) :
    Ord hp m' T' := by
  intro a ha p hpar
  rw [(hd a).1, (hd p).1]
  rcases hpo a p hpar with e | e | e
  · exact h a ha p e
  · exact e
  · exact hsw.asymm e

/-- A node whose parent lies outside the structure is a root of it. -/
theorem Rep.root_of_parent_outside {m : Mem} {x a : Nat} {T : HT} :
    ∀ {par : Option Nat}, Rep m par T → a ∈ T.addrs → (m a).parent = some x →
    x ∉ T.addrs → a ∈ T.roots := by
  induction T with
  | nil => intro _ _ ha; simp [HT.addrs] at ha
  | node b d c n _ ihn =>
    intro par hr ha hax hx
    obtain ⟨_, _, _, _, r5, r6⟩ := hr
    simp only [HT.addrs, List.mem_cons, List.mem_append, not_or] at ha hx
    simp only [HT.roots, List.mem_cons]
    rcases ha with rfl | ha | ha
    · exact Or.inl rfl
    · rcases Rep.parent_mem r5 a ha x hax with e | e
      · cases e
        exact absurd rfl hx.1
      · exact absurd e hx.2.1
    · exact Or.inr (ihn r6 ha hax hx.2.2)

/-- A node whose parent pointer is the root `x` is on the child list of
`x`. -/
theorem Rep.child_of_root {m : Mem} {x a : Nat} {T : HT} : ∀ {par : Option Nat}, Rep m par T →
    T.addrs.Nodup → par ≠ some x → x ∈ T.roots → a ∈ T.addrs → (m a).parent = some x →
    a ∈ (HT.childOf x T).roots := by
  induction T with
  | nil => intro _ _ _ _ hx; simp [HT.roots] at hx
  | node b d c n _ ihn =>
    intro par hr hnd hpar hx ha hax
    obtain ⟨r1, _, _, _, r5, r6⟩ := hr
    have hnd' := hnd
    simp only [HT.addrs, List.nodup_cons, List.mem_append, not_or, List.nodup_append] at hnd'
    obtain ⟨⟨hbc, hbn⟩, hnc, hnn, hcn⟩ := hnd'
    simp only [HT.addrs, List.mem_cons, List.mem_append] at ha
    by_cases hbx : b = x
    · subst hbx
      simp only [HT.childOf, if_true]
      rcases ha with rfl | ha | ha
      · rw [r1] at hax
        exact absurd hax hpar
      · exact Rep.root_of_parent_outside r5 ha hax hbc
      · rcases Rep.parent_mem r6 a ha b hax with e | e
        · exact absurd e hpar
        · exact absurd e hbn
    · simp only [HT.childOf, if_neg hbx]
      simp only [HT.roots, List.mem_cons] at hx
      rcases hx with e | hx
      · exact absurd e.symm hbx
      · rcases ha with rfl | ha | ha
        · rw [r1] at hax
          exact absurd hax hpar
        · rcases Rep.parent_mem r5 a ha x hax with e | e
          · cases e
            exact absurd rfl hbx
          · exact absurd (HT.roots_subset_addrs _ _ hx) (fun h' => hcn e h')
        · exact ihn r6 hnn hpar hx ha hax

/-- The tail shared by `__heap_extract_min` and `heap_delete`: unlink the
root `x`, reverse its child list and merge it back. -/
theorem remove_root_spec (fuel : Nat) (hp : Prio) (m : Mem) (h : heap)
    (T : HT) (x : Nat) (hT : Rep m none T) (hh : h.head = T.hd) (hnd : T.addrs.Nodup)
    (hx : x ∈ T.roots) (hf : T.size ≤ fuel) :
    ∃ m2 m', __heap_reverse fuel (unlink_root m h (HT.predOf x none T) x).1
          ((unlink_root m h (HT.predOf x none T) x).1 x).child = some (m2,
            (HT.rev HT.nil (HT.childOf x T)).hd) ∧
      __heap_union fuel hp m2 (unlink_root m h (HT.predOf x none T) x).2
          (HT.rev HT.nil (HT.childOf x T)).hd
        = some (m', { h with head := (HT.removeRoot (hpa_of hp m) x T).hd }) ∧
      Rep m' none (HT.removeRoot (hpa_of hp m) x T) ∧
      (∀ y, y ∉ T.addrs → m' y = m y) ∧ DataEq m m' ∧ ParOK hp m m' ∧
      (m' x).parent = none ∧ (m' x).degree = HT.degOf x T ∧ (m' x).ref = (m x).ref ∧
      (StrictWeak hp →
        (∀ a ∈ T.addrs, ∀ p, (m a).parent = some p → p ≠ x →
          hp (m a).value (m p).value = false) →
        Ord hp m' (HT.removeRoot (hpa_of hp m) x T)) := by
  obtain ⟨u1, u2, u3, u4, u5⟩ := unlink_root_spec m h T x hT hh hnd hx
  set r := unlink_root m h (HT.predOf x none T) x with hr
  have hperm := HT.remove_addrs_perm x T hx
  have hnd2 := hperm.nodup_iff.1 hnd
  simp only [List.nodup_cons, List.mem_append, not_or, List.nodup_append] at hnd2
  obtain ⟨⟨hxc, hxr⟩, hnc, hnr, hcr⟩ := hnd2
  obtain ⟨c1, c2, c3⟩ := Rep.childOf hT hx
  have hcs : ∀ y ∈ (HT.childOf x T).addrs, r.1 y = m y := fun y hy =>
    u3 y (HT.childOf_addrs x T hnd y hy).2
  have hc1 : Rep r.1 (some x) (HT.childOf x T) := Rep.frame c1 hcs
  have hsz : T.size = (HT.childOf x T).size + (HT.remove x T).size + 1 := by
    have := hperm.length_eq
    simp only [List.length_cons, List.length_append, HT.length_addrs] at this
    omega
  obtain ⟨m2, v1, v2, v3, v4⟩ := heap_reverse_spec fuel r.1 (HT.childOf x T) (some x) hc1 hnc
    (by have := HT.roots_length_le_size (HT.childOf x T); omega)
  have hrm : ∀ y ∈ (HT.remove x T).addrs, m2 y = r.1 y := fun y hy =>
    v3 y (fun hyc => hcr (HT.roots_subset_addrs _ _ hyc) hy)
  have hrevperm := HT.rev_addrs_perm (HT.childOf x T) HT.nil
  simp only [HT.addrs, List.append_nil] at hrevperm
  have hnd3 : ((HT.remove x T).addrs ++ (HT.rev HT.nil (HT.childOf x T)).addrs).Nodup := by
    rw [List.nodup_append]
    refine ⟨hnr, hrevperm.nodup_iff.2 hnc, ?_⟩
    intro y hy1 hy2
    exact hcr (hrevperm.subset hy2) hy1
  have hlen : (HT.remove x T).roots.length + (HT.rev HT.nil (HT.childOf x T)).roots.length
      < fuel := by
    have h1 := HT.roots_length_le_size (HT.remove x T)
    have h2 := HT.roots_length_le_size (HT.rev HT.nil (HT.childOf x T))
    have h3 := hrevperm.length_eq
    simp only [HT.length_addrs] at h3
    omega
  have hrep2 : Rep m2 none (HT.remove x T) := Rep.frame u2 hrm
  obtain ⟨m3, w1, w2, w3, w4, w5, _⟩ := heap_union_spec fuel hp m2 r.2 (HT.remove x T)
    (HT.rev HT.nil (HT.childOf x T)) hrep2 (by rw [u1]) v2 hnd3 hlen
  have hd02 : DataEq m m2 := u5.on_dataEq.de_trans v4.rv_dataEq
  rw [hd02.hpa] at w1 w2
  have hx3 : m3 x = m2 x := by
    apply w3
    intro h'
    rcases List.mem_append.1 h' with h'' | h''
    · exact hxr (HT.roots_subset_addrs _ _ h'')
    · exact hxc (hrevperm.subset (HT.roots_subset_addrs _ _ h''))
  have hx2 : m2 x = r.1 x := v3 x (fun h' => hxc (HT.roots_subset_addrs _ _ h'))
  refine ⟨m2, m3, ?_, ?_, ?_, ?_, hd02.de_trans w4, ?_, ?_, ?_, ?_, ?_⟩
  · rw [u4, c2, v1]
  · rw [u1] at w1
    rw [u1, w1]
    rfl
  · exact w2
  · intro y hy
    have hyr : y ∉ T.roots := fun h' => hy (HT.roots_subset_addrs _ _ h')
    rw [w3 y, v3 y, u3 y hyr]
    · intro h'
      exact hy (HT.childOf_addrs x T hnd y (HT.roots_subset_addrs _ _ h')).1
    · intro h'
      rcases List.mem_append.1 h' with h'' | h''
      · exact hyr (HT.remove_roots x T y h'')
      · have := hrevperm.subset (HT.roots_subset_addrs _ _ h'')
        exact hy (HT.childOf_addrs x T hnd y this).1
  · exact ParOK.po_trans (ParOK.po_trans u5.on_parOK u5.on_dataEq v4.rv_parOK) hd02 w5
  · rw [hx3, hx2, u4]
    exact Rep.parent_of_root hT x hx
  · rw [hx3, hx2, u4]
    exact c3
  · rw [hx3, hx2, u4]
  · intro hsw hord
    rw [← hd02.hpa]
    apply Ord.of_parOK hsw w4 w5
    rw [hd02.hpa]
    intro a ha p hpar
    rw [(hd02 a).1, (hd02 p).1]
    have haT' : a ∈ (HT.remove x T).addrs ++ (HT.rev HT.nil (HT.childOf x T)).addrs :=
      (HT.union_addrs_perm _ _ _).subset ha
    have haT : a ∈ T.addrs := by
      apply hperm.symm.subset
      rcases List.mem_append.1 haT' with h' | h'
      · simp [h']
      · simp [hrevperm.subset h']
    have hpar_m : (m a).parent = some p := by
      rcases (v4 a).1 with e | e
      · rw [← (u5 a).1, ← e]
        exact hpar
      · rw [e] at hpar
        cases hpar
    apply hord a haT p hpar_m
    intro hpx
    subst hpx
    have hroot : a ∈ (HT.childOf p T).roots :=
      Rep.child_of_root hT hnd (by simp) hx haT hpar_m
    have hroot' : a ∈ (HT.rev HT.nil (HT.childOf p T)).roots := by
      rw [HT.rev_roots]
      simp [hroot]
    have := Rep.parent_of_root v2 a hroot'
    rw [this] at hpar
    cases hpar

theorem extract_min_spec (fuel : Nat) (hp : Prio) (m : Mem) (h : heap)
    (T : HT) (hT : Rep m none T) (hh : h.head = T.hd) (hnd : T.addrs.Nodup)
    (hf : T.size ≤ fuel) :
    ∃ m', __heap_extract_min fuel hp m h
        = some (m', { h with head := (HT.extractMin (hpa_of hp m) T).hd },
            HT.minRoot (hpa_of hp m) T) ∧
      Rep m' none (HT.extractMin (hpa_of hp m) T) ∧
      (∀ y, y ∉ T.addrs → m' y = m y) ∧ DataEq m m' ∧ ParOK hp m m' ∧
      (∀ x, HT.minRoot (hpa_of hp m) T = some x →
        (m' x).parent = none ∧ (m' x).degree = HT.degOf x T) := by
  have hmin := heap_min_spec fuel hp m h T hT hh
    (le_trans (HT.roots_length_le_size T) hf)
  cases hmr : HT.minRoot (hpa_of hp m) T with
  | none =>
    refine ⟨m, ?_, ?_, fun _ _ => rfl, DataEq.de_refl m, ParOK.po_refl hp m,
      (fun x hx => by cases hx)⟩
    · rw [hmr] at hmin
      simp only [__heap_extract_min, hmin, HT.extractMin, hmr]
      rw [← hh]
    · simpa [HT.extractMin, hmr] using hT
  | some x =>
    obtain ⟨hx, hprev⟩ := HT.minRoot_mem _ T x (HT.roots_nodup hnd) hmr
    rw [hmr, hprev] at hmin
    obtain ⟨m2, m3, t1, t2, t3, t4, t5, t6, t7, t8, _, _⟩ := remove_root_spec fuel hp m h T x hT
      hh hnd hx hf
    have hE : HT.extractMin (hpa_of hp m) T = HT.removeRoot (hpa_of hp m) x T := by
      simp [HT.extractMin, hmr]
    rw [hE]
    refine ⟨m3, ?_, t3, t4, t5, t6, ?_⟩
    · simp only [__heap_extract_min, hmin, t1, t2]
    · intro x' hx'
      cases hx'
      exact ⟨t7, t8⟩

end BH

namespace BH

/-! ## Well-formed heaps -/

theorem mem_members {h : heap} {T : HT} {x : Nat} :
    x ∈ members h T ↔ h.min = some x ∨ x ∈ T.addrs := by
  simp [members, Option.mem_toList]

theorem Shaped.members_nodup {m : Mem} {h : heap} {T : HT} (w : Shaped m h T) :
    (members h T).Nodup := by
  unfold members
  cases hm : h.min with
  | none => simpa using w.nodup
  | some x => simpa using ⟨w.min_fresh x hm, w.nodup⟩

theorem Ord.ord_frame {hp : Prio} {m m' : Mem} {T : HT} (h : Ord hp m T) (hr : Rep m none T)
    (hf : ∀ x ∈ T.addrs, m' x = m x) : Ord hp m' T := by
  intro a ha p hpar
  rw [hf a ha] at hpar ⊢
  rcases Rep.parent_mem hr a ha p hpar with e | e
  · cases e
  · rw [hf p e]
    exact h a ha p hpar

theorem Shaped.sh_frame {m m' : Mem} {h : heap} {T : HT} (w : Shaped m h T)
    (hf : ∀ x ∈ T.addrs, m' x = m x) : Shaped m' h T :=
  ⟨Rep.frame w.rep hf, w.head, w.nodup, w.min_fresh⟩

theorem WF.wf_frame {hp : Prio} {m m' : Mem} {h : heap} {T : HT} (w : WF hp m h T)
    (hf : ∀ x ∈ members h T, m' x = m x) : WF hp m' h T := by
  have hfT : ∀ x ∈ T.addrs, m' x = m x := fun x hx => hf x (mem_members.2 (Or.inr hx))
  refine ⟨w.shaped.sh_frame hfT, Ord.ord_frame w.ord w.shaped.rep hfT, ?_⟩
  intro x hx a ha
  rw [hfT a ha, hf x (mem_members.2 (Or.inl hx))]
  exact w.min_ok x hx a ha

/-- Heap order except at `x` after a structural operation that only links
nodes of `R`, all of which had no parent. -/
theorem OrdEx.ex_of_parOK {hp : Prio} (hsw : StrictWeak hp) {m m' : Mem} {T' : HT}
    {R : List Nat} {x : Nat} (hd : DataEq m m') (hpo : ParOK hp m m')
    (hnr : NewParRoots R m m') (hR : ∀ r ∈ R, (m r).parent = none)
    (h1 : ∀ a ∈ T'.addrs, a ≠ x → ∀ p, (m a).parent = some p →
      hp (m a).value (m p).value = false)
    (h2 : ∀ c ∈ T'.addrs, (m c).parent = some x → ∀ g, (m x).parent = some g →
      hp (m c).value (m g).value = false) :
    OrdEx hp m' T' x := by
  have key : ∀ a ∈ T'.addrs, a ≠ x → ∀ p, (m' a).parent = some p →
      hp (m a).value (m p).value = false := by
    intro a ha hax p hpar
    rcases hpo a p hpar with e | e | e
    · exact h1 a ha hax p e
    · exact e
    · exact hsw.asymm e
  refine ⟨?_, ?_⟩
  · intro a ha hax p hpar
    rw [(hd a).1, (hd p).1]
    exact key a ha hax p hpar
  · intro c hc hcx g hxg
    rw [(hd c).1, (hd g).1]
    by_cases hcx' : c = x
    · subst hcx'
      rw [hcx] at hxg
      cases hxg
      exact hsw.irrefl _
    · rcases hnr x g hxg with e | e
      · rcases hnr c x hcx with e' | e'
        · exact h2 c hc e' g e
        · rw [hR x e'.2] at e
          cases e
      · have hxg' : hp (m x).value (m g).value = false := by
          rcases hpo x g hxg with q | q | q
          · rw [hR x e.1] at q
            cases q
          · exact q
          · exact hsw.asymm q
        exact hsw.negtrans _ _ _ (key c hc hcx' x hcx) hxg'

/-- In a heap-ordered structure under a list parent `q`, no node beats `q`
when no list node does. -/
theorem Rep.no_beat {hp : Prio} (hsw : StrictWeak hp) {m : Mem} {T : HT} :
    ∀ {par : Option Nat} (q : Nat), Rep m par T → Ord hp m T →
    (∀ r ∈ T.roots, hp (m r).value (m q).value = false) →
    ∀ a ∈ T.addrs, hp (m a).value (m q).value = false := by
  induction T with
  | nil => intro _ _ _ _ _ a ha; simp [HT.addrs] at ha
  | node b d c n ihc ihn =>
    intro par q h ho hr a ha
    obtain ⟨r1, _, _, _, r5, r6⟩ := h
    have hoc : Ord hp m c := fun x hx => ho x (by simp [HT.addrs, hx])
    have hon : Ord hp m n := fun x hx => ho x (by simp [HT.addrs, hx])
    have hbq : hp (m b).value (m q).value = false := hr b (by simp [HT.roots])
    simp only [HT.addrs, List.mem_cons, List.mem_append] at ha
    rcases ha with rfl | ha | ha
    · exact hbq
    · have hcb : hp (m a).value (m b).value = false := by
        apply ihc b r5 hoc _ a ha
        intro r hr'
        exact ho r (by simp [HT.addrs, HT.roots_subset_addrs _ _ hr']) b
          (Rep.parent_of_root r5 r hr')
      exact hsw.negtrans _ _ _ hcb hbq
    · exact ihn q r6 hon (fun r hr' => hr r (by simp [HT.roots, hr'])) a ha

/-- The root chosen by `__heap_min` is not beaten by any node. -/
theorem WF.minRoot_best_all {hp : Prio} (hsw : StrictWeak hp) {m : Mem} {T : HT}
    (hr : Rep m none T) (ho : Ord hp m T) {x : Nat}
    (hx : HT.minRoot (hpa_of hp m) T = some x) :
    ∀ a ∈ T.addrs, hp (m a).value (m x).value = false := by
  apply Rep.no_beat hsw x hr ho
  exact HT.minRoot_best (hpa_of hp m) (fun a => hsw.irrefl _) (fun a b c => hsw.trans _ _ _) T x hx

/-! ## `heap_insert` and `__uncache_min` -/

theorem node_reinit_same (m : Mem) (a : Nat) :
    node_reinit m a = fun b =>
      if b = a then { m b with child := none, parent := none, next := none, degree := 0 }
      else m b := by
  funext b
  by_cases h : b = a
  · subst h
    apply heap_node_ext <;> simp [node_reinit]
  · simp only [if_neg h]
    apply heap_node_ext <;> simp [node_reinit, h]

theorem node_reinit_other (m : Mem) (a x : Nat) (h : x ≠ a) : node_reinit m a x = m x := by
  rw [node_reinit_same]; simp [h]

theorem node_reinit_dataEq (m : Mem) (a : Nat) : DataEq m (node_reinit m a) := by
  intro x; simp [node_reinit]

theorem node_reinit_rep (m : Mem) (a : Nat) : Rep (node_reinit m a) none (HT.single a) := by
  simp [HT.single, Rep, node_reinit]

/-- Union of a root structure with one reinitialised node. -/
theorem union_single_spec (fuel : Nat) (hp : Prio) (m : Mem) (h : heap)
    (T : HT) (z : Nat) (hr : Rep m none T) (hh : h.head = T.hd) (hnd : T.addrs.Nodup)
    (hz : z ∉ T.addrs) (hf : T.size + 2 ≤ fuel) :
    ∃ m', __heap_union fuel hp (node_reinit m z) h (some z)
        = some (m', { h with head := (HT.union (hpa_of hp m) T (HT.single z)).hd }) ∧
      Rep m' none (HT.union (hpa_of hp m) T (HT.single z)) ∧
      (HT.union (hpa_of hp m) T (HT.single z)).addrs.Perm (z :: T.addrs) ∧
      (∀ x, x ∉ z :: T.addrs → m' x = m x) ∧ DataEq m m' ∧
      (StrictWeak hp → Ord hp m T → Ord hp m' (HT.union (hpa_of hp m) T (HT.single z))) ∧
      (StrictWeak hp → ∀ x, OrdEx hp m T x →
        OrdEx hp m' (HT.union (hpa_of hp m) T (HT.single z)) x) := by
  have hfr : ∀ x ∈ T.addrs, node_reinit m z x = m x := fun x hx =>
    node_reinit_other m z x (fun e => hz (e ▸ hx))
  have hd0 := node_reinit_dataEq m z
  have hnd2 : (T.addrs ++ (HT.single z).addrs).Nodup := by
    simp only [HT.single, HT.addrs, List.append_nil]
    rw [List.nodup_append]
    refine ⟨hnd, by simp, ?_⟩
    intro x hx1 hx2
    simp only [List.mem_singleton] at hx2
    exact hz (hx2 ▸ hx1)
  obtain ⟨m', e1, e2, e3, e4, e5, e6⟩ := heap_union_spec fuel hp (node_reinit m z) h T
    (HT.single z) (Rep.frame hr hfr) hh (node_reinit_rep m z) hnd2
    (by have := HT.roots_length_le_size T; simp only [HT.single, HT.roots, List.length_cons,
          List.length_nil]; omega)
  rw [hd0.hpa] at e1 e2
  have hperm : (HT.union (hpa_of hp m) T (HT.single z)).addrs.Perm (z :: T.addrs) := by
    refine (HT.union_addrs_perm _ _ _).trans ?_
    simp only [HT.single, HT.addrs, List.append_nil]
    exact List.perm_append_comm
  refine ⟨m', by simpa [HT.single] using e1, e2, hperm, ?_, hd0.de_trans e4, ?_, ?_⟩
  · intro x hx
    simp only [List.mem_cons, not_or] at hx
    rw [e3 x, node_reinit_other m z x hx.1]
    intro hmem
    simp only [HT.single, HT.roots, List.mem_append, List.mem_cons, List.mem_singleton,
      List.not_mem_nil, or_false] at hmem
    rcases hmem with h' | h'
    · exact hx.2 (HT.roots_subset_addrs _ _ h')
    · exact hx.1 h'
  · intro hsw ho
    rw [← hd0.hpa]
    apply Ord.of_parOK hsw e4 e5
    rw [hd0.hpa]
    intro a ha p hpar
    have ha' := hperm.subset ha
    simp only [List.mem_cons] at ha'
    rcases ha' with rfl | ha'
    · simp [node_reinit] at hpar
    · rw [hfr a ha'] at hpar ⊢
      rcases Rep.parent_mem hr a ha' p hpar with e | e
      · cases e
      · rw [hfr p e]
        exact ho a ha' p hpar
  · intro hsw x hox
    have hzpar : (node_reinit m z z).parent = none := by simp [node_reinit]
    have hval : ∀ y, (node_reinit m z y).value = (m y).value := fun y => (hd0 y).1
    have hparT : ∀ a ∈ T.addrs, (node_reinit m z a).parent = (m a).parent := fun a ha => by
      rw [hfr a ha]
    rw [← hd0.hpa]
    apply OrdEx.ex_of_parOK hsw e4 e5 e6
    · intro r hr'
      rcases List.mem_append.1 hr' with h' | h'
      · rw [hparT r (HT.roots_subset_addrs _ _ h')]
        exact Rep.parent_of_root hr r h'
      · simp only [HT.single, HT.roots, List.mem_singleton] at h'
        rw [h']
        exact hzpar
    · rw [hd0.hpa]
      intro a ha hax p hpar
      have ha' := hperm.subset ha
      simp only [List.mem_cons] at ha'
      rcases ha' with rfl | ha'
      · rw [hzpar] at hpar
        cases hpar
      · rw [hparT a ha'] at hpar
        rw [hval a, hval p]
        exact hox.1 a ha' hax p hpar
    · rw [hd0.hpa]
      intro c hc hcx g hxg
      have hc' := hperm.subset hc
      simp only [List.mem_cons] at hc'
      rcases hc' with rfl | hc'
      · rw [hzpar] at hcx
        cases hcx
      · rw [hparT c hc'] at hcx
        have hxT : x ∈ T.addrs := by
          rcases Rep.parent_mem hr c hc' x hcx with e | e
          · cases e
          · exact e
        rw [hparT x hxT] at hxg
        rw [hval c, hval g]
        exact hox.2 c hc' hcx g hxg

theorem heap_insert_spec (fuel : Nat) (hp : Prio) (m : Mem) (h : heap)
    (T : HT) (node : Nat) (w : Shaped m h T) (hn : node ∉ members h T)
    (hf : T.size + 2 ≤ fuel) :
    ∃ m', heap_insert fuel hp m h node
        = some (m', { head := (HT.insert hp m h T node).hd,
                      min := min_after_insert hp m h node }) ∧
      Shaped m' { head := (HT.insert hp m h T node).hd, min := min_after_insert hp m h node }
        (HT.insert hp m h T node) ∧
      (members { head := (HT.insert hp m h T node).hd, min := min_after_insert hp m h node }
        (HT.insert hp m h T node)).Perm (node :: members h T) ∧
      (∀ x, x ∉ node :: members h T → m' x = m x) ∧ DataEq m m' ∧
      (StrictWeak hp → WF hp m h T →
        WF hp m' { head := (HT.insert hp m h T node).hd, min := min_after_insert hp m h node }
          (HT.insert hp m h T node)) := by
  have hnT : node ∉ T.addrs := fun hx => hn (mem_members.2 (Or.inr hx))
  have hd1 := node_reinit_dataEq m node
  cases hmin : h.min with
  | none =>
    obtain ⟨m', e1, e2, e3, e5, e6, e4, _⟩ := union_single_spec fuel hp m h T node w.rep w.head
      w.nodup hnT hf
    have hT' : HT.insert hp m h T node = HT.union (hpa_of hp m) T (HT.single node) := by
      simp [HT.insert, hmin]
    have hm' : min_after_insert hp m h node = none := by simp [min_after_insert, hmin]
    rw [hT', hm']
    have hsh : Shaped m' { head := (HT.union (hpa_of hp m) T (HT.single node)).hd, min := none }
        (HT.union (hpa_of hp m) T (HT.single node)) :=
      ⟨e2, rfl, e3.nodup_iff.2 (List.nodup_cons.2 ⟨hnT, w.nodup⟩), (fun x hx => by cases hx)⟩
    refine ⟨m', ?_, hsh, ?_, ?_, e6, ?_⟩
    · simp only [heap_insert, hmin, e1]
    · simpa [members, hmin] using e3
    · intro x hx
      apply e5
      simpa [members, hmin] using hx
    · intro hsw w'
      exact ⟨hsh, e4 hsw w'.ord, (fun x hx => by cases hx)⟩
  | some mn =>
    have hmnT : mn ∉ T.addrs := w.min_fresh mn hmin
    have hnm : node ≠ mn := fun e => hn (mem_members.2 (Or.inl (e ▸ hmin)))
    by_cases hc : hp (m node).value (m mn).value = true
    · -- the new node replaces the cached minimum
      have hT' : HT.insert hp m h T node = HT.union (hpa_of hp m) T (HT.single mn) := by
        simp [HT.insert, hmin, hc]
      have hm' : min_after_insert hp m h node = some node := by
        simp [min_after_insert, hmin, hc]
      rw [hT', hm']
      set m1 := node_reinit m node with hm1
      have hfr1 : ∀ x ∈ T.addrs, m1 x = m x := fun x hx =>
        node_reinit_other m node x (fun e => hnT (e ▸ hx))
      obtain ⟨m', e1, e2, e3, e5, e6, e4, _⟩ := union_single_spec fuel hp m1 h T mn
        (Rep.frame w.rep hfr1) w.head w.nodup hmnT hf
      rw [hd1.hpa] at e1 e2 e3 e4
      have hnode : node ∉ (HT.union (hpa_of hp m) T (HT.single mn)).addrs := by
        intro hx
        have := e3.subset hx
        simp only [List.mem_cons] at this
        rcases this with h' | h'
        · exact hnm h'
        · exact hnT h'
      have hsh : Shaped m'
          { head := (HT.union (hpa_of hp m) T (HT.single mn)).hd, min := some node }
          (HT.union (hpa_of hp m) T (HT.single mn)) := by
        refine ⟨e2, rfl, e3.nodup_iff.2 (List.nodup_cons.2 ⟨hmnT, w.nodup⟩), ?_⟩
        intro x hx
        cases hx
        exact hnode
      refine ⟨m', ?_, hsh, ?_, ?_, hd1.de_trans e6, ?_⟩
      · simp only [heap_insert, hmin]
        rw [← hm1]
        have hv : hp (m1 node).value (m1 mn).value = true := by
          rw [(hd1 node).1, (hd1 mn).1]; exact hc
        rw [if_pos hv, e1]
      · simp only [members, hmin, Option.toList_some, List.singleton_append]
        exact (List.Perm.cons node e3)
      · intro x hx
        simp only [members, hmin, Option.toList_some, List.singleton_append, List.mem_cons,
          not_or] at hx
        rw [e5 x (by simp only [List.mem_cons, not_or]; exact ⟨hx.2.1, hx.2.2⟩)]
        exact node_reinit_other m node x hx.1
      · intro hsw w'
        refine ⟨hsh, e4 hsw (Ord.ord_frame w'.ord w.rep hfr1), ?_⟩
        intro x hx a ha
        cases hx
        rw [((hd1.de_trans e6) a).1, ((hd1.de_trans e6) node).1]
        have ha' := e3.subset ha
        simp only [List.mem_cons] at ha'
        rcases ha' with rfl | ha'
        · exact hsw.asymm hc
        · have h1 := w'.min_ok mn hmin a ha'
          by_contra hne
          have hax : hp (m a).value (m node).value = true := by simpa using hne
          have := hsw.trans _ _ _ hax hc
          rw [h1] at this
          exact Bool.noConfusion this
    · -- the cached minimum stays
      have hc' : hp (m node).value (m mn).value = false := by simpa using hc
      have hT' : HT.insert hp m h T node = HT.union (hpa_of hp m) T (HT.single node) := by
        simp [HT.insert, hmin, hc']
      have hm' : min_after_insert hp m h node = some mn := by
        simp [min_after_insert, hmin, hc']
      rw [hT', hm']
      obtain ⟨m', e1, e2, e3, e5, e6, e4, _⟩ := union_single_spec fuel hp m h T node w.rep
        w.head w.nodup hnT hf
      have hsh : Shaped m'
          { head := (HT.union (hpa_of hp m) T (HT.single node)).hd, min := some mn }
          (HT.union (hpa_of hp m) T (HT.single node)) := by
        refine ⟨e2, rfl, e3.nodup_iff.2 (List.nodup_cons.2 ⟨hnT, w.nodup⟩), ?_⟩
        intro x hx
        cases hx
        intro hmem
        have := e3.subset hmem
        simp only [List.mem_cons] at this
        rcases this with h' | h'
        · exact hnm h'.symm
        · exact hmnT h'
      refine ⟨m', ?_, hsh, ?_, ?_, e6, ?_⟩
      · simp only [heap_insert, hmin]
        have hv : ¬ hp (node_reinit m node node).value (node_reinit m node mn).value = true := by
          rw [(hd1 node).1, (hd1 mn).1]; exact hc
        rw [if_neg hv, e1]
        cases h; simp_all
      · simp only [members, hmin, Option.toList_some, List.singleton_append]
        exact (List.Perm.cons mn e3).trans (List.Perm.swap _ _ _)
      · intro x hx
        apply e5
        simp only [members, hmin, Option.toList_some, List.singleton_append, List.mem_cons,
          not_or] at hx ⊢
        exact ⟨hx.1, hx.2.2⟩
      · intro hsw w'
        refine ⟨hsh, e4 hsw w'.ord, ?_⟩
        intro x hx a ha
        cases hx
        rw [(e6 a).1, (e6 mn).1]
        have ha' := e3.subset ha
        simp only [List.mem_cons] at ha'
        rcases ha' with rfl | ha'
        · exact hc'
        · exact w'.min_ok mn hmin a ha'

end BH

namespace BH

/-! ## `__uncache_min`, `heap_peek`, `heap_take` -/

theorem Shaped.drop_min {m : Mem} {h : heap} {T : HT} (w : Shaped m h T) :
    Shaped m { h with min := none } T :=
  ⟨w.rep, w.head, w.nodup, (fun x hx => by cases hx)⟩

theorem WF.wf_drop_min {hp : Prio} {m : Mem} {h : heap} {T : HT} (w : WF hp m h T) :
    WF hp m { h with min := none } T :=
  ⟨w.shaped.drop_min, w.ord, (fun x hx => by cases hx)⟩

theorem uncache_min_spec (fuel : Nat) (hp : Prio) (m : Mem) (h : heap)
    (T : HT) (w : Shaped m h T) (hf : T.size + 2 ≤ fuel) :
    ∃ m', __uncache_min fuel hp m h
        = some (m', { head := (HT.uncache hp m h T).hd, min := none }) ∧
      Shaped m' { head := (HT.uncache hp m h T).hd, min := none } (HT.uncache hp m h T) ∧
      (HT.uncache hp m h T).addrs.Perm (members h T) ∧
      (∀ x, x ∉ members h T → m' x = m x) ∧ DataEq m m' ∧
      (h.min = none → m' = m) ∧
      (StrictWeak hp → WF hp m h T →
        WF hp m' { head := (HT.uncache hp m h T).hd, min := none } (HT.uncache hp m h T)) ∧
      (StrictWeak hp → ∀ x, OrdEx hp m T x → OrdEx hp m' (HT.uncache hp m h T) x) := by
  cases hmin : h.min with
  | none =>
    have hT' : HT.uncache hp m h T = T := by simp [HT.uncache, hmin]
    rw [hT']
    have hsh : Shaped m { head := T.hd, min := none } T :=
      ⟨w.rep, rfl, w.nodup, (fun x hx => by cases hx)⟩
    refine ⟨m, ?_, hsh, ?_, fun _ _ => rfl, DataEq.de_refl m, fun _ => rfl, ?_, fun _ _ hx => hx⟩
    · simp only [__uncache_min, hmin]
      cases h; simp_all [w.head.symm]
    · simp [members, hmin]
    · intro _ w'
      exact ⟨hsh, w'.ord, (fun x hx => by cases hx)⟩
  | some mn =>
    have hT' : HT.uncache hp m h T = HT.union (hpa_of hp m) T (HT.single mn) := by
      simp [HT.uncache, hmin]
    rw [hT']
    have hmnT := w.min_fresh mn hmin
    obtain ⟨m', e1, e2, e3, e4, e5, e6, e7⟩ := union_single_spec fuel hp m { h with min := none }
      T mn w.rep w.head w.nodup hmnT hf
    have hsh : Shaped m' { head := (HT.union (hpa_of hp m) T (HT.single mn)).hd, min := none }
        (HT.union (hpa_of hp m) T (HT.single mn)) :=
      ⟨e2, rfl, e3.nodup_iff.2 (List.nodup_cons.2 ⟨hmnT, w.nodup⟩), (fun x hx => by cases hx)⟩
    refine ⟨m', ?_, hsh, ?_, ?_, e5, (fun hc => by cases hc), ?_, e7⟩
    · simp only [__uncache_min, hmin, heap_insert, e1]
    · simpa [members, hmin] using e3
    · intro x hx
      apply e4
      simpa [members, hmin] using hx
    · intro hsw w'
      exact ⟨hsh, e6 hsw w'.ord, (fun x hx => by cases hx)⟩

theorem min_after_cache_eq_none {hp : Prio} {m : Mem} {h : heap} {T : HT}
    (hh : h.head = T.hd) : min_after_cache hp m h T = none ↔ heap_empty h = true := by
  unfold min_after_cache heap_empty
  cases hmin : h.min with
  | some x => simp
  | none =>
    cases T with
    | nil => simp [HT.minRoot, hh]
    | node a d c n => simp [HT.minRoot, hh]

theorem cache_min_spec (fuel : Nat) (hp : Prio) (m : Mem) (h : heap)
    (T : HT) (w : Shaped m h T) (hf : T.size ≤ fuel) :
    ∃ m', cache_min fuel hp m h = some (m', heap_cached hp m h T) ∧
      Shaped m' (heap_cached hp m h T) (HT.cache hp m h T) ∧
      (members (heap_cached hp m h T) (HT.cache hp m h T)).Perm (members h T) ∧
      (∀ x, x ∉ members h T → m' x = m x) ∧ DataEq m m' ∧
      ((heap_empty h = true ∨ h.min ≠ none) → m' = m ∧ heap_cached hp m h T = h) ∧
      (StrictWeak hp → WF hp m h T →
        WF hp m' (heap_cached hp m h T) (HT.cache hp m h T) ∧
        ∀ x, min_after_cache hp m h T = some x →
          ∀ a ∈ members h T, hp (m a).value (m x).value = false) := by
  unfold heap_cached
  cases hmin : h.min with
  | some x =>
    have hT' : HT.cache hp m h T = T := by simp [HT.cache, hmin]
    have hm' : min_after_cache hp m h T = some x := by simp [min_after_cache, hmin]
    rw [hT', hm']
    have hh : ({ head := T.hd, min := some x } : heap) = h := by
      cases h; simp_all [w.head.symm]
    rw [hh]
    refine ⟨m, by simp [cache_min, hmin], w, List.Perm.refl _, fun _ _ => rfl,
      DataEq.de_refl m, fun _ => ⟨rfl, rfl⟩, ?_⟩
    intro hsw w'
    refine ⟨w', ?_⟩
    intro y hy a ha
    cases hy
    rcases mem_members.1 ha with e | e
    · rw [hmin] at e
      cases e
      exact hsw.irrefl _
    · exact w'.min_ok x hmin a e
  | none =>
    have hT' : HT.cache hp m h T = HT.extractMin (hpa_of hp m) T := by simp [HT.cache, hmin]
    have hm' : min_after_cache hp m h T = HT.minRoot (hpa_of hp m) T := by
      simp [min_after_cache, hmin]
    rw [hT', hm']
    obtain ⟨m', e1, e2, e3, e4, e5, _⟩ := extract_min_spec fuel hp m h T w.rep w.head w.nodup hf
    have hmem : members h T = T.addrs := by simp [members, hmin]
    have hord : StrictWeak hp → Ord hp m T → Ord hp m' (HT.extractMin (hpa_of hp m) T) := by
      intro hsw ho
      apply Ord.of_parOK hsw e4 e5
      intro a ha p hpar
      apply ho a _ p hpar
      cases hx : HT.minRoot (hpa_of hp m) T with
      | none => simpa [HT.extractMin, hx] using ha
      | some x =>
        exact (HT.extractMin_addrs_perm _ T x (HT.roots_nodup w.nodup) hx).symm.subset
          (List.mem_cons_of_mem _ ha)
    cases hx : HT.minRoot (hpa_of hp m) T with
    | none =>
      have hnil : T = HT.nil := by
        cases T with
        | nil => rfl
        | node a d c n => simp [HT.minRoot] at hx
      subst hnil
      rw [hx] at e1
      have hmm : m' = m := by
        funext y
        exact e3 y (by simp [HT.addrs])
      have hsh : Shaped m' { head := (HT.extractMin (hpa_of hp m) HT.nil).hd, min := none }
          (HT.extractMin (hpa_of hp m) HT.nil) :=
        ⟨e2, rfl, by simp [HT.extractMin, HT.minRoot, HT.addrs], (fun x hx' => by cases hx')⟩
      refine ⟨m', ?_, hsh, ?_, ?_, e4, ?_, ?_⟩
      · simp only [cache_min, hmin, e1]
      · simp [members, hmin, HT.extractMin, HT.minRoot]
      · intro x hx'; exact e3 x (by simpa [hmem] using hx')
      · intro _
        refine ⟨hmm, ?_⟩
        have := w.head
        cases h
        simp_all [HT.extractMin, HT.minRoot]
      · intro hsw w'
        exact ⟨⟨hsh, hord hsw w'.ord, (fun x hx' => by cases hx')⟩, (fun x hx' => by cases hx')⟩
    | some x =>
      have hperm := HT.extractMin_addrs_perm _ T x (HT.roots_nodup w.nodup) hx
      have hnd2 := hperm.nodup_iff.1 w.nodup
      rw [hx] at e1
      have hsh : Shaped m' { head := (HT.extractMin (hpa_of hp m) T).hd, min := some x }
          (HT.extractMin (hpa_of hp m) T) := by
        refine ⟨e2, rfl, (List.nodup_cons.1 hnd2).2, ?_⟩
        intro y hy
        cases hy
        exact (List.nodup_cons.1 hnd2).1
      have hne : T ≠ HT.nil := by
        intro e
        subst e
        simp [HT.minRoot] at hx
      refine ⟨m', ?_, hsh, ?_, ?_, e4, ?_, ?_⟩
      · simp only [cache_min, hmin, e1]
      · simp only [members, hmin, Option.toList_some, Option.toList_none, List.singleton_append,
          List.nil_append]
        exact hperm.symm
      · intro y hy; exact e3 y (by simpa [hmem] using hy)
      · intro he
        rcases he with he | he
        · exfalso
          apply hne
          have := w.head
          simp only [heap_empty, Bool.and_eq_true, Option.isNone_iff_eq_none] at he
          rw [he.1] at this
          exact HT.hd_eq_none.1 this.symm
        · exact absurd rfl he
      · intro hsw w'
        have hbest : ∀ a ∈ members h T, hp (m a).value (m x).value = false := by
          intro a ha
          rw [hmem] at ha
          exact WF.minRoot_best_all hsw w.rep w'.ord hx a ha
        refine ⟨⟨hsh, hord hsw w'.ord, ?_⟩, ?_⟩
        · intro y hy a ha
          cases hy
          rw [(e4 a).1, (e4 x).1]
          exact hbest a (by rw [hmem]; exact hperm.symm.subset (List.mem_cons_of_mem _ ha))
        · intro y hy
          cases hy
          exact hbest

theorem heap_cached_min_eq_none {hp : Prio} {m : Mem} {h : heap} {T : HT}
    (hh : h.head = T.hd) : (heap_cached hp m h T).min = none ↔ heap_empty h = true :=
  min_after_cache_eq_none hh

/-- Result of `heap_peek` on a heap of shape `T`. -/
theorem heap_peek_spec (fuel : Nat) (hp : Prio) (m : Mem) (h : heap)
    (T : HT) (w : Shaped m h T) (hf : T.size ≤ fuel) :
    ∃ m', heap_peek fuel hp m h
        = some (m', heap_cached hp m h T, min_after_cache hp m h T) ∧
      cache_min fuel hp m h = some (m', heap_cached hp m h T) := by
  obtain ⟨m', e1, _⟩ := cache_min_spec fuel hp m h T w hf
  exact ⟨m', by simp [heap_peek, e1, heap_cached], e1⟩

/-- Result of `heap_take` on a heap of shape `T`. -/
theorem heap_take_spec (fuel : Nat) (hp : Prio) (m : Mem) (h : heap)
    (T : HT) (w : Shaped m h T) (hf : T.size ≤ fuel) :
    ∃ m1, cache_min fuel hp m h = some (m1, heap_cached hp m h T) ∧
      heap_take fuel hp m h
        = some (mem_after_take m1 (min_after_cache hp m h T),
            { head := (HT.cache hp m h T).hd, min := none }, min_after_cache hp m h T) ∧
      Shaped (mem_after_take m1 (min_after_cache hp m h T))
        { head := (HT.cache hp m h T).hd, min := none } (HT.cache hp m h T) ∧
      (StrictWeak hp → WF hp m h T →
        WF hp (mem_after_take m1 (min_after_cache hp m h T))
          { head := (HT.cache hp m h T).hd, min := none } (HT.cache hp m h T)) := by
  obtain ⟨m1, e1, e2, e3, e4, e5, e6, e7⟩ := cache_min_spec fuel hp m h T w hf
  have hfr : ∀ x ∈ (HT.cache hp m h T).addrs,
      mem_after_take m1 (min_after_cache hp m h T) x = m1 x := by
    intro x hx
    cases hr : min_after_cache hp m h T with
    | none => rfl
    | some node =>
      simp only [mem_after_take]
      apply set_degree_other
      intro e
      subst e
      exact e2.min_fresh x (by simp [heap_cached, hr]) hx
  have hsh : Shaped (mem_after_take m1 (min_after_cache hp m h T))
      { head := (HT.cache hp m h T).hd, min := none } (HT.cache hp m h T) :=
    ⟨Rep.frame e2.rep hfr, rfl, e2.nodup, (fun x hx => by cases hx)⟩
  refine ⟨m1, e1, ?_, hsh, ?_⟩
  · simp only [heap_take, e1, heap_cached]
    cases hr : min_after_cache hp m h T with
    | none => simp [mem_after_take]
    | some node => simp [mem_after_take]
  · intro hsw w'
    obtain ⟨w1, _⟩ := e7 hsw w'
    exact ⟨hsh, Ord.ord_frame w1.ord e2.rep hfr, (fun x hx => by cases hx)⟩

end BH

namespace BH

/-! ## `heap_union` -/

theorem HT.uncache_congr (hp : Prio) {m m' : Mem} (hd : DataEq m m') (h : heap) (T : HT) :
    HT.uncache hp m' h T = HT.uncache hp m h T := by
  unfold HT.uncache
  rw [hd.hpa]

theorem heap_union_pub_spec (fuel : Nat) (hp : Prio) (m : Mem) (t a : heap) (Tt Ta : HT)
    (wt : Shaped m t Tt) (wa : Shaped m a Ta)
    (hdisj : ∀ x ∈ members t Tt, x ∉ members a Ta)
    (hf : Tt.size + Ta.size + 3 ≤ fuel) :
    ∃ m', heap_union fuel hp m t a
        = some (m', { head := (HT.unionPub hp m t a Tt Ta).hd, min := none },
            { head := none, min := none }) ∧
      Shaped m' { head := (HT.unionPub hp m t a Tt Ta).hd, min := none }
        (HT.unionPub hp m t a Tt Ta) ∧
      (HT.unionPub hp m t a Tt Ta).addrs.Perm (members t Tt ++ members a Ta) ∧
      (∀ x, x ∉ members t Tt ++ members a Ta → m' x = m x) ∧ DataEq m m' ∧
      (StrictWeak hp → WF hp m t Tt → WF hp m a Ta →
        WF hp m' { head := (HT.unionPub hp m t a Tt Ta).hd, min := none }
          (HT.unionPub hp m t a Tt Ta)) := by
  have hszt : (members t Tt).length ≤ Tt.size + 1 := by
    unfold members
    cases t.min <;> simp [HT.length_addrs]
  have hsza : (members a Ta).length ≤ Ta.size + 1 := by
    unfold members
    cases a.min <;> simp [HT.length_addrs]
  -- uncache the target
  obtain ⟨m1, a1, a2, a3, a4, a5, _, a7, _⟩ := uncache_min_spec fuel hp m t Tt wt (by omega)
  have hma : ∀ x ∈ members a Ta, m1 x = m x := fun x hx =>
    a4 x (fun hx' => hdisj x hx' hx)
  have wa1 : Shaped m1 a Ta := wa.sh_frame (fun x hx => hma x (mem_members.2 (Or.inr hx)))
  -- uncache the addition
  obtain ⟨m2, b1, b2, b3, b4, b5, _, b7, _⟩ := uncache_min_spec fuel hp m1 a Ta wa1 (by omega)
  rw [HT.uncache_congr hp a5] at b1 b2 b3 b7
  have hmt : ∀ x ∈ (HT.uncache hp m t Tt).addrs, m2 x = m1 x := fun x hx =>
    b4 x (fun hx' => hdisj x (a3.subset hx) hx')
  have hnd : ((HT.uncache hp m t Tt).addrs ++ (HT.uncache hp m a Ta).addrs).Nodup := by
    rw [List.nodup_append]
    refine ⟨a2.nodup, b2.nodup, ?_⟩
    intro x hx1 hx2
    exact hdisj x (a3.subset hx1) (b3.subset hx2)
  have hlen : (HT.uncache hp m t Tt).roots.length + (HT.uncache hp m a Ta).roots.length
      < fuel := by
    have h1 := HT.roots_length_le_size (HT.uncache hp m t Tt)
    have h2 := HT.roots_length_le_size (HT.uncache hp m a Ta)
    have h3 := a3.length_eq
    have h4 := b3.length_eq
    simp only [HT.length_addrs] at h3 h4
    omega
  obtain ⟨m3, c1, c2, c3, c4, c5, _⟩ := heap_union_spec fuel hp m2
    { head := (HT.uncache hp m t Tt).hd, min := none } (HT.uncache hp m t Tt)
    (HT.uncache hp m a Ta) (Rep.frame a2.rep hmt) rfl b2.rep hnd hlen
  have hd02 : DataEq m m2 := a5.de_trans b5
  rw [hd02.hpa] at c1 c2
  have hperm : (HT.unionPub hp m t a Tt Ta).addrs.Perm (members t Tt ++ members a Ta) :=
    (HT.union_addrs_perm _ _ _).trans (List.Perm.append a3 b3)
  have hsh : Shaped m3 { head := (HT.unionPub hp m t a Tt Ta).hd, min := none }
      (HT.unionPub hp m t a Tt Ta) :=
    ⟨c2, rfl, (HT.union_addrs_perm _ _ _).nodup_iff.2 hnd, (fun x hx => by cases hx)⟩
  refine ⟨m3, ?_, hsh, hperm, ?_, hd02.de_trans c4, ?_⟩
  · simp only [heap_union, a1, b1, c1]
    rfl
  · intro x hx
    simp only [List.mem_append, not_or] at hx
    rw [c3 x, b4 x hx.2, a4 x hx.1]
    intro hmem
    rcases List.mem_append.1 hmem with h' | h'
    · exact hx.1 (a3.subset (HT.roots_subset_addrs _ _ h'))
    · exact hx.2 (b3.subset (HT.roots_subset_addrs _ _ h'))
  · intro hsw wt' wa'
    have w1 := a7 hsw wt'
    have w2 := b7 hsw (wa'.wf_frame hma)
    refine ⟨hsh, ?_, (fun x hx => by cases hx)⟩
    apply Ord.of_parOK hsw c4 c5
    intro x hx p hpar
    have hx' := (HT.union_addrs_perm _ _ _).subset hx
    rcases List.mem_append.1 hx' with h' | h'
    · exact (Ord.ord_frame w1.ord a2.rep hmt) x h' p hpar
    · exact w2.ord x h' p hpar

end BH

namespace BH

/-! ## `heap_take` on a well-formed heap, and the drain loop -/

theorem set_degree_dataEq (m : Mem) (a d : Nat) : DataEq m (set_degree m a d) := by
  intro x; simp

theorem members_length_le (h : heap) (T : HT) : T.size ≤ (members h T).length := by
  unfold members
  simp [HT.length_addrs]

theorem members_empty {m : Mem} {h : heap} {T : HT} (w : Shaped m h T)
    (he : heap_empty h = true) : members h T = [] := by
  simp only [heap_empty, Bool.and_eq_true, Option.isNone_iff_eq_none] at he
  have hT : T = HT.nil := HT.hd_eq_none.1 (by rw [← w.head]; exact he.1)
  simp [members, he.2, hT, HT.addrs]

/-- Result of `heap_take` on a non-empty well-formed heap. -/
theorem heap_take_wf_spec (fuel : Nat) (hp : Prio) (hsw : StrictWeak hp) (m : Mem) (h : heap)
    (T : HT) (w : WF hp m h T) (hne : heap_empty h = false) (hf : T.size ≤ fuel) :
    ∃ m' x, heap_take fuel hp m h
        = some (m', { head := (HT.cache hp m h T).hd, min := none }, some x) ∧
      min_after_cache hp m h T = some x ∧
      WF hp m' { head := (HT.cache hp m h T).hd, min := none } (HT.cache hp m h T) ∧
      (members h T).Perm (x :: (HT.cache hp m h T).addrs) ∧
      (∀ a ∈ members h T, hp (m a).value (m x).value = false) ∧
      (∀ y, y ∉ members h T → m' y = m y) ∧ DataEq m m' ∧
      (m' x).degree = NOT_IN_HEAP := by
  obtain ⟨m1, e1, e2, e3, e4, e5, _, e7⟩ := cache_min_spec fuel hp m h T w.shaped hf
  obtain ⟨m1', t1, t2, _, t4⟩ := heap_take_spec fuel hp m h T w.shaped hf
  have hm1 : m1' = m1 := by
    have := t1.symm.trans e1
    simp only [Option.some.injEq, Prod.mk.injEq] at this
    exact this.1
  subst hm1
  obtain ⟨w1, hbest⟩ := e7 hsw w
  cases hr : min_after_cache hp m h T with
  | none =>
    have := (min_after_cache_eq_none w.shaped.head).1 hr
    rw [hne] at this
    exact Bool.noConfusion this
  | some x =>
    rw [hr] at t2 t4
    have hperm : (members h T).Perm (x :: (HT.cache hp m h T).addrs) := by
      have := e3.symm
      simpa [members, heap_cached, hr] using this
    refine ⟨set_degree m1' x NOT_IN_HEAP, x, t2, rfl, t4 hsw w, hperm, hbest x hr, ?_,
      e5.de_trans (set_degree_dataEq _ _ _), by simp⟩
    intro y hy
    have hyx : y ≠ x := fun e => hy (hperm.symm.subset (by simp [e]))
    rw [set_degree_other _ _ _ _ hyx]
    exact e4 y hy

theorem HT.cache_size_le (hp : Prio) (m : Mem) (h : heap) (T : HT) (hnd : T.addrs.Nodup) :
    (HT.cache hp m h T).size ≤ T.size := by
  unfold HT.cache
  cases h.min with
  | some x => exact le_refl _
  | none =>
    cases hx : HT.minRoot (hpa_of hp m) T with
    | none => simp [HT.extractMin, hx]
    | some x =>
      have := (HT.extractMin_addrs_perm (hpa_of hp m) T x (HT.roots_nodup hnd) hx).length_eq
      simp only [List.length_cons, HT.length_addrs] at this
      simp only
      omega

/-- The drain loop on a well-formed heap returns every member exactly once,
in an order in which no later node beats an earlier one, and leaves the heap
empty. -/
theorem drain_spec (fuel : Nat) (hp : Prio) (hsw : StrictWeak hp) : ∀ (k : Nat) (m : Mem)
    (h : heap) (T : HT), WF hp m h T → (members h T).length < k → T.size ≤ fuel →
    ∃ m' h' out, drain hp fuel k m h = some (m', h', out) ∧ heap_empty h' = true ∧
      out.Perm (members h T) ∧ DataEq m m' ∧
      (∀ y, y ∉ members h T → m' y = m y) ∧
      out.Pairwise (fun a b => hp (m b).value (m a).value = false) := by
  intro k
  induction k with
  | zero => intro m h T _ hk; omega
  | succ k ih =>
    intro m h T w hk hf
    cases he : heap_empty h with
    | true =>
      refine ⟨m, h, [], by simp [drain, he], he, ?_, DataEq.de_refl m, fun _ _ => rfl,
        List.Pairwise.nil⟩
      rw [members_empty w.shaped he]
    | false =>
      obtain ⟨m1, x, t1, _, t3, t4, t5, t6, t7, _⟩ := heap_take_wf_spec fuel hp hsw m h T w he hf
      have hmem1 : members { head := (HT.cache hp m h T).hd, min := none } (HT.cache hp m h T)
          = (HT.cache hp m h T).addrs := by simp [members]
      have hlen : (members { head := (HT.cache hp m h T).hd, min := none }
          (HT.cache hp m h T)).length < k := by
        rw [hmem1]
        have := t4.length_eq
        simp only [List.length_cons] at this
        omega
      obtain ⟨m2, h2, out, d1, d2, d3, d4, d5, d6⟩ := ih m1 _ _ t3 hlen
        (le_trans (HT.cache_size_le hp m h T w.shaped.nodup) hf)
      rw [hmem1] at d3 d5
      refine ⟨m2, h2, x :: out, ?_, d2, ?_, t7.de_trans d4, ?_, ?_⟩
      · simp [drain, he, t1, d1]
      · exact (List.Perm.cons x d3).trans t4.symm
      · intro y hy
        rw [d5 y (fun hy' => hy (t4.symm.subset (List.mem_cons_of_mem _ hy'))), t6 y hy]
      · rw [List.pairwise_cons]
        refine ⟨?_, ?_⟩
        · intro b hb
          exact t5 b (t4.symm.subset (List.mem_cons_of_mem _ (d3.subset hb)))
        · refine d6.imp ?_
          intro a b hab
          rw [← (t7 a).1, ← (t7 b).1]
          exact hab

/-! ## Inserting a list of nodes -/

theorem HT.insert_size (hp : Prio) (m : Mem) (h : heap) (T : HT) (node : Nat) :
    (HT.insert hp m h T node).size = T.size + 1 := by
  have key : ∀ z, (HT.union (hpa_of hp m) T (HT.single z)).size = T.size + 1 := by
    intro z
    have := (HT.union_addrs_perm (hpa_of hp m) T (HT.single z)).length_eq
    simpa [HT.length_addrs, HT.single, HT.size] using this
  unfold HT.insert
  cases h.min with
  | none => exact key node
  | some mn =>
    simp only
    split
    · exact key mn
    · exact key node

end BH

namespace BH

theorem insert_all_spec (fuel : Nat) (hp : Prio) : ∀ (nodes : List Nat) (m : Mem) (h : heap)
    (T : HT), Shaped m h T → nodes.Nodup → (∀ x ∈ nodes, x ∉ members h T) →
    T.size + nodes.length + 1 ≤ fuel →
    ∃ m' h' T', insert_all fuel hp nodes m h = some (m', h') ∧ Shaped m' h' T' ∧
      (members h' T').Perm (nodes ++ members h T) ∧ DataEq m m' ∧
      (∀ y, y ∉ nodes ++ members h T → m' y = m y) ∧
      T'.size = T.size + nodes.length ∧
      (StrictWeak hp → WF hp m h T → WF hp m' h' T') := by
  intro nodes
  induction nodes with
  | nil =>
    intro m h T w _ _ _
    exact ⟨m, h, T, rfl, w, by simp, DataEq.de_refl m, fun _ _ => rfl, by simp, fun _ w' => w'⟩
  | cons n ns ih =>
    intro m h T w hnd hfresh hf
    rw [List.nodup_cons] at hnd
    simp only [List.length_cons] at hf
    obtain ⟨m1, e1, e2, e3, e4, e5, e6⟩ := heap_insert_spec fuel hp m h T n w
      (hfresh n (by simp)) (by omega)
    have hfresh1 : ∀ x ∈ ns, x ∉ members
        { head := (HT.insert hp m h T n).hd, min := min_after_insert hp m h n }
        (HT.insert hp m h T n) := by
      intro x hx hmem
      have := e3.subset hmem
      simp only [List.mem_cons] at this
      rcases this with h' | h'
      · exact hnd.1 (h' ▸ hx)
      · exact hfresh x (by simp [hx]) h'
    obtain ⟨m2, h2, T2, f1, f2, f3, f4, f5, f6, f7⟩ := ih m1 _ _ e2 hnd.2 hfresh1
      (by rw [HT.insert_size]; omega)
    refine ⟨m2, h2, T2, ?_, f2, ?_, e5.de_trans f4, ?_, ?_, ?_⟩
    · simp [insert_all, e1, f1]
    · refine f3.trans ?_
      refine (List.Perm.append_left ns e3).trans ?_
      simp only [List.cons_append]
      exact List.perm_middle
    · intro y hy
      simp only [List.cons_append, List.mem_cons, List.mem_append, not_or] at hy
      rw [f5 y, e4 y]
      · simp only [List.mem_cons, not_or]
        exact ⟨hy.1, hy.2.2⟩
      · intro hmem
        rcases List.mem_append.1 hmem with h' | h'
        · exact hy.2.1 h'
        · have := e3.subset h'
          simp only [List.mem_cons] at this
          rcases this with h'' | h''
          · exact hy.1 h''
          · exact hy.2.2 h''
    · rw [f6, HT.insert_size]
      simp only [List.length_cons]
      omega
    · intro hsw w'
      exact f7 hsw (e6 hsw w')

theorem shaped_init (m : Mem) : Shaped m heap_init HT.nil :=
  ⟨trivial, rfl, by simp [HT.addrs], (fun x hx => by cases hx)⟩

theorem wf_init (hp : Prio) (m : Mem) : WF hp m heap_init HT.nil :=
  ⟨shaped_init m, (fun a ha => by simp [HT.addrs] at ha), (fun x hx => by cases hx)⟩

end BH

namespace BH

/-! ## Bubbling up: depth, swaps and the two loops -/

theorem decrease_loop_eq (hp : Prio) : ∀ (fuel : Nat) (m : Mem) (sl : Slots) (node : Nat)
    (par : Option Nat),
    decrease_loop hp fuel m sl node par
      = (bubble_loop (fun m a b => hp (m a).value (m b).value) fuel m sl node par).map
          (fun r => (r.1, r.2.1)) := by
  intro fuel
  induction fuel with
  | zero => intro m sl node par; rfl
  | succ fuel ih =>
    intro m sl node par
    cases par with
    | none => rfl
    | some p =>
      simp only [decrease_loop, bubble_loop]
      split
      · cases hs : swap_with_parent m sl node p with
        | none => rfl
        | some r => simp only [ih]
      · rfl

theorem delete_loop_eq : ∀ (fuel : Nat) (m : Mem) (sl : Slots) (node : Nat) (par : Option Nat),
    delete_loop fuel m sl node par = bubble_loop (fun _ _ _ => true) fuel m sl node par := by
  intro fuel
  induction fuel with
  | zero => intro m sl node par; rfl
  | succ fuel ih =>
    intro m sl node par
    cases par with
    | none => rfl
    | some p =>
      simp only [delete_loop, bubble_loop, if_true]
      cases hs : swap_with_parent m sl node p with
      | none => rfl
      | some r => simp only [ih]

theorem HT.depth_lt_size (x : Nat) (T : HT) (hx : x ∈ T.addrs) : HT.depth x T < T.size := by
  induction T with
  | nil => simp [HT.addrs] at hx
  | node a d c n ihc ihn =>
    simp only [HT.depth, HT.size]
    by_cases hax : a = x
    · simp [hax]
    · simp only [if_neg hax]
      by_cases hxc : x ∈ c.addrs
      · simp only [if_pos hxc]
        have := ihc hxc
        omega
      · simp only [if_neg hxc]
        simp only [HT.addrs, List.mem_cons, List.mem_append] at hx
        rcases hx with h | h | h
        · exact absurd h.symm hax
        · exact absurd h hxc
        · have := ihn h
          omega

/-- In a represented structure a node is either on the list, with the list
parent, or has a parent inside the structure that is one level higher. -/
theorem Rep.depth_parent {m : Mem} {x : Nat} {T : HT} : ∀ {par : Option Nat}, Rep m par T →
    T.addrs.Nodup → x ∈ T.addrs →
    (x ∈ T.roots ∧ (m x).parent = par ∧ HT.depth x T = 0) ∨
    (x ∉ T.roots ∧ ∃ p, (m x).parent = some p ∧ p ∈ T.addrs ∧
      HT.depth x T = HT.depth p T + 1) := by
  induction T with
  | nil => intro _ _ _ hx; simp [HT.addrs] at hx
  | node a d c n ihc ihn =>
    intro par hr hnd hx
    obtain ⟨r1, _, _, _, r5, r6⟩ := hr
    simp only [HT.addrs, List.nodup_cons, List.mem_append, not_or, List.nodup_append] at hnd
    obtain ⟨⟨hac, han⟩, hnc, hnn, hcn⟩ := hnd
    by_cases hax : a = x
    · left
      subst hax
      exact ⟨by simp [HT.roots], r1, by simp [HT.depth]⟩
    · simp only [HT.addrs, List.mem_cons, List.mem_append] at hx
      rcases hx with h | h | h
      · exact absurd h.symm hax
      · right
        have hxr : x ∉ (HT.node a d c n).roots := by
          simp only [HT.roots, List.mem_cons, not_or]
          exact ⟨fun e => hax e.symm, fun hr' => hcn h (HT.roots_subset_addrs _ _ hr')⟩
        refine ⟨hxr, ?_⟩
        rcases ihc r5 hnc h with ⟨_, q2, q3⟩ | ⟨_, p, q2, q3, q4⟩
        · refine ⟨a, q2, by simp [HT.addrs], ?_⟩
          simp [HT.depth, hax, h, q3]
        · refine ⟨p, q2, by simp [HT.addrs, q3], ?_⟩
          have hap : a ≠ p := fun e => hac (e ▸ q3)
          simp [HT.depth, hax, h, hap, q3, q4]
      · have hxc : x ∉ c.addrs := fun hc => hcn hc h
        rcases ihn r6 hnn h with ⟨q1, q2, q3⟩ | ⟨q1, p, q2, q3, q4⟩
        · left
          exact ⟨by simp [HT.roots, q1], q2, by simp [HT.depth, hax, hxc, q3]⟩
        · right
          refine ⟨?_, p, q2, by simp [HT.addrs, q3], ?_⟩
          · simp only [HT.roots, List.mem_cons, not_or]
            exact ⟨fun e => hax e.symm, q1⟩
          · have hap : a ≠ p := fun e => han (e ▸ q3)
            have hpc : p ∉ c.addrs := fun hc => hcn hc q3
            simp [HT.depth, hax, hxc, hap, hpc, q4]

/-- Top level: a node of a represented root structure has no parent exactly
when it is a root; otherwise its parent is in the structure, one level up. -/
theorem Rep.parent_cases {m : Mem} {x : Nat} {T : HT} (hr : Rep m none T) (hnd : T.addrs.Nodup)
    (hx : x ∈ T.addrs) :
    (x ∈ T.roots ∧ (m x).parent = none) ∨
    (∃ p, (m x).parent = some p ∧ p ∈ T.addrs ∧ p ≠ x ∧ HT.depth x T = HT.depth p T + 1) := by
  rcases Rep.depth_parent hr hnd hx with ⟨q1, q2, _⟩ | ⟨_, p, q2, q3, q4⟩
  · exact Or.inl ⟨q1, q2⟩
  · refine Or.inr ⟨p, q2, q3, ?_, q4⟩
    intro e
    subst e
    omega

theorem StructEq.se_refl (m : Mem) : StructEq m m := fun _ => ⟨rfl, rfl, rfl, rfl⟩

theorem StructEq.se_trans {m1 m2 m3 : Mem} (h1 : StructEq m1 m2) (h2 : StructEq m2 m3) :
    StructEq m1 m3 := by
  intro x
  obtain ⟨a1, a2, a3, a4⟩ := h1 x
  obtain ⟨b1, b2, b3, b4⟩ := h2 x
  exact ⟨b1.trans a1, b2.trans a2, b3.trans a3, b4.trans a4⟩

/-- One swap of the bubble-up loops. -/
theorem swap_with_parent_spec (m : Mem) (sl : Slots) (node parent r : Nat) (hne : node ≠ parent)
    (hr : (m node).ref = some r) :
    swap_with_parent m sl node parent
        = some (swap_mem m node parent,
            set_slot (retarget sl (m parent).ref node) r (some parent)) ∧
      StructEq m (swap_mem m node parent) ∧
      (swap_mem m node parent node).value = (m parent).value ∧
      (swap_mem m node parent node).ref = (m parent).ref ∧
      (swap_mem m node parent parent).value = (m node).value ∧
      (swap_mem m node parent parent).ref = (m node).ref ∧
      (∀ x, x ≠ node → x ≠ parent → swap_mem m node parent x = m x) := by
  refine ⟨?_, ?_, ?_, ?_, ?_, ?_, ?_⟩
  · simp only [swap_with_parent, swap_mem, set_value_ref, set_value_value, hr, hne, Ne.symm hne,
      if_false, if_true]
  · intro x; simp [swap_mem]
  · simp [swap_mem, hne, Ne.symm hne]
  · simp [swap_mem, hne, Ne.symm hne]
  · simp [swap_mem, hne, Ne.symm hne]
  · simp [swap_mem, hne, Ne.symm hne, hr]
  · intro x h1 h2
    apply heap_node_ext <;> simp [swap_mem, h1, h2]

end BH

namespace BH

theorem swap_mem_data (m : Mem) (node parent : Nat) (hne : node ≠ parent) (a : Nat) :
    (swap_mem m node parent (Equiv.swap node parent a)).value = (m a).value ∧
    (swap_mem m node parent (Equiv.swap node parent a)).ref = (m a).ref := by
  by_cases h1 : a = node
  · subst h1
    rw [Equiv.swap_apply_left]
    simp [swap_mem, hne, Ne.symm hne]
  · by_cases h2 : a = parent
    · subst h2
      rw [Equiv.swap_apply_right]
      simp [swap_mem, hne, Ne.symm hne]
    · rw [Equiv.swap_apply_of_ne_of_ne h1 h2]
      simp [swap_mem, h1, h2]

theorem swap_mem_data_inv (m : Mem) (node parent : Nat) (hne : node ≠ parent) (a : Nat) :
    (swap_mem m node parent a).value = (m (Equiv.swap node parent a)).value ∧
    (swap_mem m node parent a).ref = (m (Equiv.swap node parent a)).ref := by
  have := swap_mem_data m node parent hne (Equiv.swap node parent a)
  rw [Equiv.swap_apply_self] at this
  exact this

/-- One swap keeps handles valid and slots distinct. -/
theorem HV.hv_swap {m : Mem} {sl : Slots} {S : List Nat} {node parent r : Nat}
    (hv : HV m sl S) (hi : RefInj m S) (hn : node ∈ S) (hpS : parent ∈ S) (hne : node ≠ parent)
    (hr : (m node).ref = some r) :
    HV (swap_mem m node parent) (set_slot (retarget sl (m parent).ref node) r (some parent)) S ∧
    RefInj (swap_mem m node parent) S := by
  have hswapS : ∀ a ∈ S, Equiv.swap node parent a ∈ S := by
    intro a ha
    by_cases h1 : a = node
    · subst h1; rw [Equiv.swap_apply_left]; exact hpS
    · by_cases h2 : a = parent
      · subst h2; rw [Equiv.swap_apply_right]; exact hn
      · rw [Equiv.swap_apply_of_ne_of_ne h1 h2]; exact ha
  refine ⟨?_, ?_⟩
  · intro a ha q hq
    by_cases h1 : a = node
    · subst h1
      have hq' : (m parent).ref = some q := by
        have := (swap_mem_data_inv m a parent hne a).2
        rw [Equiv.swap_apply_left] at this
        rw [← this]; exact hq
      have hqr : q ≠ r := by
        intro e
        subst e
        exact hne (hi a hn parent hpS q hr hq')
      rw [set_slot_other _ _ _ _ hqr, hq']
      simp [retarget]
    · by_cases h2 : a = parent
      · subst h2
        have hq' : (m node).ref = some q := by
          have := (swap_mem_data_inv m node a hne a).2
          rw [Equiv.swap_apply_right] at this
          rw [← this]; exact hq
        rw [hr] at hq'
        cases hq'
        simp
      · have hq' : (m a).ref = some q := by
          have := (swap_mem_data_inv m node parent hne a).2
          rw [Equiv.swap_apply_of_ne_of_ne h1 h2] at this
          rw [← this]; exact hq
        have hqr : q ≠ r := by
          intro e
          subst e
          exact h1 (hi a ha node hn q hq' hr)
        rw [set_slot_other _ _ _ _ hqr]
        cases hpr : (m parent).ref with
        | none => simp only [retarget]; exact hv a ha q hq'
        | some rp =>
          have hqrp : q ≠ rp := by
            intro e
            subst e
            exact h2 (hi a ha parent hpS q hq' hpr)
          simp only [retarget]
          rw [set_slot_other _ _ _ _ hqrp]
          exact hv a ha q hq'
  · intro a ha b hb q hqa hqb
    have e1 := (swap_mem_data_inv m node parent hne a).2
    have e2 := (swap_mem_data_inv m node parent hne b).2
    rw [hqa] at e1
    rw [hqb] at e2
    have := hi _ (hswapS a ha) _ (hswapS b hb) q e1.symm e2.symm
    exact (Equiv.swap node parent).injective this

/-- Total correctness of the bubble-up loop on a represented root structure:
it returns, structure fields are untouched, payloads and references are
permuted along the path by `σ`, and handles stay valid. -/
theorem bubble_loop_spec (cond : Mem → Nat → Nat → Bool) (T : HT) (hnd : T.addrs.Nodup) :
    ∀ (fuel : Nat) (m : Mem) (sl : Slots) (node : Nat),
    Rep m none T → node ∈ T.addrs → (m node).ref ≠ none → HT.depth node T < fuel →
    ∃ m' sl' r, ∃ σ : Equiv.Perm Nat,
      bubble_loop cond fuel m sl node (m node).parent = some (m', sl', r) ∧
      r ∈ T.addrs ∧ StructEq m m' ∧ σ node = r ∧ (∀ a, a ∉ T.addrs → σ a = a) ∧
      (∀ a, (m' (σ a)).value = (m a).value ∧ (m' (σ a)).ref = (m a).ref) ∧
      (∀ S : List Nat, (∀ a ∈ T.addrs, a ∈ S) → HV m sl S → RefInj m S →
        HV m' sl' S ∧ RefInj m' S) ∧
      ((m' r).parent = none ∨ ∃ p, (m' r).parent = some p ∧ cond m' r p = false) := by
  intro fuel
  induction fuel with
  | zero => intro m sl node _ _ _ hf; omega
  | succ fuel ih =>
    intro m sl node hrep hx href hf
    rcases Rep.parent_cases hrep hnd hx with ⟨_, q2⟩ | ⟨p, q2, q3, q4, q5⟩
    · refine ⟨m, sl, node, Equiv.refl Nat, ?_, hx, StructEq.se_refl m, rfl, fun _ _ => rfl,
        fun a => ⟨rfl, rfl⟩, fun S _ hv hi => ⟨hv, hi⟩, Or.inl q2⟩
      rw [q2]
      rfl
    · rw [q2]
      by_cases hc : cond m node p = true
      · obtain ⟨r, hr⟩ := Option.ne_none_iff_exists'.1 href
        obtain ⟨s1, s2, s3, s4, s5, s6, s7⟩ := swap_with_parent_spec m sl node p r (Ne.symm q4) hr
        have hrep1 : Rep (swap_mem m node p) none T := Rep.structEq s2 hrep
        have href1 : (swap_mem m node p p).ref ≠ none := by rw [s6, hr]; simp
        obtain ⟨m', sl', r', σ, e1, e2, e3, e4, e5, e6, e7, e8⟩ := ih (swap_mem m node p) _ p
          hrep1 q3 href1 (by omega)
        refine ⟨m', sl', r', (Equiv.swap node p).trans σ, ?_, e2, s2.se_trans e3, ?_, ?_, ?_, ?_,
          e8⟩
        · simp only [bubble_loop, hc, if_true, s1]
          exact e1
        · rw [Equiv.trans_apply, Equiv.swap_apply_left]
          exact e4
        · intro a ha
          have h1 : a ≠ node := fun e => ha (e ▸ hx)
          have h2 : a ≠ p := fun e => ha (e ▸ q3)
          rw [Equiv.trans_apply, Equiv.swap_apply_of_ne_of_ne h1 h2]
          exact e5 a ha
        · intro a
          rw [Equiv.trans_apply]
          have h1 := e6 (Equiv.swap node p a)
          have h2 := swap_mem_data m node p (Ne.symm q4) a
          exact ⟨h1.1.trans h2.1, h1.2.trans h2.2⟩
        · intro S hS hv hi
          obtain ⟨hv1, hi1⟩ := HV.hv_swap hv hi (hS node hx) (hS p q3) (Ne.symm q4) hr
          exact e7 S hS hv1 hi1
      · refine ⟨m, sl, node, Equiv.refl Nat, ?_, hx, StructEq.se_refl m, rfl, fun _ _ => rfl,
          fun a => ⟨rfl, rfl⟩, fun S _ hv hi => ⟨hv, hi⟩, Or.inr ⟨p, q2, by simpa using hc⟩⟩
        simp only [bubble_loop, hc]
        rfl

end BH

namespace BH

/-! ## Heap order along the bubble-up loops, and the predecessor search -/

theorem swap_with_parent_none (m : Mem) (sl : Slots) (node parent : Nat)
    (hr : (m node).ref = none) : swap_with_parent m sl node parent = none := by
  by_cases hne : node = parent
  · subst hne
    simp [swap_with_parent, hr]
  · simp [swap_with_parent, hne, hr]

theorem Ord.ordDown {hp : Prio} (hsw : StrictWeak hp) {m : Mem} {T : HT} (h : Ord hp m T)
    (x : Nat) (hx : x ∈ T.addrs) : OrdDown hp m T x := by
  refine ⟨fun a ha _ p hp' _ => h a ha p hp', ?_⟩
  intro c hc hcx g hxg
  exact hsw.negtrans _ _ _ (h c hc x hcx) (h x hx g hxg)

/-- Facts about one swap step used by both order arguments. -/
theorem swap_step_facts {m : Mem} {T : HT} {node p : Nat} (hr : Rep m none T)
    (hnd : T.addrs.Nodup) (hn : node ∈ T.addrs) (hpar : (m node).parent = some p) :
    p ∈ T.addrs ∧ p ≠ node ∧ (∀ g, (m p).parent = some g → g ≠ p ∧ g ≠ node) ∧
    (∀ c, c ∈ T.addrs → (m c).parent = some p → c ≠ p) := by
  rcases Rep.parent_cases hr hnd hn with ⟨_, q⟩ | ⟨p', q1, q2, q3, q4⟩
  · rw [q] at hpar
    cases hpar
  · rw [hpar] at q1
    cases q1
    refine ⟨q2, q3, ?_, ?_⟩
    · intro g hg
      rcases Rep.parent_cases hr hnd q2 with ⟨_, q⟩ | ⟨g', r1, _, r3, r4⟩
      · rw [q] at hg
        cases hg
      · rw [hg] at r1
        cases r1
        refine ⟨r3, ?_⟩
        intro e
        subst e
        omega
    · intro c hc hcp
      rcases Rep.parent_cases hr hnd hc with ⟨_, q⟩ | ⟨g', r1, _, r3, _⟩
      · rw [q] at hcp
        cases hcp
      · rw [hcp] at r1
        cases r1
        exact Ne.symm r3

/-- The bubble-up loop of `heap_decrease` restores heap order. -/
theorem bubble_decrease_ord (hp : Prio) (hsw : StrictWeak hp) (T : HT) (hnd : T.addrs.Nodup) :
    ∀ (fuel : Nat) (m : Mem) (sl : Slots) (node : Nat) (m' : Mem) (sl' : Slots) (r : Nat),
    Rep m none T → node ∈ T.addrs → OrdEx hp m T node →
    bubble_loop (fun m a b => hp (m a).value (m b).value) fuel m sl node (m node).parent
      = some (m', sl', r) →
    Ord hp m' T := by
  intro fuel
  induction fuel with
  | zero => intro m sl node m' sl' r _ _ _ h; simp [bubble_loop] at h
  | succ fuel ih =>
    intro m sl node m' sl' r hr hn hox heq
    cases hpar : (m node).parent with
    | none =>
      rw [hpar] at heq
      simp only [bubble_loop, Option.some.injEq, Prod.mk.injEq] at heq
      obtain ⟨rfl, _, _⟩ := heq
      intro a ha p hap
      by_cases e : a = node
      · subst e
        rw [hpar] at hap
        cases hap
      · exact hox.1 a ha e p hap
    | some p =>
      rw [hpar] at heq
      obtain ⟨hpT, hpn, hg, hc⟩ := swap_step_facts hr hnd hn hpar
      simp only [bubble_loop] at heq
      by_cases hcond : hp (m node).value (m p).value = true
      · rw [if_pos hcond] at heq
        cases href : (m node).ref with
        | none =>
          rw [swap_with_parent_none m sl node p href] at heq
          cases heq
        | some r0 =>
          obtain ⟨s1, s2, s3, _, s5, _, s7⟩ :=
            swap_with_parent_spec m sl node p r0 (Ne.symm hpn) href
          rw [s1] at heq
          simp only at heq
          refine ih _ _ p m' sl' r (Rep.structEq s2 hr) hpT ?_ heq
          refine ⟨?_, ?_⟩
          · intro a ha hap q haq
            rw [(s2 a).1] at haq
            by_cases e1 : a = node
            · subst e1
              rw [hpar] at haq
              cases haq
              rw [s3, s5]
              exact hsw.asymm hcond
            · rw [s7 a e1 hap]
              by_cases e2 : q = node
              · subst e2
                rw [s3]
                exact hox.2 a ha haq p hpar
              · by_cases e3 : q = p
                · subst e3
                  rw [s5]
                  have h1 := hox.1 a ha e1 q haq
                  cases h2 : hp (m a).value (m node).value with
                  | false => rfl
                  | true =>
                    rw [hsw.trans _ _ _ h2 hcond] at h1
                    cases h1
                · rw [s7 q e2 e3]
                  exact hox.1 a ha e1 q haq
          · intro c hcT hcp g hpg
            rw [(s2 c).1] at hcp
            rw [(s2 p).1] at hpg
            obtain ⟨hgp, hgn⟩ := hg g hpg
            rw [s7 g hgn hgp]
            by_cases e1 : c = node
            · subst e1
              rw [s3]
              exact hox.1 p hpT hpn g hpg
            · rw [s7 c e1 (hc c hcT hcp)]
              exact hsw.negtrans _ _ _ (hox.1 c hcT e1 p hcp) (hox.1 p hpT hpn g hpg)
      · rw [if_neg hcond] at heq
        simp only [Option.some.injEq, Prod.mk.injEq] at heq
        obtain ⟨rfl, _, _⟩ := heq
        intro a ha q haq
        by_cases e : a = node
        · subst e
          rw [hpar] at haq
          cases haq
          simpa using hcond
        · exact hox.1 a ha e q haq

/-- The bubble-up loop of `heap_delete` keeps every pair ordered whose parent
is not the node that ends up on the root list. -/
theorem bubble_delete_ord (hp : Prio) (hsw : StrictWeak hp) (T : HT) (hnd : T.addrs.Nodup) :
    ∀ (fuel : Nat) (m : Mem) (sl : Slots) (node : Nat) (m' : Mem) (sl' : Slots) (r : Nat),
    Rep m none T → node ∈ T.addrs → OrdDown hp m T node →
    bubble_loop (fun _ _ _ => true) fuel m sl node (m node).parent = some (m', sl', r) →
    ∀ a ∈ T.addrs, ∀ p, (m' a).parent = some p → p ≠ r →
      hp (m' a).value (m' p).value = false := by
  intro fuel
  induction fuel with
  | zero => intro m sl node m' sl' r _ _ _ h; simp [bubble_loop] at h
  | succ fuel ih =>
    intro m sl node m' sl' r hr hn hox heq
    cases hpar : (m node).parent with
    | none =>
      rw [hpar] at heq
      simp only [bubble_loop, Option.some.injEq, Prod.mk.injEq] at heq
      obtain ⟨rfl, _, rfl⟩ := heq
      intro a ha p hap hpn
      by_cases e : a = node
      · subst e
        rw [hpar] at hap
        cases hap
      · exact hox.1 a ha e p hap hpn
    | some p =>
      rw [hpar] at heq
      obtain ⟨hpT, hpn, hg, hc⟩ := swap_step_facts hr hnd hn hpar
      simp only [bubble_loop, if_true] at heq
      cases href : (m node).ref with
      | none =>
        rw [swap_with_parent_none m sl node p href] at heq
        cases heq
      | some r0 =>
        obtain ⟨s1, s2, s3, _, s5, _, s7⟩ :=
          swap_with_parent_spec m sl node p r0 (Ne.symm hpn) href
        rw [s1] at heq
        simp only at heq
        refine ih _ _ p m' sl' r (Rep.structEq s2 hr) hpT ?_ heq
        refine ⟨?_, ?_⟩
        · intro a ha hap q haq hqp
          rw [(s2 a).1] at haq
          by_cases e1 : a = node
          · subst e1
            rw [hpar] at haq
            cases haq
            exact absurd rfl hqp
          · rw [s7 a e1 hap]
            by_cases e2 : q = node
            · subst e2
              rw [s3]
              exact hox.2 a ha haq p hpar
            · rw [s7 q e2 hqp]
              exact hox.1 a ha e1 q haq e2
        · intro c hcT hcp g hpg
          rw [(s2 c).1] at hcp
          rw [(s2 p).1] at hpg
          obtain ⟨hgp, hgn⟩ := hg g hpg
          rw [s7 g hgn hgp]
          by_cases e1 : c = node
          · subst e1
            rw [s3]
            exact hox.1 p hpT hpn g hpg hgn
          · rw [s7 c e1 (hc c hcT hcp)]
            exact hsw.negtrans _ _ _ (hox.1 c hcT e1 p hcp hpn) (hox.1 p hpT hpn g hpg hgn)

/-- The predecessor search of `heap_delete` finds the list predecessor of a
root. -/
theorem find_prev_spec (m : Mem) (node : Nat) : ∀ (n : HT) (par prev : Option Nat) (fuel : Nat),
    Rep m par n → node ∈ n.roots → n.roots.length ≤ fuel →
    find_prev_loop m node fuel prev n.hd = some (HT.predOf node prev n) := by
  intro n
  induction n with
  | nil => intro _ _ _ _ hx; simp [HT.roots] at hx
  | node a d c n _ ihn =>
    intro par prev fuel hr hx hf
    obtain ⟨_, _, _, r4, _, r6⟩ := hr
    cases fuel with
    | zero => simp [HT.roots] at hf
    | succ fuel =>
      simp only [HT.roots, List.length_cons, Nat.add_le_add_iff_right] at hf
      simp only [find_prev_loop, HT.hd_node, HT.predOf]
      by_cases e : a = node
      · subst e
        simp
      · simp only [HT.roots, List.mem_cons] at hx
        have hx' : node ∈ n.roots := by
          rcases hx with h | h
          · exact absurd h.symm e
          · exact h
        have : (some a : Option Nat) ≠ some node := fun h => e (Option.some.inj h)
        simp only [ne_eq, this, not_false_eq_true, if_true, if_neg e]
        rw [r4]
        exact ihn par (some a) fuel r6 hx' hf

end BH

namespace BH

/-! ## `heap_delete` -/

theorem perm_map_equiv (σ : Equiv.Perm Nat) (L : List Nat) (hnd : L.Nodup)
    (hfix : ∀ a, a ∉ L → σ a = a) : (L.map σ).Perm L := by
  refine (List.perm_ext_iff_of_nodup (hnd.map σ.injective) hnd).2 ?_
  intro a
  simp only [List.mem_map]
  constructor
  · rintro ⟨b, hb, rfl⟩
    by_contra hc
    have := hfix _ hc
    have e : σ b = b := σ.injective this
    rw [e] at hc
    exact hc hb
  · intro ha
    refine ⟨σ.symm a, ?_, by simp⟩
    by_contra hc
    have := hfix _ hc
    rw [Equiv.apply_symm_apply] at this
    rw [← this] at hc
    exact hc ha

theorem equiv_mem_of_fix (σ : Equiv.Perm Nat) (L : List Nat) (hfix : ∀ a, a ∉ L → σ a = a)
    (a : Nat) (ha : a ∈ L) : σ a ∈ L := by
  by_contra hc
  have := hfix _ hc
  have e : σ a = a := σ.injective this
  rw [e] at hc
  exact hc ha

/-- The payloads of a list of nodes after a permutation of the payloads
among them. -/
theorem values_perm (σ : Equiv.Perm Nat) (L : List Nat) (hnd : L.Nodup)
    (hfix : ∀ a, a ∉ L → σ a = a) (m m' : Mem)
    (hd : ∀ a, (m' (σ a)).value = (m a).value) :
    (L.map (fun a => (m' a).value)).Perm (L.map (fun a => (m a).value)) := by
  have h1 := (perm_map_equiv σ L hnd hfix).map (fun a => (m' a).value)
  rw [List.map_map] at h1
  refine h1.symm.trans ?_
  apply List.Perm.of_eq
  apply List.map_congr_left
  intro a _
  exact hd a

theorem HV.hv_of_dataEq {m m' : Mem} {sl : Slots} {S : List Nat} (hv : HV m sl S)
    (hd : DataEq m m') : HV m' sl S := by
  intro a ha r hr
  rw [(hd a).2] at hr
  exact hv a ha r hr

theorem RefInj.ri_of_dataEq {m m' : Mem} {S : List Nat} (hi : RefInj m S)
    (hd : DataEq m m') : RefInj m' S := by
  intro a ha b hb r h1 h2
  rw [(hd a).2] at h1
  rw [(hd b).2] at h2
  exact hi a ha b hb r h1 h2

theorem members_perm_cons {h : heap} {T T' : HT} {r : Nat} (hp : T.addrs.Perm (r :: T'.addrs))
    (hd : heap) (hmin : hd.min = h.min) : (members h T).Perm (r :: members hd T') := by
  unfold members
  rw [hmin]
  have h2 : (h.min.toList ++ r :: T'.addrs).Perm (r :: (h.min.toList ++ T'.addrs)) :=
    List.perm_middle
  exact (List.Perm.append_left _ hp).trans h2

/-- The function `heap_delete` on a heap of shape `T`, for a member node with
a back-reference: it returns; the physical node `r` that leaves the heap holds
the payload and reference of `node`; payloads and references of the other
members are permuted among them by `σ`; handles stay valid; well-formedness
is kept. -/
theorem heap_delete_spec (fuel : Nat) (hp : Prio) (m : Mem) (sl : Slots) (h : heap) (T : HT)
    (node : Nat) (w : Shaped m h T) (hn : node ∈ members h T) (href : (m node).ref ≠ none)
    (hf : T.size + 1 ≤ fuel) :
    ∃ m' sl' h' T' r, ∃ σ : Equiv.Perm Nat,
      heap_delete fuel hp m sl h node = some (m', sl', h') ∧
      Shaped m' h' T' ∧ (members h T).Perm (r :: members h' T') ∧
      σ node = r ∧ (∀ a, a ∉ members h T → σ a = a) ∧
      (∀ a, (m' (σ a)).value = (m a).value ∧ (m' (σ a)).ref = (m a).ref) ∧
      (∀ y, y ∉ members h T → m' y = m y) ∧
      (m' r).degree = NOT_IN_HEAP ∧
      (∀ S : List Nat, (∀ a ∈ members h T, a ∈ S) → HV m sl S → RefInj m S →
        HV m' sl' S ∧ RefInj m' S) ∧
      (StrictWeak hp → WF hp m h T → WF hp m' h' T') := by
  obtain ⟨r0, hr0⟩ := Option.ne_none_iff_exists'.1 href
  by_cases hmin : h.min = some node
  · refine ⟨set_degree m node NOT_IN_HEAP, sl, { h with min := none }, T, node, Equiv.refl _,
      ?_, ?_, ?_, rfl, fun _ _ => rfl, ?_, ?_, ?_, ?_, ?_⟩
    · simp [heap_delete, hr0, hmin]
    · refine ⟨Rep.frame w.rep ?_, w.head, w.nodup, fun x hx => by cases hx⟩
      intro x hx
      apply set_degree_other
      intro e
      subst e
      exact w.min_fresh x hmin hx
    · simp [members, hmin]
    · intro a
      simp
    · intro y hy
      apply set_degree_other
      intro e
      subst e
      exact hy hn
    · simp
    · intro S _ hv hi
      exact ⟨hv.hv_of_dataEq (set_degree_dataEq _ _ _), hi.ri_of_dataEq (set_degree_dataEq _ _ _)⟩
    · intro _ wf
      refine ⟨⟨Rep.frame w.rep ?_, w.head, w.nodup, fun x hx => by cases hx⟩, ?_,
        fun x hx => by cases hx⟩
      · intro x hx
        apply set_degree_other
        intro e
        subst e
        exact w.min_fresh x hmin hx
      · apply Ord.ord_frame wf.ord w.rep
        intro x hx
        apply set_degree_other
        intro e
        subst e
        exact w.min_fresh x hmin hx
  · have hnT : node ∈ T.addrs := by
      rcases mem_members.1 hn with e | e
      · exact absurd e hmin
      · exact e
    have hdepth := HT.depth_lt_size node T hnT
    obtain ⟨m1, sl1, r, σ, b1, b2, b3, b4, b5, b6, b7, b8⟩ :=
      bubble_loop_spec (fun _ _ _ => true) T w.nodup fuel m sl node w.rep hnT href (by omega)
    have hrep1 : Rep m1 none T := Rep.structEq b3 w.rep
    have hrpar : (m1 r).parent = none := by
      rcases b8 with e | ⟨p, _, e⟩
      · exact e
      · cases e
    have hroot : r ∈ T.roots := by
      rcases Rep.parent_cases hrep1 w.nodup b2 with ⟨q, _⟩ | ⟨p, q, _⟩
      · exact q
      · rw [hrpar] at q
        cases q
    have hfp := find_prev_spec m1 r T none none fuel hrep1 hroot
      (by have := HT.roots_length_le_size T; omega)
    rw [← w.head] at hfp
    obtain ⟨m2, m3, t1, t2, t3, t4, t5, t6, _, _, _, t10⟩ :=
      remove_root_spec fuel hp m1 h T r hrep1 w.head w.nodup hroot (by omega)
    have hperm := HT.removeRoot_addrs_perm (hpa_of hp m1) T r hroot
    have hnd2 := hperm.nodup_iff.1 w.nodup
    have hrT' : r ∉ (HT.removeRoot (hpa_of hp m1) r T).addrs := (List.nodup_cons.1 hnd2).1
    have hsub : ∀ x, x ∈ (HT.removeRoot (hpa_of hp m1) r T).addrs → x ∈ T.addrs :=
      fun x hx => hperm.symm.subset (List.mem_cons_of_mem _ hx)
    have hfr : ∀ x ∈ (HT.removeRoot (hpa_of hp m1) r T).addrs,
        set_degree m3 r NOT_IN_HEAP x = m3 x := by
      intro x hx
      apply set_degree_other
      intro e
      subst e
      exact hrT' hx
    have hsh : Shaped (set_degree m3 r NOT_IN_HEAP)
        { h with head := (HT.removeRoot (hpa_of hp m1) r T).hd }
        (HT.removeRoot (hpa_of hp m1) r T) :=
      ⟨Rep.frame t3 hfr, rfl, (List.nodup_cons.1 hnd2).2,
        fun x hx hx' => w.min_fresh x hx (hsub x hx')⟩
    have hdata : ∀ a, (set_degree m3 r NOT_IN_HEAP (σ a)).value = (m a).value ∧
        (set_degree m3 r NOT_IN_HEAP (σ a)).ref = (m a).ref := by
      intro a
      simp only [set_degree_value, set_degree_ref]
      rw [(t5 (σ a)).1, (t5 (σ a)).2]
      exact b6 a
    have hfix : ∀ a, a ∉ members h T → σ a = a :=
      fun a ha => b5 a (fun h' => ha (mem_members.2 (Or.inr h')))
    refine ⟨set_degree m3 r NOT_IN_HEAP, sl1,
      { h with head := (HT.removeRoot (hpa_of hp m1) r T).hd },
      HT.removeRoot (hpa_of hp m1) r T, r, σ, ?_, hsh, ?_, b4, hfix, hdata, ?_, ?_, ?_, ?_⟩
    · have hmin' : ¬ h.min = some node := hmin
      simp only [heap_delete, hr0, ne_eq, hmin', not_false_eq_true, if_true, delete_loop_eq, b1,
        hfp, t1, t2]
    · exact members_perm_cons hperm _ rfl
    · intro y hy
      have hyT : y ∉ T.addrs := fun h' => hy (mem_members.2 (Or.inr h'))
      have hyr : y ≠ r := fun e => hyT (e ▸ b2)
      rw [set_degree_other _ _ _ _ hyr, t4 y hyT]
      have hσ := b5 y hyT
      have hd := b6 y
      rw [hσ] at hd
      exact heap_node_ext (b3 y).1 (b3 y).2.1 (b3 y).2.2.1 (b3 y).2.2.2 hd.1 hd.2
    · simp
    · intro S hS hv hi
      obtain ⟨v1, v2⟩ := b7 S (fun a ha => hS a (mem_members.2 (Or.inr ha))) hv hi
      have hd13 : DataEq m1 (set_degree m3 r NOT_IN_HEAP) :=
        t5.de_trans (set_degree_dataEq _ _ _)
      exact ⟨v1.hv_of_dataEq hd13, v2.ri_of_dataEq hd13⟩
    · intro hsw wf
      refine ⟨hsh, ?_, ?_⟩
      · apply Ord.ord_frame (t10 hsw ?_) t3 hfr
        intro a ha p hap hpr
        exact bubble_delete_ord hp hsw T w.nodup fuel m sl node m1 sl1 r w.rep hnT
          (wf.ord.ordDown hsw node hnT) b1 a ha p hap hpr
      · intro x hx a ha
        have hxm : x ∉ T.addrs := w.min_fresh x hx
        have haT := hsub a ha
        have h1 := (hdata (σ.symm a)).1
        rw [Equiv.apply_symm_apply] at h1
        have h2 := (hdata x).1
        rw [b5 x hxm] at h2
        rw [h1, h2]
        apply wf.min_ok x hx
        have := equiv_mem_of_fix σ.symm T.addrs ?_ a haT
        · exact this
        · intro c hc
          have := b5 c hc
          exact (Equiv.symm_apply_eq σ).2 this.symm

end BH

namespace BH

/-! ## `heap_decrease` -/

theorem mem_eq_of_struct_data {m m' : Mem} {y : Nat} (hs : StructEq m m')
    (hv : (m' y).value = (m y).value) (hr : (m' y).ref = (m y).ref) : m' y = m y :=
  heap_node_ext (hs y).1 (hs y).2.1 (hs y).2.2.1 (hs y).2.2.2 hv hr

/-- The conditional `__uncache_min` of `heap_decrease`. -/
theorem decrease_uncache_spec (fuel : Nat) (hp : Prio) (m : Mem) (h : heap) (T : HT)
    (node : Nat) (w : Shaped m h T) (hnT : node ∈ T.addrs) (hf : T.size + 2 ≤ fuel) :
    ∃ m1 h1 T1, decrease_uncache fuel hp m h node = some (m1, h1) ∧
      Shaped m1 h1 T1 ∧ node ∈ T1.addrs ∧ (members h1 T1).Perm (members h T) ∧
      (∀ y, y ∉ members h T → m1 y = m y) ∧ DataEq m m1 ∧ T1.size ≤ T.size + 1 ∧
      (StrictWeak hp → WFEx hp m h T node →
        OrdEx hp m1 T1 node ∧
        (∀ y, h1.min = some y → ∀ a ∈ T1.addrs, hp (m1 a).value (m1 y).value = false)) := by
  have hkeep : ∃ m1 h1 T1, some (m, h) = some (m1, h1) ∧
      Shaped m1 h1 T1 ∧ node ∈ T1.addrs ∧ (members h1 T1).Perm (members h T) ∧
      (∀ y, y ∉ members h T → m1 y = m y) ∧ DataEq m m1 ∧ T1.size ≤ T.size + 1 ∧
      ((∀ y, h.min = some y → hp (m node).value (m y).value = false) →
        StrictWeak hp → WFEx hp m h T node →
        OrdEx hp m1 T1 node ∧
        (∀ y, h1.min = some y → ∀ a ∈ T1.addrs, hp (m1 a).value (m1 y).value = false)) := by
    refine ⟨m, h, T, rfl, w, hnT, List.Perm.refl _, fun _ _ => rfl, DataEq.de_refl m,
      Nat.le_succ _, ?_⟩
    intro hno _ wx
    refine ⟨wx.2.1, ?_⟩
    intro y hy a ha
    by_cases e : a = node
    · subst e
      exact hno y hy
    · exact wx.2.2 y hy a ha e
  cases hmin : h.min with
  | none =>
    obtain ⟨m1, h1, T1, k1, k2, k3, k4, k5, k6, k7, k8⟩ := hkeep
    refine ⟨m1, h1, T1, ?_, k2, k3, k4, k5, k6, k7, k8 ?_⟩
    · simp only [decrease_uncache, hmin]
      exact k1
    · intro y hy
      rw [hmin] at hy
      cases hy
  | some x0 =>
    by_cases hc : hp (m node).value (m x0).value = true
    · obtain ⟨m1, u1, u2, u3, u4, u5, _, _, u8⟩ := uncache_min_spec fuel hp m h T w hf
      refine ⟨m1, _, _, ?_, u2, ?_, ?_, u4, u5, ?_, ?_⟩
      · simp only [decrease_uncache, hmin, hc, if_true]
        exact u1
      · exact u3.symm.subset (mem_members.2 (Or.inr hnT))
      · simp only [members, Option.toList_none, List.nil_append]
        exact u3
      · have := u3.length_eq
        simp only [HT.length_addrs, members, hmin, Option.toList_some, List.length_append,
          List.length_cons, List.length_nil] at this
        omega
      · intro hsw wx
        exact ⟨u8 hsw node wx.2.1, fun y hy => by cases hy⟩
    · obtain ⟨m1, h1, T1, k1, k2, k3, k4, k5, k6, k7, k8⟩ := hkeep
      refine ⟨m1, h1, T1, ?_, k2, k3, k4, k5, k6, k7, k8 ?_⟩
      · simp only [decrease_uncache, hmin, hc]
        exact k1
      · intro y hy
        rw [hmin] at hy
        cases hy
        simpa using hc

/-- The function `heap_decrease` on a heap of shape `T`, for a member node
with a back-reference: it returns; the members are the same nodes; payloads
and references are permuted among them by `σ`; handles stay valid; and if
the heap was well formed except at `node`, it is well formed afterwards. -/
theorem heap_decrease_spec (fuel : Nat) (hp : Prio) (m : Mem) (sl : Slots) (h : heap) (T : HT)
    (node : Nat) (w : Shaped m h T) (hn : node ∈ members h T) (href : (m node).ref ≠ none)
    (hf : T.size + 2 ≤ fuel) :
    ∃ m' sl' h' T', ∃ σ : Equiv.Perm Nat,
      heap_decrease fuel hp m sl h node = some (m', sl', h') ∧
      Shaped m' h' T' ∧ (members h' T').Perm (members h T) ∧
      (∀ a, a ∉ members h T → σ a = a) ∧
      (∀ a, (m' (σ a)).value = (m a).value ∧ (m' (σ a)).ref = (m a).ref) ∧
      (∀ y, y ∉ members h T → m' y = m y) ∧
      (∀ S : List Nat, (∀ a ∈ members h T, a ∈ S) → HV m sl S → RefInj m S →
        HV m' sl' S ∧ RefInj m' S) ∧
      (StrictWeak hp → WFEx hp m h T node → WF hp m' h' T') := by
  obtain ⟨r0, hr0⟩ := Option.ne_none_iff_exists'.1 href
  by_cases hmin : h.min = some node
  · refine ⟨m, sl, h, T, Equiv.refl _, ?_, w, List.Perm.refl _, fun _ _ => rfl,
      fun _ => ⟨rfl, rfl⟩, fun _ _ => rfl, fun _ _ hv hi => ⟨hv, hi⟩, ?_⟩
    · simp [heap_decrease, hr0, hmin]
    · intro _ wx
      have hfresh := w.min_fresh node hmin
      refine ⟨w, ?_, ?_⟩
      · intro a ha p hap
        exact wx.2.1.1 a ha (fun e => hfresh (e ▸ ha)) p hap
      · intro y hy a ha
        exact wx.2.2 y hy a ha (fun e => hfresh (e ▸ ha))
  · have hnT : node ∈ T.addrs := by
      rcases mem_members.1 hn with e | e
      · exact absurd e hmin
      · exact e
    obtain ⟨m1, h1, T1, k1, k2, k3, k4, k5, k6, k7, k8⟩ :=
      decrease_uncache_spec fuel hp m h T node w hnT hf
    have hdepth := HT.depth_lt_size node T1 k3
    have href1 : (m1 node).ref ≠ none := by
      rw [(k6 node).2]
      exact href
    obtain ⟨m2, sl2, r, σ, b1, _, b3, _, b5, b6, b7, _⟩ :=
      bubble_loop_spec (fun m a b => hp (m a).value (m b).value) T1 k2.nodup fuel m1 sl node
        k2.rep k3 href1 (by omega)
    have hsubT1 : ∀ a, a ∈ T1.addrs → a ∈ members h T :=
      fun a ha => k4.subset (mem_members.2 (Or.inr ha))
    have hfix : ∀ a, a ∉ members h T → σ a = a := fun a ha => b5 a (fun h' => ha (hsubT1 a h'))
    have hfr2 : ∀ y, y ∉ T1.addrs → m2 y = m1 y := by
      intro y hy
      have hd := b6 y
      rw [b5 y hy] at hd
      exact mem_eq_of_struct_data b3 hd.1 hd.2
    have hsh : Shaped m2 h1 T1 := ⟨Rep.structEq b3 k2.rep, k2.head, k2.nodup, k2.min_fresh⟩
    refine ⟨m2, sl2, h1, T1, σ, ?_, hsh, k4, hfix, ?_, ?_, ?_, ?_⟩
    · have hmin' : ¬ h.min = some node := hmin
      simp only [heap_decrease, hr0, ne_eq, hmin', not_false_eq_true, if_true, k1,
        decrease_loop_eq, b1, Option.map_some']
    · intro a
      rw [(b6 a).1, (b6 a).2]
      exact k6 a
    · intro y hy
      rw [hfr2 y (fun h' => hy (hsubT1 y h')), k5 y hy]
    · intro S hS hv hi
      exact b7 S (fun a ha => hS a (hsubT1 a ha)) (hv.hv_of_dataEq k6) (hi.ri_of_dataEq k6)
    · intro hsw wx
      obtain ⟨o1, o2⟩ := k8 hsw wx
      refine ⟨hsh, ?_, ?_⟩
      · exact bubble_decrease_ord hp hsw T1 k2.nodup fuel m1 sl node m2 sl2 r k2.rep k3 o1 b1
      · intro y hy a ha
        have hyT := k2.min_fresh y hy
        rw [hfr2 y hyT]
        have h1' := (b6 (σ.symm a)).1
        rw [Equiv.apply_symm_apply] at h1'
        rw [h1']
        apply o2 y hy
        apply equiv_mem_of_fix σ.symm T1.addrs ?_ a ha
        intro c hc
        exact (Equiv.symm_apply_eq σ).2 (b5 c hc).symm

end BH

namespace BH

/-! ## Concrete inputs -/

theorem shaped_one : Shaped mem_zero heap_one shape_one :=
  ⟨by simp [Rep, shape_one, HT.single, mem_zero], rfl, by simp [shape_one, HT.single, HT.addrs],
    (fun x hx => by cases hx)⟩

theorem token_cmp_strictWeak (prio : Nat → Int) : StrictWeak (token_cmp prio) := by
  refine ⟨?_, ?_, ?_⟩
  · intro a; simp [token_cmp]
  · intro a b c h1 h2
    simp only [token_cmp, decide_eq_true_eq] at h1 h2 ⊢
    omega
  · intro a b c h1 h2
    simp only [token_cmp, decide_eq_false_iff_not, not_lt] at h1 h2 ⊢
    omega

theorem wf_one (hp : Prio) : WF hp mem_zero heap_one shape_one := by
  refine ⟨shaped_one, ?_, (fun x hx => by cases hx)⟩
  intro a _ p hpar
  simp [mem_zero] at hpar

/-! ## Peek and take: results and the empty heap -/

/-- C10: on a heap of any shape `T`, `heap_peek` and `heap_take` both return;
each returns `NULL` exactly when `heap_empty` held before the call, and in
that case memory and heap are unchanged.  Hence they return a node whenever
`heap_empty` is false. -/
theorem peek_take_null_iff_empty (fuel : Nat) (hp : Prio) (m : Mem) (h : heap) (T : HT)
    (w : Shaped m h T) (hf : T.size ≤ fuel) :
    ∃ m1 h1 r1 m2 h2 r2,
      heap_peek fuel hp m h = some (m1, h1, r1) ∧
      heap_take fuel hp m h = some (m2, h2, r2) ∧
      (r1 = none ↔ heap_empty h = true) ∧ (r2 = none ↔ heap_empty h = true) ∧
      (heap_empty h = true → m1 = m ∧ h1 = h ∧ m2 = m ∧ h2 = h) := by
  obtain ⟨m1, e1, _, _, _, _, e6, _⟩ := cache_min_spec fuel hp m h T w hf
  obtain ⟨m1', p1, p2⟩ := heap_peek_spec fuel hp m h T w hf
  obtain ⟨m1'', t1, t2, _⟩ := heap_take_spec fuel hp m h T w hf
  have hm1 : m1' = m1 := by
    have := p2.symm.trans e1
    simp only [Option.some.injEq, Prod.mk.injEq] at this
    exact this.1
  have hm2 : m1'' = m1 := by
    have := t1.symm.trans e1
    simp only [Option.some.injEq, Prod.mk.injEq] at this
    exact this.1
  subst hm1 hm2
  refine ⟨_, _, _, _, _, _, p1, t2, min_after_cache_eq_none w.head,
    min_after_cache_eq_none w.head, ?_⟩
  intro he
  obtain ⟨q1, q2⟩ := e6 (Or.inl he)
  have hr : min_after_cache hp m h T = none := (min_after_cache_eq_none w.head).2 he
  refine ⟨q1, q2, ?_, ?_⟩
  · rw [hr, q1]; rfl
  · have hc : (HT.cache hp m h T).hd = h.head := by
      have := congrArg heap.head q2
      simpa [heap_cached] using this
    rw [hc]
    simp only [heap_empty, Bool.and_eq_true, Option.isNone_iff_eq_none] at he
    cases h
    simp_all

theorem peek_take_null_iff_empty_witness :
    ∃ m1 h1 r1 m2 h2 r2,
      heap_peek 1 (token_cmp (fun v => v)) mem_zero heap_one = some (m1, h1, r1) ∧
      heap_take 1 (token_cmp (fun v => v)) mem_zero heap_one = some (m2, h2, r2) ∧
      (r1 = none ↔ heap_empty heap_one = true) ∧ (r2 = none ↔ heap_empty heap_one = true) ∧
      (heap_empty heap_one = true →
        m1 = mem_zero ∧ h1 = heap_one ∧ m2 = mem_zero ∧ h2 = heap_one) :=
  peek_take_null_iff_empty 1 (token_cmp (fun v => v)) mem_zero heap_one shape_one shaped_one
    (by decide)

/-- C8: on a non-empty heap of any shape `T`, `heap_peek` returns a node `x`
and an immediately following `heap_take` returns the same node `x`, which
holds the same payload before the peek, after the peek and after the take. -/
theorem peek_then_take_same (fuel : Nat) (hp : Prio) (m : Mem) (h : heap) (T : HT)
    (w : Shaped m h T) (hne : heap_empty h = false) (hf : T.size ≤ fuel) :
    ∃ m1 h1 x m2 h2,
      heap_peek fuel hp m h = some (m1, h1, some x) ∧
      heap_take fuel hp m1 h1 = some (m2, h2, some x) ∧
      (m1 x).value = (m x).value ∧ (m2 x).value = (m x).value := by
  obtain ⟨m1, e1, _, _, _, e5, _, _⟩ := cache_min_spec fuel hp m h T w hf
  obtain ⟨m1', p1, p2⟩ := heap_peek_spec fuel hp m h T w hf
  have hm1 : m1' = m1 := by
    have := p2.symm.trans e1
    simp only [Option.some.injEq, Prod.mk.injEq] at this
    exact this.1
  subst hm1
  have hx : ∃ x, min_after_cache hp m h T = some x := by
    cases hr : min_after_cache hp m h T with
    | none =>
      have := (min_after_cache_eq_none w.head).1 hr
      rw [hne] at this
      exact Bool.noConfusion this
    | some x => exact ⟨x, rfl⟩
  obtain ⟨x, hx⟩ := hx
  rw [hx] at p1
  refine ⟨m1', heap_cached hp m h T, x, set_degree m1' x NOT_IN_HEAP,
    { heap_cached hp m h T with min := none }, p1, ?_, (e5 x).1, ?_⟩
  · have hmin : (heap_cached hp m h T).min = some x := hx
    simp [heap_take, cache_min, hmin]
  · simp [(e5 x).1]

theorem peek_then_take_same_witness :
    ∃ m1 h1 x m2 h2,
      heap_peek 1 (token_cmp (fun v => v)) mem_zero heap_one = some (m1, h1, some x) ∧
      heap_take 1 (token_cmp (fun v => v)) m1 h1 = some (m2, h2, some x) ∧
      (m1 x).value = (mem_zero x).value ∧ (m2 x).value = (mem_zero x).value :=
  peek_then_take_same 1 (token_cmp (fun v => v)) mem_zero heap_one shape_one shaped_one
    (by decide) (by decide)

/-- C9: on a heap of any shape `T`, `heap_peek` returns; a second `heap_peek`
returns the same result and leaves memory and heap exactly as the first left
them; the heap after the peek has the same member nodes, every node keeps its
payload, and so the elements are the same. -/
theorem peek_idempotent (fuel : Nat) (hp : Prio) (m : Mem) (h : heap) (T : HT)
    (w : Shaped m h T) (hf : T.size ≤ fuel) :
    ∃ m1 h1 r T1,
      heap_peek fuel hp m h = some (m1, h1, r) ∧
      heap_peek fuel hp m1 h1 = some (m1, h1, r) ∧
      Shaped m1 h1 T1 ∧ (members h1 T1).Perm (members h T) ∧
      (∀ a, (m1 a).value = (m a).value) ∧ (elems m1 h1 T1).Perm (elems m h T) := by
  obtain ⟨m1, e1, e2, e3, _, e5, e6, _⟩ := cache_min_spec fuel hp m h T w hf
  obtain ⟨m1', p1, p2⟩ := heap_peek_spec fuel hp m h T w hf
  have hm1 : m1' = m1 := by
    have := p2.symm.trans e1
    simp only [Option.some.injEq, Prod.mk.injEq] at this
    exact this.1
  subst hm1
  refine ⟨m1', heap_cached hp m h T, min_after_cache hp m h T, HT.cache hp m h T, p1, ?_, e2, e3,
    fun a => (e5 a).1, ?_⟩
  · cases hr : min_after_cache hp m h T with
    | some x =>
      have hmin : (heap_cached hp m h T).min = some x := hr
      simp [heap_peek, cache_min, hmin]
    | none =>
      have he := (min_after_cache_eq_none w.head).1 hr
      obtain ⟨q1, q2⟩ := e6 (Or.inl he)
      rw [q1, q2, ← hr]
      rw [q1] at p1
      have := p1
      rw [q2] at this
      exact this
  · unfold elems
    have hfun : (fun a => (m1' a).value) = (fun a => (m a).value) := by
      funext a
      exact (e5 a).1
    rw [hfun]
    exact e3.map _

theorem peek_idempotent_witness :
    ∃ m1 h1 r T1,
      heap_peek 1 (token_cmp (fun v => v)) mem_zero heap_one = some (m1, h1, r) ∧
      heap_peek 1 (token_cmp (fun v => v)) m1 h1 = some (m1, h1, r) ∧
      Shaped m1 h1 T1 ∧ (members h1 T1).Perm (members heap_one shape_one) ∧
      (∀ a, (m1 a).value = (mem_zero a).value) ∧
      (elems m1 h1 T1).Perm (elems mem_zero heap_one shape_one) :=
  peek_idempotent 1 (token_cmp (fun v => v)) mem_zero heap_one shape_one shaped_one (by decide)

end BH

namespace BH

theorem shaped_min_two : Shaped mem_zero heap_min_two HT.nil :=
  ⟨trivial, rfl, by simp [HT.addrs], (fun x _ => by simp [HT.addrs])⟩

/-! ## Sorting by insert and drain -/

/-- C2: for a list of `N` distinct nodes whose payloads have pairwise distinct
priorities under a strict weak order, inserting each node into an empty heap
and then draining the heap with `heap_take` until `heap_empty` holds returns
exactly `N` nodes, a permutation of the inserted ones, with payloads untouched,
in an order in which no later node beats an earlier one (non-decreasing
priority); by distinctness each earlier node beats each later one. -/
theorem insert_then_drain_sorted (fuel : Nat) (hp : Prio) (hsw : StrictWeak hp) (m : Mem)
    (nodes : List Nat) (hnd : nodes.Nodup)
    (hdist : ∀ a ∈ nodes, ∀ b ∈ nodes, a ≠ b →
      hp (m a).value (m b).value = true ∨ hp (m b).value (m a).value = true)
    (hf : nodes.length + 1 ≤ fuel) :
    ∃ m1 h1 m2 h2 out,
      insert_all fuel hp nodes m heap_init = some (m1, h1) ∧
      drain hp fuel fuel m1 h1 = some (m2, h2, out) ∧
      heap_empty h2 = true ∧ out.length = nodes.length ∧ out.Perm nodes ∧
      (∀ a, (m2 a).value = (m a).value) ∧
      out.Pairwise (fun a b => hp (m b).value (m a).value = false) ∧
      out.Pairwise (fun a b => hp (m a).value (m b).value = true) := by
  obtain ⟨m1, h1, T1, e1, e2, e3, e4, _, e6, e7⟩ := insert_all_spec fuel hp nodes m heap_init
    HT.nil (shaped_init m) hnd (by intro x _; simp [members, heap_init, HT.addrs])
    (by simp only [HT.size]; omega)
  have hmem0 : members heap_init HT.nil = [] := by simp [members, heap_init, HT.addrs]
  rw [hmem0, List.append_nil] at e3
  have w1 := e7 hsw (wf_init hp m)
  simp only [HT.size, Nat.zero_add] at e6
  obtain ⟨m2, h2, out, d1, d2, d3, d4, _, d6⟩ := drain_spec fuel hp hsw fuel m1 h1 T1 w1
    (by rw [e3.length_eq]; omega) (by omega)
  have hperm : out.Perm nodes := d3.trans e3
  have hsorted : out.Pairwise (fun a b => hp (m b).value (m a).value = false) := by
    refine d6.imp ?_
    intro a b hab
    rw [← (e4 a).1, ← (e4 b).1]
    exact hab
  refine ⟨m1, h1, m2, h2, out, e1, d1, d2, hperm.length_eq, hperm,
    fun a => ((e4.de_trans d4) a).1, hsorted, ?_⟩
  have hnd' : out.Pairwise (fun a b => a ≠ b) := hperm.nodup_iff.2 hnd
  have hboth := hsorted.and hnd'
  refine List.Pairwise.imp_of_mem ?_ hboth
  intro a b ha hb hab
  rcases hdist a (hperm.subset ha) b (hperm.subset hb) hab.2 with h' | h'
  · exact h'
  · rw [hab.1] at h'
    exact Bool.noConfusion h'

theorem insert_then_drain_sorted_witness :
    ∃ m1 h1 m2 h2 out,
      insert_all 3 (token_cmp (fun v => v)) [1, 2] mem_desc heap_init = some (m1, h1) ∧
      drain (token_cmp (fun v => v)) 3 3 m1 h1 = some (m2, h2, out) ∧
      heap_empty h2 = true ∧ out.length = [1, 2].length ∧ out.Perm [1, 2] ∧
      (∀ a, (m2 a).value = (mem_desc a).value) ∧
      out.Pairwise (fun a b =>
        token_cmp (fun v => v) (mem_desc b).value (mem_desc a).value = false) ∧
      out.Pairwise (fun a b =>
        token_cmp (fun v => v) (mem_desc a).value (mem_desc b).value = true) :=
  insert_then_drain_sorted 3 (token_cmp (fun v => v)) (token_cmp_strictWeak _) mem_desc [1, 2]
    (by decide) (by decide) (by decide)

/-! ## Destructive union -/

/-- C3: for two heaps `A` (target) and `B` (addition) of any shapes in one
memory, with no node in common, `heap_union` returns; afterwards the members
of `A` are exactly the former members of `A` and of `B` (cached minima
included), each once, so their number is the sum; every node keeps its
payload, so the elements are the elements of `A` and `B` together; and `B`
has `head` and `min` both `NULL`, so `heap_empty` holds for it. -/
theorem union_conserves (fuel : Nat) (hp : Prio) (m : Mem) (A B : heap) (TA TB : HT)
    (wA : Shaped m A TA) (wB : Shaped m B TB)
    (hdisj : ∀ x ∈ members A TA, x ∉ members B TB)
    (hf : TA.size + TB.size + 3 ≤ fuel) :
    ∃ m' A' B' T',
      heap_union fuel hp m A B = some (m', A', B') ∧
      Shaped m' A' T' ∧ Shaped m' B' HT.nil ∧
      (members A' T').Perm (members A TA ++ members B TB) ∧
      (members A' T').Nodup ∧
      (members A' T').length = (members A TA).length + (members B TB).length ∧
      (∀ a, (m' a).value = (m a).value) ∧
      (elems m' A' T').Perm (elems m A TA ++ elems m B TB) ∧
      B'.head = none ∧ B'.min = none ∧ heap_empty B' = true := by
  obtain ⟨m', e1, e2, e3, _, e5, _⟩ := heap_union_pub_spec fuel hp m A B TA TB wA wB hdisj hf
  have hmem : members { head := (HT.unionPub hp m A B TA TB).hd, min := none }
      (HT.unionPub hp m A B TA TB) = (HT.unionPub hp m A B TA TB).addrs := by
    simp [members]
  refine ⟨m', _, _, HT.unionPub hp m A B TA TB, e1, e2,
    ⟨trivial, rfl, by simp [HT.addrs], (fun x hx => by cases hx)⟩, ?_, e2.members_nodup, ?_,
    fun a => (e5 a).1, ?_, rfl, rfl, rfl⟩
  · rw [hmem]; exact e3
  · rw [hmem, e3.length_eq, List.length_append]
  · unfold elems
    rw [hmem, ← List.map_append]
    have hfun : (fun a => (m' a).value) = (fun a => (m a).value) := by
      funext a
      exact (e5 a).1
    rw [hfun]
    exact e3.map _

theorem union_conserves_witness :
    ∃ m' A' B' T',
      heap_union 4 (token_cmp (fun v => v)) mem_zero heap_one heap_min_two = some (m', A', B') ∧
      Shaped m' A' T' ∧ Shaped m' B' HT.nil ∧
      (members A' T').Perm (members heap_one shape_one ++ members heap_min_two HT.nil) ∧
      (members A' T').Nodup ∧
      (members A' T').length
        = (members heap_one shape_one).length + (members heap_min_two HT.nil).length ∧
      (∀ a, (m' a).value = (mem_zero a).value) ∧
      (elems m' A' T').Perm
        (elems mem_zero heap_one shape_one ++ elems mem_zero heap_min_two HT.nil) ∧
      B'.head = none ∧ B'.min = none ∧ heap_empty B' = true :=
  union_conserves 4 (token_cmp (fun v => v)) mem_zero heap_one heap_min_two shape_one HT.nil
    shaped_one shaped_min_two (by decide) (by decide)

end BH

namespace BH

theorem HV.refInj {m : Mem} {sl : Slots} {S : List Nat} (hv : HV m sl S) : RefInj m S := by
  intro a ha b hb r h1 h2
  have e1 := hv a ha r h1
  have e2 := hv b hb r h2
  rw [e1] at e2
  exact Option.some.inj e2

theorem members_length_le_succ (h : heap) (T : HT) : (members h T).length ≤ T.size + 1 := by
  unfold members
  cases h.min <;> simp [HT.length_addrs]

theorem shaped_pair : Shaped mem_pair heap_one shape_pair :=
  ⟨by simp [Rep, shape_pair, mem_pair, HT.hd], rfl, by simp [shape_pair, HT.addrs],
    (fun x hx => by cases hx)⟩

theorem wf_pair : WF (token_cmp (fun v => v)) mem_pair heap_one shape_pair := by
  refine ⟨shaped_pair, ?_, (fun x hx => by cases hx)⟩
  intro a ha p hpar
  simp only [shape_pair, HT.addrs, List.mem_cons, List.append_nil, List.mem_singleton,
    List.not_mem_nil, or_false, List.nil_append] at ha
  rcases ha with rfl | rfl
  · simp [mem_pair] at hpar
  · simp only [mem_pair] at hpar
    simp at hpar
    subst hpar
    simp [mem_pair, token_cmp]

theorem hv_pair : HV mem_pair slots_pair (members heap_one shape_pair) := by
  intro a ha r hr
  simp only [members, heap_one, shape_pair, HT.addrs, Option.toList_none, List.nil_append,
    List.mem_cons, List.append_nil, List.mem_singleton, List.not_mem_nil, or_false] at ha
  rcases ha with rfl | rfl
  · simp [mem_pair] at hr
    subst hr
    simp [slots_pair]
  · simp [mem_pair] at hr
    subst hr
    simp [slots_pair]

/-! ## Deletion -/

/-- C4: on a well-formed heap (comparator a strict weak order), for a member
node with a back-reference, `heap_delete` returns; the heap is well formed
afterwards, so heap order holds; exactly one physical node has left the heap;
the elements before the call are the payload of `node` together with the
elements after it, so every other element is still present; if no other
member held that payload, it is no longer among the elements; and draining
the heap afterwards returns exactly the remaining elements, in non-decreasing
priority order. -/
theorem delete_removes_element (fuel : Nat) (hp : Prio) (hsw : StrictWeak hp) (m : Mem)
    (sl : Slots) (h : heap) (T : HT) (node : Nat) (w : WF hp m h T)
    (hn : node ∈ members h T) (href : (m node).ref ≠ none) (hf : T.size + 1 ≤ fuel) :
    ∃ m' sl' h' T' r,
      heap_delete fuel hp m sl h node = some (m', sl', h') ∧
      WF hp m' h' T' ∧
      (members h T).Perm (r :: members h' T') ∧
      (elems m h T).Perm ((m node).value :: elems m' h' T') ∧
      ((∀ a ∈ members h T, a ≠ node → (m a).value ≠ (m node).value) →
        (m node).value ∉ elems m' h' T') ∧
      (∃ m2 h2 out, drain hp fuel (fuel + 1) m' h' = some (m2, h2, out) ∧
        heap_empty h2 = true ∧
        (out.map (fun a => (m2 a).value)).Perm (elems m' h' T') ∧
        out.Pairwise (fun a b => hp (m2 b).value (m2 a).value = false)) := by
  obtain ⟨m', sl', h', T', r, σ, d1, d2, d3, d4, d5, d6, _, _, _, d10⟩ :=
    heap_delete_spec fuel hp m sl h T node w.shaped hn href hf
  have wf' := d10 hsw w
  have hnd := w.shaped.members_nodup
  have hnd' := d3.nodup_iff.1 hnd
  have hval : (m' r).value = (m node).value := by
    rw [← d4]
    exact (d6 node).1
  have hel : (elems m h T).Perm ((m node).value :: elems m' h' T') := by
    have h1 := values_perm σ (members h T) hnd d5 m m' (fun a => (d6 a).1)
    have h2 := d3.map (fun a => (m' a).value)
    simp only [List.map_cons, hval] at h2
    exact h1.symm.trans h2
  have hlen : (members h' T').length + 1 ≤ T.size + 1 := by
    have h1 := d3.length_eq
    have h2 := members_length_le_succ h T
    simp only [List.length_cons] at h1
    omega
  obtain ⟨m2, h2, out, e1, e2, e3, e4, _, e6⟩ := drain_spec fuel hp hsw (fuel + 1) m' h' T' wf'
    (by omega) (by have := members_length_le h' T'; omega)
  refine ⟨m', sl', h', T', r, d1, wf', d3, hel, ?_, m2, h2, out, e1, e2, ?_, ?_⟩
  · intro huniq hmem
    simp only [elems, List.mem_map] at hmem
    obtain ⟨b, hb, hbv⟩ := hmem
    have hbm : b ∈ members h T := d3.symm.subset (List.mem_cons_of_mem _ hb)
    have hsm : σ.symm b ∈ members h T := by
      apply equiv_mem_of_fix σ.symm (members h T) ?_ b hbm
      intro c hc
      exact (Equiv.symm_apply_eq σ).2 (d5 c hc).symm
    have hv := (d6 (σ.symm b)).1
    rw [Equiv.apply_symm_apply, hbv] at hv
    by_cases e : σ.symm b = node
    · have : b = r := by
        rw [← d4, ← e, Equiv.apply_symm_apply]
      subst this
      exact (List.nodup_cons.1 hnd').1 hb
    · exact huniq _ hsm e hv.symm
  · have hfun : (fun a => (m2 a).value) = (fun a => (m' a).value) := by
      funext a
      exact (e4 a).1
    rw [hfun]
    exact e3.map _
  · refine e6.imp ?_
    intro a b hab
    rw [(e4 a).1, (e4 b).1]
    exact hab

theorem delete_removes_element_witness :
    ∃ m' sl' h' T' r,
      heap_delete 3 (token_cmp (fun v => v)) mem_pair slots_pair heap_one 2 = some (m', sl', h') ∧
      WF (token_cmp (fun v => v)) m' h' T' ∧
      (members heap_one shape_pair).Perm (r :: members h' T') ∧
      (elems mem_pair heap_one shape_pair).Perm ((mem_pair 2).value :: elems m' h' T') ∧
      ((∀ a ∈ members heap_one shape_pair, a ≠ 2 → (mem_pair a).value ≠ (mem_pair 2).value) →
        (mem_pair 2).value ∉ elems m' h' T') ∧
      (∃ m2 h2 out, drain (token_cmp (fun v => v)) 3 (3 + 1) m' h' = some (m2, h2, out) ∧
        heap_empty h2 = true ∧
        (out.map (fun a => (m2 a).value)).Perm (elems m' h' T') ∧
        out.Pairwise (fun a b => token_cmp (fun v => v) (m2 b).value (m2 a).value = false)) :=
  delete_removes_element 3 (token_cmp (fun v => v)) (token_cmp_strictWeak _) mem_pair slots_pair
    heap_one shape_pair 2 wf_pair (by decide) (by decide) (by decide)

/-! ## Decrease -/

/-- C5: on a heap that is well formed for the comparator `hp`, let the
priority of the payload of a member node with a back-reference be changed,
giving the comparator `hp2`, which agrees with `hp` on the other members and
under which that payload beats the payload of every other member (cached
minimum included).  Then `heap_decrease` returns, and the `heap_take` that
follows returns a node, which holds that payload; if the handle of `node` was
valid, its slot points to the returned node. -/
theorem decrease_to_top_taken_next (fuel : Nat) (hp hp2 : Prio) (hsw : StrictWeak hp)
    (hsw2 : StrictWeak hp2) (m : Mem) (sl : Slots) (h : heap) (T : HT) (node : Nat)
    (w : WF hp m h T) (hn : node ∈ members h T) (href : (m node).ref ≠ none)
    (hsame : ∀ a ∈ members h T, ∀ b ∈ members h T, a ≠ node → b ≠ node →
      hp2 (m a).value (m b).value = hp (m a).value (m b).value)
    (htop : ∀ a ∈ members h T, a ≠ node → hp2 (m node).value (m a).value = true)
    (hf : T.size + 2 ≤ fuel) :
    ∃ m1 sl1 h1 m2 h2 x,
      heap_decrease fuel hp2 m sl h node = some (m1, sl1, h1) ∧
      heap_take fuel hp2 m1 h1 = some (m2, h2, some x) ∧
      (m2 x).value = (m node).value ∧ (m2 x).ref = (m node).ref ∧
      (HV m sl (members h T) → ∀ q, (m node).ref = some q → sl1 q = some x) := by
  have hmemT : ∀ a, a ∈ T.addrs → a ∈ members h T := fun a ha => mem_members.2 (Or.inr ha)
  have hself : ∀ a ∈ T.addrs, (m a).parent ≠ some a := by
    intro a ha e
    rcases Rep.parent_cases w.shaped.rep w.shaped.nodup ha with ⟨_, q⟩ | ⟨p, q1, _, q3, _⟩
    · rw [q] at e
      cases e
    · rw [e] at q1
      cases q1
      exact q3 rfl
  have wx : WFEx hp2 m h T node := by
    refine ⟨w.shaped, ⟨?_, ?_⟩, ?_⟩
    · intro a ha han p hap
      by_cases e : p = node
      · subst e
        exact hsw2.asymm (htop a (hmemT a ha) han)
      · have hpT : p ∈ T.addrs := by
          rcases Rep.parent_mem w.shaped.rep a ha p hap with q | q
          · cases q
          · exact q
        rw [hsame a (hmemT a ha) p (hmemT p hpT) han e]
        exact w.ord a ha p hap
    · intro c hc hcn g hng
      have hnT : node ∈ T.addrs := by
        rcases Rep.parent_mem w.shaped.rep c hc node hcn with q | q
        · cases q
        · exact q
      have hgT : g ∈ T.addrs := by
        rcases Rep.parent_mem w.shaped.rep node hnT g hng with q | q
        · cases q
        · exact q
      have hcne : c ≠ node := fun e => hself c hc (e ▸ hcn)
      have hgne : g ≠ node := fun e => hself node hnT (e ▸ hng)
      rw [hsame c (hmemT c hc) g (hmemT g hgT) hcne hgne]
      exact hsw.negtrans _ _ _ (w.ord c hc node hcn) (w.ord node hnT g hng)
    · intro y hy a ha han
      by_cases e : y = node
      · subst e
        exact hsw2.asymm (htop a (hmemT a ha) han)
      · rw [hsame a (hmemT a ha) y (mem_members.2 (Or.inl hy)) han e]
        exact w.min_ok y hy a ha
  obtain ⟨m1, sl1, h1, T1, σ, d1, d2, d3, d4, d5, _, d7, d8⟩ :=
    heap_decrease_spec fuel hp2 m sl h T node w.shaped hn href hf
  have wf1 := d8 hsw2 wx
  have hσn : σ node ∈ members h1 T1 :=
    d3.symm.subset (equiv_mem_of_fix σ (members h T) d4 node hn)
  have hne : heap_empty h1 = false := by
    cases he : heap_empty h1 with
    | false => rfl
    | true =>
      rw [members_empty d2 he] at hσn
      cases hσn
  have hsz : T1.size ≤ fuel := by
    have h1' := members_length_le h1 T1
    have h2' := d3.length_eq
    have h3' := members_length_le_succ h T
    omega
  obtain ⟨m2, x, t1, _, _, t4, t5, _, t7, _⟩ :=
    heap_take_wf_spec fuel hp2 hsw2 m1 h1 T1 wf1 hne hsz
  have hxm : x ∈ members h T := d3.subset (t4.symm.subset (List.mem_cons_self _ _))
  have hsx : σ.symm x ∈ members h T := by
    apply equiv_mem_of_fix σ.symm (members h T) ?_ x hxm
    intro c hc
    exact (Equiv.symm_apply_eq σ).2 (d4 c hc).symm
  have hx : x = σ node := by
    by_contra hcon
    have hne' : σ.symm x ≠ node := by
      intro e
      apply hcon
      rw [← e, Equiv.apply_symm_apply]
    have h1' := t5 (σ node) hσn
    have h2' := (d5 (σ.symm x)).1
    rw [Equiv.apply_symm_apply] at h2'
    rw [(d5 node).1, h2', htop _ hsx hne'] at h1'
    cases h1'
  refine ⟨m1, sl1, h1, m2, _, x, d1, t1, ?_, ?_, ?_⟩
  · rw [(t7 x).1, hx]
    exact (d5 node).1
  · rw [(t7 x).2, hx]
    exact (d5 node).2
  · intro hv q hq
    obtain ⟨v1, _⟩ := d7 (members h T) (fun _ ha => ha) hv hv.refInj
    rw [hx]
    apply v1 (σ node) (equiv_mem_of_fix σ (members h T) d4 node hn) q
    rw [(d5 node).2]
    exact hq

theorem decrease_to_top_taken_next_witness :
    ∃ m1 sl1 h1 m2 h2 x,
      heap_decrease 4 cmp_rekeyed mem_pair slots_pair heap_one 2 = some (m1, sl1, h1) ∧
      heap_take 4 cmp_rekeyed m1 h1 = some (m2, h2, some x) ∧
      (m2 x).value = (mem_pair 2).value ∧ (m2 x).ref = (mem_pair 2).ref ∧
      (HV mem_pair slots_pair (members heap_one shape_pair) →
        ∀ q, (mem_pair 2).ref = some q → sl1 q = some x) :=
  decrease_to_top_taken_next 4 (token_cmp (fun v => v)) cmp_rekeyed (token_cmp_strictWeak _)
    (token_cmp_strictWeak _) mem_pair slots_pair heap_one shape_pair 2 wf_pair (by decide)
    (by decide) (by decide) (by decide) (by decide)

/-! ## Handles -/

/-- C6: on a heap of any shape, let the handles of the nodes of `S`, which
include the members, be valid: the slot a node refers to holds that node (so
distinct nodes have distinct slots).  Then for a member node with a
back-reference both `heap_decrease` and `heap_delete` return, and afterwards
every slot that a node of `S` referred to holds the node that now has that
node's payload and that same back-reference; the handles of the nodes of
`S`, so of all remaining members, are valid; and for `heap_delete` the slot
of `node` holds the node `r` that left the heap, whose degree is
`NOT_IN_HEAP`. -/
theorem handles_stay_valid (fuel : Nat) (hp : Prio) (m : Mem) (sl : Slots) (h : heap) (T : HT)
    (node : Nat) (S : List Nat) (w : Shaped m h T) (hn : node ∈ members h T)
    (href : (m node).ref ≠ none) (hS : ∀ a ∈ members h T, a ∈ S) (hv : HV m sl S)
    (hf : T.size + 2 ≤ fuel) :
    (∃ m' sl' h' T',
      heap_decrease fuel hp m sl h node = some (m', sl', h') ∧
      Shaped m' h' T' ∧ (members h' T').Perm (members h T) ∧
      (∀ a ∈ S, ∀ q, (m a).ref = some q →
        ∃ b ∈ S, sl' q = some b ∧ (m' b).value = (m a).value ∧ (m' b).ref = some q) ∧
      HV m' sl' S ∧ RefInj m' S ∧ HV m' sl' (members h' T')) ∧
    (∃ m' sl' h' T' r,
      heap_delete fuel hp m sl h node = some (m', sl', h') ∧
      Shaped m' h' T' ∧ (members h T).Perm (r :: members h' T') ∧
      (∀ a ∈ S, ∀ q, (m a).ref = some q →
        ∃ b ∈ S, sl' q = some b ∧ (m' b).value = (m a).value ∧ (m' b).ref = some q) ∧
      HV m' sl' S ∧ RefInj m' S ∧ HV m' sl' (members h' T') ∧
      (∀ q, (m node).ref = some q → sl' q = some r) ∧
      (m' r).value = (m node).value ∧ (m' r).degree = NOT_IN_HEAP ∧ r ∉ members h' T') := by
  have key : ∀ (σ : Equiv.Perm Nat) (m' : Mem) (sl' : Slots),
      (∀ a, a ∉ members h T → σ a = a) →
      (∀ a, (m' (σ a)).value = (m a).value ∧ (m' (σ a)).ref = (m a).ref) →
      HV m' sl' S →
      ∀ a ∈ S, ∀ q, (m a).ref = some q →
        ∃ b ∈ S, sl' q = some b ∧ (m' b).value = (m a).value ∧ (m' b).ref = some q := by
    intro σ m' sl' hfix hdata hv' a ha q hq
    have hσS : σ a ∈ S := by
      by_cases hm : a ∈ members h T
      · exact hS _ (equiv_mem_of_fix σ (members h T) hfix a hm)
      · rw [hfix a hm]
        exact ha
    have hr : (m' (σ a)).ref = some q := by
      rw [(hdata a).2]
      exact hq
    exact ⟨σ a, hσS, hv' (σ a) hσS q hr, (hdata a).1, hr⟩
  refine ⟨?_, ?_⟩
  · obtain ⟨m', sl', h', T', σ, d1, d2, d3, d4, d5, _, d7, _⟩ :=
      heap_decrease_spec fuel hp m sl h T node w hn href hf
    obtain ⟨v1, v2⟩ := d7 S hS hv hv.refInj
    refine ⟨m', sl', h', T', d1, d2, d3, key σ m' sl' d4 d5 v1, v1, v2, ?_⟩
    intro a ha
    exact v1 a (hS a (d3.subset ha))
  · obtain ⟨m', sl', h', T', r, σ, d1, d2, d3, d4, d5, d6, _, d8, d9, _⟩ :=
      heap_delete_spec fuel hp m sl h T node w hn href (by omega)
    obtain ⟨v1, v2⟩ := d9 S hS hv hv.refInj
    have hrm : r ∈ members h T := d3.symm.subset (List.mem_cons_self _ _)
    refine ⟨m', sl', h', T', r, d1, d2, d3, key σ m' sl' d5 d6 v1, v1, v2, ?_, ?_, ?_, d8, ?_⟩
    · intro a ha
      exact v1 a (hS a (d3.symm.subset (List.mem_cons_of_mem _ ha)))
    · intro q hq
      apply v1 r (hS r hrm) q
      rw [← d4, (d6 node).2]
      exact hq
    · rw [← d4]
      exact (d6 node).1
    · exact (List.nodup_cons.1 (d3.nodup_iff.1 w.members_nodup)).1

theorem handles_stay_valid_witness :
    (∃ m' sl' h' T',
      heap_decrease 4 cmp_rekeyed mem_pair slots_pair heap_one 2 = some (m', sl', h') ∧
      Shaped m' h' T' ∧ (members h' T').Perm (members heap_one shape_pair) ∧
      (∀ a ∈ members heap_one shape_pair, ∀ q, (mem_pair a).ref = some q →
        ∃ b ∈ members heap_one shape_pair,
          sl' q = some b ∧ (m' b).value = (mem_pair a).value ∧ (m' b).ref = some q) ∧
      HV m' sl' (members heap_one shape_pair) ∧ RefInj m' (members heap_one shape_pair) ∧
      HV m' sl' (members h' T')) ∧
    (∃ m' sl' h' T' r,
      heap_delete 4 cmp_rekeyed mem_pair slots_pair heap_one 2 = some (m', sl', h') ∧
      Shaped m' h' T' ∧ (members heap_one shape_pair).Perm (r :: members h' T') ∧
      (∀ a ∈ members heap_one shape_pair, ∀ q, (mem_pair a).ref = some q →
        ∃ b ∈ members heap_one shape_pair,
          sl' q = some b ∧ (m' b).value = (mem_pair a).value ∧ (m' b).ref = some q) ∧
      HV m' sl' (members heap_one shape_pair) ∧ RefInj m' (members heap_one shape_pair) ∧
      HV m' sl' (members h' T') ∧
      (∀ q, (mem_pair 2).ref = some q → sl' q = some r) ∧
      (m' r).value = (mem_pair 2).value ∧ (m' r).degree = NOT_IN_HEAP ∧ r ∉ members h' T') :=
  handles_stay_valid 4 cmp_rekeyed mem_pair slots_pair heap_one shape_pair 2
    (members heap_one shape_pair) shaped_pair (by decide) (by decide) (fun _ ha => ha) hv_pair
    (by decide)

end BH

namespace BH

/-! ## More fuel does not change a result -/

theorem heap_merge_loop_mono : ∀ (fuel fuel2 : Nat) (m : Mem) (head pos a b : Option Nat)
    (r : Mem × Option Nat), fuel ≤ fuel2 → __heap_merge_loop fuel m head pos a b = some r →
    __heap_merge_loop fuel2 m head pos a b = some r := by
  intro fuel
  induction fuel with
  | zero => intro _ _ _ _ _ _ _ _ h; simp [__heap_merge_loop] at h
  | succ fuel ih =>
    intro fuel2 m head pos a b r hle h
    cases fuel2 with
    | zero => omega
    | succ fuel2 =>
      cases a with
      | none => simpa [__heap_merge_loop] using h
      | some a =>
        cases b with
        | none => simpa [__heap_merge_loop] using h
        | some b =>
          simp only [__heap_merge_loop] at h ⊢
          by_cases hc : (m a).degree < (m b).degree
          · rw [if_pos hc] at h ⊢
            exact ih _ _ _ _ _ _ _ (by omega) h
          · rw [if_neg hc] at h ⊢
            exact ih _ _ _ _ _ _ _ (by omega) h

theorem heap_merge_mono {fuel fuel2 : Nat} (hle : fuel ≤ fuel2) {m : Mem} {a b : Option Nat}
    {r : Mem × Option Nat} (h : __heap_merge fuel m a b = some r) :
    __heap_merge fuel2 m a b = some r :=
  heap_merge_loop_mono fuel fuel2 m none none a b r hle h

theorem heap_reverse_loop_mono : ∀ (fuel fuel2 : Nat) (m : Mem) (tail : Option Nat) (x : Nat)
    (r : Mem × Nat), fuel ≤ fuel2 → __heap_reverse_loop fuel m tail x = some r →
    __heap_reverse_loop fuel2 m tail x = some r := by
  intro fuel
  induction fuel with
  | zero => intro _ _ _ _ _ _ h; simp [__heap_reverse_loop] at h
  | succ fuel ih =>
    intro fuel2 m tail x r hle h
    cases fuel2 with
    | zero => omega
    | succ fuel2 =>
      simp only [__heap_reverse_loop] at h ⊢
      cases hn : (m x).next with
      | none => simpa [hn] using h
      | some nx =>
        rw [hn] at h
        exact ih _ _ _ _ _ (by omega) h

theorem heap_reverse_mono {fuel fuel2 : Nat} (hle : fuel ≤ fuel2) {m : Mem} {x : Option Nat}
    {r : Mem × Option Nat} (h : __heap_reverse fuel m x = some r) :
    __heap_reverse fuel2 m x = some r := by
  cases x with
  | none => simpa [__heap_reverse] using h
  | some x =>
    simp only [__heap_reverse] at h ⊢
    cases hl : __heap_reverse_loop fuel (set_parent m x none) none x with
    | none => rw [hl] at h; cases h
    | some q =>
      rw [hl] at h
      rw [heap_reverse_loop_mono _ _ _ _ _ _ hle hl]
      exact h

theorem heap_min_loop_mono (hp : Prio) (m : Mem) : ∀ (fuel fuel2 : Nat) (prev : Option Nat)
    (node q : Nat) (cur : Option Nat) (r : Option Nat × Nat), fuel ≤ fuel2 →
    __heap_min_loop hp m fuel prev node q cur = some r →
    __heap_min_loop hp m fuel2 prev node q cur = some r := by
  intro fuel
  induction fuel with
  | zero => intro _ _ _ _ _ _ _ h; simp [__heap_min_loop] at h
  | succ fuel ih =>
    intro fuel2 prev node q cur r hle h
    cases fuel2 with
    | zero => omega
    | succ fuel2 =>
      cases cur with
      | none => simpa [__heap_min_loop] using h
      | some cur =>
        simp only [__heap_min_loop] at h ⊢
        by_cases hc : hp (m cur).value (m node).value = true
        · rw [if_pos hc] at h ⊢
          exact ih _ _ _ _ _ _ (by omega) h
        · rw [if_neg hc] at h ⊢
          exact ih _ _ _ _ _ _ (by omega) h

theorem heap_min_mono {fuel fuel2 : Nat} (hle : fuel ≤ fuel2) {hp : Prio} {m : Mem} {h : heap}
    {r : Option Nat × Option Nat} (e : __heap_min fuel hp m h = some r) :
    __heap_min fuel2 hp m h = some r := by
  simp only [__heap_min] at e ⊢
  cases hh : h.head with
  | none => simpa [hh] using e
  | some hd =>
    rw [hh] at e
    simp only at e ⊢
    cases hl : __heap_min_loop hp m fuel none hd hd (m hd).next with
    | none => rw [hl] at e; cases e
    | some q =>
      rw [hl] at e
      rw [heap_min_loop_mono hp m _ _ _ _ _ _ _ hle hl]
      exact e

theorem heap_union_loop_mono (hp : Prio) : ∀ (fuel fuel2 : Nat) (m : Mem) (h1 : Nat)
    (prev : Option Nat) (x : Nat) (next : Option Nat) (r : Mem × Nat), fuel ≤ fuel2 →
    __heap_union_loop hp fuel m h1 prev x next = some r →
    __heap_union_loop hp fuel2 m h1 prev x next = some r := by
  intro fuel
  induction fuel with
  | zero => intro _ _ _ _ _ _ _ _ h; simp [__heap_union_loop] at h
  | succ fuel ih =>
    intro fuel2 m h1 prev x next r hle h
    cases fuel2 with
    | zero => omega
    | succ fuel2 =>
      cases next with
      | none => simpa [__heap_union_loop] using h
      | some next =>
        simp only [__heap_union_loop] at h ⊢
        by_cases hc : ((m x).degree != (m next).degree || next_next_same_degree m x next) = true
        · rw [if_pos hc] at h ⊢
          exact ih _ _ _ _ _ _ _ (by omega) h
        · rw [if_neg hc] at h ⊢
          by_cases hc2 : hp (m x).value (m next).value = true
          · rw [if_pos hc2] at h ⊢
            exact ih _ _ _ _ _ _ _ (by omega) h
          · rw [if_neg hc2] at h ⊢
            exact ih _ _ _ _ _ _ _ (by omega) h

theorem heap_union_mono {fuel fuel2 : Nat} (hle : fuel ≤ fuel2) {hp : Prio} {m : Mem} {h : heap}
    {h2 : Option Nat} {r : Mem × heap} (e : __heap_union fuel hp m h h2 = some r) :
    __heap_union fuel2 hp m h h2 = some r := by
  cases h2 with
  | none => simpa [__heap_union] using e
  | some b =>
    simp only [__heap_union] at e ⊢
    cases hh : h.head with
    | none => simpa [hh] using e
    | some a =>
      rw [hh] at e
      simp only at e ⊢
      cases hm : __heap_merge fuel m (some a) (some b) with
      | none => rw [hm] at e; cases e
      | some q =>
        obtain ⟨m1, o⟩ := q
        rw [hm] at e
        rw [heap_merge_mono hle hm]
        cases o with
        | none => cases e
        | some x =>
          simp only at e ⊢
          cases hl : __heap_union_loop hp fuel m1 x none x (m1 x).next with
          | none => rw [hl] at e; cases e
          | some q2 =>
            rw [hl] at e
            rw [heap_union_loop_mono hp _ _ _ _ _ _ _ _ hle hl]
            exact e

theorem heap_extract_min_mono {fuel fuel2 : Nat} (hle : fuel ≤ fuel2) {hp : Prio} {m : Mem}
    {h : heap} {r : Mem × heap × Option Nat} (e : __heap_extract_min fuel hp m h = some r) :
    __heap_extract_min fuel2 hp m h = some r := by
  simp only [__heap_extract_min] at e ⊢
  cases hm : __heap_min fuel hp m h with
  | none => rw [hm] at e; cases e
  | some q =>
    obtain ⟨prev, o⟩ := q
    rw [hm] at e
    rw [heap_min_mono hle hm]
    cases o with
    | none => exact e
    | some node =>
      simp only at e ⊢
      cases hr : __heap_reverse fuel (unlink_root m h prev node).1
          ((unlink_root m h prev node).1 node).child with
      | none => rw [hr] at e; cases e
      | some q2 =>
        obtain ⟨m2, c⟩ := q2
        rw [hr] at e
        rw [heap_reverse_mono hle hr]
        simp only at e ⊢
        cases hu : __heap_union fuel hp m2 (unlink_root m h prev node).2 c with
        | none => rw [hu] at e; cases e
        | some q3 =>
          rw [hu] at e
          rw [heap_union_mono hle hu]
          exact e

theorem heap_insert_mono {fuel fuel2 : Nat} (hle : fuel ≤ fuel2) {hp : Prio} {m : Mem}
    {h : heap} {node : Nat} {r : Mem × heap} (e : heap_insert fuel hp m h node = some r) :
    heap_insert fuel2 hp m h node = some r := by
  simp only [heap_insert] at e ⊢
  cases hmin : h.min with
  | none =>
    rw [hmin] at e
    exact heap_union_mono hle e
  | some x =>
    rw [hmin] at e
    simp only at e ⊢
    by_cases hc : hp (node_reinit m node node).value (node_reinit m node x).value = true
    · rw [if_pos hc] at e ⊢
      cases hu : __heap_union fuel hp (node_reinit (node_reinit m node) x) h (some x) with
      | none => rw [hu] at e; cases e
      | some q =>
        rw [hu] at e
        rw [heap_union_mono hle hu]
        exact e
    · rw [if_neg hc] at e ⊢
      exact heap_union_mono hle e

theorem uncache_min_mono {fuel fuel2 : Nat} (hle : fuel ≤ fuel2) {hp : Prio} {m : Mem}
    {h : heap} {r : Mem × heap} (e : __uncache_min fuel hp m h = some r) :
    __uncache_min fuel2 hp m h = some r := by
  simp only [__uncache_min] at e ⊢
  cases hmin : h.min with
  | none => simpa [hmin] using e
  | some x =>
    rw [hmin] at e
    exact heap_insert_mono hle e

theorem heap_union_pub_mono {fuel fuel2 : Nat} (hle : fuel ≤ fuel2) {hp : Prio} {m : Mem}
    {t a : heap} {r : Mem × heap × heap} (e : heap_union fuel hp m t a = some r) :
    heap_union fuel2 hp m t a = some r := by
  simp only [heap_union] at e ⊢
  cases h1 : __uncache_min fuel hp m t with
  | none => rw [h1] at e; cases e
  | some q1 =>
    obtain ⟨m1, t1⟩ := q1
    rw [h1] at e
    rw [uncache_min_mono hle h1]
    simp only at e ⊢
    cases h2 : __uncache_min fuel hp m1 a with
    | none => rw [h2] at e; cases e
    | some q2 =>
      obtain ⟨m2, a2⟩ := q2
      rw [h2] at e
      rw [uncache_min_mono hle h2]
      simp only at e ⊢
      cases h3 : __heap_union fuel hp m2 t1 a2.head with
      | none => rw [h3] at e; cases e
      | some q3 =>
        rw [h3] at e
        rw [heap_union_mono hle h3]
        exact e

theorem cache_min_mono {fuel fuel2 : Nat} (hle : fuel ≤ fuel2) {hp : Prio} {m : Mem}
    {h : heap} {r : Mem × heap} (e : cache_min fuel hp m h = some r) :
    cache_min fuel2 hp m h = some r := by
  simp only [cache_min] at e ⊢
  cases hmin : h.min with
  | some x => simpa [hmin] using e
  | none =>
    rw [hmin] at e
    simp only at e ⊢
    cases h1 : __heap_extract_min fuel hp m h with
    | none => rw [h1] at e; cases e
    | some q =>
      rw [h1] at e
      rw [heap_extract_min_mono hle h1]
      exact e

theorem heap_peek_mono {fuel fuel2 : Nat} (hle : fuel ≤ fuel2) {hp : Prio} {m : Mem}
    {h : heap} {r : Mem × heap × Option Nat} (e : heap_peek fuel hp m h = some r) :
    heap_peek fuel2 hp m h = some r := by
  simp only [heap_peek] at e ⊢
  cases h1 : cache_min fuel hp m h with
  | none => rw [h1] at e; cases e
  | some q =>
    rw [h1] at e
    rw [cache_min_mono hle h1]
    exact e

theorem heap_take_mono {fuel fuel2 : Nat} (hle : fuel ≤ fuel2) {hp : Prio} {m : Mem}
    {h : heap} {r : Mem × heap × Option Nat} (e : heap_take fuel hp m h = some r) :
    heap_take fuel2 hp m h = some r := by
  simp only [heap_take] at e ⊢
  cases h1 : cache_min fuel hp m h with
  | none => rw [h1] at e; cases e
  | some q =>
    rw [h1] at e
    rw [cache_min_mono hle h1]
    exact e

theorem bubble_loop_mono (cond : Mem → Nat → Nat → Bool) : ∀ (fuel fuel2 : Nat) (m : Mem)
    (sl : Slots) (node : Nat) (par : Option Nat) (r : Mem × Slots × Nat), fuel ≤ fuel2 →
    bubble_loop cond fuel m sl node par = some r →
    bubble_loop cond fuel2 m sl node par = some r := by
  intro fuel
  induction fuel with
  | zero => intro _ _ _ _ _ _ _ h; simp [bubble_loop] at h
  | succ fuel ih =>
    intro fuel2 m sl node par r hle h
    cases fuel2 with
    | zero => omega
    | succ fuel2 =>
      cases par with
      | none => simpa [bubble_loop] using h
      | some p =>
        simp only [bubble_loop] at h ⊢
        by_cases hc : cond m node p = true
        · rw [if_pos hc] at h ⊢
          cases hs : swap_with_parent m sl node p with
          | none => rw [hs] at h; cases h
          | some q =>
            rw [hs] at h
            simp only at h ⊢
            exact ih _ _ _ _ _ _ (by omega) h
        · rw [if_neg hc] at h ⊢
          exact h

theorem find_prev_loop_mono (m : Mem) (node : Nat) : ∀ (fuel fuel2 : Nat) (prev pos : Option Nat)
    (r : Option Nat), fuel ≤ fuel2 → find_prev_loop m node fuel prev pos = some r →
    find_prev_loop m node fuel2 prev pos = some r := by
  intro fuel
  induction fuel with
  | zero => intro _ _ _ _ _ h; simp [find_prev_loop] at h
  | succ fuel ih =>
    intro fuel2 prev pos r hle h
    cases fuel2 with
    | zero => omega
    | succ fuel2 =>
      simp only [find_prev_loop] at h ⊢
      by_cases hc : pos ≠ some node
      · rw [if_pos hc] at h ⊢
        cases pos with
        | none => cases h
        | some p => exact ih _ _ _ _ (by omega) h
      · rw [if_neg hc] at h ⊢
        exact h

theorem heap_delete_mono {fuel fuel2 : Nat} (hle : fuel ≤ fuel2) {hp : Prio} {m : Mem}
    {sl : Slots} {h : heap} {node : Nat} {r : Mem × Slots × heap}
    (e : heap_delete fuel hp m sl h node = some r) :
    heap_delete fuel2 hp m sl h node = some r := by
  simp only [heap_delete] at e ⊢
  cases href : (m node).ref with
  | none => simpa [href] using e
  | some q =>
    rw [href] at e
    simp only at e ⊢
    by_cases hc : h.min ≠ some node
    · rw [if_pos hc] at e ⊢
      rw [delete_loop_eq] at e ⊢
      cases h1 : bubble_loop (fun _ _ _ => true) fuel m sl node (m node).parent with
      | none => rw [h1] at e; cases e
      | some q1 =>
        obtain ⟨m1, sl1, node1⟩ := q1
        rw [h1] at e
        rw [bubble_loop_mono _ _ _ _ _ _ _ _ hle h1]
        simp only at e ⊢
        cases h2 : find_prev_loop m1 node1 fuel none h.head with
        | none => rw [h2] at e; cases e
        | some prev =>
          rw [h2] at e
          rw [find_prev_loop_mono _ _ _ _ _ _ _ hle h2]
          simp only at e ⊢
          cases h3 : __heap_reverse fuel (unlink_root m1 h prev node1).1
              ((unlink_root m1 h prev node1).1 node1).child with
          | none => rw [h3] at e; cases e
          | some q3 =>
            obtain ⟨m2, c⟩ := q3
            rw [h3] at e
            rw [heap_reverse_mono hle h3]
            simp only at e ⊢
            cases h4 : __heap_union fuel hp m2 (unlink_root m1 h prev node1).2 c with
            | none => rw [h4] at e; cases e
            | some q4 =>
              rw [h4] at e
              rw [heap_union_mono hle h4]
              exact e
    · rw [if_neg hc] at e ⊢
      exact e

theorem decrease_uncache_mono {fuel fuel2 : Nat} (hle : fuel ≤ fuel2) {hp : Prio} {m : Mem}
    {h : heap} {node : Nat} {r : Mem × heap} (e : decrease_uncache fuel hp m h node = some r) :
    decrease_uncache fuel2 hp m h node = some r := by
  simp only [decrease_uncache] at e ⊢
  cases hmin : h.min with
  | none => simpa [hmin] using e
  | some x =>
    rw [hmin] at e
    simp only at e ⊢
    by_cases hc : hp (m node).value (m x).value = true
    · rw [if_pos hc] at e ⊢
      exact uncache_min_mono hle e
    · rw [if_neg hc] at e ⊢
      exact e

theorem heap_decrease_mono {fuel fuel2 : Nat} (hle : fuel ≤ fuel2) {hp : Prio} {m : Mem}
    {sl : Slots} {h : heap} {node : Nat} {r : Mem × Slots × heap}
    (e : heap_decrease fuel hp m sl h node = some r) :
    heap_decrease fuel2 hp m sl h node = some r := by
  simp only [heap_decrease] at e ⊢
  cases href : (m node).ref with
  | none => simpa [href] using e
  | some q =>
    rw [href] at e
    simp only at e ⊢
    by_cases hc : h.min ≠ some node
    · rw [if_pos hc] at e ⊢
      cases h1 : decrease_uncache fuel hp m h node with
      | none => rw [h1] at e; cases e
      | some q1 =>
        obtain ⟨m1, hh1⟩ := q1
        rw [h1] at e
        rw [decrease_uncache_mono hle h1]
        simp only at e ⊢
        rw [decrease_loop_eq] at e ⊢
        cases h2 : bubble_loop (fun m a b => hp (m a).value (m b).value) fuel m1 sl node
            (m1 node).parent with
        | none => rw [h2] at e; simp at e
        | some q2 =>
          rw [h2] at e
          rw [bubble_loop_mono _ _ _ _ _ _ _ _ hle h2]
          exact e
    · rw [if_neg hc] at e ⊢
      exact e

end BH

namespace BH

/-! ## A program using the heap API: several heaps in one memory -/

theorem reachable_iff {m : Mem} {x : Nat} : ∀ {T : HT} {par : Option Nat}, Rep m par T →
    (Reachable m T.hd x ↔ x ∈ T.addrs) := by
  intro T par hr
  constructor
  · intro h
    generalize hp : T.hd = p at h
    induction h generalizing T par with
    | here a =>
      cases T with
      | nil => simp at hp
      | node b d c n =>
        simp only [HT.hd_node, Option.some.injEq] at hp
        subst hp
        simp [HT.addrs]
    | next a x _ ih =>
      cases T with
      | nil => simp at hp
      | node b d c n =>
        simp only [HT.hd_node, Option.some.injEq] at hp
        subst hp
        obtain ⟨_, _, _, r4, _, r6⟩ := hr
        have := ih r6 r4.symm
        simp [HT.addrs, this]
    | child a x _ ih =>
      cases T with
      | nil => simp at hp
      | node b d c n =>
        simp only [HT.hd_node, Option.some.injEq] at hp
        subst hp
        obtain ⟨_, _, r3, _, r5, _⟩ := hr
        have := ih r5 r3.symm
        simp [HT.addrs, this]
  · intro h
    induction T generalizing par with
    | nil => simp [HT.addrs] at h
    | node b d c n ihc ihn =>
      obtain ⟨_, _, r3, r4, r5, r6⟩ := hr
      simp only [HT.addrs, List.mem_cons, List.mem_append] at h
      rw [HT.hd_node]
      rcases h with rfl | h | h
      · exact Reachable.here _
      · apply Reachable.child
        rw [r3]
        exact ihc r5 h
      · apply Reachable.next
        rw [r4]
        exact ihn r6 h

theorem member_iff {m : Mem} {h : heap} {T : HT} (w : Shaped m h T) (x : Nat) :
    Member m h x ↔ x ∈ members h T := by
  rw [mem_members, Member, w.head, reachable_iff w.rep]

theorem World.step_mono {fuel fuel2 : Nat} (hle : fuel ≤ fuel2) (w : World) (op : Op)
    {r : World × Option Nat} (e : w.step fuel op = some r) : w.step fuel2 op = some r := by
  cases op with
  | insert i node value ref =>
    cases ref with
    | none =>
      simp only [World.step] at e ⊢
      cases h1 : heap_insert fuel w.hp (heap_node_init w.m node value) (w.hs i) node with
      | none => rw [h1] at e; cases e
      | some q =>
        rw [h1] at e
        rw [heap_insert_mono hle h1]
        exact e
    | some r0 =>
      simp only [World.step] at e ⊢
      cases h0 : heap_node_init_ref w.m (set_slot w.sl r0 (some node)) r0 value with
      | none => rw [h0] at e; cases e
      | some m0 =>
        rw [h0] at e
        simp only at e ⊢
        cases h1 : heap_insert fuel w.hp m0 (w.hs i) node with
        | none => rw [h1] at e; cases e
        | some q =>
          rw [h1] at e
          rw [heap_insert_mono hle h1]
          exact e
  | union i j =>
    simp only [World.step] at e ⊢
    cases h1 : heap_union fuel w.hp w.m (w.hs i) (w.hs j) with
    | none => rw [h1] at e; cases e
    | some q =>
      rw [h1] at e
      rw [heap_union_pub_mono hle h1]
      exact e
  | peek i =>
    simp only [World.step] at e ⊢
    cases h1 : heap_peek fuel w.hp w.m (w.hs i) with
    | none => rw [h1] at e; cases e
    | some q =>
      rw [h1] at e
      rw [heap_peek_mono hle h1]
      exact e
  | take i =>
    simp only [World.step] at e ⊢
    cases h1 : heap_take fuel w.hp w.m (w.hs i) with
    | none => rw [h1] at e; cases e
    | some q =>
      rw [h1] at e
      rw [heap_take_mono hle h1]
      exact e
  | delete i node =>
    simp only [World.step] at e ⊢
    cases h1 : heap_delete fuel w.hp w.m w.sl (w.hs i) node with
    | none => rw [h1] at e; cases e
    | some q =>
      rw [h1] at e
      rw [heap_delete_mono hle h1]
      exact e
  | decrease i node hp2 =>
    simp only [World.step] at e ⊢
    cases h1 : heap_decrease fuel hp2 w.m w.sl (w.hs i) node with
    | none => rw [h1] at e; cases e
    | some q =>
      rw [h1] at e
      rw [heap_decrease_mono hle h1]
      exact e

end BH

namespace BH

/-! ## The invariant is kept by every call -/

@[simp] theorem set_heap_same (hs : Nat → heap) (i : Nat) (h : heap) : set_heap hs i h i = h := by
  simp [set_heap]

theorem set_heap_other (hs : Nat → heap) (i : Nat) (h : heap) (k : Nat) (hk : k ≠ i) :
    set_heap hs i h k = hs k := by
  simp [set_heap, hk]

@[simp] theorem set_shape_same (Ts : Nat → HT) (i : Nat) (T : HT) : set_shape Ts i T i = T := by
  simp [set_shape]

theorem set_shape_other (Ts : Nat → HT) (i : Nat) (T : HT) (k : Nat) (hk : k ≠ i) :
    set_shape Ts i T k = Ts k := by
  simp [set_shape, hk]

@[simp] theorem set_bag_same (b : Nat → Multiset Nat) (i : Nat) (s : Multiset Nat) :
    set_bag b i s i = s := by
  simp [set_bag]

theorem set_bag_other (b : Nat → Multiset Nat) (i : Nat) (s : Multiset Nat) (k : Nat)
    (hk : k ≠ i) : set_bag b i s k = b k := by
  simp [set_bag, hk]

theorem model_eq {M M2 : Model} (hb : ∀ k, M.bag k = M2.bag k) (hh : M.hp = M2.hp) : M = M2 := by
  cases M
  cases M2
  simp only [Model.mk.injEq]
  exact ⟨funext hb, hh⟩

theorem abs_iff {w : World} {M : Model} : Abs w M ↔ ∃ Ts, Inv w Ts ∧ M = modelOf w Ts := by
  constructor
  · rintro ⟨h1, Ts, h2, h3⟩
    exact ⟨Ts, h2, model_eq h3 h1⟩
  · rintro ⟨Ts, h2, rfl⟩
    exact ⟨rfl, Ts, h2, fun _ => rfl⟩

theorem elems_congr {m m2 : Mem} {h : heap} {T : HT}
    (hv : ∀ x ∈ members h T, (m2 x).value = (m x).value) : elems m2 h T = elems m h T := by
  unfold elems
  exact List.map_congr_left hv

theorem HV.hv_frame {m m2 : Mem} {sl sl2 : Slots} {S : List Nat} (hv : HV m sl S)
    (hr : ∀ x ∈ S, (m2 x).ref = (m x).ref)
    (hs : ∀ x ∈ S, ∀ q, (m x).ref = some q → sl2 q = sl q) : HV m2 sl2 S := by
  intro a ha q hq
  rw [hr a ha] at hq
  rw [hs a ha q hq]
  exact hv a ha q hq

/-- Replacing one heap keeps the invariant when the new heap is well formed,
its nodes are nodes of the old heap or new ones that are in no other heap,
and the other heaps are still well formed with valid handles. -/
theorem Inv.update {w : World} {Ts : Nat → HT} (hI : Inv w Ts) (i : Nat) (m2 : Mem) (sl2 : Slots)
    (h2 : heap) (T2 : HT) (hp2 : Prio) (extra : List Nat) (hsw : StrictWeak hp2)
    (hwf : WF hp2 m2 h2 T2)
    (hsub : ∀ x ∈ members h2 T2, x ∈ members (w.hs i) (Ts i) ∨ x ∈ extra)
    (hex : ∀ x ∈ extra, ∀ k, k ≠ i → x ∉ members (w.hs k) (Ts k))
    (hoth : ∀ k, k ≠ i → WF hp2 m2 (w.hs k) (Ts k))
    (hv : HV m2 sl2 (members h2 T2))
    (hvo : ∀ k, k ≠ i → HV m2 sl2 (members (w.hs k) (Ts k))) :
    Inv { m := m2, sl := sl2, hs := set_heap w.hs i h2, hp := hp2 } (set_shape Ts i T2) := by
  obtain ⟨_, _, i3, _⟩ := hI
  refine ⟨hsw, ?_, ?_, ?_⟩
  · intro k
    by_cases hk : k = i
    · subst hk
      simpa using hwf
    · simp only [set_heap_other _ _ _ _ hk, set_shape_other _ _ _ _ hk]
      exact hoth k hk
  · intro k l hkl x hx
    by_cases hk : k = i
    · subst hk
      have hl : l ≠ k := Ne.symm hkl
      simp only [set_heap_same, set_shape_same] at hx
      simp only [set_heap_other _ _ _ _ hl, set_shape_other _ _ _ _ hl]
      rcases hsub x hx with h' | h'
      · exact i3 k l hkl x h'
      · exact hex x h' l hl
    · simp only [set_heap_other _ _ _ _ hk, set_shape_other _ _ _ _ hk] at hx
      by_cases hl : l = i
      · subst hl
        simp only [set_heap_same, set_shape_same]
        intro hx2
        rcases hsub x hx2 with h' | h'
        · exact i3 k l hkl x hx h'
        · exact hex x h' k hk hx
      · simp only [set_heap_other _ _ _ _ hl, set_shape_other _ _ _ _ hl]
        exact i3 k l hkl x hx
  · intro k
    by_cases hk : k = i
    · subst hk
      simpa using hv
    · simp only [set_heap_other _ _ _ _ hk, set_shape_other _ _ _ _ hk]
      exact hvo k hk

theorem Inv.wf_other {w : World} {Ts : Nat → HT} (hI : Inv w Ts) {i k : Nat} (hk : k ≠ i)
    {m2 : Mem} (hfr : ∀ y, y ∉ members (w.hs i) (Ts i) → m2 y = w.m y) :
    WF w.hp m2 (w.hs k) (Ts k) :=
  (hI.2.1 k).wf_frame (fun x hx => hfr x (fun hxi => hI.2.2.1 i k (Ne.symm hk) x hxi hx))

theorem Inv.eq_other {w : World} {Ts : Nat → HT} (hI : Inv w Ts) {i k : Nat} (hk : k ≠ i)
    {m2 : Mem} (hfr : ∀ y, y ∉ members (w.hs i) (Ts i) → m2 y = w.m y) :
    ∀ x ∈ members (w.hs k) (Ts k), m2 x = w.m x :=
  fun x hx => hfr x (fun hxi => hI.2.2.1 i k (Ne.symm hk) x hxi hx)

/-- The model after a call that changed heap `i` only. -/
theorem modelOf_update {w : World} {Ts : Nat → HT} (i : Nat) (m2 : Mem) (sl2 : Slots)
    (h2 : heap) (T2 : HT) (hp2 : Prio) (s : Multiset Nat)
    (hi : (elems m2 h2 T2 : Multiset Nat) = s)
    (hoth : ∀ k, k ≠ i → ∀ x ∈ members (w.hs k) (Ts k), (m2 x).value = (w.m x).value) :
    modelOf { m := m2, sl := sl2, hs := set_heap w.hs i h2, hp := hp2 } (set_shape Ts i T2)
      = { bag := set_bag (modelOf w Ts).bag i s, hp := hp2 } := by
  refine model_eq ?_ rfl
  intro k
  by_cases hk : k = i
  · subst hk
    simp only [modelOf, set_heap_same, set_shape_same, set_bag_same]
    exact hi
  · simp only [modelOf, set_heap_other _ _ _ _ hk, set_shape_other _ _ _ _ hk,
      set_bag_other _ _ _ _ hk]
    rw [elems_congr (hoth k hk)]

/-- The call `heap_insert` after the node has been initialised, giving the
memory `m0` and the slots `sl1`. -/
theorem insert_step {w : World} {Ts : Nat → HT} (hI : Inv w Ts) (i node value : Nat)
    (m0 : Mem) (sl1 : Slots) (hfresh : ∀ k, node ∉ members (w.hs k) (Ts k))
    (hm0 : ∀ x, x ≠ node → m0 x = w.m x) (hval : (m0 node).value = value)
    (hvn : ∀ q, (m0 node).ref = some q → sl1 q = some node)
    (hvo : ∀ k, HV m0 sl1 (members (w.hs k) (Ts k)))
    (fuel : Nat) (hf : (Ts i).size + 2 ≤ fuel) :
    ∃ m1 h1 T1, heap_insert fuel w.hp m0 (w.hs i) node = some (m1, h1) ∧
      Inv { m := m1, sl := sl1, hs := set_heap w.hs i h1, hp := w.hp } (set_shape Ts i T1) ∧
      modelOf { m := m1, sl := sl1, hs := set_heap w.hs i h1, hp := w.hp } (set_shape Ts i T1)
        = { bag := set_bag (modelOf w Ts).bag i (value ::ₘ (modelOf w Ts).bag i),
            hp := w.hp } := by
  have hm0k : ∀ k, ∀ x ∈ members (w.hs k) (Ts k), m0 x = w.m x :=
    fun k x hx => hm0 x (fun e => hfresh k (e ▸ hx))
  have wf0 : ∀ k, WF w.hp m0 (w.hs k) (Ts k) := fun k => (hI.2.1 k).wf_frame (hm0k k)
  obtain ⟨m1, e1, e2, e3, e4, e5, e6⟩ :=
    heap_insert_spec fuel w.hp m0 (w.hs i) (Ts i) node (wf0 i).shaped (hfresh i) hf
  have hfr : ∀ k, k ≠ i → ∀ x ∈ members (w.hs k) (Ts k), m1 x = w.m x := by
    intro k hk x hx
    rw [e4 x, hm0k k x hx]
    intro hc
    rcases List.mem_cons.1 hc with h' | h'
    · exact hfresh k (h' ▸ hx)
    · exact hI.2.2.1 i k (Ne.symm hk) x h' hx
  refine ⟨m1, _, HT.insert w.hp m0 (w.hs i) (Ts i) node, e1, ?_, ?_⟩
  · refine hI.update i m1 sl1 _ _ w.hp [node] hI.1 (e6 hI.1 (wf0 i)) ?_ ?_ ?_ ?_ ?_
    · intro x hx
      rcases List.mem_cons.1 (e3.subset hx) with h' | h'
      · exact Or.inr (by simp [h'])
      · exact Or.inl h'
    · intro x hx k _
      rw [List.mem_singleton.1 hx]
      exact hfresh k
    · intro k hk
      exact (hI.2.1 k).wf_frame (hfr k hk)
    · intro a ha q hq
      rw [(e5 a).2] at hq
      rcases List.mem_cons.1 (e3.subset ha) with h' | h'
      · subst h'
        exact hvn q hq
      · exact hvo i a h' q hq
    · intro k hk a ha q hq
      rw [hfr k hk a ha, ← hm0k k a ha] at hq
      exact hvo k a ha q hq
  · apply modelOf_update
    · have h1 := e3.map (fun a => (m1 a).value)
      have h2 : (members (w.hs i) (Ts i)).map (fun a => (m1 a).value)
          = (members (w.hs i) (Ts i)).map (fun a => (w.m a).value) := by
        apply List.map_congr_left
        intro x hx
        rw [(e5 x).1, hm0k i x hx]
      simp only [List.map_cons, h2, (e5 node).1, hval] at h1
      simp only [modelOf, Multiset.cons_coe]
      exact Multiset.coe_eq_coe.2 h1
    · intro k hk x hx
      rw [hfr k hk x hx]

end BH

namespace BH

/-! ## The calls, one by one -/

theorem HV.hv_append {m : Mem} {sl : Slots} {S S2 : List Nat} (h1 : HV m sl S)
    (h2 : HV m sl S2) : HV m sl (S ++ S2) := by
  intro a ha q hq
  rcases List.mem_append.1 ha with h | h
  · exact h1 a h q hq
  · exact h2 a h q hq

theorem HV.hv_sub {m : Mem} {sl : Slots} {S S2 : List Nat} (h1 : HV m sl S)
    (hs : ∀ a ∈ S2, a ∈ S) : HV m sl S2 :=
  fun a ha q hq => h1 a (hs a ha) q hq

theorem elems_perm_of_perm {m m2 : Mem} {h h2 : heap} {T T2 : HT}
    (hp : (members h2 T2).Perm (members h T))
    (hv : ∀ x ∈ members h T, (m2 x).value = (m x).value) :
    (elems m2 h2 T2 : Multiset Nat) = (elems m h T : Multiset Nat) := by
  apply Multiset.coe_eq_coe.2
  unfold elems
  refine (hp.map _).trans ?_
  exact List.Perm.of_eq (List.map_congr_left hv)

/-- The elements after the payloads have been permuted among the members. -/
theorem elems_perm_of_sigma (σ : Equiv.Perm Nat) {m m2 : Mem} {h h2 : heap} {T T2 : HT}
    (hnd : (members h T).Nodup) (hfix : ∀ a, a ∉ members h T → σ a = a)
    (hd : ∀ a, (m2 (σ a)).value = (m a).value)
    (hp : (members h2 T2).Perm (members h T)) :
    (elems m2 h2 T2 : Multiset Nat) = (elems m h T : Multiset Nat) := by
  apply Multiset.coe_eq_coe.2
  unfold elems
  exact (hp.map _).trans (values_perm σ (members h T) hnd hfix m m2 hd)

theorem wf_nil_heap (hp : Prio) (m : Mem) : WF hp m { head := none, min := none } HT.nil :=
  wf_init hp m

/-- The call `heap_union` on two different heaps. -/
theorem union_step {w : World} {Ts : Nat → HT} (hI : Inv w Ts) (i j : Nat) (hij : i ≠ j)
    (fuel : Nat) (hf : (Ts i).size + (Ts j).size + 3 ≤ fuel) :
    ∃ w2 Ts2, w.step fuel (Op.union i j) = some (w2, none) ∧ Inv w2 Ts2 ∧
      modelOf w2 Ts2
        = { bag := set_bag (set_bag (modelOf w Ts).bag i
              ((modelOf w Ts).bag i + (modelOf w Ts).bag j)) j 0,
            hp := w.hp } := by
  obtain ⟨i1, i2, i3, i4⟩ := hI
  have spec := heap_union_pub_spec fuel w.hp w.m (w.hs i) (w.hs j)
    (Ts i) (Ts j) (i2 i).shaped (i2 j).shaped (i3 i j hij) hf
  generalize HT.unionPub w.hp w.m (w.hs i) (w.hs j) (Ts i) (Ts j) = U at spec
  obtain ⟨m1, e1, e2, e3, e4, e5, e6⟩ := spec
  have wfU := e6 i1 (i2 i) (i2 j)
  have hji : j ≠ i := Ne.symm hij
  have hmemU : ∀ x, x ∈ members (heap.mk U.hd none) U →
      x ∈ members (w.hs i) (Ts i) ∨ x ∈ members (w.hs j) (Ts j) := by
    intro x hx
    simp only [members, Option.toList_none, List.nil_append] at hx
    exact List.mem_append.1 (e3.subset hx)
  have hfr : ∀ k, k ≠ i → k ≠ j → ∀ x ∈ members (w.hs k) (Ts k), m1 x = w.m x := by
    intro k hki hkj x hx
    apply e4
    intro hc
    rcases List.mem_append.1 hc with h' | h'
    · exact i3 i k (Ne.symm hki) x h' hx
    · exact i3 j k (Ne.symm hkj) x h' hx
  refine ⟨World.mk m1 w.sl (set_heap (set_heap w.hs i (heap.mk U.hd none)) j (heap.mk none none))
      w.hp, set_shape (set_shape Ts i U) j HT.nil, ?_, ?_, ?_⟩
  · simp only [World.step, e1]
  · have hmem2 : ∀ k x, x ∈ members
        (set_heap (set_heap w.hs i (heap.mk U.hd none)) j (heap.mk none none) k)
        (set_shape (set_shape Ts i U) j HT.nil k) →
        k ≠ j ∧ (x ∈ members (w.hs k) (Ts k) ∨ (k = i ∧ x ∈ members (w.hs j) (Ts j))) := by
      intro k x hx
      by_cases hkj : k = j
      · subst hkj
        simp [members, HT.addrs] at hx
      · refine ⟨hkj, ?_⟩
        simp only [set_heap_other _ _ _ _ hkj, set_shape_other _ _ _ _ hkj] at hx
        by_cases hki : k = i
        · subst hki
          simp only [set_heap_same, set_shape_same] at hx
          rcases hmemU x hx with h' | h'
          · exact Or.inl h'
          · exact Or.inr ⟨rfl, h'⟩
        · simp only [set_heap_other _ _ _ _ hki, set_shape_other _ _ _ _ hki] at hx
          exact Or.inl hx
    refine ⟨i1, ?_, ?_, ?_⟩
    · intro k
      by_cases hkj : k = j
      · subst hkj
        simp only [set_heap_same, set_shape_same]
        exact wf_nil_heap _ _
      · simp only [set_heap_other _ _ _ _ hkj, set_shape_other _ _ _ _ hkj]
        by_cases hki : k = i
        · subst hki
          simp only [set_heap_same, set_shape_same]
          exact wfU
        · simp only [set_heap_other _ _ _ _ hki, set_shape_other _ _ _ _ hki]
          exact (i2 k).wf_frame (hfr k hki hkj)
    · intro k l hkl x hx hx2
      obtain ⟨hk1, hk2⟩ := hmem2 k x hx
      obtain ⟨hl1, hl2⟩ := hmem2 l x hx2
      rcases hk2 with a | ⟨a1, a2⟩
      · rcases hl2 with b | ⟨b1, b2⟩
        · exact i3 k l hkl x a b
        · exact i3 k j hk1 x a b2
      · rcases hl2 with b | ⟨b1, _⟩
        · exact i3 j l (Ne.symm hl1) x a2 b
        · exact hkl (a1.trans b1.symm)
    · intro k a ha q hq
      simp only at hq ⊢
      rw [(e5 a).2] at hq
      obtain ⟨_, hk2⟩ := hmem2 k a ha
      rcases hk2 with h' | ⟨_, h'⟩
      · exact i4 k a h' q hq
      · exact i4 j a h' q hq
  · refine model_eq ?_ rfl
    intro k
    by_cases hkj : k = j
    · subst hkj
      simp [modelOf, elems, members, HT.addrs]
    · simp only [modelOf, set_heap_other _ _ _ _ hkj, set_shape_other _ _ _ _ hkj,
        set_bag_other _ _ _ _ hkj]
      by_cases hki : k = i
      · subst hki
        simp only [set_heap_same, set_shape_same, set_bag_same, Multiset.coe_add]
        apply Multiset.coe_eq_coe.2
        simp only [elems, members, Option.toList_none, List.nil_append]
        have h1 := e3.map (fun a => (m1 a).value)
        rw [List.map_append] at h1
        refine h1.trans (List.Perm.of_eq ?_)
        have hfun : (fun a => (m1 a).value) = (fun a => (w.m a).value) := by
          funext a
          exact (e5 a).1
        rw [hfun]
        rfl
      · simp only [set_heap_other _ _ _ _ hki, set_shape_other _ _ _ _ hki,
          set_bag_other _ _ _ _ hki]
        rw [elems_congr (fun x hx => by rw [hfr k hki hkj x hx])]

end BH

namespace BH

theorem set_bag_self (b : Nat → Multiset Nat) (i : Nat) : set_bag b i (b i) = b := by
  funext k
  by_cases hk : k = i
  · subst hk
    simp
  · simp [set_bag_other _ _ _ _ hk]

/-- The call `heap_peek`. -/
theorem peek_step {w : World} {Ts : Nat → HT} (hI : Inv w Ts) (i : Nat)
    (fuel : Nat) (hf : (Ts i).size ≤ fuel) :
    ∃ w2 out Ts2, w.step fuel (Op.peek i) = some (w2, out) ∧ Inv w2 Ts2 ∧
      modelOf w2 Ts2 = modelOf w Ts ∧
      ((out = none ∧ (modelOf w Ts).bag i = 0) ∨
        ∃ x, out = some x ∧ (modelOf w Ts).IsMin i (w2.m x).value) := by
  have hI0 := hI
  obtain ⟨i1, i2, i3, i4⟩ := hI
  have spec := cache_min_spec fuel w.hp w.m (w.hs i) (Ts i) (i2 i).shaped hf
  have spec2 := heap_peek_spec fuel w.hp w.m (w.hs i) (Ts i) (i2 i).shaped hf
  have hnone := @min_after_cache_eq_none w.hp w.m (w.hs i) (Ts i) (i2 i).shaped.head
  generalize hC : HT.cache w.hp w.m (w.hs i) (Ts i) = C at spec spec2
  generalize hH : heap_cached w.hp w.m (w.hs i) (Ts i) = H at spec spec2
  have hHmin : H.min = min_after_cache w.hp w.m (w.hs i) (Ts i) := by
    rw [← hH]
    rfl
  generalize min_after_cache w.hp w.m (w.hs i) (Ts i) = r at spec spec2 hnone hHmin
  obtain ⟨m1, e1, e2, e3, e4, e5, _, e7⟩ := spec
  obtain ⟨m1b, p1, p2⟩ := spec2
  have hm : m1b = m1 := by
    have := p2.symm.trans e1
    simp only [Option.some.injEq, Prod.mk.injEq] at this
    exact this.1
  subst hm
  obtain ⟨wf1, hbest⟩ := e7 i1 (i2 i)
  have hmodel : modelOf (World.mk m1b w.sl (set_heap w.hs i H) w.hp) (set_shape Ts i C)
      = modelOf w Ts := by
    rw [modelOf_update i m1b w.sl H C w.hp ((modelOf w Ts).bag i)
      (elems_perm_of_perm e3 (fun x _ => (e5 x).1))
      (fun k hk x hx => by rw [hI0.eq_other hk e4 x hx])]
    rw [set_bag_self]
    rfl
  refine ⟨World.mk m1b w.sl (set_heap w.hs i H) w.hp, r, set_shape Ts i C, ?_, ?_, hmodel, ?_⟩
  · simp only [World.step, p1]
  · refine hI0.update i m1b w.sl H C w.hp [] i1 wf1 (fun x hx => Or.inl (e3.subset hx))
      (fun x hx => by cases hx) (fun k hk => hI0.wf_other hk e4) ?_ ?_
    · exact (i4 i).hv_frame (fun x _ => (e5 x).2) (fun _ _ _ _ => rfl) |>.hv_sub
        (fun a ha => e3.subset ha)
    · intro k hk
      exact (i4 k).hv_frame (fun x hx => by rw [hI0.eq_other hk e4 x hx]) (fun _ _ _ _ => rfl)
  · cases hr : r with
    | none =>
      left
      refine ⟨rfl, ?_⟩
      have he := hnone.1 hr
      simp [modelOf, elems, members_empty (i2 i).shaped he]
    | some x =>
      right
      refine ⟨x, rfl, ?_, ?_⟩
      · have hx : x ∈ members (w.hs i) (Ts i) :=
          e3.subset (mem_members.2 (Or.inl (by rw [hHmin, hr])))
        simp only [modelOf, elems, Multiset.mem_coe, List.mem_map]
        exact ⟨x, hx, ((e5 x).1).symm⟩
      · intro u hu
        simp only [modelOf, elems, Multiset.mem_coe, List.mem_map] at hu
        obtain ⟨a, ha, rfl⟩ := hu
        simp only [modelOf]
        rw [(e5 x).1]
        exact hbest x hr a ha

/-- The call `heap_take`. -/
theorem take_step {w : World} {Ts : Nat → HT} (hI : Inv w Ts) (i : Nat)
    (fuel : Nat) (hf : (Ts i).size ≤ fuel) :
    ∃ w2 out Ts2, w.step fuel (Op.take i) = some (w2, out) ∧ Inv w2 Ts2 ∧
      ((out = none ∧ (modelOf w Ts).bag i = 0 ∧ modelOf w2 Ts2 = modelOf w Ts) ∨
        ∃ x, out = some x ∧ (modelOf w Ts).IsMin i (w2.m x).value ∧
          modelOf w2 Ts2 = Model.mk (set_bag (modelOf w Ts).bag i
            (((modelOf w Ts).bag i).erase (w2.m x).value)) w.hp) := by
  have hI0 := hI
  obtain ⟨i1, i2, i3, i4⟩ := hI
  have spec := cache_min_spec fuel w.hp w.m (w.hs i) (Ts i) (i2 i).shaped hf
  have spec2 := heap_take_spec fuel w.hp w.m (w.hs i) (Ts i) (i2 i).shaped hf
  have hnone := @min_after_cache_eq_none w.hp w.m (w.hs i) (Ts i) (i2 i).shaped.head
  generalize hC : HT.cache w.hp w.m (w.hs i) (Ts i) = C at spec spec2
  generalize hH : heap_cached w.hp w.m (w.hs i) (Ts i) = H at spec spec2
  have hHmin : H.min = min_after_cache w.hp w.m (w.hs i) (Ts i) := by
    rw [← hH]
    rfl
  generalize min_after_cache w.hp w.m (w.hs i) (Ts i) = r at spec spec2 hnone hHmin
  obtain ⟨m1, e1, e2, e3, e4, e5, _, e7⟩ := spec
  obtain ⟨m1b, t1, t2, t3, t4⟩ := spec2
  have hm : m1b = m1 := by
    have := t1.symm.trans e1
    simp only [Option.some.injEq, Prod.mk.injEq] at this
    exact this.1
  subst hm
  obtain ⟨_, hbest⟩ := e7 i1 (i2 i)
  have wf2 := t4 i1 (i2 i)
  have hmem1 : (members H C).Perm (r.toList ++ members (heap.mk C.hd none) C) := by
    simp only [members, hHmin, Option.toList_none, List.nil_append]
    exact List.Perm.refl _
  have hperm : (members (w.hs i) (Ts i)).Perm (r.toList ++ members (heap.mk C.hd none) C) :=
    e3.symm.trans hmem1
  have hsub : ∀ x ∈ members (heap.mk C.hd none) C, x ∈ members (w.hs i) (Ts i) :=
    fun x hx => hperm.symm.subset (List.mem_append_right _ hx)
  have hdata : DataEq w.m (mem_after_take m1b r) := by
    cases r with
    | none => exact e5
    | some x => exact e5.de_trans (set_degree_dataEq _ _ _)
  have hfr : ∀ y, y ∉ members (w.hs i) (Ts i) → mem_after_take m1b r y = w.m y := by
    intro y hy
    rw [← e4 y hy]
    cases hr : r with
    | none => rfl
    | some x =>
      simp only [mem_after_take]
      apply set_degree_other
      intro e
      subst e
      apply hy
      apply hperm.symm.subset
      simp [hr]
  refine ⟨World.mk (mem_after_take m1b r) w.sl (set_heap w.hs i (heap.mk C.hd none)) w.hp, r,
    set_shape Ts i C, ?_, ?_, ?_⟩
  · simp only [World.step, t2]
  · refine hI0.update i _ w.sl _ C w.hp [] i1 wf2 (fun x hx => Or.inl (hsub x hx))
      (fun x hx => by cases hx) (fun k hk => hI0.wf_other hk hfr) ?_ ?_
    · exact (i4 i).hv_frame (fun x _ => (hdata x).2) (fun _ _ _ _ => rfl) |>.hv_sub hsub
    · intro k hk
      exact (i4 k).hv_frame (fun x hx => by rw [hI0.eq_other hk hfr x hx]) (fun _ _ _ _ => rfl)
  · have hel : (elems w.m (w.hs i) (Ts i)).Perm
        (r.toList.map (fun a => (mem_after_take m1b r a).value)
          ++ elems (mem_after_take m1b r) (heap.mk C.hd none) C) := by
      unfold elems
      rw [← List.map_append]
      refine List.Perm.trans (List.Perm.of_eq ?_) (hperm.map _)
      apply List.map_congr_left
      intro x _
      exact ((hdata x).1).symm
    have hoth : ∀ k, k ≠ i → ∀ x ∈ members (w.hs k) (Ts k),
        (mem_after_take m1b r x).value = (w.m x).value :=
      fun k hk x hx => by rw [hI0.eq_other hk hfr x hx]
    cases hr : r with
    | none =>
      left
      have he := hnone.1 hr
      have hb0 : (modelOf w Ts).bag i = 0 := by
        simp [modelOf, elems, members_empty (i2 i).shaped he]
      refine ⟨rfl, hb0, ?_⟩
      rw [hr] at hel hoth
      rw [modelOf_update i _ w.sl _ C w.hp ((modelOf w Ts).bag i) ?_ hoth, set_bag_self]
      · rfl
      · simp only [Option.toList_none, List.map_nil, List.nil_append] at hel
        exact (Multiset.coe_eq_coe.2 hel).symm
    | some x =>
      right
      rw [hr] at hel hoth
      simp only [Option.toList_some, List.map_cons, List.map_nil, List.singleton_append] at hel
      have hbag : (modelOf w Ts).bag i
          = (mem_after_take m1b (some x) x).value
            ::ₘ (elems (mem_after_take m1b (some x)) (heap.mk C.hd none) C : Multiset Nat) := by
        simp only [modelOf, Multiset.cons_coe]
        exact Multiset.coe_eq_coe.2 hel
      refine ⟨x, rfl, ⟨?_, ?_⟩, ?_⟩
      · rw [hbag]
        exact Multiset.mem_cons_self _ _
      · intro u hu
        simp only [modelOf, elems, Multiset.mem_coe, List.mem_map] at hu
        obtain ⟨a, ha, rfl⟩ := hu
        simp only [modelOf]
        rw [hr] at hdata
        rw [(hdata x).1]
        exact hbest x hr a ha
      · rw [modelOf_update i _ w.sl _ C w.hp _ rfl hoth]
        refine model_eq ?_ rfl
        intro k
        by_cases hk : k = i
        · subst hk
          simp only [set_bag_same]
          rw [hbag, Multiset.erase_cons_head]
        · simp only [set_bag_other _ _ _ _ hk]

end BH

namespace BH

/-- The call `heap_delete` on a member node with a back-reference. -/
theorem delete_step {w : World} {Ts : Nat → HT} (hI : Inv w Ts) (i node : Nat)
    (hn : node ∈ members (w.hs i) (Ts i)) (href : (w.m node).ref ≠ none)
    (fuel : Nat) (hf : (Ts i).size + 1 ≤ fuel) :
    ∃ w2 Ts2, w.step fuel (Op.delete i node) = some (w2, none) ∧ Inv w2 Ts2 ∧
      (w.m node).value ∈ (modelOf w Ts).bag i ∧
      modelOf w2 Ts2 = Model.mk (set_bag (modelOf w Ts).bag i
        (((modelOf w Ts).bag i).erase (w.m node).value)) w.hp := by
  have hI0 := hI
  obtain ⟨i1, i2, i3, i4⟩ := hI
  obtain ⟨m1, sl1, h1, T1, r, σ, d1, d2, d3, d4, d5, d6, d7, _, d9, d10⟩ :=
    heap_delete_spec fuel w.hp w.m w.sl (w.hs i) (Ts i) node (i2 i).shaped hn href hf
  have hsub : ∀ x ∈ members h1 T1, x ∈ members (w.hs i) (Ts i) :=
    fun x hx => d3.symm.subset (List.mem_cons_of_mem _ hx)
  have hnd := (i2 i).shaped.members_nodup
  have hval : (m1 r).value = (w.m node).value := by
    rw [← d4]
    exact (d6 node).1
  have hel : (elems w.m (w.hs i) (Ts i)).Perm ((w.m node).value :: elems m1 h1 T1) := by
    have q1 := values_perm σ (members (w.hs i) (Ts i)) hnd d5 w.m m1 (fun a => (d6 a).1)
    have q2 := d3.map (fun a => (m1 a).value)
    simp only [List.map_cons, hval] at q2
    exact q1.symm.trans q2
  have hbag : (modelOf w Ts).bag i = (w.m node).value ::ₘ (elems m1 h1 T1 : Multiset Nat) := by
    simp only [modelOf, Multiset.cons_coe]
    exact Multiset.coe_eq_coe.2 hel
  refine ⟨World.mk m1 sl1 (set_heap w.hs i h1) w.hp, set_shape Ts i T1, ?_, ?_, ?_, ?_⟩
  · simp only [World.step, d1]
  · refine hI0.update i m1 sl1 h1 T1 w.hp [] i1 (d10 i1 (i2 i)) (fun x hx => Or.inl (hsub x hx))
      (fun x hx => by cases hx) (fun k hk => hI0.wf_other hk d7) ?_ ?_
    · exact (d9 _ (fun _ ha => ha) (i4 i) (i4 i).refInj).1.hv_sub hsub
    · intro k _
      have hv := (i4 i).hv_append (i4 k)
      exact (d9 _ (fun a ha => List.mem_append_left _ ha) hv hv.refInj).1.hv_sub
        (fun a ha => List.mem_append_right _ ha)
  · rw [hbag]
    exact Multiset.mem_cons_self _ _
  · rw [modelOf_update i m1 sl1 h1 T1 w.hp _ rfl
      (fun k hk x hx => by rw [hI0.eq_other hk d7 x hx])]
    refine model_eq ?_ rfl
    intro k
    by_cases hk : k = i
    · subst hk
      simp only [set_bag_same]
      rw [hbag, Multiset.erase_cons_head]
    · simp only [set_bag_other _ _ _ _ hk]

/-- A well-formed heap is well formed for every comparator that agrees on
its payloads. -/
theorem WF.rekey {hp hp2 : Prio} {m : Mem} {h : heap} {T : HT} (w : WF hp m h T)
    (hsame : ∀ a ∈ members h T, ∀ b ∈ members h T,
      hp2 (m a).value (m b).value = hp (m a).value (m b).value) : WF hp2 m h T := by
  refine ⟨w.shaped, ?_, ?_⟩
  · intro a ha p hap
    have hpT : p ∈ T.addrs := by
      rcases Rep.parent_mem w.shaped.rep a ha p hap with q | q
      · cases q
      · exact q
    rw [hsame a (mem_members.2 (Or.inr ha)) p (mem_members.2 (Or.inr hpT))]
    exact w.ord a ha p hap
  · intro y hy a ha
    rw [hsame a (mem_members.2 (Or.inr ha)) y (mem_members.2 (Or.inl hy))]
    exact w.min_ok y hy a ha

/-- After the priority of the payload of `node` has been raised, the heap is
well formed except at `node`. -/
theorem wfex_of_rekey {hp hp2 : Prio} (hsw : StrictWeak hp) {m : Mem} {h : heap} {T : HT}
    {node : Nat} (w : WF hp m h T) (hrk : Rekey hp hp2 (m node).value)
    (huniq : ∀ a ∈ members h T, a ≠ node → (m a).value ≠ (m node).value) :
    WFEx hp2 m h T node := by
  have hmemT : ∀ a, a ∈ T.addrs → a ∈ members h T := fun a ha => mem_members.2 (Or.inr ha)
  have hself : ∀ a ∈ T.addrs, (m a).parent ≠ some a := by
    intro a ha e
    rcases Rep.parent_cases w.shaped.rep w.shaped.nodup ha with ⟨_, q⟩ | ⟨p, q1, _, q3, _⟩
    · rw [q] at e
      cases e
    · rw [e] at q1
      cases q1
      exact q3 rfl
  have hkeep : ∀ a, hp a (m node).value = false → hp2 a (m node).value = false := by
    intro a ha
    cases h2 : hp2 a (m node).value with
    | false => rfl
    | true =>
      rw [hrk.2 a h2] at ha
      cases ha
  refine ⟨w.shaped, ⟨?_, ?_⟩, ?_⟩
  · intro a ha han p hap
    by_cases e : p = node
    · subst e
      exact hkeep _ (w.ord a ha p hap)
    · have hpT : p ∈ T.addrs := by
        rcases Rep.parent_mem w.shaped.rep a ha p hap with q | q
        · cases q
        · exact q
      rw [hrk.1 _ _ (huniq a (hmemT a ha) han) (huniq p (hmemT p hpT) e)]
      exact w.ord a ha p hap
  · intro c hc hcn g hng
    have hnT : node ∈ T.addrs := by
      rcases Rep.parent_mem w.shaped.rep c hc node hcn with q | q
      · cases q
      · exact q
    have hgT : g ∈ T.addrs := by
      rcases Rep.parent_mem w.shaped.rep node hnT g hng with q | q
      · cases q
      · exact q
    have hcne : c ≠ node := fun e => hself c hc (e ▸ hcn)
    have hgne : g ≠ node := fun e => hself node hnT (e ▸ hng)
    rw [hrk.1 _ _ (huniq c (hmemT c hc) hcne) (huniq g (hmemT g hgT) hgne)]
    exact hsw.negtrans _ _ _ (w.ord c hc node hcn) (w.ord node hnT g hng)
  · intro y hy a ha han
    by_cases e : y = node
    · subst e
      exact hkeep _ (w.min_ok y hy a ha)
    · rw [hrk.1 _ _ (huniq a (hmemT a ha) han) (huniq y (mem_members.2 (Or.inl hy)) e)]
      exact w.min_ok y hy a ha

/-- The call `heap_decrease` on a member node with a back-reference, after
the priority of its payload has been raised. -/
theorem decrease_step {w : World} {Ts : Nat → HT} (hI : Inv w Ts) (i node : Nat) (hp2 : Prio)
    (hn : node ∈ members (w.hs i) (Ts i)) (href : (w.m node).ref ≠ none)
    (hsw2 : StrictWeak hp2) (hrk : Rekey w.hp hp2 (w.m node).value)
    (huniq : ∀ k, ∀ a ∈ members (w.hs k) (Ts k), a ≠ node → (w.m a).value ≠ (w.m node).value)
    (fuel : Nat) (hf : (Ts i).size + 2 ≤ fuel) :
    ∃ w2 Ts2, w.step fuel (Op.decrease i node hp2) = some (w2, none) ∧ Inv w2 Ts2 ∧
      modelOf w2 Ts2 = Model.mk (modelOf w Ts).bag hp2 := by
  have hI0 := hI
  obtain ⟨i1, i2, i3, i4⟩ := hI
  obtain ⟨m1, sl1, h1, T1, σ, d1, d2, d3, d4, d5, d6, d7, d8⟩ :=
    heap_decrease_spec fuel hp2 w.m w.sl (w.hs i) (Ts i) node (i2 i).shaped hn href hf
  have wx := wfex_of_rekey i1 (i2 i) hrk (huniq i)
  have hsub : ∀ x ∈ members h1 T1, x ∈ members (w.hs i) (Ts i) := fun x hx => d3.subset hx
  have hoth : ∀ k, k ≠ i → WF hp2 m1 (w.hs k) (Ts k) := by
    intro k hk
    apply (hI0.wf_other hk d6).rekey
    intro a ha b hb
    have hna : ∀ x ∈ members (w.hs k) (Ts k), x ≠ node :=
      fun x hx e => i3 k i hk x hx (e ▸ hn)
    rw [hI0.eq_other hk d6 a ha, hI0.eq_other hk d6 b hb]
    exact hrk.1 _ _ (huniq k a ha (hna a ha)) (huniq k b hb (hna b hb))
  refine ⟨World.mk m1 sl1 (set_heap w.hs i h1) hp2, set_shape Ts i T1, ?_, ?_, ?_⟩
  · simp only [World.step, d1]
  · refine hI0.update i m1 sl1 h1 T1 hp2 [] hsw2 (d8 hsw2 wx) (fun x hx => Or.inl (hsub x hx))
      (fun x hx => by cases hx) hoth ?_ ?_
    · exact (d7 _ (fun _ ha => ha) (i4 i) (i4 i).refInj).1.hv_sub hsub
    · intro k _
      have hv := (i4 i).hv_append (i4 k)
      exact (d7 _ (fun a ha => List.mem_append_left _ ha) hv hv.refInj).1.hv_sub
        (fun a ha => List.mem_append_right _ ha)
  · rw [modelOf_update i m1 sl1 h1 T1 hp2 ((modelOf w Ts).bag i)
      (elems_perm_of_sigma σ (i2 i).shaped.members_nodup d4 (fun a => (d5 a).1) d3)
      (fun k hk x hx => by rw [hI0.eq_other hk d6 x hx]), set_bag_self]

/-- Every call of a correct client returns, given enough fuel; it keeps the
invariant, and its effect on the elements is a transition of the reference
model. -/
theorem step_refines (w : World) (Ts : Nat → HT) (hI : Inv w Ts) (op : Op) (hL : Legal w op) :
    ∃ N, ∀ fuel, N ≤ fuel → ∃ w2 out Ts2, w.step fuel op = some (w2, out) ∧ Inv w2 Ts2 ∧
      (modelOf w Ts).step (w.absOp op) (out.map (fun x => (w2.m x).value)) (modelOf w2 Ts2) := by
  have hmem : ∀ k x, Member w.m (w.hs k) x ↔ x ∈ members (w.hs k) (Ts k) :=
    fun k x => member_iff (hI.2.1 k).shaped x
  cases op with
  | insert i node value ref =>
    obtain ⟨l1, l2⟩ := hL
    have hfresh : ∀ k, node ∉ members (w.hs k) (Ts k) := fun k hx => l1 k ((hmem k node).2 hx)
    refine ⟨(Ts i).size + 2, fun fuel hf => ?_⟩
    cases ref with
    | none =>
      have hm0 : ∀ x, x ≠ node → heap_node_init w.m node value x = w.m x := by
        intro x hx
        simp [heap_node_init, hx]
      obtain ⟨m1, h1, T1, e1, e2, e3⟩ := insert_step hI i node value
        (heap_node_init w.m node value) w.sl hfresh hm0 (by simp [heap_node_init])
        (by simp [heap_node_init])
        (fun k => (hI.2.2.2 k).hv_frame
          (fun x hx => by rw [hm0 x (fun e => hfresh k (e ▸ hx))]) (fun _ _ _ _ => rfl))
        fuel hf
      refine ⟨_, none, _, ?_, e2, ?_⟩
      · simp only [World.step, e1]
      · rw [e3]
        exact ⟨rfl, rfl⟩
    | some r =>
      have hsl : set_slot w.sl r (some node) r = some node := by simp
      have hinit : heap_node_init_ref w.m (set_slot w.sl r (some node)) r value
          = some (fun b => if b = node then
              heap_node.mk none none none NOT_IN_HEAP value (some r)
            else w.m b) := by
        simp only [heap_node_init_ref, hsl]
      have hm0 : ∀ x, x ≠ node → (fun b => if b = node then
              heap_node.mk none none none NOT_IN_HEAP value (some r)
            else w.m b) x = w.m x := by
        intro x hx
        simp [hx]
      obtain ⟨m1, h1, T1, e1, e2, e3⟩ := insert_step hI i node value _
        (set_slot w.sl r (some node)) hfresh hm0 (by simp)
        (by
          intro q hq
          simp only [if_true, Option.some.injEq] at hq
          subst hq
          exact hsl)
        (fun k => (hI.2.2.2 k).hv_frame
          (fun x hx => congrArg heap_node.ref (hm0 x (fun e => hfresh k (e ▸ hx))))
          (fun x hx q hq => by
            apply set_slot_other
            intro e
            subst e
            exact l2 q rfl k x ((hmem k x).2 hx) hq))
        fuel hf
      refine ⟨_, none, _, ?_, e2, ?_⟩
      · simp only [World.step, hinit, e1]
      · rw [e3]
        exact ⟨rfl, rfl⟩
  | union i j =>
    refine ⟨(Ts i).size + (Ts j).size + 3, fun fuel hf => ?_⟩
    obtain ⟨w2, Ts2, e1, e2, e3⟩ := union_step hI i j hL fuel hf
    refine ⟨w2, none, Ts2, e1, e2, ?_⟩
    rw [e3]
    exact ⟨rfl, rfl⟩
  | peek i =>
    refine ⟨(Ts i).size, fun fuel hf => ?_⟩
    obtain ⟨w2, out, Ts2, e1, e2, e3, e4⟩ := peek_step hI i fuel hf
    refine ⟨w2, out, Ts2, e1, e2, e3, ?_⟩
    rcases e4 with ⟨rfl, hb⟩ | ⟨x, rfl, hx⟩
    · exact Or.inl ⟨rfl, hb⟩
    · exact Or.inr ⟨_, rfl, hx⟩
  | take i =>
    refine ⟨(Ts i).size, fun fuel hf => ?_⟩
    obtain ⟨w2, out, Ts2, e1, e2, e3⟩ := take_step hI i fuel hf
    refine ⟨w2, out, Ts2, e1, e2, ?_⟩
    rcases e3 with ⟨rfl, hb, hm⟩ | ⟨x, rfl, hx, hm⟩
    · exact Or.inl ⟨rfl, hb, hm⟩
    · exact Or.inr ⟨_, rfl, hx, hm⟩
  | delete i node =>
    obtain ⟨l1, l2⟩ := hL
    refine ⟨(Ts i).size + 1, fun fuel hf => ?_⟩
    obtain ⟨w2, Ts2, e1, e2, e3, e4⟩ := delete_step hI i node ((hmem i node).1 l1) l2 fuel hf
    exact ⟨w2, none, Ts2, e1, e2, rfl, e3, e4⟩
  | decrease i node hp2 =>
    obtain ⟨l1, l2, l3, l4, l5⟩ := hL
    refine ⟨(Ts i).size + 2, fun fuel hf => ?_⟩
    obtain ⟨w2, Ts2, e1, e2, e3⟩ := decrease_step hI i node hp2 ((hmem i node).1 l1) l2 l3 l4
      (fun k a ha => l5 k a ((hmem k a).2 ha)) fuel hf
    exact ⟨w2, none, Ts2, e1, e2, rfl, e3⟩

/-- Every reached state satisfies the invariant for suitable shapes. -/
theorem reach_inv (w : World) (hr : Reach w) : ∃ Ts, Inv w Ts := by
  induction hr with
  | init m sl hp hsw =>
    refine ⟨fun _ => HT.nil, hsw, fun _ => wf_init hp m, ?_, ?_⟩
    · intro i j _ x hx
      simp [members, heap_init, HT.addrs] at hx
    · intro i a ha
      simp [members, heap_init, HT.addrs] at ha
  | step fuel w w2 op out _ hL hs ih =>
    obtain ⟨Ts, hI⟩ := ih
    obtain ⟨N, hN⟩ := step_refines w Ts hI op hL
    obtain ⟨w3, out3, Ts3, e1, e2, _⟩ := hN (max fuel N) (le_max_right _ _)
    have := World.step_mono (le_max_left fuel N) w op hs
    rw [e1] at this
    simp only [Option.some.injEq, Prod.mk.injEq] at this
    rw [← this.1]
    exact ⟨Ts3, e2⟩

end BH

namespace BH

/-- Lowering the priority number of one payload under `token_cmp`, as
`htest.c` does before `heap_decrease`, is a re-keying in the sense of
`Rekey`. -/
theorem rekey_token_cmp (prio : Nat → Int) (v : Nat) (p : Int) (hp : p ≤ prio v) :
    Rekey (token_cmp prio) (token_cmp (fun u => if u = v then p else prio u)) v := by
  refine ⟨?_, ?_⟩
  · intro a b ha hb
    simp [token_cmp, ha, hb]
  · intro a h
    by_cases ha : a = v
    · subst ha
      simp [token_cmp] at h
    · simp only [token_cmp, ha, if_false, if_true, decide_eq_true_eq] at h ⊢
      omega

theorem not_member_init (m : Mem) (x : Nat) : ¬ Member m heap_init x := by
  intro h
  rcases h with h | h
  · cases h
  · generalize hp : heap_init.head = p at h
    cases h <;> cases hp

theorem reach_world_one : Reach world_one :=
  Reach.step 3 world_init world_one (Op.insert 0 1 5 none) none
    (Reach.init mem_zero (fun _ => none) (token_cmp (fun v => v)) (token_cmp_strictWeak _))
    ⟨fun _ => not_member_init _ _, fun _ h => by cases h⟩ rfl

theorem member_world_one : Member world_one.m (world_one.hs 0) 1 :=
  Or.inr (Reachable.here 1)

/-! ## The minimum is taken -/

/-- C1: in every state reached from initialised heaps by calls of a correct
client (comparator a strict weak order, priorities changed only with
`heap_decrease`), for every heap that holds a node, `heap_take` returns a
node `x` of the heap; no node that was in the heap (root list, subtrees or
cached minimum) has a payload of strictly higher priority than that of `x`;
the nodes in the heap afterwards are exactly those before other than `x`;
and no payload has changed. -/
theorem take_returns_minimum (w : World) (hr : Reach w) (i : Nat)
    (hne : ∃ a, Member w.m (w.hs i) a) :
    ∃ N m2 h2 x,
      (∀ fuel, N ≤ fuel → heap_take fuel w.hp w.m (w.hs i) = some (m2, h2, some x)) ∧
      Member w.m (w.hs i) x ∧
      (∀ a, Member w.m (w.hs i) a → w.hp (w.m a).value (w.m x).value = false) ∧
      (∀ a, Member m2 h2 a ↔ (Member w.m (w.hs i) a ∧ a ≠ x)) ∧
      (∀ a, (m2 a).value = (w.m a).value) := by
  obtain ⟨Ts, hI⟩ := reach_inv w hr
  have wf := hI.2.1 i
  have hmem := fun a => member_iff wf.shaped a
  have hemp : heap_empty (w.hs i) = false := by
    cases he : heap_empty (w.hs i) with
    | false => rfl
    | true =>
      obtain ⟨a, ha⟩ := hne
      have := (hmem a).1 ha
      rw [members_empty wf.shaped he] at this
      cases this
  have spec := heap_take_wf_spec (Ts i).size w.hp hI.1 w.m (w.hs i) (Ts i) wf hemp (le_refl _)
  generalize HT.cache w.hp w.m (w.hs i) (Ts i) = C at spec
  obtain ⟨m2, x, t1, _, t3, t4, t5, _, t7, _⟩ := spec
  have hnd := t4.nodup_iff.1 wf.shaped.members_nodup
  have hxm : x ∈ members (w.hs i) (Ts i) := t4.symm.subset (List.mem_cons_self _ _)
  refine ⟨(Ts i).size, m2, heap.mk C.hd none, x, ?_, (hmem x).2 hxm, ?_, ?_, fun a => (t7 a).1⟩
  · intro fuel hf
    exact heap_take_mono hf t1
  · intro a ha
    exact t5 a ((hmem a).1 ha)
  · intro a
    rw [member_iff t3.shaped a, hmem a]
    simp only [members, Option.toList_none, List.nil_append]
    constructor
    · intro ha
      refine ⟨t4.symm.subset (List.mem_cons_of_mem _ ha), ?_⟩
      intro e
      subst e
      exact (List.nodup_cons.1 hnd).1 ha
    · rintro ⟨ha, hax⟩
      rcases List.mem_cons.1 (t4.subset ha) with e | e
      · exact absurd e hax
      · exact e

/-! ## Refinement of a multiset priority queue -/

/-- C7: the heaps refine the multiset priority queue `Model`.  The state
with initialised heaps is related to the model with empty bags; every state
reached by calls of a correct client is related to a model state; from
related states every legal call returns when given enough fuel, and
whatever it returns, the model has a transition for the corresponding
operation (add, sum, peek-minimum, remove-minimum, remove, re-key) with the
payload of the returned node as its result, which for `heap_peek` and
`heap_take` is a payload of the bag that no payload of the bag beats, to a
model state related to the new state; and draining a heap of a related
state returns nodes whose payloads are exactly the bag, in an order in which
no later payload beats an earlier one. -/
theorem heap_refines_multiset_queue :
    (∀ m sl hp, StrictWeak hp →
      Abs (World.mk m sl (fun _ => heap_init) hp) (Model.mk (fun _ => 0) hp)) ∧
    (∀ w, Reach w → ∃ M, Abs w M) ∧
    (∀ w M op, Abs w M → Legal w op →
      (∃ N, ∀ fuel, N ≤ fuel → (w.step fuel op).isSome = true) ∧
      (∀ fuel w2 out, w.step fuel op = some (w2, out) →
        ∃ M2, M.step (w.absOp op) (out.map (fun x => (w2.m x).value)) M2 ∧ Abs w2 M2)) ∧
    (∀ w M i, Abs w M → ∃ N, ∀ fuel, N ≤ fuel → ∃ m2 h2 out,
      drain w.hp fuel (fuel + 1) w.m (w.hs i) = some (m2, h2, out) ∧
      heap_empty h2 = true ∧
      ((out.map (fun a => (m2 a).value) : List Nat) : Multiset Nat) = M.bag i ∧
      out.Pairwise (fun a b => w.hp (m2 b).value (m2 a).value = false)) := by
  refine ⟨?_, ?_, ?_, ?_⟩
  · intro m sl hp hsw
    refine ⟨rfl, fun _ => HT.nil, ⟨hsw, fun _ => wf_init hp m, ?_, ?_⟩, ?_⟩
    · intro i j _ x hx
      simp [members, heap_init, HT.addrs] at hx
    · intro i a ha
      simp [members, heap_init, HT.addrs] at ha
    · intro i
      simp [elems, members, heap_init, HT.addrs]
  · intro w hr
    obtain ⟨Ts, hI⟩ := reach_inv w hr
    exact ⟨modelOf w Ts, abs_iff.2 ⟨Ts, hI, rfl⟩⟩
  · intro w M op hA hL
    obtain ⟨Ts, hI, rfl⟩ := abs_iff.1 hA
    obtain ⟨N, hN⟩ := step_refines w Ts hI op hL
    refine ⟨⟨N, ?_⟩, ?_⟩
    · intro fuel hf
      obtain ⟨w2, out, _, e, _⟩ := hN fuel hf
      rw [e]
      rfl
    · intro fuel w2 out hs
      obtain ⟨w3, out3, Ts3, e1, e2, e3⟩ := hN (max fuel N) (le_max_right _ _)
      have := World.step_mono (le_max_left fuel N) w op hs
      rw [e1] at this
      simp only [Option.some.injEq, Prod.mk.injEq] at this
      obtain ⟨rfl, rfl⟩ := this
      exact ⟨modelOf w3 Ts3, e3, abs_iff.2 ⟨Ts3, e2, rfl⟩⟩
  · intro w M i hA
    obtain ⟨Ts, hI, rfl⟩ := abs_iff.1 hA
    refine ⟨(members (w.hs i) (Ts i)).length, fun fuel hf => ?_⟩
    obtain ⟨m2, h2, out, e1, e2, e3, e4, _, e6⟩ := drain_spec fuel w.hp hI.1 (fuel + 1) w.m
      (w.hs i) (Ts i) (hI.2.1 i) (by omega)
      (by have := members_length_le (w.hs i) (Ts i); omega)
    refine ⟨m2, h2, out, e1, e2, ?_, ?_⟩
    · simp only [modelOf, elems]
      apply Multiset.coe_eq_coe.2
      have hfun : (fun a => (m2 a).value) = (fun a => (w.m a).value) := by
        funext a
        exact (e4 a).1
      rw [hfun]
      exact e3.map _
    · refine e6.imp ?_
      intro a b hab
      rw [(e4 a).1, (e4 b).1]
      exact hab

end BH

namespace BH

theorem reach_world_peeked : Reach world_peeked :=
  Reach.step 3 world_one world_peeked (Op.peek 0) (some 1) reach_world_one trivial rfl

/-! ## Nodes without a back-reference -/

/-- C11: for every heap, memory and handle slots, and every node whose `ref`
field is `NULL`, `heap_decrease` and `heap_delete` return at once, with any
fuel, and return the memory, the slots and the heap they were given: `head`
and `min` and every field of every node are unchanged, in particular the
degree of the node is not set to `NOT_IN_HEAP`, and a node that was in the
heap is still in it. -/
theorem no_ref_is_noop (fuel : Nat) (hp : Prio) (m : Mem) (sl : Slots) (h : heap) (node : Nat)
    (href : (m node).ref = none) :
    heap_decrease fuel hp m sl h node = some (m, sl, h) ∧
    heap_delete fuel hp m sl h node = some (m, sl, h) ∧
    (∀ m2 sl2 h2, heap_delete fuel hp m sl h node = some (m2, sl2, h2) →
      (m2 node).degree = (m node).degree ∧ (Member m h node → Member m2 h2 node)) := by
  have h1 : heap_decrease fuel hp m sl h node = some (m, sl, h) := by
    simp [heap_decrease, href]
  have h2 : heap_delete fuel hp m sl h node = some (m, sl, h) := by
    simp [heap_delete, href]
  refine ⟨h1, h2, ?_⟩
  intro m2 sl2 h3 e
  rw [h2] at e
  simp only [Option.some.injEq, Prod.mk.injEq] at e
  obtain ⟨rfl, _, rfl⟩ := e
  exact ⟨rfl, fun hm => hm⟩

theorem no_ref_is_noop_witness :
    heap_decrease 0 (token_cmp (fun v => v)) mem_zero slots_pair heap_one 1
      = some (mem_zero, slots_pair, heap_one) ∧
    heap_delete 0 (token_cmp (fun v => v)) mem_zero slots_pair heap_one 1
      = some (mem_zero, slots_pair, heap_one) ∧
    (∀ m2 sl2 h2,
      heap_delete 0 (token_cmp (fun v => v)) mem_zero slots_pair heap_one 1
        = some (m2, sl2, h2) →
      (m2 1).degree = (mem_zero 1).degree ∧ (Member mem_zero heap_one 1 → Member m2 h2 1)) :=
  no_ref_is_noop 0 (token_cmp (fun v => v)) mem_zero slots_pair heap_one 1 rfl

/-! ## A decrease that does not pass the parent -/

/-- C13: on a heap that is well formed for the comparator `hp`, let the
priority of the payload of a member node with a back-reference and a parent
`p` be changed, giving the strict weak order `hp2`, which agrees with `hp`
on the other members, and let the node still not beat its parent.  Then
`heap_decrease` returns the memory, the handle slots and the heap it was
given: nothing is written. -/
theorem decrease_noop_below_parent (fuel : Nat) (hp hp2 : Prio) (hsw2 : StrictWeak hp2)
    (m : Mem) (sl : Slots) (h : heap) (T : HT) (node p : Nat) (w : WF hp m h T)
    (hn : node ∈ members h T) (href : (m node).ref ≠ none) (hpar : (m node).parent = some p)
    (hsame : ∀ a ∈ members h T, ∀ b ∈ members h T, a ≠ node → b ≠ node →
      hp2 (m a).value (m b).value = hp (m a).value (m b).value)
    (hnb : hp2 (m node).value (m p).value = false) (hf : 1 ≤ fuel) :
    heap_decrease fuel hp2 m sl h node = some (m, sl, h) := by
  obtain ⟨r0, hr0⟩ := Option.ne_none_iff_exists'.1 href
  by_cases hmin : h.min = some node
  · simp [heap_decrease, hr0, hmin]
  · have hnT : node ∈ T.addrs := by
      rcases mem_members.1 hn with e | e
      · exact absurd e hmin
      · exact e
    obtain ⟨hpT, hpn, _, _⟩ := swap_step_facts w.shaped.rep w.shaped.nodup hnT hpar
    have hunc : decrease_uncache fuel hp2 m h node = some (m, h) := by
      simp only [decrease_uncache]
      cases hm : h.min with
      | none => rfl
      | some x0 =>
        have hx0 : x0 ≠ node := fun e => hmin (e ▸ hm)
        have h1 : hp2 (m p).value (m x0).value = false := by
          rw [hsame p (mem_members.2 (Or.inr hpT)) x0 (mem_members.2 (Or.inl hm)) hpn hx0]
          exact w.min_ok x0 hm p hpT
        have h2 := hsw2.negtrans _ _ _ hnb h1
        simp [h2]
    obtain ⟨k, rfl⟩ : ∃ k, fuel = k + 1 := ⟨fuel - 1, by omega⟩
    have hmin2 : ¬ h.min = some node := hmin
    simp only [heap_decrease, hr0, ne_eq, hmin2, not_false_eq_true, if_true, hunc, hpar,
      decrease_loop, hnb]
    rfl

theorem decrease_noop_below_parent_witness :
    heap_decrease 1 cmp_rekeyed_low mem_pair slots_pair heap_one 2
      = some (mem_pair, slots_pair, heap_one) :=
  decrease_noop_below_parent 1 (token_cmp (fun v => v)) cmp_rekeyed_low (token_cmp_strictWeak _)
    mem_pair slots_pair heap_one shape_pair 2 1 wf_pair (by decide) (by decide) rfl (by decide)
    (by decide) (by decide)

/-! ## The cached minimum -/

/-- C18: in every state reached from initialised heaps by calls of a correct
client (comparator a strict weak order, priorities changed only with
`heap_decrease`), if the `min` field of a heap holds a node, that node cannot
be reached from `head` through `next` and `child` pointers, so it is on no
root list and no child list of the heap, and no node that can be reached has
a payload of strictly higher priority. -/
theorem cached_min_coherent (w : World) (hr : Reach w) (i x : Nat)
    (hmin : (w.hs i).min = some x) :
    ¬ Reachable w.m (w.hs i).head x ∧
    ∀ a, Reachable w.m (w.hs i).head a → w.hp (w.m a).value (w.m x).value = false := by
  obtain ⟨Ts, hI⟩ := reach_inv w hr
  have wf := hI.2.1 i
  rw [wf.shaped.head]
  refine ⟨?_, ?_⟩
  · rw [reachable_iff wf.shaped.rep]
    exact wf.shaped.min_fresh x hmin
  · intro a ha
    exact wf.min_ok x hmin a ((reachable_iff wf.shaped.rep).1 ha)

end BH

namespace BH

theorem shaped_pair_min : Shaped mem_pair heap_pair_min shape_pair :=
  ⟨shaped_pair.rep, rfl, shaped_pair.nodup, (fun x hx => by
    cases hx
    simp [shape_pair, HT.addrs])⟩

theorem heap_union_min {fuel : Nat} {hp : Prio} {m : Mem} {h : heap} {h2 : Option Nat}
    {m2 : Mem} {h3 : heap} (e : __heap_union fuel hp m h h2 = some (m2, h3)) :
    h3.min = h.min := by
  cases h2 with
  | none =>
    simp only [__heap_union, Option.some.injEq, Prod.mk.injEq] at e
    rw [← e.2]
  | some b =>
    simp only [__heap_union] at e
    cases hh : h.head with
    | none =>
      rw [hh] at e
      simp only [Option.some.injEq, Prod.mk.injEq] at e
      rw [← e.2]
    | some a =>
      rw [hh] at e
      simp only at e
      cases hm : __heap_merge fuel m (some a) (some b) with
      | none => rw [hm] at e; cases e
      | some q =>
        obtain ⟨m1, o⟩ := q
        rw [hm] at e
        cases o with
        | none => cases e
        | some x =>
          simp only at e
          cases hl : __heap_union_loop hp fuel m1 x none x (m1 x).next with
          | none => rw [hl] at e; cases e
          | some q2 =>
            rw [hl] at e
            simp only [Option.some.injEq, Prod.mk.injEq] at e
            rw [← e.2]

end BH

namespace BH

/-! ## `heap_insert` and the cached minimum -/

theorem shaped_quad : Shaped mem_quad heap_pair_min shape_pair :=
  shaped_pair_min.sh_frame (fun x hx => by
    simp only [shape_pair, HT.addrs, List.mem_cons, List.append_nil, List.mem_singleton,
      List.not_mem_nil, or_false, List.nil_append] at hx
    rcases hx with rfl | rfl <;> simp [mem_quad, heap_node_init])

/-- C19: for a heap of any shape and a node that is not in it, `heap_insert`
returns, and: if the heap has a cached minimum `mn` and the node beats it,
then afterwards `min` is the node and the root structure is the old one
together with `mn`; if the node does not beat `mn`, then `min` is still `mn`
and the root structure is the old one together with the node; if there is
no cached minimum, `min` stays `NULL` and the root structure is the old one
together with the node.  The result is the same for every memory that
differs only in the `parent`, `child`, `next` and `degree` fields of the
node. -/
theorem insert_cache_rule (fuel : Nat) (hp : Prio) (m : Mem) (h : heap) (T : HT) (node : Nat)
    (w : Shaped m h T) (hn : node ∉ members h T) (hf : T.size + 2 ≤ fuel) :
    ∃ m2 h2 T2, heap_insert fuel hp m h node = some (m2, h2) ∧ Shaped m2 h2 T2 ∧
      (∀ mn, h.min = some mn → hp (m node).value (m mn).value = true →
        h2.min = some node ∧ mn ∈ T2.addrs ∧ T2.addrs.Perm (mn :: T.addrs)) ∧
      (∀ mn, h.min = some mn → hp (m node).value (m mn).value = false →
        h2.min = some mn ∧ node ∈ T2.addrs ∧ T2.addrs.Perm (node :: T.addrs)) ∧
      (h.min = none → h2.min = none ∧ node ∈ T2.addrs ∧ T2.addrs.Perm (node :: T.addrs)) ∧
      (∀ m3 : Mem, (∀ x, x ≠ node → m3 x = m x) → (m3 node).value = (m node).value →
        (m3 node).ref = (m node).ref → heap_insert fuel hp m3 h node = some (m2, h2)) := by
  obtain ⟨m2, e1, e2, _⟩ := heap_insert_spec fuel hp m h T node w hn hf
  have hperm : ∀ z, (HT.union (hpa_of hp m) T (HT.single z)).addrs.Perm (z :: T.addrs) := by
    intro z
    refine (HT.union_addrs_perm _ T (HT.single z)).trans ?_
    simp only [HT.single, HT.addrs, List.append_nil]
    exact List.perm_append_comm
  refine ⟨m2, _, HT.insert hp m h T node, e1, e2, ?_, ?_, ?_, ?_⟩
  · intro mn hmin hc
    have hT : HT.insert hp m h T node = HT.union (hpa_of hp m) T (HT.single mn) := by
      simp [HT.insert, hmin, hc]
    rw [hT]
    exact ⟨by simp [min_after_insert, hmin, hc], (hperm mn).symm.subset (List.mem_cons_self _ _),
      hperm mn⟩
  · intro mn hmin hc
    have hT : HT.insert hp m h T node = HT.union (hpa_of hp m) T (HT.single node) := by
      simp [HT.insert, hmin, hc]
    rw [hT]
    exact ⟨by simp [min_after_insert, hmin, hc],
      (hperm node).symm.subset (List.mem_cons_self _ _), hperm node⟩
  · intro hmin
    have hT : HT.insert hp m h T node = HT.union (hpa_of hp m) T (HT.single node) := by
      simp [HT.insert, hmin]
    rw [hT]
    exact ⟨by simp [min_after_insert, hmin], (hperm node).symm.subset (List.mem_cons_self _ _),
      hperm node⟩
  · intro m3 h1 h2 h3
    have hre : node_reinit m3 node = node_reinit m node := by
      funext x
      by_cases hx : x = node
      · subst hx
        apply heap_node_ext <;> simp [node_reinit, h2, h3]
      · rw [node_reinit_other _ _ _ hx, node_reinit_other _ _ _ hx, h1 x hx]
    rw [← e1]
    simp only [heap_insert, hre]

theorem insert_cache_rule_witness :
    (∃ m2 h2 T2, heap_insert 4 cmp_minus mem_quad heap_pair_min 4 = some (m2, h2) ∧
      Shaped m2 h2 T2 ∧ cmp_minus (mem_quad 4).value (mem_quad 3).value = true ∧
      h2.min = some 4 ∧ 3 ∈ T2.addrs ∧ T2.addrs.Perm (3 :: shape_pair.addrs) ∧
      (∀ m3 : Mem, (∀ x, x ≠ 4 → m3 x = mem_quad x) → (m3 4).value = (mem_quad 4).value →
        (m3 4).ref = (mem_quad 4).ref →
        heap_insert 4 cmp_minus m3 heap_pair_min 4 = some (m2, h2))) ∧
    (∃ m2 h2 T2,
      heap_insert 4 (token_cmp (fun v => v)) mem_quad heap_pair_min 4 = some (m2, h2) ∧
      Shaped m2 h2 T2 ∧
      token_cmp (fun v => v) (mem_quad 4).value (mem_quad 3).value = false ∧
      h2.min = some 3 ∧ 4 ∈ T2.addrs ∧ T2.addrs.Perm (4 :: shape_pair.addrs)) ∧
    (∃ m2 h2 T2, heap_insert 4 (token_cmp (fun v => v)) mem_pair heap_one 3 = some (m2, h2) ∧
      Shaped m2 h2 T2 ∧ h2.min = none ∧ 3 ∈ T2.addrs ∧
      T2.addrs.Perm (3 :: shape_pair.addrs)) := by
  refine ⟨?_, ?_, ?_⟩
  · obtain ⟨m2, h2, T2, e, s, c1, _, _, c4⟩ :=
      insert_cache_rule 4 cmp_minus mem_quad heap_pair_min shape_pair 4 shaped_quad
        (by decide) (by decide)
    obtain ⟨k1, k2, k3⟩ := c1 3 rfl (by decide)
    exact ⟨m2, h2, T2, e, s, by decide, k1, k2, k3, c4⟩
  · obtain ⟨m2, h2, T2, e, s, _, c2, _, _⟩ :=
      insert_cache_rule 4 (token_cmp (fun v => v)) mem_quad heap_pair_min shape_pair 4
        shaped_quad (by decide) (by decide)
    obtain ⟨k1, k2, k3⟩ := c2 3 rfl (by decide)
    exact ⟨m2, h2, T2, e, s, by decide, k1, k2, k3⟩
  · obtain ⟨m2, h2, T2, e, s, _, _, c3, _⟩ :=
      insert_cache_rule 4 (token_cmp (fun v => v)) mem_pair heap_one shape_pair 3 shaped_pair
        (by decide) (by decide)
    obtain ⟨k1, k2, k3⟩ := c3 rfl
    exact ⟨m2, h2, T2, e, s, k1, k2, k3⟩

/-! ## Which operations uncache the minimum -/

end BH

namespace BH

/-- On deadlines below `2 ^ 63` the wrapping test of `task_cmp` is the plain
comparison. -/
theorem task_cmp_eq_lt (dline : Nat → Nat) (hd : ∀ v, dline v < 2 ^ 63) (a b : Nat) :
    task_cmp dline a b = decide (dline a < dline b) := by
  have ha := hd a
  have hb := hd b
  simp only [task_cmp, __dl_time_before]
  by_cases h : dline a < dline b
  · simp only [h, decide_True, decide_eq_true_eq]
    omega
  · simp only [h, decide_False, decide_eq_false_iff_not, not_le]
    omega

theorem task_cmp_strictWeak (dline : Nat → Nat) (hd : ∀ v, dline v < 2 ^ 63) :
    StrictWeak (task_cmp dline) := by
  refine ⟨?_, ?_, ?_⟩
  · intro a
    rw [task_cmp_eq_lt dline hd]
    simp
  · intro a b c h1 h2
    rw [task_cmp_eq_lt dline hd] at h1 h2 ⊢
    simp only [decide_eq_true_eq] at h1 h2 ⊢
    omega
  · intro a b c h1 h2
    rw [task_cmp_eq_lt dline hd] at h1 h2 ⊢
    simp only [decide_eq_false_iff_not, not_lt] at h1 h2 ⊢
    omega

theorem dline_tasks2_small (v : Nat) : dline_tasks2 v < 2 ^ 63 := by
  unfold dline_tasks2
  split
  · decide
  · split
    · decide
    · split <;> decide

/-! ## Union into an empty heap, with equal priorities -/

/-- C14: for any comparator that is a strict weak order, let heap `A` be
built by `heap_insert` from a list of distinct nodes, whose payloads may
have equal priorities, and let `B` be an empty heap.  Then `heap_union(B, A)`
returns and leaves `A` empty, and draining `B` with `heap_take` until
`heap_empty` holds returns every node of the list exactly once, with
payloads untouched, in an order in which no later node beats an earlier one
(non-decreasing priority); nodes of equal priority are adjacent: whatever is
drained between two nodes that are tied is tied with both. -/
theorem union_then_drain_sorted (fuel : Nat) (hp : Prio) (hsw : StrictWeak hp) (m : Mem)
    (nodes : List Nat) (hnd : nodes.Nodup) (hf : nodes.length + 3 ≤ fuel) :
    ∃ mA A m1 B1 A1 m2 B2 out,
      insert_all fuel hp nodes m heap_init = some (mA, A) ∧
      heap_union fuel hp mA heap_init A = some (m1, B1, A1) ∧
      drain hp fuel fuel m1 B1 = some (m2, B2, out) ∧
      heap_empty A1 = true ∧ heap_empty B2 = true ∧ out.Perm nodes ∧
      (∀ a, (m2 a).value = (m a).value) ∧
      out.Pairwise (fun a b => hp (m b).value (m a).value = false) ∧
      (∀ a b c, List.Sublist [a, b, c] out →
        hp (m a).value (m c).value = false →
        (hp (m a).value (m b).value = false ∧ hp (m b).value (m a).value = false) ∧
        (hp (m b).value (m c).value = false ∧ hp (m c).value (m b).value = false)) := by
  have hmem0 : ∀ m0, members heap_init HT.nil = [] ∧ Shaped m0 heap_init HT.nil :=
    fun m0 => ⟨by simp [members, heap_init, HT.addrs], shaped_init m0⟩
  obtain ⟨mA, A, TA, e1, e2, e3, e4, _, e6, e7⟩ := insert_all_spec fuel hp nodes m
    heap_init HT.nil (shaped_init m) hnd (by intro x _; simp [members, heap_init, HT.addrs])
    (by simp only [HT.size]; omega)
  rw [(hmem0 m).1, List.append_nil] at e3
  simp only [HT.size, Nat.zero_add] at e6
  have wA := e7 hsw (wf_init _ m)
  have spec := heap_union_pub_spec fuel hp mA heap_init A HT.nil TA (shaped_init mA)
    e2 (by intro x hx; rw [(hmem0 mA).1] at hx; cases hx) (by simp only [HT.size]; omega)
  generalize HT.unionPub hp mA heap_init A HT.nil TA = U at spec
  obtain ⟨m1, u1, u2, u3, _, u5, u6⟩ := spec
  rw [(hmem0 mA).1, List.nil_append] at u3
  have wB := u6 hsw (wf_init _ mA) wA
  have hmemB : members (heap.mk U.hd none) U = U.addrs := by simp [members]
  have hlen : U.addrs.length = nodes.length := (u3.trans e3).length_eq
  obtain ⟨m2, B2, out, d1, d2, d3, d4, _, d6⟩ := drain_spec fuel hp hsw fuel m1
    (heap.mk U.hd none) U wB (by rw [hmemB, hlen]; omega)
    (by rw [← HT.length_addrs, hlen]; omega)
  rw [hmemB] at d3
  have hperm : out.Perm nodes := d3.trans (u3.trans e3)
  have hdata : ∀ a, (m2 a).value = (m a).value :=
    fun a => ((e4.de_trans (u5.de_trans d4)) a).1
  have hord : out.Pairwise (fun a b => hp (m b).value (m a).value = false) := by
    refine d6.imp ?_
    intro a b hab
    rw [(u5 a).1, (u5 b).1, (e4 a).1, (e4 b).1] at hab
    exact hab
  refine ⟨mA, A, m1, _, _, m2, B2, out, e1, u1, d1, rfl, d2, hperm, hdata, hord, ?_⟩
  intro a b c hs hac
  have h3 := hord.sublist hs
  simp only [List.pairwise_cons, List.mem_cons, List.mem_singleton, List.not_mem_nil,
    forall_eq_or_imp, forall_eq, false_implies, implies_true, List.Pairwise.nil, and_true] at h3
  obtain ⟨⟨hba, _⟩, hcb⟩ := h3
  exact ⟨⟨hsw.negtrans _ _ _ hac hcb, hba⟩, ⟨hsw.negtrans _ _ _ hba hac, hcb⟩⟩

theorem union_then_drain_sorted_witness :
    ∃ mA A m1 B1 A1 m2 B2 out,
      insert_all 7 (task_cmp dline_tasks2) [1, 2, 3, 4] mem_ident heap_init = some (mA, A) ∧
      heap_union 7 (task_cmp dline_tasks2) mA heap_init A = some (m1, B1, A1) ∧
      drain (task_cmp dline_tasks2) 7 7 m1 B1 = some (m2, B2, out) ∧
      heap_empty A1 = true ∧ heap_empty B2 = true ∧ out.Perm [1, 2, 3, 4] ∧
      (∀ a, (m2 a).value = (mem_ident a).value) ∧
      out.map (fun a => dline_tasks2 (m2 a).value) = [4, 4, 5, 12] := by
  obtain ⟨mA, A, m1, B1, A1, m2, B2, out, e1, e2, e3, e4, e5, e6, e7, e8, _⟩ :=
    union_then_drain_sorted 7 (task_cmp dline_tasks2)
      (task_cmp_strictWeak dline_tasks2 dline_tasks2_small) mem_ident [1, 2, 3, 4]
      (by decide) (by decide)
  refine ⟨mA, A, m1, B1, A1, m2, B2, out, e1, e2, e3, e4, e5, e6, e7, ?_⟩
  have hfun : (fun a => dline_tasks2 (m2 a).value)
      = (fun a => dline_tasks2 (mem_ident a).value) := by
    funext a
    rw [e7 a]
  rw [hfun]
  apply List.eq_of_perm_of_sorted (r := fun (x y : Nat) => x ≤ y)
  · exact (e6.map _).trans (by decide)
  · rw [List.Sorted, List.pairwise_map]
    refine e8.imp ?_
    intro a b hab
    rw [task_cmp_eq_lt dline_tasks2 dline_tasks2_small] at hab
    simpa using hab
  · decide

end BH

namespace BH

/-! ## Heap order alone: what each operation needs and gives -/

/-- A represented structure is determined by the memory and its pointer. -/
theorem Rep.rep_unique {m : Mem} : ∀ {T T2 : HT} {par par2 : Option Nat}, Rep m par T →
    Rep m par2 T2 → T.hd = T2.hd → T = T2 := by
  intro T
  induction T with
  | nil =>
    intro T2 _ _ _ _ hh
    cases T2 with
    | nil => rfl
    | node b d c n => simp at hh
  | node a d c n ihc ihn =>
    intro T2 par par2 h1 h2 hh
    cases T2 with
    | nil => simp at hh
    | node b d2 c2 n2 =>
      simp only [HT.hd_node, Option.some.injEq] at hh
      subst hh
      obtain ⟨_, r2, r3, r4, r5, r6⟩ := h1
      obtain ⟨_, s2, s3, s4, s5, s6⟩ := h2
      have hc := ihc r5 s5 (r3.symm.trans s3)
      have hn := ihn r6 s6 (r4.symm.trans s4)
      rw [hc, hn, ← r2, ← s2]

theorem Shaped.shaped_unique {m : Mem} {h : heap} {T T2 : HT} (w : Shaped m h T)
    (w2 : Shaped m h T2) :
    T = T2 :=
  Rep.rep_unique w.rep w2.rep (w.head.symm.trans w2.head)

/-- Heap order after `heap_insert`. -/
theorem heap_insert_ord (fuel : Nat) (hp : Prio) (hsw : StrictWeak hp) (m : Mem) (h : heap)
    (T : HT) (node : Nat) (w : Shaped m h T) (hn : node ∉ members h T)
    (hf : T.size + 2 ≤ fuel) (ho : Ord hp m T) :
    ∀ m2 h2, heap_insert fuel hp m h node = some (m2, h2) →
      Ord hp m2 (HT.insert hp m h T node) := by
  intro m2 h2 e
  have hnT : node ∉ T.addrs := fun hx => hn (mem_members.2 (Or.inr hx))
  have hd1 := node_reinit_dataEq m node
  have key : ∀ z, z ∉ T.addrs → ∀ m0 : Mem, (∀ x ∈ T.addrs, m0 x = m x) → DataEq m m0 →
      ∀ h0 : heap, h0.head = T.hd → ∀ m3 h3,
      __heap_union fuel hp (node_reinit m0 z) h0 (some z) = some (m3, h3) →
      Ord hp m3 (HT.union (hpa_of hp m) T (HT.single z)) := by
    intro z hz m0 hfr hd0 h0 hh0 m3 h3 e3
    obtain ⟨m4, q1, _, _, _, _, q6, _⟩ := union_single_spec fuel hp m0 h0 T z
      (Rep.frame w.rep hfr) hh0 w.nodup hz hf
    rw [q1] at e3
    simp only [Option.some.injEq, Prod.mk.injEq] at e3
    rw [← e3.1, ← hd0.hpa]
    exact q6 hsw (Ord.ord_frame ho w.rep hfr)
  cases hmin : h.min with
  | none =>
    have hT : HT.insert hp m h T node = HT.union (hpa_of hp m) T (HT.single node) := by
      simp [HT.insert, hmin]
    rw [hT]
    simp only [heap_insert, hmin] at e
    exact key node hnT m (fun _ _ => rfl) (DataEq.de_refl m) h w.head m2 h2 e
  | some mn =>
    have hmnT : mn ∉ T.addrs := w.min_fresh mn hmin
    by_cases hc : hp (m node).value (m mn).value = true
    · have hT : HT.insert hp m h T node = HT.union (hpa_of hp m) T (HT.single mn) := by
        simp [HT.insert, hmin, hc]
      rw [hT]
      have hc1 : hp (node_reinit m node node).value (node_reinit m node mn).value = true := by
        rw [(hd1 node).1, (hd1 mn).1]
        exact hc
      simp only [heap_insert, hmin, hc1, if_true] at e
      cases hu : __heap_union fuel hp (node_reinit (node_reinit m node) mn) h (some mn) with
      | none => rw [hu] at e; cases e
      | some q =>
        obtain ⟨m3, h3⟩ := q
        rw [hu] at e
        simp only [Option.some.injEq, Prod.mk.injEq] at e
        rw [← e.1]
        exact key mn hmnT (node_reinit m node)
          (fun x hx => node_reinit_other m node x (fun e' => hnT (e' ▸ hx))) hd1 h w.head m3 h3 hu
    · have hT : HT.insert hp m h T node = HT.union (hpa_of hp m) T (HT.single node) := by
        simp [HT.insert, hmin, hc]
      rw [hT]
      have hc1 : ¬ hp (node_reinit m node node).value (node_reinit m node mn).value = true := by
        rw [(hd1 node).1, (hd1 mn).1]
        exact hc
      simp only [heap_insert, hmin, hc1] at e
      exact key node hnT m (fun _ _ => rfl) (DataEq.de_refl m) h w.head m2 h2 e

/-- Heap order after `__uncache_min`. -/
theorem uncache_min_ord (fuel : Nat) (hp : Prio) (hsw : StrictWeak hp) (m : Mem) (h : heap)
    (T : HT) (w : Shaped m h T) (hf : T.size + 2 ≤ fuel) (ho : Ord hp m T) :
    ∀ m2 h2, __uncache_min fuel hp m h = some (m2, h2) →
      Ord hp m2 (HT.uncache hp m h T) := by
  intro m2 h2 e
  cases hmin : h.min with
  | none =>
    simp only [__uncache_min, hmin, Option.some.injEq, Prod.mk.injEq] at e
    rw [← e.1]
    simpa [HT.uncache, hmin] using ho
  | some mn =>
    simp only [__uncache_min, hmin] at e
    have := heap_insert_ord fuel hp hsw m { h with min := none } T mn w.drop_min
      (by
        intro hx
        rcases mem_members.1 hx with h' | h'
        · cases h'
        · exact w.min_fresh mn hmin h')
      hf ho m2 h2 e
    simpa [HT.insert, HT.uncache, hmin] using this

/-- Heap order after `cache_min`, the first statement of `heap_peek` and
`heap_take`. -/
theorem cache_min_ord (fuel : Nat) (hp : Prio) (hsw : StrictWeak hp) (m : Mem) (h : heap)
    (T : HT) (w : Shaped m h T) (hf : T.size ≤ fuel) (ho : Ord hp m T) :
    ∀ m2 h2, cache_min fuel hp m h = some (m2, h2) → Ord hp m2 (HT.cache hp m h T) := by
  intro m2 h2 e
  cases hmin : h.min with
  | some x =>
    simp only [cache_min, hmin, Option.some.injEq, Prod.mk.injEq] at e
    rw [← e.1]
    simpa [HT.cache, hmin] using ho
  | none =>
    have hT : HT.cache hp m h T = HT.extractMin (hpa_of hp m) T := by simp [HT.cache, hmin]
    rw [hT]
    obtain ⟨m3, e1, _, _, e4, e5, _⟩ := extract_min_spec fuel hp m h T w.rep w.head w.nodup hf
    simp only [cache_min, hmin, e1, Option.some.injEq, Prod.mk.injEq] at e
    rw [← e.1]
    apply Ord.of_parOK hsw e4 e5
    intro a ha p hpar
    apply ho a _ p hpar
    cases hx : HT.minRoot (hpa_of hp m) T with
    | none => simpa [HT.extractMin, hx] using ha
    | some x =>
      exact (HT.extractMin_addrs_perm _ T x (HT.roots_nodup w.nodup) hx).symm.subset
        (List.mem_cons_of_mem _ ha)

end BH

namespace BH

/-- Heap order after `heap_union`. -/
theorem heap_union_pub_ord (fuel : Nat) (hp : Prio) (hsw : StrictWeak hp) (m : Mem)
    (t a : heap) (Tt Ta : HT) (wt : Shaped m t Tt) (wa : Shaped m a Ta)
    (hdisj : ∀ x ∈ members t Tt, x ∉ members a Ta) (hf : Tt.size + Ta.size + 3 ≤ fuel)
    (hot : Ord hp m Tt) (hoa : Ord hp m Ta) :
    ∀ m4 t4 a4, heap_union fuel hp m t a = some (m4, t4, a4) →
      Ord hp m4 (HT.unionPub hp m t a Tt Ta) := by
  intro m4 t4 a4 e
  have hszt := members_length_le_succ t Tt
  have hsza := members_length_le_succ a Ta
  obtain ⟨m1, a1, a2, a3, a4', a5, _, _, _⟩ := uncache_min_spec fuel hp m t Tt wt (by omega)
  have o1 := uncache_min_ord fuel hp hsw m t Tt wt (by omega) hot _ _ a1
  have hma : ∀ x ∈ members a Ta, m1 x = m x := fun x hx =>
    a4' x (fun hx' => hdisj x hx' hx)
  have hmaT : ∀ x ∈ Ta.addrs, m1 x = m x := fun x hx => hma x (mem_members.2 (Or.inr hx))
  have wa1 : Shaped m1 a Ta := wa.sh_frame hmaT
  obtain ⟨m2, b1, b2, b3, b4, b5, _, _, _⟩ := uncache_min_spec fuel hp m1 a Ta wa1 (by omega)
  have o2 := uncache_min_ord fuel hp hsw m1 a Ta wa1 (by omega)
    (Ord.ord_frame hoa wa.rep hmaT) _ _ b1
  rw [HT.uncache_congr hp a5] at b1 b2 b3 o2
  have hmt : ∀ x ∈ (HT.uncache hp m t Tt).addrs, m2 x = m1 x := fun x hx =>
    b4 x (fun hx' => hdisj x (a3.subset hx) hx')
  have hnd : ((HT.uncache hp m t Tt).addrs ++ (HT.uncache hp m a Ta).addrs).Nodup := by
    rw [List.nodup_append]
    refine ⟨a2.nodup, b2.nodup, ?_⟩
    intro x hx1 hx2
    exact hdisj x (a3.subset hx1) (b3.subset hx2)
  have hlen : (HT.uncache hp m t Tt).roots.length + (HT.uncache hp m a Ta).roots.length
      < fuel := by
    have h1 := HT.roots_length_le_size (HT.uncache hp m t Tt)
    have h2 := HT.roots_length_le_size (HT.uncache hp m a Ta)
    have h3 := a3.length_eq
    have h4 := b3.length_eq
    simp only [HT.length_addrs] at h3 h4
    omega
  obtain ⟨m3, c1, _, _, c4, c5, _⟩ := heap_union_spec fuel hp m2
    (heap.mk (HT.uncache hp m t Tt).hd none) (HT.uncache hp m t Tt)
    (HT.uncache hp m a Ta) (Rep.frame a2.rep hmt) rfl b2.rep hnd hlen
  have hd02 : DataEq m m2 := a5.de_trans b5
  rw [hd02.hpa] at c1
  simp only [heap_union, a1, b1, c1, Option.some.injEq, Prod.mk.injEq] at e
  rw [← e.1]
  apply Ord.of_parOK hsw c4 c5
  intro x hx p hpar
  have hx' := (HT.union_addrs_perm _ _ _).subset hx
  rcases List.mem_append.1 hx' with h' | h'
  · exact (Ord.ord_frame o1 a2.rep hmt) x h' p hpar
  · exact o2 x h' p hpar

/-- The function `heap_delete`: the shape afterwards is the old one (the
cached minimum was deleted) or the old one with one root removed and its
children handed back; heap order is kept. -/
theorem heap_delete_shape (fuel : Nat) (hp : Prio) (m : Mem) (sl : Slots) (h : heap) (T : HT)
    (node : Nat) (w : Shaped m h T) (hn : node ∈ members h T) (href : (m node).ref ≠ none)
    (hf : T.size + 1 ≤ fuel) :
    ∃ m2 sl2 h2 T2, heap_delete fuel hp m sl h node = some (m2, sl2, h2) ∧ Shaped m2 h2 T2 ∧
      (T2 = T ∨ ∃ hpa r, r ∈ T.roots ∧ T2 = HT.removeRoot hpa r T) ∧
      (StrictWeak hp → Ord hp m T → Ord hp m2 T2) ∧
      (∀ y, h2.min = some y → h.min = some y ∧ (m2 y).degree = (m y).degree) := by
  obtain ⟨r0, hr0⟩ := Option.ne_none_iff_exists'.1 href
  by_cases hmin : h.min = some node
  · have hfr : ∀ x ∈ T.addrs, set_degree m node NOT_IN_HEAP x = m x := by
      intro x hx
      apply set_degree_other
      intro e
      subst e
      exact w.min_fresh x hmin hx
    refine ⟨set_degree m node NOT_IN_HEAP, sl, { h with min := none }, T, ?_, ?_, Or.inl rfl, ?_,
      ?_⟩
    · simp [heap_delete, hr0, hmin]
    · exact ⟨Rep.frame w.rep hfr, w.head, w.nodup, fun x hx => by cases hx⟩
    · intro _ ho
      exact Ord.ord_frame ho w.rep hfr
    · intro y hy
      cases hy
  · have hnT : node ∈ T.addrs := by
      rcases mem_members.1 hn with e | e
      · exact absurd e hmin
      · exact e
    have hdepth := HT.depth_lt_size node T hnT
    obtain ⟨m1, sl1, r, σ, b1, b2, b3, _, _, _, _, b8⟩ :=
      bubble_loop_spec (fun _ _ _ => true) T w.nodup fuel m sl node w.rep hnT href (by omega)
    have hrep1 : Rep m1 none T := Rep.structEq b3 w.rep
    have hrpar : (m1 r).parent = none := by
      rcases b8 with e | ⟨p, _, e⟩
      · exact e
      · cases e
    have hroot : r ∈ T.roots := by
      rcases Rep.parent_cases hrep1 w.nodup b2 with ⟨q, _⟩ | ⟨p, q, _⟩
      · exact q
      · rw [hrpar] at q
        cases q
    have hfp := find_prev_spec m1 r T none none fuel hrep1 hroot
      (by have := HT.roots_length_le_size T; omega)
    rw [← w.head] at hfp
    obtain ⟨m2, m3, t1, t2, t3, t4, _, _, _, _, _, t10⟩ :=
      remove_root_spec fuel hp m1 h T r hrep1 w.head w.nodup hroot (by omega)
    have hperm := HT.removeRoot_addrs_perm (hpa_of hp m1) T r hroot
    have hnd2 := hperm.nodup_iff.1 w.nodup
    have hrT' : r ∉ (HT.removeRoot (hpa_of hp m1) r T).addrs := (List.nodup_cons.1 hnd2).1
    have hsub : ∀ x, x ∈ (HT.removeRoot (hpa_of hp m1) r T).addrs → x ∈ T.addrs :=
      fun x hx => hperm.symm.subset (List.mem_cons_of_mem _ hx)
    have hfr : ∀ x ∈ (HT.removeRoot (hpa_of hp m1) r T).addrs,
        set_degree m3 r NOT_IN_HEAP x = m3 x := by
      intro x hx
      apply set_degree_other
      intro e
      subst e
      exact hrT' hx
    refine ⟨set_degree m3 r NOT_IN_HEAP, sl1,
      heap.mk (HT.removeRoot (hpa_of hp m1) r T).hd h.min,
      HT.removeRoot (hpa_of hp m1) r T, ?_, ?_, Or.inr ⟨_, r, hroot, rfl⟩, ?_, ?_⟩
    · have hmin' : ¬ h.min = some node := hmin
      simp only [heap_delete, hr0, ne_eq, hmin', not_false_eq_true, if_true, delete_loop_eq, b1,
        hfp, t1, t2]
    · exact ⟨Rep.frame t3 hfr, rfl, (List.nodup_cons.1 hnd2).2,
        fun x hx hx' => w.min_fresh x hx (hsub x hx')⟩
    · intro hsw ho
      apply Ord.ord_frame (t10 hsw ?_) t3 hfr
      intro a ha p hap hpr
      exact bubble_delete_ord hp hsw T w.nodup fuel m sl node m1 sl1 r w.rep hnT
        (ho.ordDown hsw node hnT) b1 a ha p hap hpr
    · intro y hy
      have hyT : y ∉ T.addrs := w.min_fresh y hy
      have hyr : y ≠ r := fun e => hyT (e ▸ b2)
      refine ⟨hy, ?_⟩
      rw [set_degree_other _ _ _ _ hyr, t4 y hyT]
      exact (b3 y).2.2.2

/-- The function `heap_decrease`: the shape afterwards is the old one or the
old one with the cached minimum put back; heap order that failed only at
the node is restored. -/
theorem heap_decrease_shape (fuel : Nat) (hp : Prio) (m : Mem) (sl : Slots) (h : heap) (T : HT)
    (node : Nat) (w : Shaped m h T) (hn : node ∈ members h T) (href : (m node).ref ≠ none)
    (hf : T.size + 2 ≤ fuel) :
    ∃ m2 sl2 h2 T2, heap_decrease fuel hp m sl h node = some (m2, sl2, h2) ∧ Shaped m2 h2 T2 ∧
      (T2 = T ∨ ∃ hpa mn, mn ∉ T.addrs ∧ T2 = HT.union hpa T (HT.single mn)) ∧
      (StrictWeak hp → OrdEx hp m T node → Ord hp m2 T2) ∧
      (∀ y, h2.min = some y → h.min = some y ∧ (m2 y).degree = (m y).degree) := by
  obtain ⟨r0, hr0⟩ := Option.ne_none_iff_exists'.1 href
  by_cases hmin : h.min = some node
  · refine ⟨m, sl, h, T, ?_, w, Or.inl rfl, ?_, fun _ hy => ⟨hy, rfl⟩⟩
    · simp [heap_decrease, hr0, hmin]
    · intro _ hox a ha p hap
      exact hox.1 a ha (fun e => w.min_fresh node hmin (e ▸ ha)) p hap
  · have hnT : node ∈ T.addrs := by
      rcases mem_members.1 hn with e | e
      · exact absurd e hmin
      · exact e
    have hmin' : ¬ h.min = some node := hmin
    -- the state after the conditional uncache
    have hunc : ∃ m1 h1 T1, decrease_uncache fuel hp m h node = some (m1, h1) ∧
        Shaped m1 h1 T1 ∧ node ∈ T1.addrs ∧ DataEq m m1 ∧ T1.size ≤ T.size + 1 ∧
        (T1 = T ∨ ∃ hpa mn, mn ∉ T.addrs ∧ T1 = HT.union hpa T (HT.single mn)) ∧
        (StrictWeak hp → OrdEx hp m T node → OrdEx hp m1 T1 node) ∧
        (∀ y, h1.min = some y → h1 = h ∧ m1 = m) := by
      cases hm : h.min with
      | none =>
        exact ⟨m, h, T, by simp [decrease_uncache, hm], w, hnT, DataEq.de_refl m, Nat.le_succ _,
          Or.inl rfl, fun _ hx => hx, fun _ _ => ⟨rfl, rfl⟩⟩
      | some mn =>
        by_cases hc : hp (m node).value (m mn).value = true
        · obtain ⟨m1, u1, u2, u3, _, u5, _, _, u8⟩ := uncache_min_spec fuel hp m h T w hf
          have hT : HT.uncache hp m h T = HT.union (hpa_of hp m) T (HT.single mn) := by
            simp [HT.uncache, hm]
          refine ⟨m1, _, _, ?_, u2, ?_, u5, ?_, ?_, fun hsw hx => u8 hsw node hx,
            fun y hy => by cases hy⟩
          · simp only [decrease_uncache, hm, hc, if_true]
            exact u1
          · exact u3.symm.subset (mem_members.2 (Or.inr hnT))
          · have := u3.length_eq
            simp only [HT.length_addrs, members, hm, Option.toList_some, List.length_append,
              List.length_cons, List.length_nil] at this
            omega
          · exact Or.inr ⟨_, mn, w.min_fresh mn hm, hT⟩
        · refine ⟨m, h, T, ?_, w, hnT, DataEq.de_refl m, Nat.le_succ _, Or.inl rfl,
            fun _ hx => hx, fun _ _ => ⟨rfl, rfl⟩⟩
          simp [decrease_uncache, hm, hc]
    obtain ⟨m1, h1, T1, k1, k2, k3, k6, k7, k9, k8, k10⟩ := hunc
    have hdepth := HT.depth_lt_size node T1 k3
    have href1 : (m1 node).ref ≠ none := by
      rw [(k6 node).2]
      exact href
    obtain ⟨m2, sl2, r, σ, b1, _, b3, _, _, _, _, _⟩ :=
      bubble_loop_spec (fun m a b => hp (m a).value (m b).value) T1 k2.nodup fuel m1 sl node
        k2.rep k3 href1 (by omega)
    refine ⟨m2, sl2, h1, T1, ?_, ⟨Rep.structEq b3 k2.rep, k2.head, k2.nodup, k2.min_fresh⟩,
      k9, ?_, ?_⟩
    · simp only [heap_decrease, hr0, ne_eq, hmin', not_false_eq_true, if_true, k1,
        decrease_loop_eq, b1, Option.map_some']
    · intro hsw hox
      exact bubble_decrease_ord hp hsw T1 k2.nodup fuel m1 sl node m2 sl2 r k2.rep k3
        (k8 hsw hox) b1
    · intro y hy
      obtain ⟨q1, q2⟩ := k10 y hy
      refine ⟨q1 ▸ hy, ?_⟩
      rw [(b3 y).2.2.2, q2]

end BH

namespace BH

/-- After the priority of the payload of `node` has been raised in a
heap-ordered structure, heap order can fail only at `node`. -/
theorem ordEx_of_rekey {hp hp2 : Prio} (hsw : StrictWeak hp) {m : Mem} {h : heap} {T : HT}
    {node : Nat} (w : Shaped m h T) (ho : Ord hp m T) (hrk : Rekey hp hp2 (m node).value)
    (huniq : ∀ a ∈ T.addrs, a ≠ node → (m a).value ≠ (m node).value) :
    OrdEx hp2 m T node := by
  have hself : ∀ a ∈ T.addrs, (m a).parent ≠ some a := by
    intro a ha e
    rcases Rep.parent_cases w.rep w.nodup ha with ⟨_, q⟩ | ⟨p, q1, _, q3, _⟩
    · rw [q] at e
      cases e
    · rw [e] at q1
      cases q1
      exact q3 rfl
  have hpar : ∀ a ∈ T.addrs, ∀ p, (m a).parent = some p → p ∈ T.addrs := by
    intro a ha p hap
    rcases Rep.parent_mem w.rep a ha p hap with q | q
    · cases q
    · exact q
  refine ⟨?_, ?_⟩
  · intro a ha han p hap
    by_cases e : p = node
    · subst e
      cases h2 : hp2 (m a).value (m p).value with
      | false => rfl
      | true =>
        have := ho a ha p hap
        rw [hrk.2 _ h2] at this
        cases this
    · rw [hrk.1 _ _ (huniq a ha han) (huniq p (hpar a ha p hap) e)]
      exact ho a ha p hap
  · intro c hc hcn g hng
    have hnT := hpar c hc node hcn
    have hgT := hpar node hnT g hng
    have hcne : c ≠ node := fun e => hself c hc (e ▸ hcn)
    have hgne : g ≠ node := fun e => hself node hnT (e ▸ hng)
    rw [hrk.1 _ _ (huniq c hc hcne) (huniq g hgT hgne)]
    exact hsw.negtrans _ _ _ (ho c hc node hcn) (ho node hnT g hng)

/-! ## Heap order is kept -/

/-- C15: let the comparator be a strict weak order and let no node of the
forest of a heap beat its parent.  Then each of `heap_insert` (of a node not
in the heap), `heap_union` (with a disjoint heap that is heap-ordered too),
`heap_peek`, `heap_take` and `heap_delete` (of a member node with a
back-reference) returns, and afterwards no node of the forest beats its
parent.  The same holds for `heap_decrease` called on a member node with a
back-reference after the priority of its payload, which no other node of the
forest holds, has been raised, giving the strict weak order `hp2`: then heap
order can fail only between that node and its ancestors before the call,
and no node beats its parent under `hp2` after it. -/
theorem heap_order_kept (fuel : Nat) (hp : Prio) (hsw : StrictWeak hp) (m : Mem) (sl : Slots)
    (h : heap) (T : HT) (w : Shaped m h T) (ho : Ord hp m T) (hf : T.size + 3 ≤ fuel) :
    (∀ node, node ∉ members h T →
      ∃ m2 h2 T2, heap_insert fuel hp m h node = some (m2, h2) ∧ Shaped m2 h2 T2 ∧
        Ord hp m2 T2) ∧
    (∀ a Ta, Shaped m a Ta → Ord hp m Ta → (∀ x ∈ members h T, x ∉ members a Ta) →
      T.size + Ta.size + 3 ≤ fuel →
      ∃ m2 t2 a2 T2, heap_union fuel hp m h a = some (m2, t2, a2) ∧ Shaped m2 t2 T2 ∧
        Shaped m2 a2 HT.nil ∧ Ord hp m2 T2) ∧
    (∃ m2 h2 r T2, heap_peek fuel hp m h = some (m2, h2, r) ∧ Shaped m2 h2 T2 ∧ Ord hp m2 T2) ∧
    (∃ m2 h2 r T2, heap_take fuel hp m h = some (m2, h2, r) ∧ Shaped m2 h2 T2 ∧ Ord hp m2 T2) ∧
    (∀ node, node ∈ members h T → (m node).ref ≠ none →
      ∃ m2 sl2 h2 T2, heap_delete fuel hp m sl h node = some (m2, sl2, h2) ∧ Shaped m2 h2 T2 ∧
        Ord hp m2 T2) ∧
    (∀ node hp2, node ∈ members h T → (m node).ref ≠ none → StrictWeak hp2 →
      Rekey hp hp2 (m node).value →
      (∀ x ∈ T.addrs, x ≠ node → (m x).value ≠ (m node).value) →
      OrdEx hp2 m T node ∧
      ∃ m2 sl2 h2 T2, heap_decrease fuel hp2 m sl h node = some (m2, sl2, h2) ∧
        Shaped m2 h2 T2 ∧ Ord hp2 m2 T2) := by
  refine ⟨?_, ?_, ?_, ?_, ?_, ?_⟩
  · intro node hn
    obtain ⟨m2, e1, e2, _⟩ := heap_insert_spec fuel hp m h T node w hn (by omega)
    exact ⟨m2, _, _, e1, e2, heap_insert_ord fuel hp hsw m h T node w hn (by omega) ho _ _ e1⟩
  · intro a Ta wa hoa hdisj hf2
    obtain ⟨m2, e1, e2, _⟩ := heap_union_pub_spec fuel hp m h a T Ta w wa hdisj hf2
    exact ⟨m2, _, _, _, e1, e2, shaped_init m2,
      heap_union_pub_ord fuel hp hsw m h a T Ta w wa hdisj hf2 ho hoa _ _ _ e1⟩
  · obtain ⟨m2, p1, p2⟩ := heap_peek_spec fuel hp m h T w (by omega)
    obtain ⟨m3, e1, e2, _⟩ := cache_min_spec fuel hp m h T w (by omega)
    have hm : m3 = m2 := by
      have := e1.symm.trans p2
      simp only [Option.some.injEq, Prod.mk.injEq] at this
      exact this.1
    subst hm
    exact ⟨m3, _, _, _, p1, e2, cache_min_ord fuel hp hsw m h T w (by omega) ho _ _ e1⟩
  · obtain ⟨m3, e1, e2, _⟩ := cache_min_spec fuel hp m h T w (by omega)
    obtain ⟨m2, t1, t2, t3, _⟩ := heap_take_spec fuel hp m h T w (by omega)
    have hm : m3 = m2 := by
      have := e1.symm.trans t1
      simp only [Option.some.injEq, Prod.mk.injEq] at this
      exact this.1
    subst hm
    refine ⟨_, _, _, _, t2, t3, ?_⟩
    apply Ord.ord_frame (cache_min_ord fuel hp hsw m h T w (by omega) ho _ _ e1) e2.rep
    intro x hx
    cases hr : min_after_cache hp m h T with
    | none => rfl
    | some y =>
      simp only [mem_after_take]
      apply set_degree_other
      intro e
      subst e
      exact e2.min_fresh x (by simp [heap_cached, hr]) hx
  · intro node hn href
    obtain ⟨m2, sl2, h2, T2, e1, e2, _, e4, _⟩ :=
      heap_delete_shape fuel hp m sl h T node w hn href (by omega)
    exact ⟨m2, sl2, h2, T2, e1, e2, e4 hsw ho⟩
  · intro node hp2 hn href hsw2 hrk huniq
    have hox := ordEx_of_rekey hsw w ho hrk huniq
    obtain ⟨m2, sl2, h2, T2, e1, e2, _, e4, _⟩ :=
      heap_decrease_shape fuel hp2 m sl h T node w hn href (by omega)
    exact ⟨hox, m2, sl2, h2, T2, e1, e2, e4 hsw2 hox⟩

theorem heap_order_kept_witness :
    (∀ node, node ∉ members heap_one shape_pair →
      ∃ m2 h2 T2, heap_insert 5 (token_cmp (fun v => v)) mem_pair heap_one node = some (m2, h2) ∧
        Shaped m2 h2 T2 ∧ Ord (token_cmp (fun v => v)) m2 T2) ∧
    (∀ a Ta, Shaped mem_pair a Ta → Ord (token_cmp (fun v => v)) mem_pair Ta →
      (∀ x ∈ members heap_one shape_pair, x ∉ members a Ta) →
      shape_pair.size + Ta.size + 3 ≤ 5 →
      ∃ m2 t2 a2 T2, heap_union 5 (token_cmp (fun v => v)) mem_pair heap_one a
          = some (m2, t2, a2) ∧ Shaped m2 t2 T2 ∧
        Shaped m2 a2 HT.nil ∧ Ord (token_cmp (fun v => v)) m2 T2) ∧
    (∃ m2 h2 r T2, heap_peek 5 (token_cmp (fun v => v)) mem_pair heap_one = some (m2, h2, r) ∧
      Shaped m2 h2 T2 ∧ Ord (token_cmp (fun v => v)) m2 T2) ∧
    (∃ m2 h2 r T2, heap_take 5 (token_cmp (fun v => v)) mem_pair heap_one = some (m2, h2, r) ∧
      Shaped m2 h2 T2 ∧ Ord (token_cmp (fun v => v)) m2 T2) ∧
    (∀ node, node ∈ members heap_one shape_pair → (mem_pair node).ref ≠ none →
      ∃ m2 sl2 h2 T2, heap_delete 5 (token_cmp (fun v => v)) mem_pair slots_pair heap_one node
          = some (m2, sl2, h2) ∧ Shaped m2 h2 T2 ∧
        Ord (token_cmp (fun v => v)) m2 T2) ∧
    (∀ node hp2, node ∈ members heap_one shape_pair → (mem_pair node).ref ≠ none →
      StrictWeak hp2 → Rekey (token_cmp (fun v => v)) hp2 (mem_pair node).value →
      (∀ x ∈ shape_pair.addrs, x ≠ node → (mem_pair x).value ≠ (mem_pair node).value) →
      OrdEx hp2 mem_pair shape_pair node ∧
      ∃ m2 sl2 h2 T2, heap_decrease 5 hp2 mem_pair slots_pair heap_one node
          = some (m2, sl2, h2) ∧
        Shaped m2 h2 T2 ∧ Ord hp2 m2 T2) :=
  heap_order_kept 5 (token_cmp (fun v => v)) (token_cmp_strictWeak _) mem_pair slots_pair
    heap_one shape_pair shaped_pair wf_pair.ord (by decide)

end BH

namespace BH

/-! ## Binomial shape -/

theorem HT.ChildList.cl_size : ∀ {c : HT} {k : Nat}, HT.ChildList c k → c.size + 1 = 2 ^ k := by
  intro c
  induction c with
  | nil =>
    intro k h
    simp only [HT.ChildList] at h
    subst h
    simp [HT.size]
  | node a d c n ihc ihn =>
    intro k h
    obtain ⟨rfl, h1, h2⟩ := h
    have e1 := ihc h1
    have e2 := ihn h2
    simp only [HT.size]
    rw [Nat.pow_succ]
    omega

theorem HT.ChildList.cl_degs : ∀ {c : HT} {k : Nat}, HT.ChildList c k →
    c.degs = (List.range k).reverse := by
  intro c
  induction c with
  | nil =>
    intro k h
    simp only [HT.ChildList] at h
    subst h
    simp [HT.degs]
  | node a d c n _ ihn =>
    intro k h
    obtain ⟨rfl, _, h2⟩ := h
    simp only [HT.degs, ihn h2, List.range_succ, List.reverse_append, List.reverse_cons,
      List.reverse_nil, List.nil_append, List.singleton_append]

theorem HT.length_degs (T : HT) : T.degs.length = T.roots.length := by
  induction T with
  | nil => rfl
  | node a d c n _ ihn => simp [HT.degs, HT.roots, ihn]

theorem HT.ChildList.cl_length {c : HT} {k : Nat} (h : HT.ChildList c k) :
    c.roots.length = k := by
  rw [← HT.length_degs, h.cl_degs]
  simp

theorem HT.Forall.imp {P Q : Nat → Nat → HT → Prop} (hPQ : ∀ a d c, P a d c → Q a d c) :
    ∀ {T : HT}, HT.Forall P T → HT.Forall Q T := by
  intro T
  induction T with
  | nil => intro _; trivial
  | node a d c n ihc ihn =>
    intro h
    exact ⟨hPQ a d c h.1, ihc h.2.1, ihn h.2.2⟩

theorem HT.ChildList.cl_forall : ∀ {c : HT} {k : Nat}, HT.ChildList c k →
    HT.Forall (fun _ d c2 => HT.ChildList c2 d) c := by
  intro c
  induction c with
  | nil => intro _ _; trivial
  | node a d c n ihc ihn =>
    intro k h
    exact ⟨h.2.1, ihc h.2.1, ihn h.2.2⟩

theorem HT.Trees.tr_forall : ∀ {T : HT}, HT.Trees T →
    HT.Forall (fun _ d c => HT.ChildList c d) T := by
  intro T
  induction T with
  | nil => intro _; trivial
  | node a d c n _ ihn =>
    intro h
    exact ⟨h.1, h.1.cl_forall, ihn h.2⟩

/-- In a list of binomial trees each degree is bounded through the size. -/
theorem HT.Trees.pow_le_size : ∀ {T : HT}, HT.Trees T → ∀ e ∈ T.degs, 2 ^ e ≤ T.size := by
  intro T
  induction T with
  | nil => intro _ e he; simp [HT.degs] at he
  | node a d c n _ ihn =>
    intro h e he
    simp only [HT.degs, List.mem_cons] at he
    simp only [HT.size]
    rcases he with rfl | he
    · have := h.1.cl_size
      omega
    · have := ihn h.2 e he
      omega

theorem HT.Trees.degs_lt {T : HT} (h : HT.Trees T) {B : Nat} (hs : T.size < 2 ^ B) :
    ∀ e ∈ T.degs, e < B := by
  intro e he
  have h1 := h.pow_le_size e he
  exact (Nat.pow_lt_pow_iff_right (by decide : 1 < 2)).1 (lt_of_le_of_lt h1 hs)

theorem HT.merge_degs_perm (A B : HT) : (HT.merge A B).degs.Perm (A.degs ++ B.degs) := by
  induction A, B using HT.merge.induct with
  | case1 b => rw [HT.merge_nil_left]; simp [HT.degs]
  | case2 a d c n => rw [HT.merge_nil_right]; simp [HT.degs]
  | case3 a1 d1 c1 n1 a2 d2 c2 n2 hlt ih =>
    rw [HT.merge_node, if_pos hlt]
    simp only [HT.degs, List.cons_append]
    exact List.Perm.cons d1 ih
  | case4 a1 d1 c1 n1 a2 d2 c2 n2 hlt ih =>
    rw [HT.merge_node, if_neg hlt]
    simp only [HT.degs]
    refine (List.Perm.cons d2 ih).trans ?_
    simp only [HT.degs, List.cons_append]
    have h2 : (d1 :: n1.degs ++ d2 :: n2.degs).Perm (d2 :: (d1 :: n1.degs ++ n2.degs)) :=
      List.perm_middle
    exact h2.symm

theorem HT.merge_trees (A B : HT) (hA : A.Trees) (hB : B.Trees) : (HT.merge A B).Trees := by
  induction A, B using HT.merge.induct with
  | case1 b => rw [HT.merge_nil_left]; exact hB
  | case2 a d c n => rw [HT.merge_nil_right]; exact hA
  | case3 a1 d1 c1 n1 a2 d2 c2 n2 hlt ih =>
    rw [HT.merge_node, if_pos hlt]
    exact ⟨hA.1, ih hA.2 hB⟩
  | case4 a1 d1 c1 n1 a2 d2 c2 n2 hlt ih =>
    rw [HT.merge_node, if_neg hlt]
    exact ⟨hB.1, ih hA hB.2⟩

theorem HT.merge_sorted (A B : HT) (hA : A.degs.Pairwise (fun x y => x ≤ y))
    (hB : B.degs.Pairwise (fun x y => x ≤ y)) :
    (HT.merge A B).degs.Pairwise (fun x y => x ≤ y) := by
  induction A, B using HT.merge.induct with
  | case1 b => rw [HT.merge_nil_left]; exact hB
  | case2 a d c n => rw [HT.merge_nil_right]; exact hA
  | case3 a1 d1 c1 n1 a2 d2 c2 n2 hlt ih =>
    rw [HT.merge_node, if_pos hlt]
    simp only [HT.degs, List.pairwise_cons] at hA hB ⊢
    refine ⟨?_, ih hA.2 (by simpa [HT.degs] using hB)⟩
    intro e he
    have := (HT.merge_degs_perm n1 (HT.node a2 d2 c2 n2)).subset he
    simp only [HT.degs, List.mem_append, List.mem_cons] at this
    rcases this with h | rfl | h
    · exact hA.1 e h
    · omega
    · have := hB.1 e h
      omega
  | case4 a1 d1 c1 n1 a2 d2 c2 n2 hlt ih =>
    rw [HT.merge_node, if_neg hlt]
    simp only [HT.degs, List.pairwise_cons] at hA hB ⊢
    refine ⟨?_, ih (by simpa [HT.degs] using hA) hB.2⟩
    intro e he
    have := (HT.merge_degs_perm (HT.node a1 d1 c1 n1) n2).subset he
    simp only [HT.degs, List.mem_append, List.mem_cons] at this
    rcases this with (rfl | h) | h
    · omega
    · have := hA.1 e h
      omega
    · exact hB.1 e h

theorem count_le_one_of_strict {l : List Nat} (h : l.Pairwise (fun x y => x < y)) (e : Nat) :
    l.count e ≤ 1 := by
  have hnd : l.Nodup := h.imp (fun hab => Nat.ne_of_lt hab)
  exact List.nodup_iff_count_le_one.1 hnd e

theorem HT.merge_count (A B : HT) (hA : A.degs.Pairwise (fun x y => x < y))
    (hB : B.degs.Pairwise (fun x y => x < y)) (e : Nat) : (HT.merge A B).degs.count e ≤ 2 := by
  rw [(HT.merge_degs_perm A B).count_eq, List.count_append]
  have h1 := count_le_one_of_strict hA e
  have h2 := count_le_one_of_strict hB e
  omega

end BH

namespace BH

theorem HT.degHd_eq_head (T : HT) : T.degHd = T.degs.head? := by
  cases T <;> rfl

/-- The loop of `__heap_union` on a list sorted by degree in which no degree
occurs more than twice after the current node: the result has strictly
increasing degrees, none below the degree of the current node, and binomial
trees stay binomial trees. -/
theorem HT.carry_inc (hpa : Nat → Nat → Bool) (rest : HT) : ∀ (a d : Nat) (c : HT),
    rest.degs.Pairwise (fun x y => x ≤ y) → (∀ e ∈ rest.degs, d ≤ e) →
    (∀ e, rest.degs.count e ≤ 2) → (∀ e ∈ rest.degs, e < UINT_MAX) →
    (HT.carry hpa a d c rest).degs.Pairwise (fun x y => x < y) ∧
    (∀ e ∈ (HT.carry hpa a d c rest).degs, d ≤ e) ∧
    (rest.degs.count d = 1 → ∀ e ∈ (HT.carry hpa a d c rest).degs, d < e) ∧
    (HT.ChildList c d → rest.Trees → (HT.carry hpa a d c rest).Trees) := by
  induction rest with
  | nil =>
    intro a d c _ _ _ _
    rw [HT.carry_nil]
    refine ⟨by simp [HT.degs], by simp [HT.degs], by simp [HT.degs], fun hc _ => ⟨hc, trivial⟩⟩
  | node a2 d2 c2 n2 _ ih =>
    intro a d c hs hge hcnt hlt
    simp only [HT.degs, List.pairwise_cons] at hs
    have hd2 : d ≤ d2 := hge d2 (by simp [HT.degs])
    have hcnt2 : ∀ e, n2.degs.count e ≤ 2 := by
      intro e
      have := hcnt e
      simp only [HT.degs, List.count_cons] at this
      omega
    have hlt2 : ∀ e ∈ n2.degs, e < UINT_MAX := fun e he => hlt e (by simp [HT.degs, he])
    rw [HT.carry_node]
    by_cases hcond : (d != d2 || n2.degHd == some d) = true
    · rw [if_pos hcond]
      obtain ⟨p1, p2, p3, p4⟩ := ih a2 d2 c2 hs.2 hs.1 hcnt2 hlt2
      have hcase : d < d2 ∨ (d = d2 ∧ n2.degs.count d2 = 1) := by
        by_cases e : d = d2
        · right
          refine ⟨e, ?_⟩
          subst e
          simp only [bne_self_eq_false, Bool.false_or, beq_iff_eq] at hcond
          have h1 := hcnt d
          simp only [HT.degs, List.count_cons_self] at h1
          cases n2 with
          | nil => simp [HT.degHd] at hcond
          | node a3 d3 c3 n3 =>
            simp only [HT.degHd, Option.some.injEq] at hcond
            subst hcond
            simp only [HT.degs, List.count_cons_self] at h1 ⊢
            omega
        · left
          omega
      have hall : ∀ e ∈ (HT.carry hpa a2 d2 c2 n2).degs, d < e := by
        intro e he
        rcases hcase with h | ⟨h1, h2⟩
        · have := p2 e he
          omega
        · have := p3 h2 e he
          omega
      refine ⟨?_, ?_, ?_, ?_⟩
      · simp only [HT.degs, List.pairwise_cons]
        exact ⟨hall, p1⟩
      · intro e he
        simp only [HT.degs, List.mem_cons] at he
        rcases he with rfl | he
        · exact le_refl _
        · exact le_of_lt (hall e he)
      · intro hc1
        exfalso
        simp only [HT.degs, List.count_cons] at hc1
        rcases hcase with h | ⟨h1, h2⟩
        · have hnm : d ∉ n2.degs := by
            intro hm
            have := hs.1 d hm
            omega
          rw [List.count_eq_zero_of_not_mem hnm] at hc1
          have : ¬ (d2 == d) = true := by
            simp only [beq_iff_eq]
            omega
          simp [this] at hc1
        · subst h1
          simp [h2] at hc1
      · intro hc hT
        exact ⟨hc, p4 hT.1 hT.2⟩
    · rw [if_neg hcond]
      simp only [Bool.or_eq_true, bne_iff_ne, ne_eq, beq_iff_eq, not_or, not_not] at hcond
      obtain ⟨hdd, hhd⟩ := hcond
      subst hdd
      have hlt_d : d < UINT_MAX := hlt d (by simp [HT.degs])
      have hmod : (d + 1) % (UINT_MAX + 1) = d + 1 := Nat.mod_eq_of_lt (by omega)
      rw [hmod]
      have hge2 : ∀ e ∈ n2.degs, d + 1 ≤ e := by
        cases n2 with
        | nil => intro e he; simp [HT.degs] at he
        | node a3 d3 c3 n3 =>
          intro e he
          simp only [HT.degHd, Option.some.injEq] at hhd
          have h3 : d ≤ d3 := hs.1 d3 (by simp [HT.degs])
          have hs2 := hs.2
          simp only [HT.degs, List.pairwise_cons] at hs2
          simp only [HT.degs, List.mem_cons] at he
          rcases he with rfl | he
          · omega
          · have := hs2.1 e he
            omega
      by_cases hp : hpa a a2 = true
      · rw [if_pos hp]
        obtain ⟨p1, p2, _, p4⟩ := ih a (d + 1) (HT.node a2 d c2 c) hs.2 hge2 hcnt2 hlt2
        refine ⟨p1, fun e he => ?_, fun _ e he => ?_, fun hc hT => ?_⟩
        · have := p2 e he
          omega
        · have := p2 e he
          omega
        · exact p4 ⟨rfl, hT.1, hc⟩ hT.2
      · rw [if_neg hp]
        obtain ⟨p1, p2, _, p4⟩ := ih a2 (d + 1) (HT.node a d c c2) hs.2 hge2 hcnt2 hlt2
        refine ⟨p1, fun e he => ?_, fun _ e he => ?_, fun hc hT => ?_⟩
        · have := p2 e he
          omega
        · have := p2 e he
          omega
        · exact p4 ⟨rfl, hc, hT.1⟩ hT.2

/-- Abstract `__heap_union` of two lists of strictly increasing degree, none
of them the sentinel: the result has strictly increasing degrees. -/
theorem HT.union_strict (hpa : Nat → Nat → Bool) (A B : HT)
    (hA : A.degs.Pairwise (fun x y => x < y)) (hB : B.degs.Pairwise (fun x y => x < y))
    (hlt : ∀ e ∈ A.degs ++ B.degs, e < UINT_MAX) :
    (HT.union hpa A B).degs.Pairwise (fun x y => x < y) ∧
    (A.Trees → B.Trees → (HT.union hpa A B).Trees) := by
  cases B with
  | nil => exact ⟨by simpa [HT.union] using hA, fun h _ => by simpa [HT.union] using h⟩
  | node a2 d2 c2 n2 =>
    cases A with
    | nil => exact ⟨by simpa [HT.union] using hB, fun _ h => by simpa [HT.union] using h⟩
    | node a1 d1 c1 n1 =>
      have hperm := HT.merge_degs_perm (HT.node a1 d1 c1 n1) (HT.node a2 d2 c2 n2)
      have hsort := HT.merge_sorted (HT.node a1 d1 c1 n1) (HT.node a2 d2 c2 n2)
        (hA.imp (fun h => Nat.le_of_lt h)) (hB.imp (fun h => Nat.le_of_lt h))
      have hcnt := HT.merge_count (HT.node a1 d1 c1 n1) (HT.node a2 d2 c2 n2) hA hB
      have htr := HT.merge_trees (HT.node a1 d1 c1 n1) (HT.node a2 d2 c2 n2)
      simp only [HT.union]
      cases hm : HT.merge (HT.node a1 d1 c1 n1) (HT.node a2 d2 c2 n2) with
      | nil => exact ⟨by simp [HT.degs], fun _ _ => trivial⟩
      | node a d c n =>
        rw [hm] at hperm hsort hcnt htr
        simp only [HT.degs, List.pairwise_cons] at hsort
        have hcnt2 : ∀ e, n.degs.count e ≤ 2 := by
          intro e
          have := hcnt e
          simp only [HT.degs, List.count_cons] at this
          omega
        have hlt2 : ∀ e ∈ n.degs, e < UINT_MAX :=
          fun e he => hlt e (hperm.subset (by simp [HT.degs, he]))
        obtain ⟨p1, _, _, p4⟩ := HT.carry_inc hpa n a d c hsort.2 hsort.1 hcnt2 hlt2
        exact ⟨p1, fun h1 h2 => p4 (htr h1 h2).1 (htr h1 h2).2⟩

theorem HT.union_size (hpa : Nat → Nat → Bool) (A B : HT) :
    (HT.union hpa A B).size = A.size + B.size := by
  have := (HT.union_addrs_perm hpa A B).length_eq
  simpa [HT.length_addrs] using this

/-- Abstract `__heap_union` of two binomial root lists that are not too
large is a binomial root list. -/
theorem HT.union_binomial (hpa : Nat → Nat → Bool) (A B : HT) (hA : A.Binomial)
    (hB : B.Binomial) (hs : A.size + B.size < 2 ^ UINT_MAX) : (HT.union hpa A B).Binomial := by
  have hlt : ∀ e ∈ A.degs ++ B.degs, e < UINT_MAX := by
    intro e he
    rcases List.mem_append.1 he with h | h
    · exact hA.1.degs_lt (lt_of_le_of_lt (Nat.le_add_right _ _) hs) e h
    · exact hB.1.degs_lt (lt_of_le_of_lt (Nat.le_add_left _ _) hs) e h
  obtain ⟨p1, p2⟩ := HT.union_strict hpa A B hA.2 hB.2 hlt
  exact ⟨p2 hA.1 hB.1, p1⟩

end BH

namespace BH

theorem HT.rev_size : ∀ (c acc : HT), (HT.rev acc c).size = acc.size + c.size := by
  intro c
  induction c with
  | nil => intro acc; simp [HT.rev, HT.size]
  | node a d c n _ ihn =>
    intro acc
    simp only [HT.rev, ihn, HT.size]
    omega

/-- Reversing the child list of a binomial tree node gives a binomial root
list. -/
theorem HT.rev_binomial : ∀ (c acc : HT) (k : Nat), HT.ChildList c k → acc.Binomial →
    (∀ e ∈ acc.degs, k ≤ e) → (HT.rev acc c).Binomial := by
  intro c
  induction c with
  | nil => intro acc k _ h _; simpa [HT.rev] using h
  | node a d c n _ ihn =>
    intro acc k hc hacc hge
    obtain ⟨rfl, h1, h2⟩ := hc
    simp only [HT.rev]
    apply ihn (HT.node a d c acc) d h2
    · refine ⟨⟨h1, hacc.1⟩, ?_⟩
      simp only [HT.degs, List.pairwise_cons]
      refine ⟨fun e he => ?_, hacc.2⟩
      have := hge e he
      omega
    · intro e he
      simp only [HT.degs, List.mem_cons] at he
      rcases he with rfl | he
      · exact le_refl _
      · have := hge e he
        omega

theorem HT.remove_degs_sublist (x : Nat) : ∀ T : HT, (HT.remove x T).degs.Sublist T.degs := by
  intro T
  induction T with
  | nil => simp [HT.remove, HT.degs]
  | node a d c n _ ihn =>
    simp only [HT.remove]
    split
    · simp only [HT.degs]
      exact List.sublist_cons_self d n.degs
    · simp only [HT.degs]
      exact ihn.cons₂ d

theorem HT.remove_trees (x : Nat) : ∀ T : HT, T.Trees → (HT.remove x T).Trees := by
  intro T
  induction T with
  | nil => intro h; simpa [HT.remove] using h
  | node a d c n _ ihn =>
    intro h
    simp only [HT.remove]
    split
    · exact h.2
    · exact ⟨h.1, ihn h.2⟩

theorem HT.remove_binomial (x : Nat) (T : HT) (h : T.Binomial) : (HT.remove x T).Binomial :=
  ⟨HT.remove_trees x T h.1, h.2.sublist (HT.remove_degs_sublist x T)⟩

theorem HT.childOf_childList (x : Nat) : ∀ T : HT, T.Trees → x ∈ T.roots →
    HT.ChildList (HT.childOf x T) (HT.degOf x T) := by
  intro T
  induction T with
  | nil => intro _ hx; simp [HT.roots] at hx
  | node a d c n _ ihn =>
    intro h hx
    simp only [HT.childOf, HT.degOf]
    by_cases e : a = x
    · simp only [if_pos e]
      exact h.1
    · simp only [if_neg e]
      simp only [HT.roots, List.mem_cons] at hx
      rcases hx with h' | h'
      · exact absurd h'.symm e
      · exact ihn h.2 h'

theorem HT.removeRoot_size (hpa : Nat → Nat → Bool) (x : Nat) (T : HT) (hx : x ∈ T.roots) :
    (HT.removeRoot hpa x T).size + 1 = T.size := by
  have := (HT.removeRoot_addrs_perm hpa T x hx).length_eq
  simp only [List.length_cons, HT.length_addrs] at this
  omega

/-- Removing a root of a binomial root list and handing its children back
gives a binomial root list. -/
theorem HT.removeRoot_binomial (hpa : Nat → Nat → Bool) (x : Nat) (T : HT) (h : T.Binomial)
    (hx : x ∈ T.roots) (hs : T.size < 2 ^ UINT_MAX) : (HT.removeRoot hpa x T).Binomial := by
  have hsz := HT.removeRoot_size hpa x T hx
  simp only [HT.removeRoot] at hsz ⊢
  rw [HT.union_size] at hsz
  apply HT.union_binomial hpa _ _ (HT.remove_binomial x T h)
  · exact HT.rev_binomial _ HT.nil _ (HT.childOf_childList x T h.1 hx)
      ⟨trivial, List.Pairwise.nil⟩ (by intro e he; simp [HT.degs] at he)
  · omega

theorem HT.single_binomial (a : Nat) : (HT.single a).Binomial :=
  ⟨⟨rfl, trivial⟩, by simp [HT.single, HT.degs]⟩

theorem HT.insert_binomial (hp : Prio) (m : Mem) (h : heap) (T : HT) (node : Nat)
    (hB : T.Binomial) (hs : T.size + 1 < 2 ^ UINT_MAX) : (HT.insert hp m h T node).Binomial := by
  have key : ∀ z, (HT.union (hpa_of hp m) T (HT.single z)).Binomial :=
    fun z => HT.union_binomial _ T _ hB (HT.single_binomial z) (by simpa [HT.single, HT.size] using hs)
  unfold HT.insert
  split
  · split
    · exact key _
    · exact key _
  · exact key _

theorem HT.uncache_binomial (hp : Prio) (m : Mem) (h : heap) (T : HT)
    (hB : T.Binomial) (hs : (HT.uncache hp m h T).size < 2 ^ UINT_MAX) :
    (HT.uncache hp m h T).Binomial := by
  unfold HT.uncache at hs ⊢
  split
  · rename_i mn hmin
    simp only [hmin, HT.union_size] at hs
    exact HT.union_binomial _ T _ hB (HT.single_binomial _) hs
  · exact hB

theorem HT.extractMin_binomial (hpa : Nat → Nat → Bool) (T : HT) (hB : T.Binomial)
    (hnd : T.roots.Nodup) (hs : T.size < 2 ^ UINT_MAX) : (HT.extractMin hpa T).Binomial := by
  unfold HT.extractMin
  cases hx : HT.minRoot hpa T with
  | none => exact hB
  | some x => exact HT.removeRoot_binomial hpa x T hB (HT.minRoot_mem hpa T x hnd hx).1 hs

theorem HT.cache_binomial (hp : Prio) (m : Mem) (h : heap) (T : HT) (hB : T.Binomial)
    (hnd : T.roots.Nodup) (hs : T.size < 2 ^ UINT_MAX) : (HT.cache hp m h T).Binomial := by
  unfold HT.cache
  split
  · exact hB
  · exact HT.extractMin_binomial _ T hB hnd hs

theorem HT.unionPub_binomial (hp : Prio) (m : Mem) (t a : heap) (Tt Ta : HT)
    (hBt : Tt.Binomial) (hBa : Ta.Binomial)
    (hs : (HT.uncache hp m t Tt).size + (HT.uncache hp m a Ta).size < 2 ^ UINT_MAX) :
    (HT.unionPub hp m t a Tt Ta).Binomial := by
  unfold HT.unionPub
  apply HT.union_binomial
  · exact HT.uncache_binomial hp m t Tt hBt (by omega)
  · exact HT.uncache_binomial hp m a Ta hBa (by omega)
  · exact hs

end BH

namespace BH

/-! ## States and the set of nodes inserted so far -/

theorem ReachIn.reach {S : Finset Nat} {m0 : Mem} {w : World} (h : ReachIn m0 S w) :
    Reach w := by
  induction h with
  | init sl hp hsw => exact Reach.init m0 sl hp hsw
  | step fuel S w w2 op out _ hL hs ih => exact Reach.step fuel w w2 op out ih hL hs

/-- Every reached state is reached with some finite set of inserted nodes. -/
theorem Reach.reachIn {w : World} (h : Reach w) : ∃ m0 S, ReachIn m0 S w := by
  induction h with
  | init m sl hp hsw => exact ⟨m, ∅, ReachIn.init sl hp hsw⟩
  | step fuel w w2 op out _ hL hs ih =>
    obtain ⟨m0, S, hk⟩ := ih
    exact ⟨m0, _, ReachIn.step fuel S w w2 op out hk hL hs⟩

theorem Op.subset_nodes (S : Finset Nat) (op : Op) : S ⊆ op.nodes S := by
  cases op with
  | insert i node value ref => exact Finset.subset_insert node S
  | _ => exact Finset.Subset.refl S

/-- In a forest of binomial trees with fewer than `2 ^ B` nodes every degree
field is below `B`. -/
theorem Rep.degree_lt {m : Mem} {B : Nat} : ∀ {T : HT} {par : Option Nat}, Rep m par T →
    HT.Forall (fun _ d c => HT.ChildList c d) T → T.size < 2 ^ B →
    ∀ x ∈ T.addrs, (m x).degree < B := by
  intro T
  induction T with
  | nil => intro _ _ _ _ x hx; simp [HT.addrs] at hx
  | node a d c n ihc ihn =>
    intro par hr hF hs x hx
    obtain ⟨_, r2, _, _, r5, r6⟩ := hr
    obtain ⟨f1, f2, f3⟩ := hF
    simp only [HT.size] at hs
    simp only [HT.addrs, List.mem_cons, List.mem_append] at hx
    rcases hx with rfl | hx | hx
    · rw [r2]
      have := f1.cl_size
      exact (Nat.pow_lt_pow_iff_right (by decide : 1 < 2)).1 (by omega)
    · exact ihc r5 f2 (by omega) x hx
    · exact ihn r6 f3 (by omega) x hx

/-- A heap all of whose nodes are in `S` has at most `S.card` nodes. -/
theorem length_le_card {S : Finset Nat} {L : List Nat} (hnd : L.Nodup)
    (hS : ∀ x ∈ L, x ∈ S) : L.length ≤ S.card := by
  rw [← List.toFinset_card_of_nodup hnd]
  apply Finset.card_le_card
  intro x hx
  exact hS x (List.mem_toFinset.1 hx)

/-- Every member of a heap with a binomial root list that is not too large
is marked as being in a heap. -/
theorem member_degree_lt {m : Mem} {h : heap} {T : HT} (w : Shaped m h T) (hB : T.Binomial)
    (hs : T.size < 2 ^ UINT_MAX) (hmin : ∀ x, h.min = some x → (m x).degree < UINT_MAX) :
    ∀ x ∈ members h T, (m x).degree < UINT_MAX := by
  intro x hx
  rcases mem_members.1 hx with e | e
  · exact hmin x e
  · exact Rep.degree_lt w.rep hB.1.tr_forall hs x e

theorem HT.degOf_mem_degs (x : Nat) : ∀ T : HT, x ∈ T.roots → HT.degOf x T ∈ T.degs := by
  intro T
  induction T with
  | nil => intro hx; simp [HT.roots] at hx
  | node a d c n _ ihn =>
    intro hx
    simp only [HT.degOf, HT.degs]
    by_cases e : a = x
    · simp [e]
    · simp only [if_neg e, List.mem_cons]
      simp only [HT.roots, List.mem_cons] at hx
      rcases hx with h | h
      · exact absurd h.symm e
      · exact Or.inr (ihn h)

theorem HT.uncache_size (hp : Prio) (m : Mem) (h : heap) (T : HT) :
    (HT.uncache hp m h T).size = (members h T).length := by
  unfold HT.uncache members
  cases h.min with
  | none => simp [HT.length_addrs]
  | some mn =>
    simp only [HT.union_size, HT.single, HT.size, Option.toList_some, List.length_append,
      List.length_cons, List.length_nil, HT.length_addrs]
    omega

/-- The degree of the node that `heap_insert` leaves in the cache. -/
theorem heap_insert_min_degree (fuel : Nat) (hp : Prio) (m : Mem) (h : heap) (T : HT)
    (node : Nat) (w : Shaped m h T) (hn : node ∉ members h T) (hf : T.size + 2 ≤ fuel) :
    ∀ m2 h2, heap_insert fuel hp m h node = some (m2, h2) → ∀ y, h2.min = some y →
      (y = node ∧ (m2 y).degree = 0) ∨ (h.min = some y ∧ (m2 y).degree = (m y).degree) := by
  intro m2 h2 e y hy
  have hnT : node ∉ T.addrs := fun hx => hn (mem_members.2 (Or.inr hx))
  have hd1 := node_reinit_dataEq m node
  cases hmin : h.min with
  | none =>
    simp only [heap_insert, hmin] at e
    have := heap_union_min e
    rw [hy, hmin] at this
    cases this
  | some mn =>
    have hmnT : mn ∉ T.addrs := w.min_fresh mn hmin
    have hnm : node ≠ mn := fun e' => hn (mem_members.2 (Or.inl (e' ▸ hmin)))
    by_cases hc : hp (m node).value (m mn).value = true
    · have hc1 : hp (node_reinit m node node).value (node_reinit m node mn).value = true := by
        rw [(hd1 node).1, (hd1 mn).1]
        exact hc
      simp only [heap_insert, hmin, hc1, if_true] at e
      cases hu : __heap_union fuel hp (node_reinit (node_reinit m node) mn) h (some mn) with
      | none => rw [hu] at e; cases e
      | some q =>
        obtain ⟨m3, h3⟩ := q
        rw [hu] at e
        simp only [Option.some.injEq, Prod.mk.injEq] at e
        obtain ⟨rfl, rfl⟩ := e
        simp only [Option.some.injEq] at hy
        subst hy
        left
        refine ⟨rfl, ?_⟩
        obtain ⟨m4, q1, _, _, q4, _⟩ := union_single_spec fuel hp (node_reinit m node) h T mn
          (Rep.frame w.rep (fun x hx => node_reinit_other m node x (fun e' => hnT (e' ▸ hx))))
          w.head w.nodup hmnT hf
        rw [q1] at hu
        simp only [Option.some.injEq, Prod.mk.injEq] at hu
        rw [← hu.1, q4 node (by simp [hnm, hnT])]
        simp [node_reinit]
    · have hc1 : ¬ hp (node_reinit m node node).value (node_reinit m node mn).value = true := by
        rw [(hd1 node).1, (hd1 mn).1]
        exact hc
      simp only [heap_insert, hmin] at e
      rw [if_neg hc1] at e
      have hmin2 := heap_union_min e
      rw [hy, hmin] at hmin2
      simp only [Option.some.injEq] at hmin2
      subst hmin2
      right
      refine ⟨rfl, ?_⟩
      obtain ⟨m4, q1, _, _, q4, _⟩ := union_single_spec fuel hp m h T node w.rep w.head w.nodup
        hnT hf
      rw [q1] at e
      simp only [Option.some.injEq, Prod.mk.injEq] at e
      rw [← e.1, q4 y (by simp [Ne.symm hnm, hmnT])]

/-- The degree of the node that `cache_min` leaves in the cache. -/
theorem cache_min_min_degree (fuel : Nat) (hp : Prio) (m : Mem) (h : heap) (T : HT)
    (w : Shaped m h T) (hf : T.size ≤ fuel) :
    ∀ m2 h2, cache_min fuel hp m h = some (m2, h2) → ∀ y, h2.min = some y →
      (h.min = some y ∧ (m2 y).degree = (m y).degree) ∨
      (y ∈ T.roots ∧ (m2 y).degree = HT.degOf y T) := by
  intro m2 h2 e y hy
  cases hmin : h.min with
  | some x =>
    simp only [cache_min, hmin, Option.some.injEq, Prod.mk.injEq] at e
    obtain ⟨rfl, rfl⟩ := e
    left
    exact ⟨hmin.symm.trans hy, rfl⟩
  | none =>
    obtain ⟨m3, e1, _, _, _, _, e6⟩ := extract_min_spec fuel hp m h T w.rep w.head w.nodup hf
    simp only [cache_min, hmin, e1, Option.some.injEq, Prod.mk.injEq] at e
    obtain ⟨rfl, rfl⟩ := e
    simp only at hy
    right
    exact ⟨(HT.minRoot_mem _ T y (HT.roots_nodup w.nodup) hy).1, (e6 y hy).2⟩

end BH

namespace BH

/-- The extended invariant after a call that changed heap `i` only. -/
theorem ExtInv.ext_update {S : Finset Nat} {m0 : Mem} {w : World} {Ts : Nat → HT}
    (hE : ExtInv S m0 w Ts) (S2 : Finset Nat) (i : Nat) (m2 : Mem) (sl2 : Slots) (h2 : heap)
    (hp2 : Prio) (T2 : HT) (Ts2 : Nat → HT) (extra : List Nat)
    (hS : S ⊆ S2) (hS2 : ∀ x ∈ S2, x ∈ S ∨ x ∈ extra)
    (hI2 : Inv (World.mk m2 sl2 (set_heap w.hs i h2) hp2) Ts2)
    (hsh : Shaped m2 h2 T2) (hb : T2.Binomial)
    (hsub : ∀ x ∈ members h2 T2, x ∈ members (w.hs i) (Ts i) ∨ x ∈ extra)
    (hexS : ∀ x ∈ extra, x ∈ S2)
    (hex : ∀ x ∈ extra, ∀ k, k ≠ i → x ∉ members (w.hs k) (Ts k))
    (hfr : ∀ y, y ∉ members (w.hs i) (Ts i) → y ∉ extra → m2 y = w.m y)
    (hmin : ∀ y, h2.min = some y → (m2 y).degree < UINT_MAX)
    (hgone : ∀ y, (y ∈ members (w.hs i) (Ts i) ∨ y ∈ extra) → y ∉ members h2 T2 →
      (m2 y).degree = NOT_IN_HEAP) :
    ExtInv S2 m0 (World.mk m2 sl2 (set_heap w.hs i h2) hp2) Ts2 := by
  obtain ⟨hI, e2, e3, e4, e5⟩ := hE
  have hfrk : ∀ k, k ≠ i → ∀ x ∈ members (w.hs k) (Ts k), m2 x = w.m x :=
    fun k hk x hx => hfr x (fun hxi => hI.2.2.1 i k (Ne.symm hk) x hxi hx)
      (fun hxe => hex x hxe k hk hx)
  have hTi : Ts2 i = T2 := by
    have h1 : Shaped m2 (set_heap w.hs i h2 i) (Ts2 i) := (hI2.2.1 i).shaped
    simp only [set_heap_same] at h1
    exact h1.shaped_unique hsh
  have hTk : ∀ k, k ≠ i → Ts2 k = Ts k := by
    intro k hk
    have h1 : Shaped m2 (set_heap w.hs i h2 k) (Ts2 k) := (hI2.2.1 k).shaped
    simp only [set_heap_other _ _ _ _ hk] at h1
    exact h1.shaped_unique ((hI.2.1 k).wf_frame (hfrk k hk)).shaped
  refine ⟨hI2, ?_, ?_, ?_, ?_⟩
  · intro k
    by_cases hk : k = i
    · subst hk
      rw [hTi]
      exact hb
    · rw [hTk k hk]
      exact e2 k
  · intro k x hx
    by_cases hk : k = i
    · subst hk
      simp only [set_heap_same, hTi] at hx
      rcases hsub x hx with h' | h'
      · exact hS (e3 k x h')
      · exact hexS x h'
    · simp only [set_heap_other _ _ _ _ hk, hTk k hk] at hx
      exact hS (e3 k x hx)
  · intro k x hx
    by_cases hk : k = i
    · subst hk
      simp only [set_heap_same] at hx
      exact hmin x hx
    · simp only [set_heap_other _ _ _ _ hk] at hx
      show (m2 x).degree < UINT_MAX
      rw [hfrk k hk x (mem_members.2 (Or.inl hx))]
      exact e4 k x hx
  · intro n hn
    show (m2 n).degree = NOT_IN_HEAP ∨ (n ∉ S2 ∧ (m2 n).degree = (m0 n).degree)
    by_cases hold : n ∈ members (w.hs i) (Ts i) ∨ n ∈ extra
    · left
      apply hgone n hold
      have := hn i
      simpa only [set_heap_same, hTi] using this
    · simp only [not_or] at hold
      rw [hfr n hold.1 hold.2]
      have hnold : ∀ k, n ∉ members (w.hs k) (Ts k) := by
        intro k
        by_cases hk : k = i
        · subst hk
          exact hold.1
        · have := hn k
          simpa only [set_heap_other _ _ _ _ hk, hTk k hk] using this
      rcases e5 n hnold with h' | ⟨h', h''⟩
      · exact Or.inl h'
      · refine Or.inr ⟨fun hx => ?_, h''⟩
        rcases hS2 n hx with q | q
        · exact h' q
        · exact hold.2 q

/-- The size of a heap whose nodes are in `S`. -/
theorem ExtInv.size_le {S : Finset Nat} {m0 : Mem} {w : World} {Ts : Nat → HT}
    (hE : ExtInv S m0 w Ts) (i : Nat) : (members (w.hs i) (Ts i)).length ≤ S.card :=
  length_le_card (hE.1.2.1 i).shaped.members_nodup (hE.2.2.1 i)

/-- The extended invariant after `heap_insert`. -/
theorem insert_ext {S : Finset Nat} {m0 : Mem} {w : World} {Ts : Nat → HT}
    (hE : ExtInv S m0 w Ts) (i node : Nat) (hc : (Insert.insert node S).card < 2 ^ UINT_MAX)
    (mi : Mem) (sl1 : Slots) (hfresh : ∀ k, node ∉ members (w.hs k) (Ts k))
    (hmi : ∀ x, x ≠ node → mi x = w.m x) (fuel : Nat) (hf : (Ts i).size + 2 ≤ fuel)
    (m1 : Mem) (h1 : heap) (Ts2 : Nat → HT)
    (e : heap_insert fuel w.hp mi (w.hs i) node = some (m1, h1))
    (hI2 : Inv (World.mk m1 sl1 (set_heap w.hs i h1) w.hp) Ts2) :
    ExtInv (Insert.insert node S) m0 (World.mk m1 sl1 (set_heap w.hs i h1) w.hp) Ts2 ∧
      Member m1 h1 node := by
  have hS : node ∈ Insert.insert node S := Finset.mem_insert_self node S
  have hmik : ∀ x ∈ members (w.hs i) (Ts i), mi x = w.m x :=
    fun x hx => hmi x (fun e' => hfresh i (e' ▸ hx))
  have sh0 : Shaped mi (w.hs i) (Ts i) := ((hE.1.2.1 i).wf_frame hmik).shaped
  obtain ⟨m', e1, e2, e3, e4, _, _⟩ :=
    heap_insert_spec fuel w.hp mi (w.hs i) (Ts i) node sh0 (hfresh i) hf
  have hmd := heap_insert_min_degree fuel w.hp mi (w.hs i) (Ts i) node sh0 (hfresh i) hf m1 h1 e
  rw [e] at e1
  simp only [Option.some.injEq, Prod.mk.injEq] at e1
  obtain ⟨rfl, rfl⟩ := e1
  have hlen : (node :: members (w.hs i) (Ts i)).length ≤ (Insert.insert node S).card := by
    apply length_le_card (List.nodup_cons.2 ⟨hfresh i, (hE.1.2.1 i).shaped.members_nodup⟩)
    intro x hx
    rcases List.mem_cons.1 hx with h' | h'
    · exact h' ▸ hS
    · exact Finset.mem_insert_of_mem (hE.2.2.1 i x h')
  have hsz := members_length_le (w.hs i) (Ts i)
  simp only [List.length_cons] at hlen
  refine ⟨?_, (member_iff e2 node).2 (e3.symm.subset (List.mem_cons_self _ _))⟩
  refine hE.ext_update (Insert.insert node S) i m1 sl1 _ w.hp _ Ts2 [node] (Finset.subset_insert node S)
    (fun x hx => (Finset.mem_insert.1 hx).elim (fun q => Or.inr (by simp [q])) Or.inl) hI2 e2
    (HT.insert_binomial w.hp mi (w.hs i) (Ts i) node (hE.2.1 i) (by omega)) ?_ ?_ ?_ ?_ ?_ ?_
  · intro x hx
    rcases List.mem_cons.1 (e3.subset hx) with h' | h'
    · exact Or.inr (by simp [h'])
    · exact Or.inl h'
  · intro x hx
    rw [List.mem_singleton.1 hx]
    exact hS
  · intro x hx k _
    rw [List.mem_singleton.1 hx]
    exact hfresh k
  · intro y hy1 hy2
    have hyn : y ≠ node := fun e' => hy2 (by simp [e'])
    rw [e4 y (by simp [hyn, hy1]), hmi y hyn]
  · intro y hy
    rcases hmd y hy with ⟨_, h'⟩ | ⟨h', h''⟩
    · rw [h']
      decide
    · rw [h'', hmik y (mem_members.2 (Or.inl h'))]
      exact hE.2.2.2.1 i y h'
  · intro y hy hy2
    exfalso
    apply hy2
    apply e3.symm.subset
    rcases hy with h' | h'
    · exact List.mem_cons_of_mem _ h'
    · rw [List.mem_singleton.1 h']
      exact List.mem_cons_self _ _

/-- The extended invariant after `cache_min`, the body of `heap_peek`. -/
theorem peek_ext {S : Finset Nat} {m0 : Mem} {w : World} {Ts : Nat → HT}
    (hE : ExtInv S m0 w Ts) (hc : S.card < 2 ^ UINT_MAX) (i : Nat) (fuel : Nat)
    (hf : (Ts i).size ≤ fuel) (m1 : Mem) (h1 : heap) (Ts2 : Nat → HT)
    (e : cache_min fuel w.hp w.m (w.hs i) = some (m1, h1))
    (hI2 : Inv (World.mk m1 w.sl (set_heap w.hs i h1) w.hp) Ts2) :
    ExtInv S m0 (World.mk m1 w.sl (set_heap w.hs i h1) w.hp) Ts2 := by
  have sh0 : Shaped w.m (w.hs i) (Ts i) := (hE.1.2.1 i).shaped
  obtain ⟨m', e1, e2, e3, e4, _, _, _⟩ := cache_min_spec fuel w.hp w.m (w.hs i) (Ts i) sh0 hf
  have hmd := cache_min_min_degree fuel w.hp w.m (w.hs i) (Ts i) sh0 hf m1 h1 e
  rw [e] at e1
  simp only [Option.some.injEq, Prod.mk.injEq] at e1
  obtain ⟨rfl, rfl⟩ := e1
  have hlen := hE.size_le i
  have hsz := members_length_le (w.hs i) (Ts i)
  have hs : (Ts i).size < 2 ^ UINT_MAX := by omega
  refine hE.ext_update S i m1 w.sl _ w.hp _ Ts2 [] (Finset.Subset.refl S) (fun x hx => Or.inl hx)
    hI2 e2
    (HT.cache_binomial w.hp w.m (w.hs i) (Ts i) (hE.2.1 i) (HT.roots_nodup sh0.nodup) hs)
    ?_ ?_ ?_ ?_ ?_ ?_
  · intro x hx
    exact Or.inl (e3.subset hx)
  · intro x hx
    cases hx
  · intro x hx
    cases hx
  · intro y hy1 _
    exact e4 y hy1
  · intro y hy
    rcases hmd y hy with ⟨h', h''⟩ | ⟨h', h''⟩
    · rw [h'']
      exact hE.2.2.2.1 i y h'
    · rw [h'']
      exact (hE.2.1 i).1.degs_lt hs _ (HT.degOf_mem_degs y (Ts i) h')
  · intro y hy hy2
    exfalso
    apply hy2
    apply e3.symm.subset
    rcases hy with h' | h'
    · exact h'
    · cases h'

end BH

namespace BH

/-- The extended invariant after `heap_take`. -/
theorem take_ext {S : Finset Nat} {m0 : Mem} {w : World} {Ts : Nat → HT}
    (hE : ExtInv S m0 w Ts) (hc : S.card < 2 ^ UINT_MAX) (i : Nat) (fuel : Nat)
    (hf : (Ts i).size ≤ fuel) (m1 : Mem) (h1 : heap) (r : Option Nat) (Ts2 : Nat → HT)
    (e : heap_take fuel w.hp w.m (w.hs i) = some (m1, h1, r))
    (hI2 : Inv (World.mk m1 w.sl (set_heap w.hs i h1) w.hp) Ts2) :
    ExtInv S m0 (World.mk m1 w.sl (set_heap w.hs i h1) w.hp) Ts2 ∧
      ∀ x, r = some x → (m1 x).degree = NOT_IN_HEAP := by
  have sh0 : Shaped w.m (w.hs i) (Ts i) := (hE.1.2.1 i).shaped
  obtain ⟨mc, c1, c2, c3, c4, _, _, _⟩ := cache_min_spec fuel w.hp w.m (w.hs i) (Ts i) sh0 hf
  obtain ⟨mt, t1, t2, t3, _⟩ := heap_take_spec fuel w.hp w.m (w.hs i) (Ts i) sh0 hf
  rw [c1] at t1
  simp only [Option.some.injEq, Prod.mk.injEq, and_true] at t1
  subst t1
  rw [e] at t2
  simp only [Option.some.injEq, Prod.mk.injEq] at t2
  obtain ⟨rfl, rfl, rfl⟩ := t2
  have hlen := hE.size_le i
  have hsz := members_length_le (w.hs i) (Ts i)
  have hs : (Ts i).size < 2 ^ UINT_MAX := by omega
  have hmem : ∀ x, x ∈ members (heap_cached w.hp w.m (w.hs i) (Ts i))
      (HT.cache w.hp w.m (w.hs i) (Ts i)) ↔
      min_after_cache w.hp w.m (w.hs i) (Ts i) = some x ∨
        x ∈ (HT.cache w.hp w.m (w.hs i) (Ts i)).addrs := fun x => mem_members
  have hnew : ∀ x, x ∈ members (heap.mk (HT.cache w.hp w.m (w.hs i) (Ts i)).hd none)
      (HT.cache w.hp w.m (w.hs i) (Ts i)) ↔ x ∈ (HT.cache w.hp w.m (w.hs i) (Ts i)).addrs := by
    intro x
    simp [mem_members]
  have hmark : ∀ x, min_after_cache w.hp w.m (w.hs i) (Ts i) = some x →
      (mem_after_take mc (min_after_cache w.hp w.m (w.hs i) (Ts i)) x).degree = NOT_IN_HEAP := by
    intro x hx
    rw [hx]
    simp [mem_after_take]
  refine ⟨?_, hmark⟩
  refine hE.ext_update S i _ w.sl _ w.hp _ Ts2 [] (Finset.Subset.refl S) (fun x hx => Or.inl hx)
    hI2 t3
    (HT.cache_binomial w.hp w.m (w.hs i) (Ts i) (hE.2.1 i) (HT.roots_nodup sh0.nodup) hs)
    ?_ ?_ ?_ ?_ ?_ ?_
  · intro x hx
    exact Or.inl (c3.subset ((hmem x).2 (Or.inr ((hnew x).1 hx))))
  · intro x hx
    cases hx
  · intro x hx
    cases hx
  · intro y hy1 _
    rw [← c4 y hy1]
    cases hr : min_after_cache w.hp w.m (w.hs i) (Ts i) with
    | none => rfl
    | some x =>
      simp only [mem_after_take]
      apply set_degree_other
      intro e'
      subst e'
      exact hy1 (c3.subset ((hmem y).2 (Or.inl hr)))
  · intro y hy
    cases hy
  · intro y hy hy2
    rcases hy with h' | h'
    · rcases (hmem y).1 (c3.symm.subset h') with h'' | h''
      · exact hmark y h''
      · exact absurd ((hnew y).2 h'') hy2
    · cases h'

/-- The extended invariant after `heap_delete`. -/
theorem delete_ext {S : Finset Nat} {m0 : Mem} {w : World} {Ts : Nat → HT}
    (hE : ExtInv S m0 w Ts) (hc : S.card < 2 ^ UINT_MAX) (i node : Nat)
    (hn : node ∈ members (w.hs i) (Ts i)) (href : (w.m node).ref ≠ none) (fuel : Nat)
    (hf : (Ts i).size + 1 ≤ fuel) (m1 : Mem) (sl1 : Slots) (h1 : heap) (Ts2 : Nat → HT)
    (e : heap_delete fuel w.hp w.m w.sl (w.hs i) node = some (m1, sl1, h1))
    (hI2 : Inv (World.mk m1 sl1 (set_heap w.hs i h1) w.hp) Ts2) :
    ExtInv S m0 (World.mk m1 sl1 (set_heap w.hs i h1) w.hp) Ts2 ∧
      ∃ r, Member w.m (w.hs i) r ∧ ¬ Member m1 h1 r ∧ (m1 r).degree = NOT_IN_HEAP := by
  have sh0 : Shaped w.m (w.hs i) (Ts i) := (hE.1.2.1 i).shaped
  obtain ⟨m', sl', h', T', r, σ, d1, d2, d3, _, _, _, d7, d8, _⟩ :=
    heap_delete_spec fuel w.hp w.m w.sl (w.hs i) (Ts i) node sh0 hn href hf
  obtain ⟨m2, sl2, h2, T2, s1, s2, s3, _, s5⟩ :=
    heap_delete_shape fuel w.hp w.m w.sl (w.hs i) (Ts i) node sh0 hn href hf
  rw [e] at d1 s1
  simp only [Option.some.injEq, Prod.mk.injEq] at d1 s1
  obtain ⟨rfl, rfl, rfl⟩ := d1
  obtain ⟨rfl, rfl, rfl⟩ := s1
  have hT : T' = T2 := d2.shaped_unique s2
  subst hT
  have hlen := hE.size_le i
  have hsz := members_length_le (w.hs i) (Ts i)
  have hs : (Ts i).size < 2 ^ UINT_MAX := by omega
  have hB : T'.Binomial := by
    rcases s3 with rfl | ⟨hpa, x, hx, rfl⟩
    · exact hE.2.1 i
    · exact HT.removeRoot_binomial hpa x (Ts i) (hE.2.1 i) hx hs
  refine ⟨?_, r, (member_iff sh0 r).2 (d3.symm.subset (List.mem_cons_self _ _)),
    fun hx => (List.nodup_cons.1 (d3.nodup_iff.1 sh0.members_nodup)).1 ((member_iff d2 r).1 hx),
    d8⟩
  refine hE.ext_update S i _ _ _ w.hp T' Ts2 [] (Finset.Subset.refl S) (fun x hx => Or.inl hx)
    hI2 d2 hB ?_ ?_ ?_ ?_ ?_ ?_
  · intro x hx
    exact Or.inl (d3.symm.subset (List.mem_cons_of_mem _ hx))
  · intro x hx
    cases hx
  · intro x hx
    cases hx
  · intro y hy1 _
    exact d7 y hy1
  · intro y hy
    obtain ⟨q1, q2⟩ := s5 y hy
    rw [q2]
    exact hE.2.2.2.1 i y q1
  · intro y hy hy2
    rcases hy with h' | h'
    · rcases List.mem_cons.1 (d3.subset h') with h'' | h''
      · rw [h'']
        exact d8
      · exact absurd h'' hy2
    · cases h'

/-- The extended invariant after `heap_decrease`. -/
theorem decrease_ext {S : Finset Nat} {m0 : Mem} {w : World} {Ts : Nat → HT}
    (hE : ExtInv S m0 w Ts) (hc : S.card < 2 ^ UINT_MAX) (i node : Nat) (hp2 : Prio)
    (hn : node ∈ members (w.hs i) (Ts i)) (href : (w.m node).ref ≠ none) (fuel : Nat)
    (hf : (Ts i).size + 2 ≤ fuel) (m1 : Mem) (sl1 : Slots) (h1 : heap) (Ts2 : Nat → HT)
    (e : heap_decrease fuel hp2 w.m w.sl (w.hs i) node = some (m1, sl1, h1))
    (hI2 : Inv (World.mk m1 sl1 (set_heap w.hs i h1) hp2) Ts2) :
    ExtInv S m0 (World.mk m1 sl1 (set_heap w.hs i h1) hp2) Ts2 := by
  have sh0 : Shaped w.m (w.hs i) (Ts i) := (hE.1.2.1 i).shaped
  obtain ⟨m', sl', h', T', σ, d1, d2, d3, _, _, d6, _⟩ :=
    heap_decrease_spec fuel hp2 w.m w.sl (w.hs i) (Ts i) node sh0 hn href hf
  obtain ⟨m2, sl2, h2, T2, s1, s2, s3, _, s5⟩ :=
    heap_decrease_shape fuel hp2 w.m w.sl (w.hs i) (Ts i) node sh0 hn href hf
  rw [e] at d1 s1
  simp only [Option.some.injEq, Prod.mk.injEq] at d1 s1
  obtain ⟨rfl, rfl, rfl⟩ := d1
  obtain ⟨rfl, rfl, rfl⟩ := s1
  have hT : T' = T2 := d2.shaped_unique s2
  subst hT
  have hlen := hE.size_le i
  have hB : T'.Binomial := by
    rcases s3 with rfl | ⟨hpa, x, _, rfl⟩
    · exact hE.2.1 i
    · have h2 := (members_length_le _ _).trans (le_of_eq d3.length_eq)
      rw [HT.union_size] at h2
      exact HT.union_binomial hpa (Ts i) (HT.single x) (hE.2.1 i) (HT.single_binomial x)
        (by omega)
  refine hE.ext_update S i _ _ _ hp2 T' Ts2 [] (Finset.Subset.refl S) (fun x hx => Or.inl hx)
    hI2 d2 hB ?_ ?_ ?_ ?_ ?_ ?_
  · intro x hx
    exact Or.inl (d3.subset hx)
  · intro x hx
    cases hx
  · intro x hx
    cases hx
  · intro y hy1 _
    exact d6 y hy1
  · intro y hy
    obtain ⟨q1, q2⟩ := s5 y hy
    rw [q2]
    exact hE.2.2.2.1 i y q1
  · intro y hy hy2
    rcases hy with h' | h'
    · exact absurd (d3.symm.subset h') hy2
    · cases h'

end BH

namespace BH

theorem HT.nil_binomial : HT.nil.Binomial :=
  ⟨trivial, List.Pairwise.nil⟩

/-- The extended invariant after `heap_union`. -/
theorem union_ext {S : Finset Nat} {m0 : Mem} {w : World} {Ts : Nat → HT}
    (hE : ExtInv S m0 w Ts) (hc : S.card < 2 ^ UINT_MAX) (i j : Nat) (hij : i ≠ j)
    (fuel : Nat) (hf : (Ts i).size + (Ts j).size + 3 ≤ fuel) (m1 : Mem) (t1 a1 : heap)
    (Ts2 : Nat → HT) (e : heap_union fuel w.hp w.m (w.hs i) (w.hs j) = some (m1, t1, a1))
    (hI2 : Inv (World.mk m1 w.sl (set_heap (set_heap w.hs i t1) j a1) w.hp) Ts2) :
    ExtInv S m0 (World.mk m1 w.sl (set_heap (set_heap w.hs i t1) j a1) w.hp) Ts2 := by
  obtain ⟨hI, e2, e3, e4, e5⟩ := hE
  have hdis := hI.2.2.1 i j hij
  have spec := heap_union_pub_spec fuel w.hp w.m (w.hs i) (w.hs j)
    (Ts i) (Ts j) (hI.2.1 i).shaped (hI.2.1 j).shaped hdis hf
  have hlen : (members (w.hs i) (Ts i) ++ members (w.hs j) (Ts j)).length ≤ S.card := by
    apply length_le_card
    · rw [List.nodup_append]
      exact ⟨(hI.2.1 i).shaped.members_nodup, (hI.2.1 j).shaped.members_nodup,
        fun x hx1 hx2 => hdis x hx1 hx2⟩
    · intro x hx
      rcases List.mem_append.1 hx with h' | h'
      · exact e3 i x h'
      · exact e3 j x h'
  have hBU := HT.unionPub_binomial w.hp w.m (w.hs i) (w.hs j) (Ts i) (Ts j) (e2 i) (e2 j)
    (by
      rw [HT.uncache_size, HT.uncache_size]
      rw [List.length_append] at hlen
      omega)
  generalize HT.unionPub w.hp w.m (w.hs i) (w.hs j) (Ts i) (Ts j) = U at spec hBU
  obtain ⟨m', u1, u2, u3, u4, _, _⟩ := spec
  rw [e] at u1
  simp only [Option.some.injEq, Prod.mk.injEq] at u1
  obtain ⟨rfl, rfl, rfl⟩ := u1
  have hji : j ≠ i := Ne.symm hij
  have hfrk : ∀ k, k ≠ i → k ≠ j → ∀ x ∈ members (w.hs k) (Ts k), m1 x = w.m x := by
    intro k hki hkj x hx
    apply u4
    intro hc'
    rcases List.mem_append.1 hc' with h' | h'
    · exact hI.2.2.1 i k (Ne.symm hki) x h' hx
    · exact hI.2.2.1 j k (Ne.symm hkj) x h' hx
  have hTi : Ts2 i = U := by
    have h1 : Shaped m1 (set_heap (set_heap w.hs i (heap.mk U.hd none)) j (heap.mk none none) i)
      (Ts2 i) := (hI2.2.1 i).shaped
    simp only [set_heap_other _ _ _ _ hij, set_heap_same] at h1
    exact h1.shaped_unique u2
  have hTj : Ts2 j = HT.nil := by
    have h1 : Shaped m1 (set_heap (set_heap w.hs i (heap.mk U.hd none)) j (heap.mk none none) j)
      (Ts2 j) := (hI2.2.1 j).shaped
    simp only [set_heap_same] at h1
    exact h1.shaped_unique (shaped_init m1)
  have hTk : ∀ k, k ≠ i → k ≠ j → Ts2 k = Ts k := by
    intro k hki hkj
    have h1 : Shaped m1 (set_heap (set_heap w.hs i (heap.mk U.hd none)) j (heap.mk none none) k)
      (Ts2 k) := (hI2.2.1 k).shaped
    simp only [set_heap_other _ _ _ _ hki, set_heap_other _ _ _ _ hkj] at h1
    exact h1.shaped_unique ((hI.2.1 k).wf_frame (hfrk k hki hkj)).shaped
  have hmemU : ∀ x, x ∈ members (heap.mk U.hd none) U ↔ x ∈ U.addrs := by
    intro x
    simp [mem_members]
  refine ⟨hI2, ?_, ?_, ?_, ?_⟩
  · intro k
    by_cases hkj : k = j
    · subst hkj
      rw [hTj]
      exact HT.nil_binomial
    · by_cases hki : k = i
      · subst hki
        rw [hTi]
        exact hBU
      · rw [hTk k hki hkj]
        exact e2 k
  · intro k x hx
    by_cases hkj : k = j
    · subst hkj
      simp only [set_heap_same, hTj] at hx
      simp [members, HT.addrs] at hx
    · by_cases hki : k = i
      · subst hki
        simp only [set_heap_other _ _ _ _ hkj, set_heap_same, hTi] at hx
        rcases List.mem_append.1 (u3.subset ((hmemU x).1 hx)) with h' | h'
        · exact e3 k x h'
        · exact e3 j x h'
      · simp only [set_heap_other _ _ _ _ hkj, set_heap_other _ _ _ _ hki, hTk k hki hkj] at hx
        exact e3 k x hx
  · intro k x hx
    by_cases hkj : k = j
    · subst hkj
      simp only [set_heap_same] at hx
      cases hx
    · by_cases hki : k = i
      · subst hki
        simp only [set_heap_other _ _ _ _ hkj, set_heap_same] at hx
        cases hx
      · simp only [set_heap_other _ _ _ _ hkj, set_heap_other _ _ _ _ hki] at hx
        show (m1 x).degree < UINT_MAX
        rw [hfrk k hki hkj x (mem_members.2 (Or.inl hx))]
        exact e4 k x hx
  · intro n hn
    show (m1 n).degree = NOT_IN_HEAP ∨ (n ∉ S ∧ (m1 n).degree = (m0 n).degree)
    have hni : n ∉ U.addrs := by
      have := hn i
      simpa only [set_heap_other _ _ _ _ hij, set_heap_same, hTi, hmemU] using this
    have hold : n ∉ members (w.hs i) (Ts i) ++ members (w.hs j) (Ts j) :=
      fun hx => hni (u3.symm.subset hx)
    rw [u4 n hold]
    apply e5 n
    intro k
    by_cases hkj : k = j
    · subst hkj
      exact fun hx => hold (List.mem_append_right _ hx)
    · by_cases hki : k = i
      · subst hki
        exact fun hx => hold (List.mem_append_left _ hx)
      · have := hn k
        simpa only [set_heap_other _ _ _ _ hkj, set_heap_other _ _ _ _ hki, hTk k hki hkj]
          using this

/-- The extended invariant is kept by every call of a correct client, given
that fewer than `2 ^ UINT_MAX` nodes have been inserted. -/
theorem ext_step {S : Finset Nat} {m0 : Mem} {w : World} {Ts : Nat → HT}
    (hE : ExtInv S m0 w Ts) (op : Op) (hc : (op.nodes S).card < 2 ^ UINT_MAX)
    (hL : Legal w op) :
    ∃ N, ∀ fuel, N ≤ fuel → ∀ w2 out, w.step fuel op = some (w2, out) →
      ∃ Ts2, ExtInv (op.nodes S) m0 w2 Ts2 ∧
        (∀ i node value ref, op = Op.insert i node value ref → Member w2.m (w2.hs i) node) ∧
        (∀ i node, op = Op.delete i node → ∃ r, Member w.m (w.hs i) r ∧
          ¬ Member w2.m (w2.hs i) r ∧ (w2.m r).degree = NOT_IN_HEAP) := by
  obtain ⟨N, hN⟩ := step_refines w Ts hE.1 op hL
  have hmem : ∀ k x, Member w.m (w.hs k) x ↔ x ∈ members (w.hs k) (Ts k) :=
    fun k x => member_iff (hE.1.2.1 k).shaped x
  cases op with
  | insert i node value ref =>
    obtain ⟨l1, _⟩ := hL
    have hfresh : ∀ k, node ∉ members (w.hs k) (Ts k) := fun k hx => l1 k ((hmem k node).2 hx)
    refine ⟨max N ((Ts i).size + 2), fun fuel hf w2 out hs => ?_⟩
    obtain ⟨w3, out3, Ts3, s1, s2, _⟩ := hN fuel (le_trans (le_max_left _ _) hf)
    rw [hs] at s1
    simp only [Option.some.injEq, Prod.mk.injEq] at s1
    obtain ⟨rfl, rfl⟩ := s1
    have hf2 : (Ts i).size + 2 ≤ fuel := le_trans (le_max_right _ _) hf
    refine ⟨Ts3, ?_⟩
    cases ref with
    | none =>
      simp only [World.step] at hs
      cases hi : heap_insert fuel w.hp (heap_node_init w.m node value) (w.hs i) node with
      | none =>
        rw [hi] at hs
        cases hs
      | some q =>
        obtain ⟨m1, h1⟩ := q
        rw [hi] at hs
        simp only [Option.some.injEq, Prod.mk.injEq] at hs
        obtain ⟨rfl, _⟩ := hs
        have key := insert_ext hE i node hc (heap_node_init w.m node value) w.sl hfresh
          (fun x hx => by simp [heap_node_init, hx]) fuel hf2 m1 h1 Ts3 hi s2
        refine ⟨key.1, ?_, ?_⟩
        · intro i2 node2 value2 ref2 h
          cases h
          simpa only [set_heap_same] using key.2
        · intro _ _ h
          cases h
    | some r =>
      have hsl : set_slot w.sl r (some node) r = some node := by simp
      have hinit : heap_node_init_ref w.m (set_slot w.sl r (some node)) r value
          = some (fun b => if b = node then
              heap_node.mk none none none NOT_IN_HEAP value (some r)
            else w.m b) := by
        simp only [heap_node_init_ref, hsl]
      simp only [World.step, hinit] at hs
      generalize hmi : (fun b => if b = node then
              heap_node.mk none none none NOT_IN_HEAP value (some r)
            else w.m b) = mi at hs
      cases hi : heap_insert fuel w.hp mi (w.hs i) node with
      | none =>
        rw [hi] at hs
        cases hs
      | some q =>
        obtain ⟨m1, h1⟩ := q
        rw [hi] at hs
        simp only [Option.some.injEq, Prod.mk.injEq] at hs
        obtain ⟨rfl, _⟩ := hs
        have key := insert_ext hE i node hc mi (set_slot w.sl r (some node)) hfresh
          (fun x hx => by rw [← hmi]; simp [hx]) fuel hf2 m1 h1 Ts3 hi s2
        refine ⟨key.1, ?_, ?_⟩
        · intro i2 node2 value2 ref2 h
          cases h
          simpa only [set_heap_same] using key.2
        · intro _ _ h
          cases h
  | union i j =>
    refine ⟨max N ((Ts i).size + (Ts j).size + 3), fun fuel hf w2 out hs => ?_⟩
    obtain ⟨w3, out3, Ts3, s1, s2, _⟩ := hN fuel (le_trans (le_max_left _ _) hf)
    rw [hs] at s1
    simp only [Option.some.injEq, Prod.mk.injEq] at s1
    obtain ⟨rfl, rfl⟩ := s1
    refine ⟨Ts3, ?_⟩
    simp only [World.step] at hs
    cases hi : heap_union fuel w.hp w.m (w.hs i) (w.hs j) with
    | none =>
      rw [hi] at hs
      cases hs
    | some q =>
      obtain ⟨m1, t1, a1⟩ := q
      rw [hi] at hs
      simp only [Option.some.injEq, Prod.mk.injEq] at hs
      obtain ⟨rfl, _⟩ := hs
      refine ⟨union_ext hE hc i j hL fuel (le_trans (le_max_right _ _) hf) m1 t1 a1 Ts3 hi s2,
        ?_, ?_⟩
      · intro _ _ _ _ h
        cases h
      · intro _ _ h
        cases h
  | peek i =>
    refine ⟨max N (Ts i).size, fun fuel hf w2 out hs => ?_⟩
    obtain ⟨w3, out3, Ts3, s1, s2, _⟩ := hN fuel (le_trans (le_max_left _ _) hf)
    rw [hs] at s1
    simp only [Option.some.injEq, Prod.mk.injEq] at s1
    obtain ⟨rfl, rfl⟩ := s1
    refine ⟨Ts3, ?_⟩
    simp only [World.step, heap_peek] at hs
    cases hi : cache_min fuel w.hp w.m (w.hs i) with
    | none =>
      rw [hi] at hs
      cases hs
    | some q =>
      obtain ⟨m1, h1⟩ := q
      rw [hi] at hs
      simp only [Option.some.injEq, Prod.mk.injEq] at hs
      obtain ⟨rfl, _⟩ := hs
      refine ⟨peek_ext hE hc i fuel (le_trans (le_max_right _ _) hf) m1 h1 Ts3 hi s2, ?_, ?_⟩
      · intro _ _ _ _ h
        cases h
      · intro _ _ h
        cases h
  | take i =>
    refine ⟨max N (Ts i).size, fun fuel hf w2 out hs => ?_⟩
    obtain ⟨w3, out3, Ts3, s1, s2, _⟩ := hN fuel (le_trans (le_max_left _ _) hf)
    rw [hs] at s1
    simp only [Option.some.injEq, Prod.mk.injEq] at s1
    obtain ⟨rfl, rfl⟩ := s1
    refine ⟨Ts3, ?_⟩
    simp only [World.step] at hs
    cases hi : heap_take fuel w.hp w.m (w.hs i) with
    | none =>
      rw [hi] at hs
      cases hs
    | some q =>
      obtain ⟨m1, h1, r⟩ := q
      rw [hi] at hs
      simp only [Option.some.injEq, Prod.mk.injEq] at hs
      obtain ⟨rfl, _⟩ := hs
      refine ⟨(take_ext hE hc i fuel (le_trans (le_max_right _ _) hf) m1 h1 r Ts3 hi s2).1,
        ?_, ?_⟩
      · intro _ _ _ _ h
        cases h
      · intro _ _ h
        cases h
  | delete i node =>
    obtain ⟨l1, l2⟩ := hL
    refine ⟨max N ((Ts i).size + 1), fun fuel hf w2 out hs => ?_⟩
    obtain ⟨w3, out3, Ts3, s1, s2, _⟩ := hN fuel (le_trans (le_max_left _ _) hf)
    rw [hs] at s1
    simp only [Option.some.injEq, Prod.mk.injEq] at s1
    obtain ⟨rfl, rfl⟩ := s1
    refine ⟨Ts3, ?_⟩
    simp only [World.step] at hs
    cases hi : heap_delete fuel w.hp w.m w.sl (w.hs i) node with
    | none =>
      rw [hi] at hs
      cases hs
    | some q =>
      obtain ⟨m1, sl1, h1⟩ := q
      rw [hi] at hs
      simp only [Option.some.injEq, Prod.mk.injEq] at hs
      obtain ⟨rfl, _⟩ := hs
      have key := delete_ext hE hc i node ((hmem i node).1 l1) l2 fuel
        (le_trans (le_max_right _ _) hf) m1 sl1 h1 Ts3 hi s2
      refine ⟨key.1, ?_, ?_⟩
      · intro _ _ _ _ h
        cases h
      · intro i2 node2 h
        cases h
        simpa only [set_heap_same] using key.2
  | decrease i node hp2 =>
    obtain ⟨l1, l2, _⟩ := hL
    refine ⟨max N ((Ts i).size + 2), fun fuel hf w2 out hs => ?_⟩
    obtain ⟨w3, out3, Ts3, s1, s2, _⟩ := hN fuel (le_trans (le_max_left _ _) hf)
    rw [hs] at s1
    simp only [Option.some.injEq, Prod.mk.injEq] at s1
    obtain ⟨rfl, rfl⟩ := s1
    refine ⟨Ts3, ?_⟩
    simp only [World.step] at hs
    cases hi : heap_decrease fuel hp2 w.m w.sl (w.hs i) node with
    | none =>
      rw [hi] at hs
      cases hs
    | some q =>
      obtain ⟨m1, sl1, h1⟩ := q
      rw [hi] at hs
      simp only [Option.some.injEq, Prod.mk.injEq] at hs
      obtain ⟨rfl, _⟩ := hs
      refine ⟨decrease_ext hE hc i node hp2 ((hmem i node).1 l1) l2 fuel
        (le_trans (le_max_right _ _) hf) m1 sl1 h1 Ts3 hi s2, ?_, ?_⟩
      · intro _ _ _ _ h
        cases h
      · intro _ _ h
        cases h

/-- Every state reached with fewer than `2 ^ UINT_MAX` inserted nodes
satisfies the extended invariant for suitable shapes. -/
theorem reachIn_ext {m0 : Mem} {S : Finset Nat} {w : World} (hr : ReachIn m0 S w)
    (hc : S.card < 2 ^ UINT_MAX) : ∃ Ts, ExtInv S m0 w Ts := by
  induction hr with
  | init sl hp hsw =>
    refine ⟨fun _ => HT.nil, ⟨hsw, fun _ => wf_init hp m0, ?_, ?_⟩, fun _ => HT.nil_binomial,
      ?_, ?_, ?_⟩
    · intro i j _ x hx
      simp [members, heap_init, HT.addrs] at hx
    · intro i a ha
      simp [members, heap_init, HT.addrs] at ha
    · intro i x hx
      simp [members, heap_init, HT.addrs] at hx
    · intro i x hx
      cases hx
    · intro n _
      exact Or.inr ⟨Finset.not_mem_empty n, rfl⟩
  | step fuel S w w2 op out _ hL hs ih =>
    obtain ⟨Ts, hE⟩ := ih (lt_of_le_of_lt (Finset.card_le_card (Op.subset_nodes S op)) hc)
    obtain ⟨N, hN⟩ := ext_step hE op hc hL
    obtain ⟨Ts2, h2, _⟩ := hN (max fuel N) (le_max_right _ _) w2 out
      (World.step_mono (le_max_left fuel N) w op hs)
    exact ⟨Ts2, h2⟩

end BH

namespace BH

theorem Rep.roots_degree {m : Mem} : ∀ {T : HT} {par : Option Nat}, Rep m par T →
    T.roots.map (fun a => (m a).degree) = T.degs := by
  intro T
  induction T with
  | nil => intro _ _; rfl
  | node a d c n _ ihn =>
    intro par hr
    obtain ⟨_, r2, _, _, _, r6⟩ := hr
    simp only [HT.roots, HT.degs, List.map_cons, r2, ihn r6]

theorem HT.Forall.forall_and {P Q : Nat → Nat → HT → Prop} : ∀ {T : HT}, HT.Forall P T →
    HT.Forall Q T → HT.Forall (fun a d c => P a d c ∧ Q a d c) T := by
  intro T
  induction T with
  | nil => intro _ _; trivial
  | node a d c n ihc ihn =>
    intro h1 h2
    exact ⟨⟨h1.1, h2.1⟩, ihc h1.2.1 h2.2.1, ihn h1.2.2 h2.2.2⟩

/-- The degree fields in memory are the degrees of the shape. -/
theorem Rep.forall_degree {m : Mem} : ∀ {T : HT} {par : Option Nat}, Rep m par T →
    HT.Forall (fun a d c => (m a).degree = d ∧
      c.roots.map (fun b => (m b).degree) = c.degs) T := by
  intro T
  induction T with
  | nil => intro _ _; trivial
  | node a d c n ihc ihn =>
    intro par hr
    obtain ⟨_, r2, _, _, r5, r6⟩ := hr
    exact ⟨⟨r2, r5.roots_degree⟩, ihc r5, ihn r6⟩

/-- A small number of nodes is below the bound `2 ^ UINT_MAX`. -/
theorem lt_two_pow_uint_max (n : Nat) (h : n < UINT_MAX) : n < 2 ^ UINT_MAX :=
  lt_trans h (Nat.lt_two_pow UINT_MAX)

/-- What `heap_insert` and `heap_delete` do to membership, for any fuel with
which the call returns. -/
theorem step_facts {m0 : Mem} {S : Finset Nat} {w : World} (hr : ReachIn m0 S w) (op : Op)
    (hc : (op.nodes S).card < 2 ^ UINT_MAX) (hL : Legal w op) (fuel : Nat) (w2 : World)
    (out : Option Nat) (hs : w.step fuel op = some (w2, out)) :
    (∀ i node value ref, op = Op.insert i node value ref → Member w2.m (w2.hs i) node) ∧
    (∀ i node, op = Op.delete i node → ∃ r, Member w.m (w.hs i) r ∧
      ¬ Member w2.m (w2.hs i) r ∧ (w2.m r).degree = NOT_IN_HEAP) := by
  obtain ⟨Ts, hE⟩ := reachIn_ext hr
    (lt_of_le_of_lt (Finset.card_le_card (Op.subset_nodes S op)) hc)
  obtain ⟨N, hN⟩ := ext_step hE op hc hL
  obtain ⟨_, _, h2⟩ := hN (max fuel N) (le_max_right _ _) w2 out
    (World.step_mono (le_max_left fuel N) w op hs)
  exact h2

/-- In a state reached with fewer than `2 ^ UINT_MAX` inserted nodes, an
initialised node is marked as in a heap exactly if it is in one. -/
theorem in_heap_iff {m0 : Mem} {S : Finset Nat} {w : World} (hr : ReachIn m0 S w)
    (hc : S.card < 2 ^ UINT_MAX) (n : Nat) (hn : n ∈ S ∨ heap_node_in_heap m0 n = false) :
    heap_node_in_heap w.m n = true ↔ ∃ i, Member w.m (w.hs i) n := by
  obtain ⟨Ts, hE⟩ := reachIn_ext hr hc
  have hmem : ∀ k x, Member w.m (w.hs k) x ↔ x ∈ members (w.hs k) (Ts k) :=
    fun k x => member_iff (hE.1.2.1 k).shaped x
  constructor
  · intro h
    by_contra hne
    have hno : ∀ i, n ∉ members (w.hs i) (Ts i) := fun i hx => hne ⟨i, (hmem i n).2 hx⟩
    have hdeg : (w.m n).degree = NOT_IN_HEAP := by
      rcases hE.2.2.2.2 n hno with h' | ⟨h', h''⟩
      · exact h'
      · rcases hn with q | q
        · exact absurd q h'
        · rw [h'']
          simpa [heap_node_in_heap] using q
    simp [heap_node_in_heap, hdeg] at h
  · rintro ⟨i, hi⟩
    have hlen := hE.size_le i
    have hsz := members_length_le (w.hs i) (Ts i)
    have := member_degree_lt (hE.1.2.1 i).shaped (hE.2.1 i) (by omega) (hE.2.2.2.1 i) n
      ((hmem i n).1 hi)
    simp only [heap_node_in_heap, bne_iff_ne, ne_eq, NOT_IN_HEAP]
    omega

/-- The node returned by `heap_take` is marked `NOT_IN_HEAP`. -/
theorem heap_take_marks {fuel : Nat} {hp : Prio} {m : Mem} {h : heap} {m1 : Mem} {h1 : heap}
    {x : Nat} (e : heap_take fuel hp m h = some (m1, h1, some x)) :
    (m1 x).degree = NOT_IN_HEAP := by
  unfold heap_take at e
  cases hc : cache_min fuel hp m h with
  | none => simp [hc] at e
  | some q =>
    obtain ⟨mc, hcd⟩ := q
    cases hmin : hcd.min with
    | none => simp [hc, hmin] at e
    | some y =>
      simp only [hc, hmin, Option.some.injEq, Prod.mk.injEq] at e
      obtain ⟨rfl, _, rfl⟩ := e
      simp

/-- The state `world_one` is reached with the one inserted node 1. -/
theorem reachIn_world_one : ReachIn mem_zero ((Op.insert 0 1 5 none).nodes ∅) world_one :=
  ReachIn.step 3 ∅ world_init world_one (Op.insert 0 1 5 none) none
    (ReachIn.init (fun _ => none) (token_cmp (fun v => v)) (token_cmp_strictWeak _))
    ⟨fun _ => not_member_init _ _, fun _ h => by cases h⟩ rfl

theorem card_world_one : ((Op.insert 0 1 5 none).nodes ∅).card < 2 ^ UINT_MAX :=
  lt_two_pow_uint_max _ (by decide)

end BH

namespace BH

/-- The bound on the degrees is needed: `degree++` in `__heap_link` wraps
around.  Uniting the list of node 1 (degree 3) and node 2 (degree
`UINT_MAX`) with the list of node 3 (degree `UINT_MAX`) links node 3 below
node 2, whose degree becomes 0, after the degree 3 of node 1. -/
theorem union_wraps_at_sentinel :
    ∃ m2 h2, __heap_union 4 (token_cmp (fun v => v)) mem_wrap (heap.mk (some 1) none) (some 3)
        = some (m2, h2) ∧
      h2.head = some 1 ∧ (m2 1).degree = 3 ∧ (m2 1).next = some 2 ∧ (m2 2).degree = 0 ∧
      (m2 2).next = none ∧ (m2 2).child = some 3 := by
  refine ⟨_, _, rfl, ?_, ?_, ?_, ?_, ?_, ?_⟩ <;> decide

end BH

namespace BH

/-! ## The sentinel marks exactly the nodes in no heap -/

/-- C12: `heap_node_init` and `heap_node_init_ref` leave the node marked as
not in a heap (`heap_node_in_heap` false).  In every state reached from
initialised heaps by calls of a correct client, with fewer than
`2 ^ UINT_MAX` nodes inserted so far (which holds in any machine memory),
for every node that has been initialised (it was inserted at some time, or
it was marked in the initial memory): `heap_node_in_heap` is true if and
only if the node is in some heap, that is, it is the cached minimum or can
be reached from `head` through `next` and `child` pointers.  Moreover, an
inserted node is in the heap and marked; the node returned by `heap_take`
is marked as not in a heap; and `heap_delete` takes one node out of the
heap and marks it as not in a heap. -/
theorem in_heap_iff_member :
    (∀ m n v, heap_node_in_heap (heap_node_init m n v) n = false) ∧
    (∀ m sl r v n, sl r = some n → ∃ m2, heap_node_init_ref m sl r v = some m2 ∧
      heap_node_in_heap m2 n = false) ∧
    (∀ m0 S w, ReachIn m0 S w → S.card < 2 ^ UINT_MAX →
      (∀ n, (n ∈ S ∨ heap_node_in_heap m0 n = false) →
        (heap_node_in_heap w.m n = true ↔ ∃ i, Member w.m (w.hs i) n)) ∧
      (∀ fuel i node value ref w2 out, Legal w (Op.insert i node value ref) →
        (Insert.insert node S).card < 2 ^ UINT_MAX →
        w.step fuel (Op.insert i node value ref) = some (w2, out) →
        Member w2.m (w2.hs i) node ∧ heap_node_in_heap w2.m node = true) ∧
      (∀ fuel i w2 x, w.step fuel (Op.take i) = some (w2, some x) →
        heap_node_in_heap w2.m x = false) ∧
      (∀ fuel i node w2 out, Legal w (Op.delete i node) →
        w.step fuel (Op.delete i node) = some (w2, out) →
        ∃ r, Member w.m (w.hs i) r ∧ ¬ Member w2.m (w2.hs i) r ∧
          heap_node_in_heap w2.m r = false)) := by
  refine ⟨?_, ?_, ?_⟩
  · intro m n v
    simp [heap_node_in_heap, heap_node_init]
  · intro m sl r v n hsl
    simp only [heap_node_init_ref, hsl]
    refine ⟨_, rfl, ?_⟩
    simp [heap_node_in_heap]
  · intro m0 S w hr hc
    refine ⟨in_heap_iff hr hc, ?_, ?_, ?_⟩
    · intro fuel i node value ref w2 out hL hc2 hs
      have hmem := (step_facts hr (Op.insert i node value ref) hc2 hL fuel w2 out hs).1
        i node value ref rfl
      have hr2 := ReachIn.step fuel S w w2 (Op.insert i node value ref) out hr hL hs
      exact ⟨hmem, (in_heap_iff hr2 hc2 node (Or.inl (Finset.mem_insert_self node S))).2
        ⟨i, hmem⟩⟩
    · intro fuel i w2 x hs
      simp only [World.step] at hs
      cases ht : heap_take fuel w.hp w.m (w.hs i) with
      | none =>
        rw [ht] at hs
        cases hs
      | some q =>
        obtain ⟨m1, h1, r⟩ := q
        rw [ht] at hs
        simp only [Option.some.injEq, Prod.mk.injEq] at hs
        obtain ⟨rfl, rfl⟩ := hs
        simp [heap_node_in_heap, heap_take_marks ht]
    · intro fuel i node w2 out hL hs
      obtain ⟨r, q1, q2, q3⟩ := (step_facts hr (Op.delete i node) hc hL fuel w2 out hs).2
        i node rfl
      exact ⟨r, q1, q2, by simp [heap_node_in_heap, q3]⟩

theorem in_heap_iff_member_witness :
    (heap_node_in_heap world_one.m 1 = true ↔ ∃ i, Member world_one.m (world_one.hs i) 1) ∧
    (∀ fuel i w2 x, world_one.step fuel (Op.take i) = some (w2, some x) →
      heap_node_in_heap w2.m x = false) :=
  ⟨(in_heap_iff_member.2.2 mem_zero _ world_one reachIn_world_one card_world_one).1 1
      (Or.inl (by decide)),
    (in_heap_iff_member.2.2 mem_zero _ world_one reachIn_world_one card_world_one).2.2.1⟩

/-! ## Root degrees strictly increase -/

/-- C16: in every state reached from initialised heaps by calls of a correct
client, with fewer than `2 ^ UINT_MAX` nodes inserted so far (which holds in
any machine memory), the degree fields along the root list of every heap,
from `head` on, are strictly increasing, hence no two roots have the same
degree.  And `__heap_union`, applied to two disjoint root lists that are each
strictly increasing in degree, with no root carrying the sentinel
`NOT_IN_HEAP`, returns a root list of the same nodes that is strictly
increasing in degree. -/
theorem root_degrees_increase :
    (∀ m0 S w, ReachIn m0 S w → S.card < 2 ^ UINT_MAX → ∀ i, ∃ T,
      Shaped w.m (w.hs i) T ∧
      (T.roots.map (fun a => (w.m a).degree)).Pairwise (fun x y => x < y) ∧
      (∀ a ∈ T.roots, ∀ b ∈ T.roots, (w.m a).degree = (w.m b).degree → a = b)) ∧
    (∀ fuel hp m h A B, Rep m none A → h.head = A.hd → Rep m none B →
      (A.addrs ++ B.addrs).Nodup →
      (A.roots.map (fun a => (m a).degree)).Pairwise (fun x y => x < y) →
      (B.roots.map (fun a => (m a).degree)).Pairwise (fun x y => x < y) →
      (∀ a ∈ A.roots ++ B.roots, (m a).degree < UINT_MAX) →
      A.roots.length + B.roots.length < fuel →
      ∃ m2 h2 U, __heap_union fuel hp m h B.hd = some (m2, h2) ∧ Rep m2 none U ∧
        h2.head = U.hd ∧ U.addrs.Perm (A.addrs ++ B.addrs) ∧
        (U.roots.map (fun a => (m2 a).degree)).Pairwise (fun x y => x < y)) := by
  refine ⟨?_, ?_⟩
  · intro m0 S w hr hc i
    obtain ⟨Ts, hE⟩ := reachIn_ext hr hc
    have hsh := (hE.1.2.1 i).shaped
    have hp : ((Ts i).roots.map (fun a => (w.m a).degree)).Pairwise (fun x y => x < y) := by
      rw [hsh.rep.roots_degree]
      exact (hE.2.1 i).2
    refine ⟨Ts i, hsh, hp, ?_⟩
    intro a ha b hb hab
    exact List.inj_on_of_nodup_map (hp.imp (fun h => ne_of_lt h)) ha hb hab
  · intro fuel hp m h A B hA hh hB hnd pA pB hlt hf
    obtain ⟨m2, e1, e2, _⟩ := heap_union_spec fuel hp m h A B hA hh hB hnd hf
    rw [hA.roots_degree] at pA
    rw [hB.roots_degree] at pB
    have hlt2 : ∀ e ∈ A.degs ++ B.degs, e < UINT_MAX := by
      intro e he
      rw [← hA.roots_degree, ← hB.roots_degree, ← List.map_append] at he
      obtain ⟨a, ha, rfl⟩ := List.mem_map.1 he
      exact hlt a ha
    refine ⟨m2, _, HT.union (hpa_of hp m) A B, e1, e2, rfl, HT.union_addrs_perm _ A B, ?_⟩
    rw [e2.roots_degree]
    exact (HT.union_strict (hpa_of hp m) A B pA pB hlt2).1

theorem root_degrees_increase_witness :
    (∀ i, ∃ T, Shaped world_one.m (world_one.hs i) T ∧
      (T.roots.map (fun a => (world_one.m a).degree)).Pairwise (fun x y => x < y) ∧
      (∀ a ∈ T.roots, ∀ b ∈ T.roots,
        (world_one.m a).degree = (world_one.m b).degree → a = b)) ∧
    (∃ m2 h2 U, __heap_union 3 (token_cmp (fun v => v)) mem_zero heap_one (HT.single 2).hd
        = some (m2, h2) ∧ Rep m2 none U ∧ h2.head = U.hd ∧
      U.addrs.Perm ((HT.single 1).addrs ++ (HT.single 2).addrs) ∧
      (U.roots.map (fun a => (m2 a).degree)).Pairwise (fun x y => x < y)) :=
  ⟨root_degrees_increase.1 mem_zero _ world_one reachIn_world_one card_world_one,
    root_degrees_increase.2 3 (token_cmp (fun v => v)) mem_zero heap_one (HT.single 1)
      (HT.single 2) (by simp [Rep, HT.single, mem_zero]) rfl (by simp [Rep, HT.single, mem_zero])
      (by decide) (by simp [HT.single, HT.roots]) (by simp [HT.single, HT.roots])
      (by intro a _; simp [mem_zero, UINT_MAX]) (by decide)⟩

/-! ## Binomial shape -/

/-- C17: in every state reached from initialised heaps by calls of a correct
client, with fewer than `2 ^ UINT_MAX` nodes inserted so far (which holds in
any machine memory), every heap has a shape `T` in memory such that for every
node of the forest (the roots and all their descendants), with child list
`c`: the degree field is the length of the child list; the degree fields
along the child list are `degree - 1, ..., 0` in list order; and the tree
rooted at the node (the node and all nodes below it) has exactly
`2 ^ degree` nodes. -/
theorem binomial_shape_kept (m0 : Mem) (S : Finset Nat) (w : World) (hr : ReachIn m0 S w)
    (hc : S.card < 2 ^ UINT_MAX) (i : Nat) :
    ∃ T, Shaped w.m (w.hs i) T ∧
      HT.Forall (fun a _ c => (w.m a).degree = c.roots.length ∧
        c.roots.map (fun b => (w.m b).degree) = (List.range (w.m a).degree).reverse ∧
        c.size + 1 = 2 ^ (w.m a).degree) T := by
  obtain ⟨Ts, hE⟩ := reachIn_ext hr hc
  have hsh := (hE.1.2.1 i).shaped
  refine ⟨Ts i, hsh, ?_⟩
  refine HT.Forall.imp ?_ (hsh.rep.forall_degree.forall_and (hE.2.1 i).1.tr_forall)
  rintro a d c ⟨⟨h1, h2⟩, h3⟩
  rw [h1, h2]
  exact ⟨h3.cl_length.symm, h3.cl_degs, h3.cl_size⟩

end BH

namespace BH

/-- The bubble-up loop of `heap_decrease`, followed along the path from the
node upwards: it returns at a node `r` of the path; every node passed has a
payload that the payload of the node strictly beats; payloads and references
move one step down the path and those of the node arrive at `r`; the loop
stops at a root or below a parent that the payload does not beat; structure
fields and all other nodes are untouched. -/
theorem bubble_path (hp : Prio) (T : HT) (hnd : T.addrs.Nodup) :
    ∀ (fuel : Nat) (m : Mem) (sl : Slots) (node : Nat),
    Rep m none T → node ∈ T.addrs → (m node).ref ≠ none → HT.depth node T < fuel →
    ∃ m' sl' r path,
      bubble_loop (fun m a b => hp (m a).value (m b).value) fuel m sl node (m node).parent
        = some (m', sl', r) ∧
      StructEq m m' ∧ path.head? = some node ∧ path.getLast? = some r ∧
      List.Chain' (fun a b => (m a).parent = some b) path ∧
      (∀ b ∈ path.tail, hp (m node).value (m b).value = true) ∧
      (∀ a ∈ path, ∀ b ∈ path, (m a).parent = some b →
        (m' a).value = (m b).value ∧ (m' a).ref = (m b).ref) ∧
      ((m' r).value = (m node).value ∧ (m' r).ref = (m node).ref) ∧
      ((m r).parent = none ∨
        ∃ p, (m r).parent = some p ∧ hp (m node).value (m p).value = false) ∧
      (∀ x, x ∉ path → m' x = m x) ∧
      (∀ x ∈ path, x ∈ T.addrs) ∧ (∀ x ∈ path.tail, HT.depth x T < HT.depth node T) := by
  intro fuel
  induction fuel with
  | zero => intro m sl node _ _ _ hf; omega
  | succ fuel ih =>
    intro m sl node hrep hx href hf
    have hstay : ∀ q : (m node).parent = none ∨
        ∃ p, (m node).parent = some p ∧ hp (m node).value (m p).value = false,
        bubble_loop (fun m a b => hp (m a).value (m b).value) (fuel + 1) m sl node
          (m node).parent = some (m, sl, node) →
        ∃ m' sl' r path,
          bubble_loop (fun m a b => hp (m a).value (m b).value) (fuel + 1) m sl node
            (m node).parent = some (m', sl', r) ∧
          StructEq m m' ∧ path.head? = some node ∧ path.getLast? = some r ∧
          List.Chain' (fun a b => (m a).parent = some b) path ∧
          (∀ b ∈ path.tail, hp (m node).value (m b).value = true) ∧
          (∀ a ∈ path, ∀ b ∈ path, (m a).parent = some b →
            (m' a).value = (m b).value ∧ (m' a).ref = (m b).ref) ∧
          ((m' r).value = (m node).value ∧ (m' r).ref = (m node).ref) ∧
          ((m r).parent = none ∨
            ∃ p, (m r).parent = some p ∧ hp (m node).value (m p).value = false) ∧
          (∀ x, x ∉ path → m' x = m x) ∧
          (∀ x ∈ path, x ∈ T.addrs) ∧
          (∀ x ∈ path.tail, HT.depth x T < HT.depth node T) := by
      intro q e
      refine ⟨m, sl, node, [node], e, StructEq.se_refl m, rfl, rfl, List.chain'_singleton _,
        ?_, ?_, ⟨rfl, rfl⟩, q, fun _ _ => rfl, ?_, ?_⟩
      · intro b hb
        cases hb
      · intro a ha b hb hab
        rw [List.mem_singleton.1 ha] at hab
        rw [List.mem_singleton.1 hb] at hab
        rcases Rep.parent_cases hrep hnd hx with ⟨_, q2⟩ | ⟨p, q2, _, q4, _⟩
        · rw [q2] at hab
          cases hab
        · rw [q2] at hab
          exact absurd (Option.some.inj hab) q4
      · intro x hx'
        rw [List.mem_singleton.1 hx']
        exact hx
      · intro x hx'
        cases hx'
    rcases Rep.parent_cases hrep hnd hx with ⟨_, q2⟩ | ⟨p, q2, q3, q4, q5⟩
    · apply hstay (Or.inl q2)
      rw [q2]
      rfl
    · by_cases hc : hp (m node).value (m p).value = true
      · obtain ⟨r0, hr0⟩ := Option.ne_none_iff_exists'.1 href
        obtain ⟨s1, s2, s3, s4, s5, s6, s7⟩ :=
          swap_with_parent_spec m sl node p r0 (Ne.symm q4) hr0
        have hrep1 : Rep (swap_mem m node p) none T := Rep.structEq s2 hrep
        have href1 : (swap_mem m node p p).ref ≠ none := by rw [s6, hr0]; simp
        obtain ⟨m', sl', r, path, e1, e2, e3, e4, e5, e6, e7, e8, e9, e10, e11, e12⟩ :=
          ih (swap_mem m node p) _ p hrep1 q3 href1 (by omega)
        have hpar : ∀ a, (swap_mem m node p a).parent = (m a).parent := fun a => (s2 a).1
        cases path with
        | nil => cases e3
        | cons p0 rest =>
          simp only [List.head?_cons, Option.some.injEq] at e3
          subst e3
          simp only [List.tail_cons] at e6 e12
          have hdep : ∀ x ∈ p0 :: rest, HT.depth x T < HT.depth node T := by
            intro x hx'
            rcases List.mem_cons.1 hx' with h' | h'
            · rw [h']
              omega
            · have := e12 x h'
              omega
          have hnn : node ∉ p0 :: rest := fun h' => by
            have := hdep node h'
            omega
          have hup : ∀ a ∈ p0 :: rest, ∀ b, (m a).parent = some b →
              b ≠ node ∧ b ≠ p0 ∧ b ∈ T.addrs := by
            intro a ha b hab
            have hda : HT.depth a T ≤ HT.depth p0 T := by
              rcases List.mem_cons.1 ha with h' | h'
              · rw [h']
              · exact le_of_lt (e12 a h')
            rcases Rep.parent_cases hrep hnd (e11 a ha) with ⟨_, k⟩ | ⟨b', k1, k2, _, k4⟩
            · rw [k] at hab
              cases hab
            · rw [k1] at hab
              cases hab
              refine ⟨?_, ?_, k2⟩
              · intro e'
                subst e'
                omega
              · intro e'
                subst e'
                omega
          have hval : ∀ b, b ≠ node → b ≠ p0 → swap_mem m node p0 b = m b := s7
          refine ⟨m', sl', r, node :: p0 :: rest, ?_, s2.se_trans e2, rfl, ?_, ?_, ?_, ?_, ?_,
            ?_, ?_, ?_, ?_⟩
          · rw [q2]
            simp only [bubble_loop, hc, if_true, s1]
            exact e1
          · rw [List.getLast?_cons_cons]
            exact e4
          · refine List.chain'_cons.2 ⟨q2, e5.imp ?_⟩
            intro a b hab
            rw [← hpar a]
            exact hab
          · intro b hb
            simp only [List.tail_cons] at hb
            rcases List.mem_cons.1 hb with h' | h'
            · rw [h']
              exact hc
            · have h1 := e6 b h'
              rw [s5] at h1
              have hbn : b ≠ node := fun e' => hnn (e' ▸ List.mem_cons_of_mem _ h')
              have hbp : b ≠ p0 := fun e' => by
                have := e12 b h'
                rw [e'] at this
                omega
              rw [hval b hbn hbp] at h1
              exact h1
          · intro a ha b hb hab
            rcases List.mem_cons.1 ha with h' | h'
            · subst h'
              rw [q2] at hab
              cases hab
              rw [e10 a hnn]
              exact ⟨s3, s4⟩
            · obtain ⟨u1, u2, _⟩ := hup a h' b hab
              have hb' : b ∈ p0 :: rest := by
                rcases List.mem_cons.1 hb with k | k
                · exact absurd k u1
                · exact k
              have := e7 a h' b hb' (by rw [hpar a]; exact hab)
              rw [hval b u1 u2] at this
              exact this
          · rw [e8.1, e8.2, s5, s6]
            exact ⟨rfl, rfl⟩
          · have hr : r ∈ p0 :: rest := List.mem_of_getLast?_eq_some e4
            rw [hpar r, s5] at e9
            rcases e9 with k | ⟨q, k1, k2⟩
            · exact Or.inl k
            · obtain ⟨u1, u2, _⟩ := hup r hr q k1
              rw [hval q u1 u2] at k2
              exact Or.inr ⟨q, k1, k2⟩
          · intro x hx'
            simp only [List.mem_cons, not_or] at hx'
            rw [e10 x (by simp only [List.mem_cons, not_or]; exact ⟨hx'.2.1, hx'.2.2⟩)]
            exact hval x hx'.1 hx'.2.1
          · intro x hx'
            rcases List.mem_cons.1 hx' with h' | h'
            · rw [h']
              exact hx
            · exact e11 x h'
          · intro x hx'
            simp only [List.tail_cons] at hx'
            exact hdep x hx'
      · apply hstay (Or.inr ⟨p, q2, by simpa using hc⟩)
        rw [q2]
        simp only [bubble_loop, hc]
        rfl

end BH

namespace BH

/-- The predecessor found for a root `x`: none, when `x` is first on the
list, or the root whose `next` pointer is `x`. -/
theorem HT.predOf_next {m : Mem} (x : Nat) : ∀ (n : HT) (par prev : Option Nat), Rep m par n →
    x ∈ n.roots →
    (HT.predOf x prev n = prev ∧ n.hd = some x) ∨
    (∃ q ∈ n.roots, HT.predOf x prev n = some q ∧ (m q).next = some x) := by
  intro n
  induction n with
  | nil => intro _ _ _ hx; simp [HT.roots] at hx
  | node a d c n _ ihn =>
    intro par prev hr hx
    obtain ⟨_, _, _, r4, _, r6⟩ := hr
    simp only [HT.predOf]
    by_cases e : a = x
    · left
      simp [e, HT.hd]
    · right
      simp only [if_neg e]
      simp only [HT.roots, List.mem_cons] at hx
      have hx' : x ∈ n.roots := by
        rcases hx with h | h
        · exact absurd h.symm e
        · exact h
      rcases ihn par (some a) r6 hx' with ⟨k1, k2⟩ | ⟨q, k1, k2, k3⟩
      · exact ⟨a, by simp [HT.roots], k1, by rw [r4, k2]⟩
      · exact ⟨q, by simp [HT.roots, k1], k2, k3⟩

/-! ## The bubble-up of `heap_decrease` -/

/-- C21, the claim as stated fails: in the two-node tree of `mem_pair` let
the payload of the child, node 2, be given the priority of the payload of
its parent, node 1.  The node has a back-reference, is in the heap, and its
parent is tied with it; `heap_decrease` returns, and whenever it returns it
has swapped nothing: payloads, references and handle slots are as before. -/
theorem tie_stops_bubble_up :
    (mem_pair 2).ref ≠ none ∧ Member mem_pair heap_one 2 ∧ (mem_pair 2).parent = some 1 ∧
    cmp_tie (mem_pair 1).value (mem_pair 2).value = false ∧
    cmp_tie (mem_pair 2).value (mem_pair 1).value = false ∧
    heap_decrease 1 cmp_tie mem_pair slots_pair heap_one 2
      = some (mem_pair, slots_pair, heap_one) ∧
    (∀ fuel m2 sl2 h2, heap_decrease fuel cmp_tie mem_pair slots_pair heap_one 2
        = some (m2, sl2, h2) →
      (m2 2).value = 20 ∧ (m2 2).ref = some 20 ∧ (m2 1).value = 10 ∧ (m2 1).ref = some 10 ∧
      sl2 20 = some 2 ∧ sl2 10 = some 1) := by
  have e1 : heap_decrease 1 cmp_tie mem_pair slots_pair heap_one 2
      = some (mem_pair, slots_pair, heap_one) := rfl
  refine ⟨by decide, Or.inr (Reachable.child 1 2 (Reachable.here 2)), rfl, by decide, by decide,
    e1, ?_⟩
  intro fuel m2 sl2 h2 e
  have k1 := heap_decrease_mono (le_max_left fuel 1) e
  have k2 := heap_decrease_mono (le_max_right fuel 1) e1
  rw [k1] at k2
  simp only [Option.some.injEq, Prod.mk.injEq] at k2
  obtain ⟨rfl, rfl, rfl⟩ := k2
  exact ⟨rfl, rfl, rfl, rfl, rfl, rfl⟩

/-- C21 (amended): in `heap_decrease` the bubble-up continues while the node
has a parent whose payload it strictly beats.  For a heap with shape `T` and
a node of its forest with a back-reference, `heap_decrease` returns; after
the conditional `__uncache_min`, which gives the memory `m1` and keeps all
payloads, there is a path from the node up the parent pointers to a node `r`
such that the payload of the node strictly beats the payload of every node
passed; the value and ref of every node of the path but `r` are those its
parent had, and those of `r` are the ones the node had; `r` is a root or
its parent has a payload that the payload of the node does not strictly beat
(higher or tied priority); the parent, child, next and degree fields of all
nodes and all fields of the nodes off the path are untouched. -/
theorem decrease_bubbles_while_strict (fuel : Nat) (hp : Prio) (m : Mem) (sl : Slots) (h : heap)
    (T : HT) (node : Nat) (w : Shaped m h T) (hn : node ∈ T.addrs)
    (href : (m node).ref ≠ none) (hf : T.size + 2 ≤ fuel) :
    ∃ m1 h1 m2 sl2 r path,
      decrease_uncache fuel hp m h node = some (m1, h1) ∧ DataEq m m1 ∧
      heap_decrease fuel hp m sl h node = some (m2, sl2, h1) ∧
      StructEq m1 m2 ∧ path.head? = some node ∧ path.getLast? = some r ∧
      List.Chain' (fun a b => (m1 a).parent = some b) path ∧
      (∀ b ∈ path.tail, hp (m node).value (m b).value = true) ∧
      (∀ a ∈ path, ∀ b ∈ path, (m1 a).parent = some b →
        (m2 a).value = (m b).value ∧ (m2 a).ref = (m b).ref) ∧
      ((m2 r).value = (m node).value ∧ (m2 r).ref = (m node).ref) ∧
      ((m1 r).parent = none ∨
        ∃ p, (m1 r).parent = some p ∧ hp (m node).value (m p).value = false) ∧
      (∀ x, x ∉ path → m2 x = m1 x) := by
  obtain ⟨r0, hr0⟩ := Option.ne_none_iff_exists'.1 href
  have hmin : ¬ h.min = some node := fun e => w.min_fresh node e hn
  obtain ⟨m1, h1, T1, k1, k2, k3, _, _, k6, k7, _⟩ :=
    decrease_uncache_spec fuel hp m h T node w hn hf
  have hdepth := HT.depth_lt_size node T1 k3
  have href1 : (m1 node).ref ≠ none := by
    rw [(k6 node).2]
    exact href
  obtain ⟨m2, sl2, r, path, b1, b2, b3, b4, b5, b6, b7, b8, b9, b10, _, _⟩ :=
    bubble_path hp T1 k2.nodup fuel m1 sl node k2.rep k3 href1 (by omega)
  refine ⟨m1, h1, m2, sl2, r, path, k1, k6, ?_, b2, b3, b4, b5, ?_, ?_, ?_, ?_, b10⟩
  · simp only [heap_decrease, hr0, ne_eq, hmin, not_false_eq_true, if_true, k1,
      decrease_loop_eq, b1, Option.map_some']
  · intro b hb
    rw [← (k6 node).1, ← (k6 b).1]
    exact b6 b hb
  · intro a ha b hb hab
    rw [← (k6 b).1, ← (k6 b).2]
    exact b7 a ha b hb hab
  · rw [← (k6 node).1, ← (k6 node).2]
    exact b8
  · rcases b9 with q | ⟨p, q1, q2⟩
    · exact Or.inl q
    · refine Or.inr ⟨p, q1, ?_⟩
      rw [← (k6 node).1, ← (k6 p).1]
      exact q2

theorem decrease_bubbles_while_strict_witness :
    ∃ m1 h1 m2 sl2 r path,
      decrease_uncache 4 cmp_rekeyed mem_pair heap_one 2 = some (m1, h1) ∧ DataEq mem_pair m1 ∧
      heap_decrease 4 cmp_rekeyed mem_pair slots_pair heap_one 2 = some (m2, sl2, h1) ∧
      StructEq m1 m2 ∧ path.head? = some 2 ∧ path.getLast? = some r ∧
      List.Chain' (fun a b => (m1 a).parent = some b) path ∧
      (∀ b ∈ path.tail, cmp_rekeyed (mem_pair 2).value (mem_pair b).value = true) ∧
      (∀ a ∈ path, ∀ b ∈ path, (m1 a).parent = some b →
        (m2 a).value = (mem_pair b).value ∧ (m2 a).ref = (mem_pair b).ref) ∧
      ((m2 r).value = (mem_pair 2).value ∧ (m2 r).ref = (mem_pair 2).ref) ∧
      ((m1 r).parent = none ∨
        ∃ p, (m1 r).parent = some p ∧
          cmp_rekeyed (mem_pair 2).value (mem_pair p).value = false) ∧
      (∀ x, x ∉ path → m2 x = m1 x) :=
  decrease_bubbles_while_strict 4 cmp_rekeyed mem_pair slots_pair heap_one shape_pair 2
    shaped_pair (by decide) (by decide) (by decide)

/-! ## The bubble-up of `heap_delete` ends on the root list -/

/-- C22: for a heap with shape `T` (well formed or not in its order), and a
node of its forest with a back-reference, which is then not the cached
minimum: the unconditional bubble-up of `heap_delete` returns at a node `r`
that is on the root list and has no parent, leaving all structure fields
untouched; the predecessor search from `head` returns, without running off
the end of the list, with no predecessor when `r` is the head and otherwise
with the root whose `next` is `r`; and `heap_delete` returns a heap whose
forest holds every node of the old forest except `r`, in particular every
child of `r`, while `r` is marked `NOT_IN_HEAP`. -/
theorem delete_bubbles_to_root (fuel : Nat) (hp : Prio) (m : Mem) (sl : Slots) (h : heap)
    (T : HT) (node : Nat) (w : Shaped m h T) (hn : node ∈ T.addrs)
    (href : (m node).ref ≠ none) (hf : T.size + 1 ≤ fuel) :
    ∃ m1 sl1 r prev m2 sl2 h2 T2,
      delete_loop fuel m sl node (m node).parent = some (m1, sl1, r) ∧ StructEq m m1 ∧
      r ∈ T.roots ∧ (m1 r).parent = none ∧
      find_prev_loop m1 r fuel none h.head = some prev ∧
      ((prev = none ∧ h.head = some r) ∨
        ∃ q ∈ T.roots, prev = some q ∧ (m1 q).next = some r) ∧
      heap_delete fuel hp m sl h node = some (m2, sl2, h2) ∧ Shaped m2 h2 T2 ∧
      T.addrs.Perm (r :: T2.addrs) ∧
      (∀ c ∈ T.addrs, (m1 c).parent = some r → c ∈ T2.addrs) ∧
      (m2 r).degree = NOT_IN_HEAP := by
  obtain ⟨r0, hr0⟩ := Option.ne_none_iff_exists'.1 href
  have hmin : ¬ h.min = some node := fun e => w.min_fresh node e hn
  have hdepth := HT.depth_lt_size node T hn
  obtain ⟨m1, sl1, r, σ, b1, b2, b3, _, _, _, _, b8⟩ :=
    bubble_loop_spec (fun _ _ _ => true) T w.nodup fuel m sl node w.rep hn href (by omega)
  have hrep1 : Rep m1 none T := Rep.structEq b3 w.rep
  have hrpar : (m1 r).parent = none := by
    rcases b8 with e | ⟨p, _, e⟩
    · exact e
    · cases e
  have hroot : r ∈ T.roots := by
    rcases Rep.parent_cases hrep1 w.nodup b2 with ⟨q, _⟩ | ⟨p, q, _⟩
    · exact q
    · rw [hrpar] at q
      cases q
  have hfp := find_prev_spec m1 r T none none fuel hrep1 hroot
    (by have := HT.roots_length_le_size T; omega)
  rw [← w.head] at hfp
  have hpred := HT.predOf_next r T none none hrep1 hroot
  rw [← w.head] at hpred
  obtain ⟨m2, m3, t1, t2, t3, _⟩ :=
    remove_root_spec fuel hp m1 h T r hrep1 w.head w.nodup hroot (by omega)
  have hperm := HT.removeRoot_addrs_perm (hpa_of hp m1) T r hroot
  have hnd2 := hperm.nodup_iff.1 w.nodup
  have hrT' : r ∉ (HT.removeRoot (hpa_of hp m1) r T).addrs := (List.nodup_cons.1 hnd2).1
  have hsub : ∀ x, x ∈ (HT.removeRoot (hpa_of hp m1) r T).addrs → x ∈ T.addrs :=
    fun x hx => hperm.symm.subset (List.mem_cons_of_mem _ hx)
  have hfr : ∀ x ∈ (HT.removeRoot (hpa_of hp m1) r T).addrs,
      set_degree m3 r NOT_IN_HEAP x = m3 x := by
    intro x hx
    apply set_degree_other
    intro e
    subst e
    exact hrT' hx
  refine ⟨m1, sl1, r, HT.predOf r none T, set_degree m3 r NOT_IN_HEAP, sl1,
    heap.mk (HT.removeRoot (hpa_of hp m1) r T).hd h.min, HT.removeRoot (hpa_of hp m1) r T,
    ?_, b3, hroot, hrpar, hfp, ?_, ?_, ?_, hperm, ?_, by simp⟩
  · rw [delete_loop_eq]
    exact b1
  · rcases hpred with ⟨q1, q2⟩ | ⟨q, q1, q2, q3⟩
    · exact Or.inl ⟨q1, q2⟩
    · exact Or.inr ⟨q, q1, q2, q3⟩
  · simp only [heap_delete, hr0, ne_eq, hmin, not_false_eq_true, if_true, delete_loop_eq, b1,
      hfp, t1, t2]
  · exact ⟨Rep.frame t3 hfr, rfl, (List.nodup_cons.1 hnd2).2,
      fun x hx hx' => w.min_fresh x hx (hsub x hx')⟩
  · intro c hc hcr
    rcases List.mem_cons.1 (hperm.subset hc) with e | e
    · subst e
      rw [hrpar] at hcr
      cases hcr
    · exact e

theorem delete_bubbles_to_root_witness :
    ∃ m1 sl1 r prev m2 sl2 h2 T2,
      delete_loop 3 mem_pair slots_pair 2 (mem_pair 2).parent = some (m1, sl1, r) ∧
      StructEq mem_pair m1 ∧ r ∈ shape_pair.roots ∧ (m1 r).parent = none ∧
      find_prev_loop m1 r 3 none heap_one.head = some prev ∧
      ((prev = none ∧ heap_one.head = some r) ∨
        ∃ q ∈ shape_pair.roots, prev = some q ∧ (m1 q).next = some r) ∧
      heap_delete 3 (token_cmp (fun v => v)) mem_pair slots_pair heap_one 2
        = some (m2, sl2, h2) ∧
      Shaped m2 h2 T2 ∧ shape_pair.addrs.Perm (r :: T2.addrs) ∧
      (∀ c ∈ shape_pair.addrs, (m1 c).parent = some r → c ∈ T2.addrs) ∧
      (m2 r).degree = NOT_IN_HEAP :=
  delete_bubbles_to_root 3 (token_cmp (fun v => v)) mem_pair slots_pair heap_one shape_pair 2
    shaped_pair (by decide) (by decide) (by decide)

end BH

namespace BH

/-- A node that was never inserted may be inserted. -/
theorem fresh_legal {m0 : Mem} {S : Finset Nat} {w : World} (hr : ReachIn m0 S w)
    (hc : S.card < 2 ^ UINT_MAX) (i node value : Nat) (hn : node ∉ S) :
    Legal w (Op.insert i node value none) := by
  obtain ⟨Ts, hE⟩ := reachIn_ext hr hc
  refine ⟨?_, fun _ h => by cases h⟩
  intro j hm
  exact hn (hE.2.2.1 j node ((member_iff (hE.1.2.1 j).shaped node).1 hm))

theorem reachIn_world_two :
    ReachIn mem_zero ((Op.insert 0 2 3 none).nodes ((Op.insert 0 1 5 none).nodes ∅)) world_two :=
  ReachIn.step 4 _ world_one world_two (Op.insert 0 2 3 none) none reachIn_world_one
    (fresh_legal reachIn_world_one card_world_one 0 2 3 (by decide)) rfl

theorem card_world_two :
    ((Op.insert 0 2 3 none).nodes ((Op.insert 0 1 5 none).nodes ∅)).card < 2 ^ UINT_MAX :=
  lt_two_pow_uint_max _ (by decide)

theorem reachIn_world_three :
    ReachIn mem_zero ((Op.insert 0 3 7 none).nodes
      ((Op.insert 0 2 3 none).nodes ((Op.insert 0 1 5 none).nodes ∅))) world_three :=
  ReachIn.step 5 _ world_two world_three (Op.insert 0 3 7 none) none reachIn_world_two
    (fresh_legal reachIn_world_two card_world_two 0 3 7 (by decide)) rfl

theorem card_world_three :
    ((Op.insert 0 3 7 none).nodes
      ((Op.insert 0 2 3 none).nodes ((Op.insert 0 1 5 none).nodes ∅))).card < 2 ^ UINT_MAX :=
  lt_two_pow_uint_max _ (by decide)

theorem reach_world_three_peeked : Reach world_three_peeked :=
  Reach.step 5 world_three world_three_peeked (Op.peek 0) (some 2) reachIn_world_three.reach
    trivial rfl

theorem reachIn_world_four :
    ReachIn mem_zero ((Op.insert 0 4 1 none).nodes ((Op.insert 0 3 7 none).nodes
      ((Op.insert 0 2 3 none).nodes ((Op.insert 0 1 5 none).nodes ∅)))) world_four :=
  ReachIn.step 6 _ world_three world_four (Op.insert 0 4 1 none) none reachIn_world_three
    (fresh_legal reachIn_world_three card_world_three 0 4 1 (by decide)) rfl

theorem card_world_four :
    ((Op.insert 0 4 1 none).nodes ((Op.insert 0 3 7 none).nodes
      ((Op.insert 0 2 3 none).nodes ((Op.insert 0 1 5 none).nodes ∅)))).card < 2 ^ UINT_MAX :=
  lt_two_pow_uint_max _ (by decide)

theorem reachIn_world_four_taken :
    ReachIn mem_zero ((Op.insert 0 4 1 none).nodes ((Op.insert 0 3 7 none).nodes
      ((Op.insert 0 2 3 none).nodes ((Op.insert 0 1 5 none).nodes ∅)))) world_four_taken :=
  ReachIn.step 6 _ world_four world_four_taken (Op.take 0) (some 4) reachIn_world_four
    trivial rfl

theorem take_returns_minimum_witness :
    ((world_three.hs 0).head = some 3 ∧ (world_three.m 3).next = some 2 ∧
      (world_three.m 2).next = none ∧ (world_three.m 2).child = some 1 ∧
      (world_three.m 3).value = 7 ∧ (world_three.m 2).value = 3 ∧
      (world_three.m 1).value = 5 ∧
      ∃ m2 h2, heap_take 5 world_three.hp world_three.m (world_three.hs 0)
        = some (m2, h2, some 2)) ∧
    ∃ N m2 h2 x,
      (∀ fuel, N ≤ fuel →
        heap_take fuel world_three.hp world_three.m (world_three.hs 0)
          = some (m2, h2, some x)) ∧
      Member world_three.m (world_three.hs 0) x ∧
      (∀ a, Member world_three.m (world_three.hs 0) a →
        world_three.hp (world_three.m a).value (world_three.m x).value = false) ∧
      (∀ a, Member m2 h2 a ↔ (Member world_three.m (world_three.hs 0) a ∧ a ≠ x)) ∧
      (∀ a, (m2 a).value = (world_three.m a).value) :=
  ⟨⟨rfl, rfl, rfl, rfl, rfl, rfl, rfl, _, _, rfl⟩,
    take_returns_minimum world_three reachIn_world_three.reach 0
      ⟨3, Or.inr (Reachable.here 3)⟩⟩

theorem cached_min_coherent_witness :
    ((world_three_peeked.hs 0).min = some 2 ∧
      Reachable world_three_peeked.m (world_three_peeked.hs 0).head 1 ∧
      Reachable world_three_peeked.m (world_three_peeked.hs 0).head 3 ∧
      (world_three_peeked.m 2).value = 3 ∧ (world_three_peeked.m 1).value = 5 ∧
      (world_three_peeked.m 3).value = 7) ∧
    ¬ Reachable world_three_peeked.m (world_three_peeked.hs 0).head 2 ∧
    ∀ a, Reachable world_three_peeked.m (world_three_peeked.hs 0).head a →
      world_three_peeked.hp (world_three_peeked.m a).value (world_three_peeked.m 2).value
        = false :=
  ⟨⟨rfl, Reachable.here 1, Reachable.child 1 3 (Reachable.here 3), rfl, rfl, rfl⟩,
    cached_min_coherent world_three_peeked reach_world_three_peeked 0 2 rfl⟩

theorem binomial_shape_kept_witness :
    ((world_four.hs 0).head = some 4 ∧ (world_four.m 4).degree = 2 ∧
      (world_four.m 4).child = some 2 ∧ (world_four.m 2).next = some 3 ∧
      (world_four.m 2).degree = 1 ∧ (world_four.m 2).child = some 1 ∧
      ∃ T, Shaped world_four.m (world_four.hs 0) T ∧
        HT.Forall (fun a _ c => (world_four.m a).degree = c.roots.length ∧
          c.roots.map (fun b => (world_four.m b).degree)
            = (List.range (world_four.m a).degree).reverse ∧
          c.size + 1 = 2 ^ (world_four.m a).degree) T) ∧
    ((world_four_taken.hs 0).head = some 3 ∧ (world_four_taken.m 3).next = some 2 ∧
      (world_four_taken.m 2).degree = 1 ∧ (world_four_taken.m 2).child = some 1 ∧
      ∃ T, Shaped world_four_taken.m (world_four_taken.hs 0) T ∧
        HT.Forall (fun a _ c => (world_four_taken.m a).degree = c.roots.length ∧
          c.roots.map (fun b => (world_four_taken.m b).degree)
            = (List.range (world_four_taken.m a).degree).reverse ∧
          c.size + 1 = 2 ^ (world_four_taken.m a).degree) T) :=
  ⟨⟨rfl, rfl, rfl, rfl, rfl, rfl,
      binomial_shape_kept mem_zero _ world_four reachIn_world_four card_world_four 0⟩,
    ⟨rfl, rfl, rfl, rfl,
      binomial_shape_kept mem_zero _ world_four_taken reachIn_world_four_taken
        card_world_four 0⟩⟩

end BH
